import Mathlib

/-! Streaming packfile parser (src/libgit2/packfile_parser.c)

A shallow embedding of the streaming packfile parser and of its driver
`git_packfile_parser_parse`.  The parser structure is threaded explicitly,
the consumer callbacks are a table of optional handlers whose invocations are
recorded in a trace, and the external primitives (digest, inflate) are
parameters collected in `Env`.

Conventions:
* a byte is a `Fin 256`; `size_t` counters that only count input bytes are
  natural numbers (they are bounded by the input length);
* the debugging `printf` calls of the source have no effect on the parser and
  are left out;
* a sub-parser returns `(error, consumed, parser)`; `consumed` is the value
  stored through `out` and is meaningful only when `error = 0`, as in C.

Three small functions of other files are embedded as well:
`git_error__check_version` (src/libgit2/common.h), `git_strvec_contains_key`
with `git_strvec_contains_prefix` (src/util/strvec.c) and `compute_local_path`
(src/cli/cmd_clone.c).
-/

namespace Packfile

/-- One octet of input. -/
abbrev Byte := Fin 256

/-- Modelled from the spec: the `parser_state` enumeration declared in
packfile_parser.h, which is not among the sources.  The constructors are the
states the C file names; their numeric order is fixed by `parser_state.toNat`. -/
inductive parser_state
  | STATE_HEADER
  | STATE_OBJECT_HEADER_START
  | STATE_OBJECT_HEADER
  | STATE_OBJECT_DATA_START
  | STATE_OBJECT_DATA
  | STATE_DELTA_HEADER
  | STATE_DELTA_DATA_START
  | STATE_DELTA_DATA
  | STATE_TRAILER
  | STATE_COMPLETE
  | STATE_FAILED
  deriving DecidableEq, Repr

open parser_state

/-- Modelled from the spec: the numeric value of each enumerator.  The C file
constrains it: `GIT_ASSERT(!parser->state)` makes `STATE_HEADER` zero, the
object-header loop runs while `state < STATE_OBJECT_DATA_START` and must stop
once a delta header begins, and every state before the trailer is
`< STATE_TRAILER`. -/
def parser_state.toNat : parser_state → Nat
  | STATE_HEADER => 0
  | STATE_OBJECT_HEADER_START => 1
  | STATE_OBJECT_HEADER => 2
  | STATE_OBJECT_DATA_START => 3
  | STATE_OBJECT_DATA => 4
  | STATE_DELTA_HEADER => 5
  | STATE_DELTA_DATA_START => 6
  | STATE_DELTA_DATA => 7
  | STATE_TRAILER => 8
  | STATE_COMPLETE => 9
  | STATE_FAILED => 10

/-- Object type numbers of `git_object_t` used by the parser. -/
def GIT_OBJECT_OFS_DELTA : Nat := 6

/-- Object type number of a delta whose base is named by its object id. -/
def GIT_OBJECT_REF_DELTA : Nat := 7

/-- The `is_delta` macro. -/
def is_delta (type : Nat) : Bool :=
  type == GIT_OBJECT_OFS_DELTA || type == GIT_OBJECT_REF_DELTA

/-- The `READ_CHUNK_SIZE` macro: capacity of the inflate staging buffer. -/
def READ_CHUNK_SIZE : Nat := 1024 * 256

/-- The `PACK_SIGNATURE` constant of pack.h: the bytes "PACK" read big-endian. -/
def PACK_SIGNATURE : Nat := 0x5041434b

/-- Range of `size_t` and of the 64-bit object offset. -/
def SIZE_MOD : Nat := 2 ^ 64

/-- Size of `struct git_pack_header`: three 32-bit words. -/
def PACK_HEADER_SIZE : Nat := 12

/-- The eight consumer callbacks held by the parser. -/
inductive Callback
  | packfile_header
  | object_start
  | object_data
  | object_complete
  | delta_start
  | delta_data
  | delta_complete
  | packfile_complete
  deriving DecidableEq, Repr

/-- One callback invocation together with the argument values it received
(the opaque `callback_data` pointer apart). -/
inductive Event
  | packfile_header (version entries : Nat)
  | object_start (position compressed_size type size : Nat)
  | object_data (chunk : List Byte)
  | object_complete (compressed_size crc : Nat) (oid : List Byte)
  | delta_start (position type compressed_size size : Nat)
      (base : Option (List Byte)) (offset : Nat)
  | delta_data (chunk : List Byte)
  | delta_complete (compressed_size crc : Nat)
  | packfile_complete (trailer : List Byte) (len : Nat)
  deriving DecidableEq, Repr

/-- The callback an event is an invocation of. -/
def Event.kind : Event → Callback
  | .packfile_header _ _ => .packfile_header
  | .object_start _ _ _ _ => .object_start
  | .object_data _ => .object_data
  | .object_complete _ _ _ => .object_complete
  | .delta_start _ _ _ _ _ _ => .delta_start
  | .delta_data _ => .delta_data
  | .delta_complete _ _ => .delta_complete
  | .packfile_complete _ _ => .packfile_complete

/-- The consumer side of the callback table.  `present cb` says whether the
function pointer `cb` is non-null; `ret earlier e` is the integer the callback
returns for invocation `e` when `earlier` are the invocations made before it
(so a consumer may keep state in `callback_data`). -/
structure Consumer where
  present : Callback → Bool
  ret : List Event → Event → Int

/-- The external primitives the parser is linked against.

* `hash_size` is `git_hash_size (git_oid_algorithm oid_type)`, which is also
  `git_oid_size oid_type`;
* `hash_final ctx` is the digest `git_hash_final` produces for a context that
  has been fed the bytes `ctx` since its initialisation;
* `inflate z input cap` is one call of zlib inflate made by
  `git_zstream_get_output_chunk` on stream state `z` with pending input
  `input` and an output buffer of `cap` bytes: `none` is a zlib error,
  otherwise the new stream state, the number of input bytes used, the bytes
  written and whether the result was `Z_STREAM_END`;
* `int_shl_ub v n` is what the platform yields, once converted to `size_t`,
  for the expression `v << n` evaluated in type `int` when C leaves it
  undefined (`n` is 32 or more, or the result does not fit in `int`). -/
structure Env where
  hash_size : Nat
  hash_final : List Byte → List Byte
  hash_final_length : ∀ ctx, (hash_final ctx).length = hash_size
  zstate : Type
  zinit : zstate
  inflate : zstate → List Byte → Nat → Option (zstate × Nat × List Byte × Bool)
  int_shl_ub : Nat → Nat → Nat

/-- The fields of `git_zstream` the parser relies on: the zlib state, the
pending input (`in`, `in_len`) and whether the last result was
`Z_STREAM_END`. -/
structure git_zstream (E : Env) where
  z : E.zstate
  inp : List Byte
  zerr_end : Bool

/-- Modelled from the spec: `git_zstream_init` (zstream.c is not among the
sources) starts a fresh inflate stream with no pending input. -/
def git_zstream_init (E : Env) : git_zstream E :=
  { z := E.zinit, inp := [], zerr_end := false }

/-- Modelled from the spec: `git_zstream_set_input` records the slice offered
to the decompressor. -/
def git_zstream_set_input {E : Env} (zs : git_zstream E) (data : List Byte) :
    git_zstream E :=
  { zs with inp := data }

/-- Modelled from the spec: `git_zstream_get_output_chunk` runs inflate once on
the pending input, advances the input by what was used and returns the bytes
written; `none` is the error return. -/
def git_zstream_get_output_chunk {E : Env} (zs : git_zstream E) (cap : Nat) :
    Option (git_zstream E × List Byte) :=
  match E.inflate zs.z zs.inp cap with
  | none => none
  | some (z, used, out, fin) =>
      some ({ z := z, inp := zs.inp.drop used, zerr_end := fin }, out)

/-- Modelled from the spec: `git_zstream_eos` reports the end-of-stream
signal of the decompressor. -/
def git_zstream_eos {E : Env} (zs : git_zstream E) : Bool :=
  zs.zerr_end

/-- The parser structure (`git_packfile_parser`; packfile_parser.h is not
among the sources, the fields are those the C file uses).  Staging buffers
(`header`, `current_base`, `trailer`) hold the bytes written so far; the two
hash contexts hold the bytes mixed in since their initialisation; `trace` is
the list of callback invocations made so far. -/
structure git_packfile_parser_t (E : Env) where
  state : parser_state
  position : Nat
  header : List Byte
  header_len : Nat
  current_idx : Nat
  current_position : Nat
  current_type : Nat
  current_size : Nat
  current_compressed_size : Nat
  current_compressed_crc : Nat
  current_bits : Nat
  current_hash : List Byte
  zstream : git_zstream E
  current_offset : Nat
  current_base : List Byte
  current_base_len : Nat
  trailer : List Byte
  trailer_len : Nat
  packfile_hash : List Byte
  trace : List Event

/-- The function `git_packfile_parser_init`: every field zeroed, both hash
contexts initialised. -/
def git_packfile_parser_init (E : Env) : git_packfile_parser_t E :=
  { state := STATE_HEADER, position := 0, header := [], header_len := 0,
    current_idx := 0, current_position := 0, current_type := 0,
    current_size := 0, current_compressed_size := 0,
    current_compressed_crc := 0, current_bits := 0, current_hash := [],
    zstream := git_zstream_init E, current_offset := 0, current_base := [],
    current_base_len := 0, trailer := [], trailer_len := 0,
    packfile_hash := [], trace := [] }

/-- Calling an optional callback: a null pointer is skipped (result 0),
otherwise the invocation is appended to the trace and the consumer's return
value is the result. -/
def invoke {E : Env} (C : Consumer) (p : git_packfile_parser_t E) (e : Event) :
    Int × git_packfile_parser_t E :=
  if C.present e.kind then
    (C.ret p.trace e, { p with trace := p.trace ++ [e] })
  else
    (0, p)

/-- One step of the bitwise CRC-32 (reflected IEEE polynomial). -/
def crc32_bit (c : Nat) : Nat :=
  if c % 2 = 1 then (c / 2) ^^^ 0xEDB88320 else c / 2

/-- CRC register update for one input byte. -/
def crc32_byte (c : Nat) (b : Byte) : Nat :=
  crc32_bit (crc32_bit (crc32_bit (crc32_bit (crc32_bit (crc32_bit
    (crc32_bit (crc32_bit (c ^^^ b.val))))))))

/-- Modelled from the spec: zlib `crc32 (crc, buf, len)`, the CRC32 primitive
with the IEEE polynomial and initial state 0. -/
def crc32 (crc : Nat) (buf : List Byte) : Nat :=
  (buf.foldl crc32_byte (crc ^^^ 0xFFFFFFFF)) ^^^ 0xFFFFFFFF

/-- Big-endian 32-bit word at the front of a byte list (`ntohl` of the word as
stored). -/
def be32 (bs : List Byte) : Nat :=
  ((bs.getD 0 0).val <<< 24) ||| ((bs.getD 1 0).val <<< 16) |||
    ((bs.getD 2 0).val <<< 8) ||| (bs.getD 3 0).val

/-- Header field `hdr_signature` after `ntohl`. -/
def hdr_signature {E : Env} (p : git_packfile_parser_t E) : Nat := be32 p.header

/-- Header field `hdr_version` after `ntohl`. -/
def hdr_version {E : Env} (p : git_packfile_parser_t E) : Nat :=
  be32 (p.header.drop 4)

/-- Header field `hdr_entries` after `ntohl`. -/
def hdr_entries {E : Env} (p : git_packfile_parser_t E) : Nat :=
  be32 (p.header.drop 8)

/-- The staging step of `parse_header`: the `memcpy` of the leading
`chunk_len` bytes of the slice behind the bytes staged so far. -/
def stage_header {E : Env} (p : git_packfile_parser_t E) (data : List Byte) :
    git_packfile_parser_t E :=
  { p with header := p.header ++
             data.take (min data.length (PACK_HEADER_SIZE - p.header_len)),
           header_len := p.header_len + min data.length (PACK_HEADER_SIZE - p.header_len) }

/-- The invocation of `packfile_header` made by `parse_header`. -/
def header_event {E : Env} (p : git_packfile_parser_t E) : Event :=
  .packfile_header (hdr_version p) (hdr_entries p)

/-- The function `parse_header`. -/
def parse_header {E : Env} (C : Consumer) (p : git_packfile_parser_t E)
    (data : List Byte) : Int × Nat × git_packfile_parser_t E :=
  let chunk_len := min data.length (PACK_HEADER_SIZE - p.header_len)
  let orig_len := data.length
  let p1 := stage_header p data
  let len := data.length - chunk_len
  if p1.header_len = PACK_HEADER_SIZE then
    if hdr_signature p1 ≠ PACK_SIGNATURE then (-1, 0, p1)
    else if hdr_version p1 ≠ 2 then (-1, 0, p1)
    else
      let r := invoke C p1 (header_event p1)
      if r.1 ≠ 0 then (r.1, 0, r.2)
      else
        (0, orig_len - len,
          { r.2 with state := if hdr_entries r.2 > 0 then STATE_OBJECT_HEADER_START
                              else STATE_TRAILER })
  else (0, orig_len - len, p1)

/-- ASCII bytes of a string. -/
def ascii (s : String) : List Byte :=
  s.toList.map (fun ch => Fin.ofNat ch.toNat)

/-- Modelled from the spec: `git_object_type2string` (object.c is not among
the sources): the names of the four object types, the empty string for any
other number. -/
def git_object_type2string (type : Nat) : String :=
  if type = 1 then "commit"
  else if type = 2 then "tree"
  else if type = 3 then "blob"
  else if type = 4 then "tag"
  else ""

/-- Modelled from the spec: `git_odb__format_object_header` (odb.c is not among
the sources) writes the canonical object header, the type name, a blank, the
size in decimal and a terminating NUL.  The 64-byte buffer of the caller is
large enough for every 64-bit size, so the call does not fail. -/
def git_odb__format_object_header (size type : Nat) : List Byte :=
  ascii (git_object_type2string type) ++ ascii " " ++ ascii (Nat.repr size) ++ [0]

/-- The expression `v << n` for a non-negative `int` value `v`, as added to a
`size_t`: the mathematical value while C defines it (`n < 32` and the result
fits in the 31 value bits of `int`), the platform's value otherwise. -/
def int_shl (E : Env) (v n : Nat) : Nat :=
  if n < 32 ∧ v <<< n < 2 ^ 31 then v <<< n else E.int_shl_ub v n % SIZE_MOD

/-- The per-byte updates at the top of the loop of `parse_object_header`: in
`STATE_OBJECT_HEADER_START` the entry is opened on the first byte, otherwise
seven more size bits are accumulated; then the CRC takes the byte.  The byte
`c` is an `unsigned char`, so `(c & 0x7f) << current_bits` is evaluated in type
`int` (`int_shl`); the addition is taken modulo the range of `size_t`. -/
def object_header_byte {E : Env} (p : git_packfile_parser_t E) (c : Byte) :
    git_packfile_parser_t E :=
  let p1 : git_packfile_parser_t E :=
    if p.state = STATE_OBJECT_HEADER_START then
      { p with state := STATE_OBJECT_HEADER,
               current_position := p.position,
               current_type := (c.val >>> 4) &&& 0x07,
               current_size := c.val &&& 0x0f,
               current_compressed_size := 1,
               current_compressed_crc := crc32 0 [],
               current_bits := 4,
               current_hash := [] }
    else
      { p with current_size :=
                 (p.current_size + int_shl E (c.val &&& 0x7f) p.current_bits) % SIZE_MOD,
               current_compressed_size := p.current_compressed_size + 1,
               current_bits := p.current_bits + 7 }
  { p1 with current_compressed_crc := crc32 p1.current_compressed_crc [c] }

/-- The updates made when the last prefix byte of a delta entry has been read. -/
def begin_delta_header {E : Env} (p : git_packfile_parser_t E) : git_packfile_parser_t E :=
  { p with current_offset := 0, current_base := [], current_base_len := 0,
           current_bits := 0, state := STATE_DELTA_HEADER }

/-- Seeding of the object hash with the canonical object header when the last
prefix byte of a non-delta entry has been read. -/
def seed_object_hash {E : Env} (p : git_packfile_parser_t E) : git_packfile_parser_t E :=
  { p with current_hash := p.current_hash ++
      git_odb__format_object_header p.current_size p.current_type }

/-- The invocation of `object_start` made by `parse_object_header`. -/
def object_start_event {E : Env} (p : git_packfile_parser_t E) : Event :=
  .object_start p.current_position p.current_compressed_size p.current_type p.current_size

/-- The loop of `parse_object_header`, one iteration per input byte; the third
argument counts the bytes consumed so far (`orig_len - len`). -/
def parse_object_header_loop {E : Env} (C : Consumer) :
    git_packfile_parser_t E → List Byte → Nat → Int × Nat × git_packfile_parser_t E
  | p, [], n => (0, n, p)
  | p, c :: rest, n =>
    if p.state.toNat < STATE_OBJECT_DATA_START.toNat then
      let p2 := object_header_byte p c
      if (c.val &&& 0x80) = 0 ∧ is_delta p2.current_type = true then
        parse_object_header_loop C (begin_delta_header p2) rest (n + 1)
      else if (c.val &&& 0x80) = 0 then
        let r := invoke C (seed_object_hash p2) (object_start_event (seed_object_hash p2))
        if r.1 ≠ 0 then (r.1, 0, r.2)
        else parse_object_header_loop C { r.2 with state := STATE_OBJECT_DATA_START }
          rest (n + 1)
      else parse_object_header_loop C p2 rest (n + 1)
    else (0, n, p)

/-- The function `parse_object_header`. -/
def parse_object_header {E : Env} (C : Consumer) (p : git_packfile_parser_t E)
    (data : List Byte) : Int × Nat × git_packfile_parser_t E :=
  parse_object_header_loop C p data 0

/-- Start of a payload sub-parser: in the `_START` state `start` a fresh inflate
stream is initialised and the state becomes `next`; then the slice is offered
to the decompressor. -/
def offer_input {E : Env} (start next : parser_state) (p : git_packfile_parser_t E)
    (data : List Byte) : git_packfile_parser_t E :=
  let p0 : git_packfile_parser_t E :=
    if p.state = start then { p with zstream := git_zstream_init E, state := next }
    else p
  { p0 with zstream := git_zstream_set_input p0.zstream data }

/-- Accounting of the compressed input a payload sub-parser used on the slice
`data`: `orig_len - len` bytes, with `len` the input the decompressor left
pending, are added to the compressed size and mixed into the CRC. -/
def account_input {E : Env} (p : git_packfile_parser_t E) (data : List Byte) :
    git_packfile_parser_t E :=
  { p with current_compressed_size :=
             p.current_compressed_size + (data.length - p.zstream.inp.length),
           current_compressed_crc :=
             crc32 p.current_compressed_crc
               (data.take (data.length - p.zstream.inp.length)) }

/-- End of an entry: the entry index is incremented and the next state is
`STATE_OBJECT_HEADER_START` while entries remain, `STATE_TRAILER` otherwise. -/
def next_entry {E : Env} (p : git_packfile_parser_t E) : git_packfile_parser_t E :=
  { p with current_idx := p.current_idx + 1,
           state := if p.current_idx + 1 < hdr_entries p
                    then STATE_OBJECT_HEADER_START else STATE_TRAILER }

/-- One drained chunk in `parse_object_data`: the decompressor has advanced and
the chunk is mixed into the object hash. -/
def store_output {E : Env} (p : git_packfile_parser_t E) (zs : git_zstream E)
    (inflated : List Byte) : git_packfile_parser_t E :=
  { p with zstream := zs, current_hash := p.current_hash ++ inflated }

/-- The decompressor state stored back after the single drain of
`parse_delta_data`. -/
def store_zstream {E : Env} (p : git_packfile_parser_t E) (zs : git_zstream E) :
    git_packfile_parser_t E :=
  { p with zstream := zs }

/-- The `do ... while (inflated_len > 0)` loop of `parse_object_data`.  Each
iteration drains one chunk from the decompressor, mixes it into the object
hash and hands it to `object_data`.  The loop is bounded by `fuel`; `none`
means the bound was reached. -/
def parse_object_data_loop {E : Env} (C : Consumer) :
    Nat → git_packfile_parser_t E → Option (Int × git_packfile_parser_t E)
  | 0, _ => none
  | fuel + 1, p =>
    match git_zstream_get_output_chunk p.zstream READ_CHUNK_SIZE with
    | none => some (-1, p)
    | some (zs, inflated) =>
      let p1 := store_output p zs inflated
      let r := invoke C p1 (.object_data inflated)
      if r.1 ≠ 0 then some (r.1, r.2)
      else if inflated.length > 0 then parse_object_data_loop C fuel r.2
      else some (0, r.2)

/-- The invocation of `object_complete` made by `parse_object_data`. -/
def object_complete_event {E : Env} (p : git_packfile_parser_t E) : Event :=
  .object_complete p.current_compressed_size p.current_compressed_crc
    (E.hash_final p.current_hash)

/-- The function `parse_object_data`. -/
def parse_object_data {E : Env} (C : Consumer) (fuel : Nat)
    (p : git_packfile_parser_t E) (data : List Byte) :
    Option (Int × Nat × git_packfile_parser_t E) :=
  let orig_len := data.length
  let p1 := offer_input STATE_OBJECT_DATA_START STATE_OBJECT_DATA p data
  match parse_object_data_loop C fuel p1 with
  | none => none
  | some (err, p2) =>
    if err ≠ 0 then some (err, 0, p2)
    else
      let len := p2.zstream.inp.length
      let p3 := account_input p2 data
      if git_zstream_eos p3.zstream then
        let r := invoke C p3 (object_complete_event p3)
        if r.1 ≠ 0 then some (r.1, 0, r.2)
        else some (0, orig_len - len, next_entry r.2)
      else some (0, orig_len - len, p3)

/-- The per-byte updates of the `GIT_OBJECT_OFS_DELTA` loop of
`parse_delta_header`: the offset takes seven more bits (after adding one to
what was read so far, except on the first byte), then the compressed size and
the CRC take the byte.  The offset arithmetic is taken modulo 2^64. -/
def ofs_delta_byte {E : Env} (p : git_packfile_parser_t E) (c : Byte) :
    git_packfile_parser_t E :=
  { p with current_offset :=
             if p.current_bits = 0 then c.val &&& 0x7f
             else ((((p.current_offset + 1) % SIZE_MOD) <<< 7) % SIZE_MOD) |||
               (c.val &&& 0x7f),
           current_bits := p.current_bits + 7,
           current_compressed_size := p.current_compressed_size + 1,
           current_compressed_crc := crc32 p.current_compressed_crc [c] }

/-- The invocation of `delta_start` made by `parse_delta_header`, with the base
given by object id (`some`) or by offset. -/
def delta_start_event {E : Env} (p : git_packfile_parser_t E) (base : Option (List Byte))
    (offset : Nat) : Event :=
  .delta_start p.current_position p.current_type p.current_compressed_size
    p.current_size base offset

/-- The `while (len)` loop of the `GIT_OBJECT_OFS_DELTA` case of
`parse_delta_header`; the third argument counts the bytes consumed so far. -/
def parse_ofs_delta_loop {E : Env} (C : Consumer) :
    git_packfile_parser_t E → List Byte → Nat → Int × Nat × git_packfile_parser_t E
  | p, [], n => (0, n, p)
  | p, c :: rest, n =>
    let p1 := ofs_delta_byte p c
    if (c.val &&& 0x80) = 0 then
      let r := invoke C p1 (delta_start_event p1 none p1.current_offset)
      if r.1 ≠ 0 then (r.1, 0, r.2)
      else (0, n + 1, { r.2 with state := STATE_DELTA_DATA_START })
    else parse_ofs_delta_loop C p1 rest (n + 1)

/-- The staging step of the `GIT_OBJECT_REF_DELTA` case of
`parse_delta_header`: `chunk_len = min(hash_len, len)` bytes of the slice are
copied behind the base id bytes staged so far, mixed into the CRC and counted.
The staged bytes are a list without bound, while the source copies into the
`hash_len` bytes of `current_base.id`: when `current_base_len + chunk_len`
exceeds `hash_len` the copy of the source runs past the name, the behaviour of
the C program is undefined, and the value of the embedding stands for the
bytes and the count only (`staging_in_bounds` tells the two cases apart). -/
def stage_base {E : Env} (p : git_packfile_parser_t E) (data : List Byte) :
    git_packfile_parser_t E :=
  { p with current_base := p.current_base ++ data.take (min E.hash_size data.length),
           current_compressed_crc :=
             crc32 p.current_compressed_crc (data.take (min E.hash_size data.length)),
           current_base_len := p.current_base_len + min E.hash_size data.length,
           current_compressed_size :=
             p.current_compressed_size + min E.hash_size data.length }

/-- The function `parse_delta_header`. -/
def parse_delta_header {E : Env} (C : Consumer) (p : git_packfile_parser_t E)
    (data : List Byte) : Int × Nat × git_packfile_parser_t E :=
  let orig_len := data.length
  if p.current_type = GIT_OBJECT_OFS_DELTA then
    parse_ofs_delta_loop C p data 0
  else if p.current_type = GIT_OBJECT_REF_DELTA then
    let hash_len := E.hash_size
    let chunk_len := min hash_len data.length
    let p1 := stage_base p data
    let len := data.length - chunk_len
    if p1.current_base_len = hash_len then
      let r := invoke C p1 (delta_start_event p1 (some p1.current_base) 0)
      if r.1 ≠ 0 then (r.1, 0, r.2)
      else (0, orig_len - len, { r.2 with state := STATE_DELTA_DATA_START })
    else (0, orig_len - len, p1)
  else (-1, 0, p)

/-- The invocation of `delta_complete` made by `parse_delta_data`. -/
def delta_complete_event {E : Env} (p : git_packfile_parser_t E) : Event :=
  .delta_complete p.current_compressed_size p.current_compressed_crc

/-- The function `parse_delta_data`. -/
def parse_delta_data {E : Env} (C : Consumer) (p : git_packfile_parser_t E)
    (data : List Byte) : Int × Nat × git_packfile_parser_t E :=
  let orig_len := data.length
  let p1 := offer_input STATE_DELTA_DATA_START STATE_DELTA_DATA p data
  match git_zstream_get_output_chunk p1.zstream READ_CHUNK_SIZE with
  | none => (-1, 0, p1)
  | some (zs, inflated) =>
    let len := zs.inp.length
    let p2 := account_input (store_zstream p1 zs) data
    let r := invoke C p2 (.delta_data inflated)
    if r.1 ≠ 0 then (r.1, 0, r.2)
    else if git_zstream_eos r.2.zstream then
      let r2 := invoke C r.2 (delta_complete_event r.2)
      if r2.1 ≠ 0 then (r2.1, 0, r2.2)
      else (0, orig_len - len, next_entry r2.2)
    else (0, orig_len - len, r.2)

/-- The staging step of `parse_trailer`: `chunk_len = min(hash_len, len)` bytes
of the slice are copied behind the trailer bytes staged so far.  The staged
bytes are a list without bound, while the source copies into the buffer
`trailer` and bounds the copy by `hash_len` only, not by the room left: when
`trailer_len + chunk_len` exceeds `hash_len` the copy runs past the place of the
trailer (`staging_in_bounds` tells the two cases apart). -/
def stage_trailer {E : Env} (p : git_packfile_parser_t E) (data : List Byte) :
    git_packfile_parser_t E :=
  { p with trailer := p.trailer ++ data.take (min E.hash_size data.length),
           trailer_len := p.trailer_len + min E.hash_size data.length }

/-- The function `parse_trailer`. -/
def parse_trailer {E : Env} (C : Consumer) (p : git_packfile_parser_t E)
    (data : List Byte) : Int × Nat × git_packfile_parser_t E :=
  let hash_len := E.hash_size
  let chunk_len := min hash_len data.length
  let orig_len := data.length
  let p1 := stage_trailer p data
  let len := data.length - chunk_len
  if p1.trailer_len = hash_len then
    let trailer := E.hash_final p1.packfile_hash
    if trailer.take p1.trailer_len ≠ p1.trailer.take p1.trailer_len then (-1, 0, p1)
    else
      let r := invoke C p1 (.packfile_complete trailer hash_len)
      if r.1 ≠ 0 then (r.1, 0, r.2)
      else (0, orig_len - len, { r.2 with state := STATE_COMPLETE })
  else (0, orig_len - len, p1)

/-- The `switch` of `git_packfile_parser_parse`: the sub-parser chosen by the
current state.  `STATE_COMPLETE` and the `default` case return -1 from the
driver directly; `parse_iteration` handles them before the switch. -/
def dispatch {E : Env} (C : Consumer) (fuel : Nat) (p : git_packfile_parser_t E)
    (data : List Byte) : Option (Int × Nat × git_packfile_parser_t E) :=
  match p.state with
  | STATE_HEADER => some (parse_header C p data)
  | STATE_OBJECT_HEADER_START => some (parse_object_header C p data)
  | STATE_OBJECT_HEADER => some (parse_object_header C p data)
  | STATE_DELTA_HEADER => some (parse_delta_header C p data)
  | STATE_OBJECT_DATA_START => parse_object_data C fuel p data
  | STATE_OBJECT_DATA => parse_object_data C fuel p data
  | STATE_DELTA_DATA_START => some (parse_delta_data C p data)
  | STATE_DELTA_DATA => some (parse_delta_data C p data)
  | STATE_TRAILER => some (parse_trailer C p data)
  | STATE_COMPLETE => some (-1, 0, p)
  | STATE_FAILED => some (-1, 0, p)

/-- The tail of the loop body of `git_packfile_parser_parse`, after the
sub-parser returned `(error, consumed, p1)` from start state `start_state` on
slice `data`: when it returned 0 from a state before the trailer the consumed
bytes are mixed into the whole-stream hash; on error the state becomes
`STATE_FAILED`, else the position advances. -/
def parse_commit {E : Env} (start_state : parser_state) (data : List Byte)
    (r : Int × Nat × git_packfile_parser_t E) : Int × Nat × git_packfile_parser_t E :=
  let p2 : git_packfile_parser_t E :=
    if r.1 = 0 ∧ start_state.toNat < STATE_TRAILER.toNat then
      { r.2.2 with packfile_hash := r.2.2.packfile_hash ++ data.take r.2.1 }
    else r.2.2
  if r.1 ≠ 0 then (r.1, 0, { p2 with state := STATE_FAILED })
  else (0, r.2.1, { p2 with position := p2.position + r.2.1 })

/-- The body of the `while (len)` loop of `git_packfile_parser_parse`, for a
non-empty slice: the error, the consumed count and the parser as the body
leaves them.  In `STATE_COMPLETE` the driver returns -1 at once; in
`STATE_FAILED` the `default` case is taken and `GIT_ASSERT(!parser->state)`
returns -1; in both cases nothing else is touched.  Otherwise the sub-parser
runs and `parse_commit` finishes the iteration. -/
def parse_iteration {E : Env} (C : Consumer) (fuel : Nat) (p : git_packfile_parser_t E)
    (data : List Byte) : Option (Int × Nat × git_packfile_parser_t E) :=
  if p.state = STATE_COMPLETE then some (-1, 0, p)
  else if p.state = STATE_FAILED then some (-1, 0, p)
  else
    match dispatch C fuel p data with
    | none => none
    | some r => some (parse_commit p.state data r)

/-- The function `git_packfile_parser_parse`.  The `while (len)` loop is
bounded by `fuel` (`none` when the bound is reached before the slice is
drained); the same bound is handed to the inner loop of `parse_object_data`. -/
def git_packfile_parser_parse {E : Env} (C : Consumer) :
    Nat → git_packfile_parser_t E → List Byte → Option (Int × git_packfile_parser_t E)
  | _, p, [] => some (0, p)
  | 0, _, _ :: _ => none
  | fuel + 1, p, c :: rest =>
    match parse_iteration C fuel p (c :: rest) with
    | none => none
    | some (error, consumed, p1) =>
      if error ≠ 0 then some (error, p1)
      else git_packfile_parser_parse C fuel p1 ((c :: rest).drop consumed)

/-- The function `git_packfile_parser_complete`: it returns 0 whatever the
state is. -/
def git_packfile_parser_complete {E : Env} (_p : git_packfile_parser_t E) : Int := 0

/-- Feeding a list of slices to the parser, one `git_packfile_parser_parse`
call per slice, collecting the return values. -/
def feed_all {E : Env} (C : Consumer) (fuel : Nat) :
    git_packfile_parser_t E → List (List Byte) →
      Option (List Int × git_packfile_parser_t E)
  | p, [] => some ([], p)
  | p, c :: cs =>
    match git_packfile_parser_parse C fuel p c with
    | none => none
    | some (r, p1) =>
      match feed_all C fuel p1 cs with
      | none => none
      | some (rs, q) => some (r :: rs, q)

/-! ## A concrete environment

A small instance of `Env`, used to run the parser on concrete packs: zlib
streams made of stored (uncompressed) deflate blocks, and a 20-byte additive
checksum in the place of the digest. -/

/-- Where a zlib stream made of stored blocks stands between two input bytes. -/
inductive ZPhase
  | cmf
  | flg (cmf : Nat)
  | block
  | len (final : Bool) (got : List Nat)
  | copy (final : Bool) (remaining : Nat)
  | check (got : List Nat)
  | done
  deriving DecidableEq, Repr

/-- State of the stored-block inflater: the phase and the two halves of the
running Adler-32 checksum of the output. -/
structure ZState where
  phase : ZPhase
  a : Nat
  b : Nat
  deriving DecidableEq, Repr

/-- Initial state of the stored-block inflater. -/
def ZState.init : ZState := { phase := .cmf, a := 1, b := 0 }

/-- Inflate for zlib streams whose deflate blocks are all stored blocks (any
other block type is reported as an error).  It consumes input byte by byte,
stops without consuming when the output buffer is full, and stops right after
the last byte of the Adler-32 trailer with the end-of-stream signal. -/
def stored_inflate (s : ZState) (input : List Byte) (cap : Nat) :
    Option (ZState × Nat × List Byte × Bool) :=
  go s input 0 []
where
  /-- Byte loop of `stored_inflate`: state, pending input, bytes used, output. -/
  go : ZState → List Byte → Nat → List Byte → Option (ZState × Nat × List Byte × Bool)
  | s, [], used, out => some (s, used, out, decide (s.phase = .done))
  | s, c :: rest, used, out =>
    match s.phase with
    | .done => some (s, used, out, true)
    | .cmf =>
      if c.val % 16 = 8 ∧ c.val / 16 ≤ 7 then
        go { s with phase := .flg c.val } rest (used + 1) out
      else none
    | .flg cmf =>
      if (cmf * 256 + c.val) % 31 = 0 ∧ c.val &&& 0x20 = 0 then
        go { s with phase := .block } rest (used + 1) out
      else none
    | .block =>
      if (c.val >>> 1) &&& 3 = 0 then
        go { s with phase := .len (c.val &&& 1 == 1) [] } rest (used + 1) out
      else none
    | .len final got =>
      let got1 := got ++ [c.val]
      if got1.length < 4 then
        go { s with phase := .len final got1 } rest (used + 1) out
      else
        let n := got1.getD 0 0 + 256 * got1.getD 1 0
        let m := got1.getD 2 0 + 256 * got1.getD 3 0
        if n + m = 0xFFFF then
          if n = 0 then
            go { s with phase := if final then .check [] else .block } rest (used + 1) out
          else go { s with phase := .copy final n } rest (used + 1) out
        else none
    | .copy final remaining =>
      if out.length < cap then
        let a1 := (s.a + c.val) % 65521
        let b1 := (s.b + a1) % 65521
        let ph : ZPhase :=
          if remaining - 1 = 0 then (if final then .check [] else .block)
          else .copy final (remaining - 1)
        go { phase := ph, a := a1, b := b1 } rest (used + 1) (out ++ [c])
      else some (s, used, out, false)
    | .check got =>
      let got1 := got ++ [c.val]
      if got1.length < 4 then
        go { s with phase := .check got1 } rest (used + 1) out
      else if got1 = [s.b / 256, s.b % 256, s.a / 256, s.a % 256] then
        some ({ s with phase := .done }, used + 1, out, true)
      else none

/-- A 20-byte additive checksum standing in for the digest: every byte of the
result is the sum of the input bytes modulo 256. -/
def sum_digest (ctx : List Byte) : List Byte :=
  List.replicate 20 (ctx.foldl (fun acc b => acc + b) 0)

/-- A 32-bit left shift with the count taken modulo 32 and the result
sign-extended to 64 bits: what common x86-64 compilers produce for an `int`
shift that C leaves undefined. -/
def shl32_sign_extended (v n : Nat) : Nat :=
  let r := (v <<< (n % 32)) % 2 ^ 32
  if r < 2 ^ 31 then r else r + (2 ^ 64 - 2 ^ 32)

/-- The concrete environment: stored-block inflate, the additive checksum with
a 20-byte identity width, and the x86-64 result for undefined `int` shifts. -/
def stored_env : Env :=
  { hash_size := 20
    hash_final := sum_digest
    hash_final_length := fun _ => List.length_replicate _ _
    zstate := ZState
    zinit := ZState.init
    inflate := stored_inflate
    int_shl_ub := shl32_sign_extended }

/-- A consumer with all eight callbacks present, each returning zero. -/
def all_callbacks : Consumer :=
  { present := fun _ => true, ret := fun _ _ => 0 }

/-- A consumer with no callback at all. -/
def no_callbacks : Consumer :=
  { present := fun _ => false, ret := fun _ _ => 0 }

/-! ## Definitions used to state properties of callback traces -/

/-- Where a callback trace stands with respect to the ordering law of the
callback surface: before the header, between entries, inside a non-delta
entry, inside a delta entry, after `packfile_complete`, or `bad` once the law
has been broken. -/
inductive Phase
  | init
  | idle
  | in_object
  | in_delta
  | done
  | bad
  deriving DecidableEq, Repr

/-- Effect of one callback invocation on the phase of the trace. -/
def Phase.step : Phase → Event → Phase
  | .init, .packfile_header _ _ => .idle
  | .idle, .object_start _ _ _ _ => .in_object
  | .idle, .delta_start _ _ _ _ _ _ => .in_delta
  | .idle, .packfile_complete _ _ => .done
  | .in_object, .object_data _ => .in_object
  | .in_object, .object_complete _ _ _ => .idle
  | .in_delta, .delta_data _ => .in_delta
  | .in_delta, .delta_complete _ _ => .idle
  | _, _ => .bad

/-- Phase reached by a trace, read from its first invocation on. -/
def trace_phase (t : List Event) : Phase := t.foldl Phase.step .init

/-- Number of `object_start` and `delta_start` invocations in a trace. -/
def count_starts (t : List Event) : Nat :=
  (t.filter (fun e => e.kind == .object_start || e.kind == .delta_start)).length

/-- Scanning a trace from its most recent invocation backwards over data
invocations: the start invocation found first, as `(is a delta, offset)`, if the
scan ends on one. -/
def last_start : List Event → Option (Bool × Nat)
  | [] => none
  | .object_data _ :: t => last_start t
  | .delta_data _ :: t => last_start t
  | .object_start off _ _ _ :: _ => some (false, off)
  | .delta_start off _ _ _ _ _ :: _ => some (true, off)
  | _ :: _ => none

/-- CRC law of a trace given most recent invocation first, against the byte
stream `S`: every `object_complete` (`delta_complete`) whose entry was opened by
an `object_start` (`delta_start`) at offset `off` reports a compressed size `cs`
with `off + cs` within the stream and the CRC-32 of the `cs` bytes from `off`. -/
def crc_ok (S : List Byte) : List Event → Prop
  | [] => True
  | .object_complete cs crc _ :: t =>
      (∀ off, last_start t = some (false, off) →
        off + cs ≤ S.length ∧ crc = crc32 0 ((S.drop off).take cs)) ∧ crc_ok S t
  | .delta_complete cs crc :: t =>
      (∀ off, last_start t = some (true, off) →
        off + cs ≤ S.length ∧ crc = crc32 0 ((S.drop off).take cs)) ∧ crc_ok S t
  | _ :: t => crc_ok S t

/-- Phase of the trace that goes with each parser state when every callback is
present; `STATE_FAILED` goes with any phase but `bad`. -/
def expected_phase : parser_state → Option Phase
  | STATE_HEADER => some .init
  | STATE_OBJECT_HEADER_START => some .idle
  | STATE_OBJECT_HEADER => some .idle
  | STATE_DELTA_HEADER => some .idle
  | STATE_OBJECT_DATA_START => some .in_object
  | STATE_OBJECT_DATA => some .in_object
  | STATE_DELTA_DATA_START => some .in_delta
  | STATE_DELTA_DATA => some .in_delta
  | STATE_TRAILER => some .idle
  | STATE_COMPLETE => some .done
  | STATE_FAILED => none

/-- States in which an entry has been started and not yet completed. -/
def in_entry : parser_state → Bool
  | STATE_OBJECT_HEADER => true
  | STATE_DELTA_HEADER => true
  | STATE_OBJECT_DATA_START => true
  | STATE_OBJECT_DATA => true
  | STATE_DELTA_DATA_START => true
  | STATE_DELTA_DATA => true
  | _ => false

/-- Number of start invocations that goes with a parser state when every
callback is present (`none`: no constraint). -/
def expected_starts {E : Env} (p : git_packfile_parser_t E) : Option Nat :=
  match p.state with
  | STATE_HEADER => some 0
  | STATE_OBJECT_HEADER_START => some p.current_idx
  | STATE_OBJECT_HEADER => some p.current_idx
  | STATE_DELTA_HEADER => some p.current_idx
  | STATE_OBJECT_DATA_START => some (p.current_idx + 1)
  | STATE_OBJECT_DATA => some (p.current_idx + 1)
  | STATE_DELTA_DATA_START => some (p.current_idx + 1)
  | STATE_DELTA_DATA => some (p.current_idx + 1)
  | STATE_TRAILER => some (hdr_entries p)
  | STATE_COMPLETE => some (hdr_entries p)
  | STATE_FAILED => none

/-- The fields no sub-parser of an entry touches: position, header staging,
entry index, whole-stream hash and trailer staging. -/
def frame_eq {E : Env} (p q : git_packfile_parser_t E) : Prop :=
  q.position = p.position ∧ q.header = p.header ∧ q.header_len = p.header_len ∧
  q.current_idx = p.current_idx ∧ q.packfile_hash = p.packfile_hash ∧
  q.trailer = p.trailer ∧ q.trailer_len = p.trailer_len

/-- The fields the draining loops of the payload sub-parsers leave alone. -/
def payload_frame {E : Env} (p q : git_packfile_parser_t E) : Prop :=
  frame_eq p q ∧ q.state = p.state ∧ q.current_position = p.current_position ∧
  q.current_compressed_size = p.current_compressed_size ∧
  q.current_compressed_crc = p.current_compressed_crc

/-- A trace extended by the invocation `e` when its callback is present. -/
def emit (C : Consumer) (t : List Event) (e : Event) : List Event :=
  t ++ (if C.present e.kind = true then [e] else [])

/-- The invariant of the parser between two iterations of the driver loop,
relative to the consumer `C` and to the bytes `S` consumed so far. -/
structure Inv {E : Env} (C : Consumer) (S : List Byte) (p : git_packfile_parser_t E) :
    Prop where
  crc : crc_ok S p.trace.reverse
  present : ∀ e ∈ p.trace, C.present e.kind = true
  pos : p.state ≠ STATE_FAILED → p.position = S.length ∧ p.header_len = p.header.length
  hdr0 : p.state = STATE_HEADER →
    p.header = S ∧ S.length < PACK_HEADER_SIZE ∧ p.current_idx = 0
  hdr1 : p.state ≠ STATE_HEADER → p.state ≠ STATE_FAILED →
    p.header = S.take PACK_HEADER_SIZE ∧ PACK_HEADER_SIZE ≤ S.length
  pre : p.state.toNat < STATE_TRAILER.toNat →
    p.packfile_hash = S ∧ p.trailer = [] ∧ p.trailer_len = 0
  ent : in_entry p.state = true →
    p.current_position + p.current_compressed_size = S.length ∧
    p.current_compressed_crc = crc32 0 (S.drop p.current_position)
  open_object : p.state = STATE_OBJECT_DATA_START ∨ p.state = STATE_OBJECT_DATA →
    ∀ off, last_start p.trace.reverse = some (false, off) → off = p.current_position
  open_delta : p.state = STATE_DELTA_DATA_START ∨ p.state = STATE_DELTA_DATA →
    ∀ off, last_start p.trace.reverse = some (true, off) → off = p.current_position
  trl : p.state = STATE_TRAILER ∨ p.state = STATE_COMPLETE →
    S = p.packfile_hash ++ p.trailer ∧ p.trailer_len = p.trailer.length
  fin : p.state = STATE_COMPLETE → p.trailer = E.hash_final p.packfile_hash
  pc_none : p.state ≠ STATE_COMPLETE → p.state ≠ STATE_FAILED →
    ∀ e ∈ p.trace, e.kind ≠ Callback.packfile_complete
  pc_done : p.state = STATE_COMPLETE →
    (∀ e ∈ p.trace, e.kind = Callback.packfile_complete →
      e = Event.packfile_complete (E.hash_final p.packfile_hash) E.hash_size) ∧
    (C.present Callback.packfile_complete = true →
      Event.packfile_complete (E.hash_final p.packfile_hash) E.hash_size ∈ p.trace)
  phase : (∀ cb, C.present cb = true) →
    trace_phase p.trace ≠ Phase.bad ∧
    ∀ ph, expected_phase p.state = some ph → trace_phase p.trace = ph
  starts : (∀ cb, C.present cb = true) →
    (∀ n, expected_starts p = some n → count_starts p.trace = n) ∧
    (p.state.toNat < STATE_TRAILER.toNat → p.state ≠ STATE_HEADER →
      p.current_idx < hdr_entries p)

/-- A pack with one blob entry of declared size 3 whose payload is the
stored-block zlib stream of "hi\n", without its trailer. -/
def blob_pack_body : List Byte :=
  [80, 65, 67, 75, 0, 0, 0, 2, 0, 0, 0, 1] ++ [0x33] ++
    [0x78, 0x01, 0x01, 0x03, 0x00, 0xFC, 0xFF, 0x68, 0x69, 0x0A, 0x02, 0x17, 0x00, 0xDC]

/-- The one-blob pack with its trailer under the additive checksum. -/
def blob_pack : List Byte := blob_pack_body ++ sum_digest blob_pack_body

/-- Twelve header bytes whose signature reads "XACK". -/
def bad_signature_slice : List Byte := [88, 65, 67, 75, 0, 0, 0, 2, 0, 0, 0, 0]

/-- The parser after `bad_signature_slice` was fed to a fresh parser. -/
def rejected_state : git_packfile_parser_t stored_env :=
  { git_packfile_parser_init stored_env with
      state := STATE_FAILED, header := bad_signature_slice, header_len := 12 }

/-- A parser in `STATE_TRAILER` over the one-blob pack body, with no trailer
byte staged yet. -/
def trailer_state : git_packfile_parser_t stored_env :=
  { git_packfile_parser_init stored_env with
      state := STATE_TRAILER, packfile_hash := blob_pack_body }

/-- The parser after the one-blob pack was fed in one slice to a fresh parser
with all callbacks present. -/
def blob_done : git_packfile_parser_t stored_env :=
  match feed_all all_callbacks 10 (git_packfile_parser_init stored_env) [blob_pack] with
  | some (_, q) => q
  | none => git_packfile_parser_init stored_env

/-- The parser after the one-blob pack without its trailer was fed in one slice
to a fresh parser with all callbacks present. -/
def blob_at_trailer : git_packfile_parser_t stored_env :=
  match feed_all all_callbacks 10 (git_packfile_parser_init stored_env) [blob_pack_body] with
  | some (_, q) => q
  | none => git_packfile_parser_init stored_env

/-- A pack with one `GIT_OBJECT_REF_DELTA` entry of declared size 0 whose base
name is twenty bytes 7 and whose payload is the stored-block zlib stream of
"hi\n", without its trailer. -/
def ref_delta_body : List Byte :=
  [80, 65, 67, 75, 0, 0, 0, 2, 0, 0, 0, 1] ++ [0x70] ++ List.replicate 20 7 ++
    [0x78, 0x01, 0x01, 0x03, 0x00, 0xFC, 0xFF, 0x68, 0x69, 0x0A, 0x02, 0x17, 0x00, 0xDC]

/-- The one-delta pack with its trailer under the additive checksum. -/
def ref_delta_pack : List Byte := ref_delta_body ++ sum_digest ref_delta_body

/-- A consumer whose only callback is `object_data`, returning zero. -/
def data_only_callbacks : Consumer :=
  { present := fun cb => cb == Callback.object_data, ret := fun _ _ => 0 }

/-- Modelled from the spec: the value of an OffsetDelta base specifier over
unbounded integers (no packfile_parser.c counterpart): the first byte gives
its low seven bits, every further byte replaces the value `v` by
`((v + 1) << 7) | (byte & 0x7f)`. -/
def ofs_delta_value : List Byte → Nat
  | [] => 0
  | c :: cs => cs.foldl (fun v b => ((v + 1) <<< 7) ||| (b.val &&& 0x7f)) (c.val &&& 0x7f)

/-- A ten-byte OffsetDelta base specifier: nine bytes 0xFF and the terminator
0x7F. -/
def ofs_overflow_bytes : List Byte := List.replicate 9 0xFF ++ [0x7F]

/-- The start of a one-entry pack whose entry is an OffsetDelta of declared
size 0 with the base specifier `ofs_overflow_bytes`. -/
def ofs_overflow_pack : List Byte :=
  [80, 65, 67, 75, 0, 0, 0, 2, 0, 0, 0, 1] ++ [0x60] ++ ofs_overflow_bytes

/-- The kind bits `(c >> 4) & 0x07` of the first byte `c` of a type/size
prefix, as `parse_object_header` stores them in `current_type`. -/
def preamble_kind (c : Byte) : Nat := (c.val >>> 4) &&& 0x07

/-- One continuation byte `b` of a type/size prefix, on the pair
`(current_size, current_bits)`: the update `parse_object_header` makes. -/
def preamble_step (E : Env) (a : Nat × Nat) (b : Byte) : Nat × Nat :=
  ((a.1 + int_shl E (b.val &&& 0x7f) a.2) % SIZE_MOD, a.2 + 7)

/-- The value `parse_object_header` leaves in `current_size` after the bytes of
a type/size prefix: the low four bits of the first byte, then one
`preamble_step` per further byte. -/
def preamble_size (E : Env) : List Byte → Nat
  | [] => 0
  | c :: cs => (cs.foldl (preamble_step E) (c.val &&& 0x0f, 4)).1

/-- The start of a one-entry pack whose entry has the one-byte type/size
prefix 0x03: kind bits 0, size 3. -/
def kind0_pack : List Byte := [80, 65, 67, 75, 0, 0, 0, 2, 0, 0, 0, 1, 0x03]

/-- The start of a one-entry pack whose entry has the one-byte type/size
prefix 0x53: kind bits 5, size 3. -/
def kind5_pack : List Byte := [80, 65, 67, 75, 0, 0, 0, 2, 0, 0, 0, 1, 0x53]

/-- The start of a one-entry pack whose entry has an eleven-byte type/size
prefix of kind blob: the tenth continuation byte carries the payload bit 1 at
bit position 67. -/
def long_size_pack : List Byte :=
  [80, 65, 67, 75, 0, 0, 0, 2, 0, 0, 0, 1] ++ [0xB3] ++ List.replicate 9 0x80 ++ [0x01]

/-- A parser in `STATE_OBJECT_HEADER_START` at position 12, as the header of a
one-entry pack leaves it when every callback is present. -/
def first_entry_state : git_packfile_parser_t stored_env :=
  { git_packfile_parser_init stored_env with
      state := STATE_OBJECT_HEADER_START, position := 12,
      header := [80, 65, 67, 75, 0, 0, 0, 2, 0, 0, 0, 1], header_len := 12,
      packfile_hash := [80, 65, 67, 75, 0, 0, 0, 2, 0, 0, 0, 1],
      trace := [Event.packfile_header 2 1] }

/-- Every invocation of `evs`, made one after the other from the trace `t` on,
returned 0. -/
def all_zero (C : Consumer) (t evs : List Event) : Prop :=
  ∀ pre e post, evs = pre ++ e :: post → C.ret (t ++ pre) e = 0

/-- The invocations `evs` made from the trace `t` on go with the result `err`:
either all of them returned 0, or the last one returned `err`, which is not 0,
and all the others returned 0. -/
def stops (C : Consumer) (t evs : List Event) (err : Int) : Prop :=
  all_zero C t evs ∨
    (err ≠ 0 ∧ ∃ evs0 e, evs = evs0 ++ [e] ∧ all_zero C t evs0 ∧ C.ret (t ++ evs0) e = err)

/-- The trace `t2` extends the trace `t` by invocations that go with the result
`err` in the sense of `stops`. -/
def quiet_run (C : Consumer) (t t2 : List Event) (err : Int) : Prop :=
  ∃ evs, t2 = t ++ evs ∧ stops C t evs err

/-- A consumer with all eight callbacks present whose `object_start` returns 7
and whose other callbacks return 0. -/
def abort_on_start : Consumer :=
  { present := fun _ => true,
    ret := fun _ e => if e.kind = Callback.object_start then 7 else 0 }

/-- The parser after the one-blob pack was fed in one slice to a fresh parser
with the consumer `abort_on_start`. -/
def aborted_state : git_packfile_parser_t stored_env :=
  match git_packfile_parser_parse abort_on_start 10 (git_packfile_parser_init stored_env)
      blob_pack with
  | some (_, q) => q
  | none => git_packfile_parser_init stored_env

/-- The parser as the first `k` bytes of an empty pack leave it: the empty pack
is the header `hdr` (announcing no entry) followed by its digest.  Before the
twelfth byte the bytes are staged in the header buffer; then the parser is in
`STATE_TRAILER` with the header hashed and `k - 12` digest bytes staged, having
invoked `packfile_header`; after the last byte it is in `STATE_COMPLETE`, having
invoked `packfile_complete` as well. -/
def empty_pack_at {E : Env} (C : Consumer) (hdr : List Byte) (k : Nat)
    (p : git_packfile_parser_t E) : Prop :=
  if k < PACK_HEADER_SIZE then
    p.state = STATE_HEADER ∧ p.header = hdr.take k ∧ p.header_len = k ∧ p.trace = [] ∧
      p.packfile_hash = hdr.take k ∧ p.trailer = [] ∧ p.trailer_len = 0
  else if k < PACK_HEADER_SIZE + E.hash_size then
    p.state = STATE_TRAILER ∧ p.packfile_hash = hdr ∧
      p.trailer = (E.hash_final hdr).take (k - PACK_HEADER_SIZE) ∧
      p.trailer_len = k - PACK_HEADER_SIZE ∧
      p.trace = emit C [] (Event.packfile_header 2 0)
  else
    p.state = STATE_COMPLETE ∧
      p.trace = emit C (emit C [] (Event.packfile_header 2 0))
        (Event.packfile_complete (E.hash_final hdr) E.hash_size)

/-- The header of a pack without entries. -/
def empty_pack_header : List Byte := [80, 65, 67, 75, 0, 0, 0, 2, 0, 0, 0, 0]

/-- The empty pack under the additive checksum, cut into four slices, the
second one empty: the first cut falls inside the header and the last one inside
the trailer. -/
def empty_pack_slices : List (List Byte) :=
  [empty_pack_header.take 5, [],
   empty_pack_header.drop 5 ++ (sum_digest empty_pack_header).take 7,
   (sum_digest empty_pack_header).drop 7]

/-- Scanning a trace from its most recent invocation backwards over
`object_data` invocations: the chunks they delivered, joined in the order of
delivery. -/
def data_since_start : List Event → List Byte
  | .object_data chunk :: t => data_since_start t ++ chunk
  | _ => []

/-- Scanning a trace from its most recent invocation backwards over
`object_data` invocations: the kind and the size of the `object_start`
invocation the scan ends on, if it ends on one. -/
def opened_object : List Event → Option (Nat × Nat)
  | .object_data _ :: t => opened_object t
  | .object_start _ _ type size :: _ => some (type, size)
  | _ => none

/-- Identity law of a trace given most recent invocation first: every
`object_complete` that closes an entry opened by `object_start` with kind
`type` and size `size` carries the digest of the canonical header for that kind
and size followed by the chunks delivered through `object_data` in between. -/
def oid_ok (E : Env) : List Event → Prop
  | [] => True
  | .object_complete _ _ oid :: t =>
      (∀ type size, opened_object t = some (type, size) →
        oid = E.hash_final (git_odb__format_object_header size type ++ data_since_start t)) ∧
      oid_ok E t
  | _ :: t => oid_ok E t

/-- The trace `t2` extends the trace `t` by invocations that all satisfy `Q`. -/
def grows_by (Q : Event → Prop) (t t2 : List Event) : Prop :=
  ∃ evs, t2 = t ++ evs ∧ ∀ e ∈ evs, Q e

/-- What the identity law needs of the parser between two iterations of the
driver loop: the law holds of the trace; inside a type/size prefix the object
hash is still empty; inside the payload of a non-delta entry the entry was
opened with the current kind and size and the object hash holds the canonical
header followed by the chunks delivered so far. -/
structure HashInv {E : Env} (p : git_packfile_parser_t E) : Prop where
  oid : oid_ok E p.trace.reverse
  hdr : p.state = STATE_OBJECT_HEADER → p.current_hash = []
  dat : p.state = STATE_OBJECT_DATA_START ∨ p.state = STATE_OBJECT_DATA →
    opened_object p.trace.reverse = some (p.current_type, p.current_size) ∧
    p.current_hash = git_odb__format_object_header p.current_size p.current_type ++
      data_since_start p.trace.reverse

/-- The parsers a run of the driver passes through.  `reached C S p` says that
`p` is the parser at the top of an iteration of the loop of
`git_packfile_parser_parse`, or between two feeds, in a run that started from a
fresh parser with the consumer `C`, and that `S` are the bytes the iterations
so far reported as consumed.  A step is one iteration of the loop on a
non-empty slice, whatever it returns. -/
inductive reached {E : Env} (C : Consumer) : List Byte → git_packfile_parser_t E → Prop
  | init : reached C [] (git_packfile_parser_init E)
  | step (fuel : Nat) (S : List Byte) (p : git_packfile_parser_t E) (data : List Byte)
      (x : Int × Nat × git_packfile_parser_t E) :
      reached C S p → data ≠ [] → parse_iteration C fuel p data = some x →
      reached C (S ++ data.take x.2.1) x.2.2

/-- The parser after the one-delta pack was fed up to the first byte of the base
name to a fresh parser with all callbacks present. -/
def ref_delta_staged : git_packfile_parser_t stored_env :=
  match feed_all all_callbacks 10 (git_packfile_parser_init stored_env)
      [ref_delta_pack.take 14] with
  | some (_, q) => q
  | none => git_packfile_parser_init stored_env

/-- The parser with its record of callback invocations left out. -/
def forget_trace {E : Env} (p : git_packfile_parser_t E) : git_packfile_parser_t E :=
  { p with trace := [] }

/-- The result of a sub-parser with the record of callback invocations left
out. -/
def forget_result {E : Env} (r : Int × Nat × git_packfile_parser_t E) :
    Int × Nat × git_packfile_parser_t E :=
  (r.1, r.2.1, forget_trace r.2.2)

/-- A consumer with all eight callbacks present whose `object_data` and
`delta_data` return 7 and whose other callbacks return 0. -/
def abort_on_data : Consumer :=
  { present := fun _ => true,
    ret := fun _ e =>
      if e.kind = Callback.object_data ∨ e.kind = Callback.delta_data then 7 else 0 }

/-- What the driver leaves after it consumed the bytes `bs` of a type/size
prefix, none of them its terminator, from the parser `p`: the per-byte updates
of `parse_object_header`, the bytes mixed into the whole-stream hash and the
position advanced. -/
def preamble_advance {E : Env} (p : git_packfile_parser_t E) (bs : List Byte) :
    git_packfile_parser_t E :=
  { bs.foldl object_header_byte p with
      packfile_hash := p.packfile_hash ++ bs, position := p.position + bs.length }

/-- What the driver leaves after it consumed the bytes `bs` of a whole
type/size prefix from the parser `p` and `parse_object_header` returned 0: a
delta entry is in `STATE_DELTA_HEADER`; for any other entry the object hash was
seeded, `object_start` was invoked and the state is
`STATE_OBJECT_DATA_START`. -/
def preamble_done {E : Env} (C : Consumer) (p : git_packfile_parser_t E)
    (bs : List Byte) : git_packfile_parser_t E :=
  if is_delta (preamble_advance p bs).current_type = true then
    begin_delta_header (preamble_advance p bs)
  else
    { (invoke C (seed_object_hash (preamble_advance p bs))
        (object_start_event (seed_object_hash (preamble_advance p bs)))).2 with
      state := STATE_OBJECT_DATA_START }

/-- Modelled from the spec: what the continuation bytes of a type/size prefix
add to the size, over unbounded integers: the low seven bits of the first of
them times 2^shift, and seven bits more of shift for each further byte. -/
def preamble_tail (shift : Nat) : List Byte → Nat
  | [] => 0
  | b :: bs => (b.val &&& 0x7f) * 2 ^ shift + preamble_tail (shift + 7) bs

/-- Modelled from the spec: the size a type/size prefix `b0, b1, ..., bk`
encodes, over unbounded integers: `(b0 & 0x0f)` plus the sum over `i` from 1 to
`k` of `(bi & 0x7f) * 2^(4 + 7*(i-1))`. -/
def preamble_value : List Byte → Nat
  | [] => 0
  | b0 :: bs => (b0.val &&& 0x0f) + preamble_tail 4 bs

/-- Whether the shifts `(c & 0x7f) << current_bits` that `parse_object_header`
makes for the continuation bytes `bs`, the first of them by `shift` bits, are
all defined by C in type `int`: the count is below 32 and the result below
2^31. -/
def shifts_defined (shift : Nat) : List Byte → Bool
  | [] => true
  | b :: bs =>
    decide (shift < 32 ∧ (b.val &&& 0x7f) <<< shift < 2 ^ 31) && shifts_defined (shift + 7) bs

/-- What the driver leaves after it consumed the bytes `bs` of an OffsetDelta
base specifier, none of them its terminator, from the parser `p`: the per-byte
updates of the `GIT_OBJECT_OFS_DELTA` loop, the bytes mixed into the
whole-stream hash and the position advanced. -/
def ofs_advance {E : Env} (p : git_packfile_parser_t E) (bs : List Byte) :
    git_packfile_parser_t E :=
  { bs.foldl ofs_delta_byte p with
      packfile_hash := p.packfile_hash ++ bs, position := p.position + bs.length }

/-- The start of a one-entry pack whose entry is an OffsetDelta of declared
size 0 with the ten-byte base specifier 81 80 80 80 80 80 80 80 80 00. -/
def ofs_wrap_pack : List Byte :=
  [80, 65, 67, 75, 0, 0, 0, 2, 0, 0, 0, 1] ++ [0x60] ++
    ([0x81] ++ List.replicate 8 0x80 ++ [0x00])

/-! ## Functions of src/libgit2/common.h, src/util/strvec.c and src/cli/cmd_clone.c

A C string is given by the bytes found in memory from its first character on:
it ends before the first zero byte, or at the end of the list when the list
holds no zero byte (the terminator is then left out). -/

/-- The function `git_error__check_version`.  The argument `version` is `none`
for a null `structure` and otherwise the `unsigned int` stored at its start.
The result is the return value together with the version handed to
`git_error_set`, if the call is made. -/
def git_error__check_version (version : Option Nat) (expected_max : Nat) :
    Int × Option Nat :=
  match version with
  | none => (0, none)
  | some actual =>
    if actual > 0 ∧ actual ≤ expected_max then (0, none)
    else (-1, some actual)

/-- The character `s[i]` of a C string: zero at the terminator, which is also
what the model reads beyond the end of the list. -/
def char_at (s : List Byte) (i : Nat) : Byte := s.getD i 0

/-- The characters of the C string held in `s`, its terminator left out. -/
def c_string (s : List Byte) : List Byte := s.takeWhile (fun b => b ≠ 0)

/-- Modelled from the spec: `strncmp (s1, s2, n) == 0` of the C library.  At
most `n` characters are compared; the comparison succeeds when it has run over
`n` equal characters or over equal characters up to a terminator that both
strings have at the same place. -/
def strncmp_eq : List Byte → List Byte → Nat → Bool
  | _, _, 0 => true
  | s1, s2, n + 1 =>
    if char_at s1 0 ≠ char_at s2 0 then false
    else if char_at s1 0 = 0 then true
    else strncmp_eq s1.tail s2.tail n

/-- The function `git_strvec_contains_prefix`; the vector is the list of its
`len` strings. -/
def git_strvec_contains_prefix : List (List Byte) → List Byte → Nat → Bool
  | [], _, _ => false
  | s :: rest, str, n =>
    if strncmp_eq s str n then true else git_strvec_contains_prefix rest str n

/-- The loop `for (c = key; *c; c++) if (*c == delimiter) break;` of
`git_strvec_contains_key`: the offset `c - key` at which it stops. -/
def key_scan (delimiter : Byte) : List Byte → Nat
  | [] => 0
  | c :: rest =>
    if c = 0 then 0
    else if c = delimiter then 0
    else key_scan delimiter rest + 1

/-- The function `git_strvec_contains_key`. -/
def git_strvec_contains_key (strings : List (List Byte)) (key : List Byte)
    (delimiter : Byte) : Bool :=
  let c := key_scan delimiter key
  if char_at key c ≠ 0 then git_strvec_contains_prefix strings key c else false

/-- Modelled from the spec: `strrchr (s, ch)` of the C library for a character
`ch` other than the terminator, on the characters of a string: the offset of
the last occurrence of `ch`, `none` for the null pointer returned when there is
none. -/
def last_offset (ch : Byte) : List Byte → Option Nat
  | [] => none
  | c :: rest =>
    match last_offset ch rest with
    | some i => some (i + 1)
    | none => if c = ch then some 0 else none

/-- Modelled from the spec: `strrchr (s, ch)` on a C string in memory. -/
def strrchr (s : List Byte) (ch : Byte) : Option Nat := last_offset ch (c_string s)

/-- Modelled from the spec: `git_str_puts (buf, string)` (str.c is not among the
sources) appends the characters of the string to the buffer. -/
def git_str_puts (buf : List Byte) (string : List Byte) : List Byte :=
  buf ++ c_string string

/-- Modelled from the spec: `git_str_endswith (buf, suffix)` tells whether the
buffer ends with the characters of `suffix`. -/
def git_str_endswith (buf : List Byte) (suffix : List Byte) : Bool :=
  (c_string suffix).isSuffixOf buf

/-- Modelled from the spec: `git_str_shorten (buf, amount)` removes the last
`amount` characters of the buffer, and clears a buffer that has no more than
`amount`. -/
def git_str_shorten (buf : List Byte) (amount : Nat) : List Byte :=
  if buf.length > amount then buf.take (buf.length - amount) else []

/-- The string ".git". -/
def dot_git : List Byte := [46, 103, 105, 116]

/-- The function `compute_local_path`: `bare` is whether `clone_opts.bare` is
set, the result is the string detached from the buffer.  The pointer
`slash + 1` is the memory of `orig_path` from the offset after the one
`strrchr` found. -/
def compute_local_path (bare : Bool) (orig_path : List Byte) : List Byte :=
  let local_path : List Byte :=
    match strrchr orig_path 47 with
    | some slash => git_str_puts [] (orig_path.drop (slash + 1))
    | none =>
      match strrchr orig_path 92 with
      | some slash => git_str_puts [] (orig_path.drop (slash + 1))
      | none => git_str_puts [] orig_path
  if bare then
    if ¬ git_str_endswith local_path dot_git = true then git_str_puts local_path dot_git
    else local_path
  else
    if git_str_endswith local_path dot_git = true then git_str_shorten local_path 4
    else local_path

/-- The states in which the payload of an entry is decompressed. -/
def payload_state : parser_state → Bool
  | STATE_OBJECT_DATA_START => true
  | STATE_OBJECT_DATA => true
  | STATE_DELTA_DATA_START => true
  | STATE_DELTA_DATA => true
  | _ => false

/-- Whether the loop of `git_packfile_parser_parse`, run on a slice from a
parser, starts one of its first `fuel` iterations in a payload state: the loop
is followed as the driver runs it, as long as the loop body returns 0 and the
slice is not drained. -/
def enters_payload {E : Env} (C : Consumer) :
    Nat → git_packfile_parser_t E → List Byte → Bool
  | _, _, [] => false
  | 0, _, _ :: _ => false
  | fuel + 1, p, c :: rest =>
    payload_state p.state ||
      match parse_iteration C fuel p (c :: rest) with
      | none => false
      | some (error, consumed, p1) =>
        if error ≠ 0 then false
        else enters_payload C fuel p1 ((c :: rest).drop consumed)

/-- The start of a one-entry pack whose entry has the five-byte type/size
prefix 95 FF FF FF 7F: kind commit, size 4294967285 = 2^32 - 11 by the format.
The last byte is shifted by 25 bits. -/
def shifted_size_pack : List Byte :=
  [80, 65, 67, 75, 0, 0, 0, 2, 0, 0, 0, 1] ++ [0x95, 0xFF, 0xFF, 0xFF, 0x7F]

/-- The trailer of the empty pack under the additive checksum with its last
byte replaced by 0. -/
def corrupt_trailer : List Byte := (sum_digest empty_pack_header).dropLast ++ [0]

/-- Whether the `memcpy` of the staging step that the sub-parser of the current
state makes for the slice stays within the `hash_len` bytes of the name it
fills: `chunk_len = min(hash_len, len)` bytes are copied to
`current_base.id + current_base_len` in the `GIT_OBJECT_REF_DELTA` branch of
`parse_delta_header` and to `trailer + trailer_len` in `parse_trailer`.  The
other sub-parsers make no such copy; `parse_header` bounds its own by the room
left. -/
def staging_in_bounds {E : Env} (p : git_packfile_parser_t E) (data : List Byte) : Bool :=
  match p.state with
  | STATE_DELTA_HEADER =>
    if p.current_type = GIT_OBJECT_OFS_DELTA then true
    else if p.current_type = GIT_OBJECT_REF_DELTA then
      decide (p.current_base_len + min E.hash_size data.length ≤ E.hash_size)
    else true
  | STATE_TRAILER => decide (p.trailer_len + min E.hash_size data.length ≤ E.hash_size)
  | _ => true

/-- Whether the loop of `git_packfile_parser_parse`, run on a slice from a
parser, makes in one of its first `fuel` iterations a staging copy that is not
within bounds; the loop is followed as long as the loop body returns 0 and the
slice is not drained. -/
def overruns {E : Env} (C : Consumer) :
    Nat → git_packfile_parser_t E → List Byte → Bool
  | _, _, [] => false
  | 0, _, _ :: _ => false
  | fuel + 1, p, c :: rest =>
    !staging_in_bounds p (c :: rest) ||
      match parse_iteration C fuel p (c :: rest) with
      | none => false
      | some (error, consumed, p1) =>
        if error ≠ 0 then false
        else overruns C fuel p1 ((c :: rest).drop consumed)

/-! ## Basic lemmas -/

/-- CRC-32 of a concatenation, computed in two calls. -/
theorem crc32_append (c : Nat) (a b : List Byte) :
    crc32 (crc32 c a) b = crc32 c (a ++ b) := by
  simp only [crc32, List.foldl_append, Nat.xor_cancel_right]

/-- CRC-32 over no bytes is the identity. -/
theorem crc32_nil (c : Nat) : crc32 c [] = c := by
  simp [crc32, Nat.xor_cancel_right]

/-- The big-endian word of four leading bytes as a sum. -/
theorem be32_cons4 (a b c d : Byte) (rest : List Byte) :
    be32 (a :: b :: c :: d :: rest) =
      a.val * 2 ^ 24 + b.val * 2 ^ 16 + c.val * 2 ^ 8 + d.val := by
  have ha := a.isLt
  have hb := b.isLt
  have hc := c.isLt
  have hd := d.isLt
  simp only [be32, List.getD_cons_zero, List.getD_cons_succ, Nat.shiftLeft_eq]
  have h1 : a.val * 2 ^ 24 ||| b.val * 2 ^ 16 = 2 ^ 16 * (2 ^ 8 * a.val + b.val) := by
    have := Nat.mul_add_lt_is_or (show b.val * 2 ^ 16 < 2 ^ 24 by omega) a.val
    rw [show a.val * 2 ^ 24 = 2 ^ 24 * a.val by ring, ← this]; ring
  have h2 : 2 ^ 16 * (2 ^ 8 * a.val + b.val) ||| c.val * 2 ^ 8
      = 2 ^ 8 * (2 ^ 8 * (2 ^ 8 * a.val + b.val) + c.val) := by
    have := Nat.mul_add_lt_is_or (show c.val * 2 ^ 8 < 2 ^ 16 by omega) (2 ^ 8 * a.val + b.val)
    rw [← this]; ring
  have h3 := Nat.mul_add_lt_is_or (show d.val < 2 ^ 8 by omega)
    (2 ^ 8 * (2 ^ 8 * a.val + b.val) + c.val)
  rw [h1, h2, ← h3]; ring

/-- A list of at least four bytes starts with four explicit bytes. -/
theorem exists_cons4 (bs : List Byte) (h : 4 ≤ bs.length) :
    ∃ a b c d rest, bs = a :: b :: c :: d :: rest := by
  match bs, h with
  | a :: b :: c :: d :: rest, _ => exact ⟨a, b, c, d, rest, rfl⟩

/-- The signature word is `PACK_SIGNATURE` exactly when the first four bytes
are the ASCII bytes of "PACK". -/
theorem be32_eq_signature_iff (bs : List Byte) (h : 4 ≤ bs.length) :
    be32 bs = PACK_SIGNATURE ↔ bs.take 4 = [80, 65, 67, 75] := by
  obtain ⟨a, b, c, d, rest, rfl⟩ := exists_cons4 bs h
  rw [be32_cons4]
  have ha := a.isLt
  have hb := b.isLt
  have hc := c.isLt
  have hd := d.isLt
  simp only [List.take_succ_cons, List.take_zero, PACK_SIGNATURE, List.cons.injEq, and_true]
  constructor
  · intro hs
    refine ⟨Fin.ext ?_, Fin.ext ?_, Fin.ext ?_, Fin.ext ?_⟩ <;> show _ = _ <;> omega
  · rintro ⟨rfl, rfl, rfl, rfl⟩
    rfl

/-- Staging the header: the bytes staged after a call are the first twelve
bytes of what was staged before followed by the slice. -/
theorem header_stage_eq (hd data : List Byte) (hle : hd.length ≤ PACK_HEADER_SIZE) :
    hd ++ data.take (min data.length (PACK_HEADER_SIZE - hd.length)) =
      (hd ++ data).take PACK_HEADER_SIZE := by
  rw [List.take_append_eq_append_take, List.take_of_length_le hle]
  congr 1
  rcases Nat.le_total data.length (PACK_HEADER_SIZE - hd.length) with h | h
  · rw [Nat.min_eq_left h, List.take_of_length_le (le_refl _), List.take_of_length_le h]
  · rw [Nat.min_eq_right h]


/-- A callback site leaves `state` alone. -/
@[simp] theorem invoke_state {E : Env} (C : Consumer) (p : git_packfile_parser_t E)
    (e : Event) : (invoke C p e).2.state = p.state := by
  unfold invoke; split <;> rfl

/-- A callback site leaves `position` alone. -/
@[simp] theorem invoke_position {E : Env} (C : Consumer) (p : git_packfile_parser_t E)
    (e : Event) : (invoke C p e).2.position = p.position := by
  unfold invoke; split <;> rfl

/-- A callback site leaves `header` alone. -/
@[simp] theorem invoke_header {E : Env} (C : Consumer) (p : git_packfile_parser_t E)
    (e : Event) : (invoke C p e).2.header = p.header := by
  unfold invoke; split <;> rfl

/-- A callback site leaves `header_len` alone. -/
@[simp] theorem invoke_header_len {E : Env} (C : Consumer) (p : git_packfile_parser_t E)
    (e : Event) : (invoke C p e).2.header_len = p.header_len := by
  unfold invoke; split <;> rfl

/-- A callback site leaves `current_idx` alone. -/
@[simp] theorem invoke_current_idx {E : Env} (C : Consumer) (p : git_packfile_parser_t E)
    (e : Event) : (invoke C p e).2.current_idx = p.current_idx := by
  unfold invoke; split <;> rfl

/-- A callback site leaves `current_position` alone. -/
@[simp] theorem invoke_current_position {E : Env} (C : Consumer) (p : git_packfile_parser_t E)
    (e : Event) : (invoke C p e).2.current_position = p.current_position := by
  unfold invoke; split <;> rfl

/-- A callback site leaves `current_type` alone. -/
@[simp] theorem invoke_current_type {E : Env} (C : Consumer) (p : git_packfile_parser_t E)
    (e : Event) : (invoke C p e).2.current_type = p.current_type := by
  unfold invoke; split <;> rfl

/-- A callback site leaves `current_size` alone. -/
@[simp] theorem invoke_current_size {E : Env} (C : Consumer) (p : git_packfile_parser_t E)
    (e : Event) : (invoke C p e).2.current_size = p.current_size := by
  unfold invoke; split <;> rfl

/-- A callback site leaves `current_compressed_size` alone. -/
@[simp] theorem invoke_current_compressed_size {E : Env} (C : Consumer) (p : git_packfile_parser_t E)
    (e : Event) : (invoke C p e).2.current_compressed_size = p.current_compressed_size := by
  unfold invoke; split <;> rfl

/-- A callback site leaves `current_compressed_crc` alone. -/
@[simp] theorem invoke_current_compressed_crc {E : Env} (C : Consumer) (p : git_packfile_parser_t E)
    (e : Event) : (invoke C p e).2.current_compressed_crc = p.current_compressed_crc := by
  unfold invoke; split <;> rfl

/-- A callback site leaves `current_bits` alone. -/
@[simp] theorem invoke_current_bits {E : Env} (C : Consumer) (p : git_packfile_parser_t E)
    (e : Event) : (invoke C p e).2.current_bits = p.current_bits := by
  unfold invoke; split <;> rfl

/-- A callback site leaves `current_hash` alone. -/
@[simp] theorem invoke_current_hash {E : Env} (C : Consumer) (p : git_packfile_parser_t E)
    (e : Event) : (invoke C p e).2.current_hash = p.current_hash := by
  unfold invoke; split <;> rfl

/-- A callback site leaves `zstream` alone. -/
@[simp] theorem invoke_zstream {E : Env} (C : Consumer) (p : git_packfile_parser_t E)
    (e : Event) : (invoke C p e).2.zstream = p.zstream := by
  unfold invoke; split <;> rfl

/-- A callback site leaves `current_offset` alone. -/
@[simp] theorem invoke_current_offset {E : Env} (C : Consumer) (p : git_packfile_parser_t E)
    (e : Event) : (invoke C p e).2.current_offset = p.current_offset := by
  unfold invoke; split <;> rfl

/-- A callback site leaves `current_base` alone. -/
@[simp] theorem invoke_current_base {E : Env} (C : Consumer) (p : git_packfile_parser_t E)
    (e : Event) : (invoke C p e).2.current_base = p.current_base := by
  unfold invoke; split <;> rfl

/-- A callback site leaves `current_base_len` alone. -/
@[simp] theorem invoke_current_base_len {E : Env} (C : Consumer) (p : git_packfile_parser_t E)
    (e : Event) : (invoke C p e).2.current_base_len = p.current_base_len := by
  unfold invoke; split <;> rfl

/-- A callback site leaves `trailer` alone. -/
@[simp] theorem invoke_trailer {E : Env} (C : Consumer) (p : git_packfile_parser_t E)
    (e : Event) : (invoke C p e).2.trailer = p.trailer := by
  unfold invoke; split <;> rfl

/-- A callback site leaves `trailer_len` alone. -/
@[simp] theorem invoke_trailer_len {E : Env} (C : Consumer) (p : git_packfile_parser_t E)
    (e : Event) : (invoke C p e).2.trailer_len = p.trailer_len := by
  unfold invoke; split <;> rfl

/-- A callback site leaves `packfile_hash` alone. -/
@[simp] theorem invoke_packfile_hash {E : Env} (C : Consumer) (p : git_packfile_parser_t E)
    (e : Event) : (invoke C p e).2.packfile_hash = p.packfile_hash := by
  unfold invoke; split <;> rfl

/-- The trace after a callback site: the call is appended when the callback is
present. -/
theorem invoke_trace {E : Env} (C : Consumer) (p : git_packfile_parser_t E) (e : Event) :
    (invoke C p e).2.trace = p.trace ++ (if C.present e.kind = true then [e] else []) := by
  unfold invoke; split <;> simp

/-- The value a callback site yields: the return value of the callback, or 0
when the callback is absent. -/
theorem invoke_fst {E : Env} (C : Consumer) (p : git_packfile_parser_t E) (e : Event) :
    (invoke C p e).1 = if C.present e.kind = true then C.ret p.trace e else 0 := by
  unfold invoke; split <;> rfl

/-- A callback site leaves `hdr_entries` alone. -/
@[simp] theorem invoke_hdr_entries {E : Env} (C : Consumer) (p : git_packfile_parser_t E)
    (e : Event) : hdr_entries (invoke C p e).2 = hdr_entries p := by
  simp [hdr_entries]


/-! ## Fields left alone by the steps of the sub-parsers -/

/-- The step `stage_header` leaves `state` alone. -/
@[simp] theorem stage_header_state {E : Env} (p : git_packfile_parser_t E) (data : List Byte) :
    (stage_header p data).state = p.state := by
  rfl

/-- The step `stage_header` leaves `position` alone. -/
@[simp] theorem stage_header_position {E : Env} (p : git_packfile_parser_t E) (data : List Byte) :
    (stage_header p data).position = p.position := by
  rfl

/-- The step `stage_header` leaves `current_idx` alone. -/
@[simp] theorem stage_header_current_idx {E : Env} (p : git_packfile_parser_t E) (data : List Byte) :
    (stage_header p data).current_idx = p.current_idx := by
  rfl

/-- The step `stage_header` leaves `current_position` alone. -/
@[simp] theorem stage_header_current_position {E : Env} (p : git_packfile_parser_t E) (data : List Byte) :
    (stage_header p data).current_position = p.current_position := by
  rfl

/-- The step `stage_header` leaves `current_type` alone. -/
@[simp] theorem stage_header_current_type {E : Env} (p : git_packfile_parser_t E) (data : List Byte) :
    (stage_header p data).current_type = p.current_type := by
  rfl

/-- The step `stage_header` leaves `current_size` alone. -/
@[simp] theorem stage_header_current_size {E : Env} (p : git_packfile_parser_t E) (data : List Byte) :
    (stage_header p data).current_size = p.current_size := by
  rfl

/-- The step `stage_header` leaves `current_compressed_size` alone. -/
@[simp] theorem stage_header_current_compressed_size {E : Env} (p : git_packfile_parser_t E) (data : List Byte) :
    (stage_header p data).current_compressed_size = p.current_compressed_size := by
  rfl

/-- The step `stage_header` leaves `current_compressed_crc` alone. -/
@[simp] theorem stage_header_current_compressed_crc {E : Env} (p : git_packfile_parser_t E) (data : List Byte) :
    (stage_header p data).current_compressed_crc = p.current_compressed_crc := by
  rfl

/-- The step `stage_header` leaves `current_bits` alone. -/
@[simp] theorem stage_header_current_bits {E : Env} (p : git_packfile_parser_t E) (data : List Byte) :
    (stage_header p data).current_bits = p.current_bits := by
  rfl

/-- The step `stage_header` leaves `current_hash` alone. -/
@[simp] theorem stage_header_current_hash {E : Env} (p : git_packfile_parser_t E) (data : List Byte) :
    (stage_header p data).current_hash = p.current_hash := by
  rfl

/-- The step `stage_header` leaves `zstream` alone. -/
@[simp] theorem stage_header_zstream {E : Env} (p : git_packfile_parser_t E) (data : List Byte) :
    (stage_header p data).zstream = p.zstream := by
  rfl

/-- The step `stage_header` leaves `current_offset` alone. -/
@[simp] theorem stage_header_current_offset {E : Env} (p : git_packfile_parser_t E) (data : List Byte) :
    (stage_header p data).current_offset = p.current_offset := by
  rfl

/-- The step `stage_header` leaves `current_base` alone. -/
@[simp] theorem stage_header_current_base {E : Env} (p : git_packfile_parser_t E) (data : List Byte) :
    (stage_header p data).current_base = p.current_base := by
  rfl

/-- The step `stage_header` leaves `current_base_len` alone. -/
@[simp] theorem stage_header_current_base_len {E : Env} (p : git_packfile_parser_t E) (data : List Byte) :
    (stage_header p data).current_base_len = p.current_base_len := by
  rfl

/-- The step `stage_header` leaves `trailer` alone. -/
@[simp] theorem stage_header_trailer {E : Env} (p : git_packfile_parser_t E) (data : List Byte) :
    (stage_header p data).trailer = p.trailer := by
  rfl

/-- The step `stage_header` leaves `trailer_len` alone. -/
@[simp] theorem stage_header_trailer_len {E : Env} (p : git_packfile_parser_t E) (data : List Byte) :
    (stage_header p data).trailer_len = p.trailer_len := by
  rfl

/-- The step `stage_header` leaves `packfile_hash` alone. -/
@[simp] theorem stage_header_packfile_hash {E : Env} (p : git_packfile_parser_t E) (data : List Byte) :
    (stage_header p data).packfile_hash = p.packfile_hash := by
  rfl

/-- The step `stage_header` leaves `trace` alone. -/
@[simp] theorem stage_header_trace {E : Env} (p : git_packfile_parser_t E) (data : List Byte) :
    (stage_header p data).trace = p.trace := by
  rfl

/-- The step `object_header_byte` leaves `position` alone. -/
@[simp] theorem object_header_byte_position {E : Env} (p : git_packfile_parser_t E) (c : Byte) :
    (object_header_byte p c).position = p.position := by
  unfold object_header_byte
  dsimp only
  split <;> rfl

/-- The step `object_header_byte` leaves `header` alone. -/
@[simp] theorem object_header_byte_header {E : Env} (p : git_packfile_parser_t E) (c : Byte) :
    (object_header_byte p c).header = p.header := by
  unfold object_header_byte
  dsimp only
  split <;> rfl

/-- The step `object_header_byte` leaves `header_len` alone. -/
@[simp] theorem object_header_byte_header_len {E : Env} (p : git_packfile_parser_t E) (c : Byte) :
    (object_header_byte p c).header_len = p.header_len := by
  unfold object_header_byte
  dsimp only
  split <;> rfl

/-- The step `object_header_byte` leaves `current_idx` alone. -/
@[simp] theorem object_header_byte_current_idx {E : Env} (p : git_packfile_parser_t E) (c : Byte) :
    (object_header_byte p c).current_idx = p.current_idx := by
  unfold object_header_byte
  dsimp only
  split <;> rfl

/-- The step `object_header_byte` leaves `zstream` alone. -/
@[simp] theorem object_header_byte_zstream {E : Env} (p : git_packfile_parser_t E) (c : Byte) :
    (object_header_byte p c).zstream = p.zstream := by
  unfold object_header_byte
  dsimp only
  split <;> rfl

/-- The step `object_header_byte` leaves `current_offset` alone. -/
@[simp] theorem object_header_byte_current_offset {E : Env} (p : git_packfile_parser_t E) (c : Byte) :
    (object_header_byte p c).current_offset = p.current_offset := by
  unfold object_header_byte
  dsimp only
  split <;> rfl

/-- The step `object_header_byte` leaves `current_base` alone. -/
@[simp] theorem object_header_byte_current_base {E : Env} (p : git_packfile_parser_t E) (c : Byte) :
    (object_header_byte p c).current_base = p.current_base := by
  unfold object_header_byte
  dsimp only
  split <;> rfl

/-- The step `object_header_byte` leaves `current_base_len` alone. -/
@[simp] theorem object_header_byte_current_base_len {E : Env} (p : git_packfile_parser_t E) (c : Byte) :
    (object_header_byte p c).current_base_len = p.current_base_len := by
  unfold object_header_byte
  dsimp only
  split <;> rfl

/-- The step `object_header_byte` leaves `trailer` alone. -/
@[simp] theorem object_header_byte_trailer {E : Env} (p : git_packfile_parser_t E) (c : Byte) :
    (object_header_byte p c).trailer = p.trailer := by
  unfold object_header_byte
  dsimp only
  split <;> rfl

/-- The step `object_header_byte` leaves `trailer_len` alone. -/
@[simp] theorem object_header_byte_trailer_len {E : Env} (p : git_packfile_parser_t E) (c : Byte) :
    (object_header_byte p c).trailer_len = p.trailer_len := by
  unfold object_header_byte
  dsimp only
  split <;> rfl

/-- The step `object_header_byte` leaves `packfile_hash` alone. -/
@[simp] theorem object_header_byte_packfile_hash {E : Env} (p : git_packfile_parser_t E) (c : Byte) :
    (object_header_byte p c).packfile_hash = p.packfile_hash := by
  unfold object_header_byte
  dsimp only
  split <;> rfl

/-- The step `object_header_byte` leaves `trace` alone. -/
@[simp] theorem object_header_byte_trace {E : Env} (p : git_packfile_parser_t E) (c : Byte) :
    (object_header_byte p c).trace = p.trace := by
  unfold object_header_byte
  dsimp only
  split <;> rfl

/-- The step `object_header_byte` leaves the entry count of the header alone. -/
@[simp] theorem object_header_byte_hdr_entries {E : Env} (p : git_packfile_parser_t E) (c : Byte) :
    hdr_entries (object_header_byte p c) = hdr_entries p := by
  simp [hdr_entries]

/-- The step `begin_delta_header` leaves `position` alone. -/
@[simp] theorem begin_delta_header_position {E : Env} (p : git_packfile_parser_t E) :
    (begin_delta_header p).position = p.position := by
  rfl

/-- The step `begin_delta_header` leaves `header` alone. -/
@[simp] theorem begin_delta_header_header {E : Env} (p : git_packfile_parser_t E) :
    (begin_delta_header p).header = p.header := by
  rfl

/-- The step `begin_delta_header` leaves `header_len` alone. -/
@[simp] theorem begin_delta_header_header_len {E : Env} (p : git_packfile_parser_t E) :
    (begin_delta_header p).header_len = p.header_len := by
  rfl

/-- The step `begin_delta_header` leaves `current_idx` alone. -/
@[simp] theorem begin_delta_header_current_idx {E : Env} (p : git_packfile_parser_t E) :
    (begin_delta_header p).current_idx = p.current_idx := by
  rfl

/-- The step `begin_delta_header` leaves `current_position` alone. -/
@[simp] theorem begin_delta_header_current_position {E : Env} (p : git_packfile_parser_t E) :
    (begin_delta_header p).current_position = p.current_position := by
  rfl

/-- The step `begin_delta_header` leaves `current_type` alone. -/
@[simp] theorem begin_delta_header_current_type {E : Env} (p : git_packfile_parser_t E) :
    (begin_delta_header p).current_type = p.current_type := by
  rfl

/-- The step `begin_delta_header` leaves `current_size` alone. -/
@[simp] theorem begin_delta_header_current_size {E : Env} (p : git_packfile_parser_t E) :
    (begin_delta_header p).current_size = p.current_size := by
  rfl

/-- The step `begin_delta_header` leaves `current_compressed_size` alone. -/
@[simp] theorem begin_delta_header_current_compressed_size {E : Env} (p : git_packfile_parser_t E) :
    (begin_delta_header p).current_compressed_size = p.current_compressed_size := by
  rfl

/-- The step `begin_delta_header` leaves `current_compressed_crc` alone. -/
@[simp] theorem begin_delta_header_current_compressed_crc {E : Env} (p : git_packfile_parser_t E) :
    (begin_delta_header p).current_compressed_crc = p.current_compressed_crc := by
  rfl

/-- The step `begin_delta_header` leaves `current_hash` alone. -/
@[simp] theorem begin_delta_header_current_hash {E : Env} (p : git_packfile_parser_t E) :
    (begin_delta_header p).current_hash = p.current_hash := by
  rfl

/-- The step `begin_delta_header` leaves `zstream` alone. -/
@[simp] theorem begin_delta_header_zstream {E : Env} (p : git_packfile_parser_t E) :
    (begin_delta_header p).zstream = p.zstream := by
  rfl

/-- The step `begin_delta_header` leaves `trailer` alone. -/
@[simp] theorem begin_delta_header_trailer {E : Env} (p : git_packfile_parser_t E) :
    (begin_delta_header p).trailer = p.trailer := by
  rfl

/-- The step `begin_delta_header` leaves `trailer_len` alone. -/
@[simp] theorem begin_delta_header_trailer_len {E : Env} (p : git_packfile_parser_t E) :
    (begin_delta_header p).trailer_len = p.trailer_len := by
  rfl

/-- The step `begin_delta_header` leaves `packfile_hash` alone. -/
@[simp] theorem begin_delta_header_packfile_hash {E : Env} (p : git_packfile_parser_t E) :
    (begin_delta_header p).packfile_hash = p.packfile_hash := by
  rfl

/-- The step `begin_delta_header` leaves `trace` alone. -/
@[simp] theorem begin_delta_header_trace {E : Env} (p : git_packfile_parser_t E) :
    (begin_delta_header p).trace = p.trace := by
  rfl

/-- The step `begin_delta_header` leaves the entry count of the header alone. -/
@[simp] theorem begin_delta_header_hdr_entries {E : Env} (p : git_packfile_parser_t E) :
    hdr_entries (begin_delta_header p) = hdr_entries p := by
  simp [hdr_entries]

/-- The step `seed_object_hash` leaves `state` alone. -/
@[simp] theorem seed_object_hash_state {E : Env} (p : git_packfile_parser_t E) :
    (seed_object_hash p).state = p.state := by
  rfl

/-- The step `seed_object_hash` leaves `position` alone. -/
@[simp] theorem seed_object_hash_position {E : Env} (p : git_packfile_parser_t E) :
    (seed_object_hash p).position = p.position := by
  rfl

/-- The step `seed_object_hash` leaves `header` alone. -/
@[simp] theorem seed_object_hash_header {E : Env} (p : git_packfile_parser_t E) :
    (seed_object_hash p).header = p.header := by
  rfl

/-- The step `seed_object_hash` leaves `header_len` alone. -/
@[simp] theorem seed_object_hash_header_len {E : Env} (p : git_packfile_parser_t E) :
    (seed_object_hash p).header_len = p.header_len := by
  rfl

/-- The step `seed_object_hash` leaves `current_idx` alone. -/
@[simp] theorem seed_object_hash_current_idx {E : Env} (p : git_packfile_parser_t E) :
    (seed_object_hash p).current_idx = p.current_idx := by
  rfl

/-- The step `seed_object_hash` leaves `current_position` alone. -/
@[simp] theorem seed_object_hash_current_position {E : Env} (p : git_packfile_parser_t E) :
    (seed_object_hash p).current_position = p.current_position := by
  rfl

/-- The step `seed_object_hash` leaves `current_type` alone. -/
@[simp] theorem seed_object_hash_current_type {E : Env} (p : git_packfile_parser_t E) :
    (seed_object_hash p).current_type = p.current_type := by
  rfl

/-- The step `seed_object_hash` leaves `current_size` alone. -/
@[simp] theorem seed_object_hash_current_size {E : Env} (p : git_packfile_parser_t E) :
    (seed_object_hash p).current_size = p.current_size := by
  rfl

/-- The step `seed_object_hash` leaves `current_compressed_size` alone. -/
@[simp] theorem seed_object_hash_current_compressed_size {E : Env} (p : git_packfile_parser_t E) :
    (seed_object_hash p).current_compressed_size = p.current_compressed_size := by
  rfl

/-- The step `seed_object_hash` leaves `current_compressed_crc` alone. -/
@[simp] theorem seed_object_hash_current_compressed_crc {E : Env} (p : git_packfile_parser_t E) :
    (seed_object_hash p).current_compressed_crc = p.current_compressed_crc := by
  rfl

/-- The step `seed_object_hash` leaves `current_bits` alone. -/
@[simp] theorem seed_object_hash_current_bits {E : Env} (p : git_packfile_parser_t E) :
    (seed_object_hash p).current_bits = p.current_bits := by
  rfl

/-- The step `seed_object_hash` leaves `zstream` alone. -/
@[simp] theorem seed_object_hash_zstream {E : Env} (p : git_packfile_parser_t E) :
    (seed_object_hash p).zstream = p.zstream := by
  rfl

/-- The step `seed_object_hash` leaves `current_offset` alone. -/
@[simp] theorem seed_object_hash_current_offset {E : Env} (p : git_packfile_parser_t E) :
    (seed_object_hash p).current_offset = p.current_offset := by
  rfl

/-- The step `seed_object_hash` leaves `current_base` alone. -/
@[simp] theorem seed_object_hash_current_base {E : Env} (p : git_packfile_parser_t E) :
    (seed_object_hash p).current_base = p.current_base := by
  rfl

/-- The step `seed_object_hash` leaves `current_base_len` alone. -/
@[simp] theorem seed_object_hash_current_base_len {E : Env} (p : git_packfile_parser_t E) :
    (seed_object_hash p).current_base_len = p.current_base_len := by
  rfl

/-- The step `seed_object_hash` leaves `trailer` alone. -/
@[simp] theorem seed_object_hash_trailer {E : Env} (p : git_packfile_parser_t E) :
    (seed_object_hash p).trailer = p.trailer := by
  rfl

/-- The step `seed_object_hash` leaves `trailer_len` alone. -/
@[simp] theorem seed_object_hash_trailer_len {E : Env} (p : git_packfile_parser_t E) :
    (seed_object_hash p).trailer_len = p.trailer_len := by
  rfl

/-- The step `seed_object_hash` leaves `packfile_hash` alone. -/
@[simp] theorem seed_object_hash_packfile_hash {E : Env} (p : git_packfile_parser_t E) :
    (seed_object_hash p).packfile_hash = p.packfile_hash := by
  rfl

/-- The step `seed_object_hash` leaves `trace` alone. -/
@[simp] theorem seed_object_hash_trace {E : Env} (p : git_packfile_parser_t E) :
    (seed_object_hash p).trace = p.trace := by
  rfl

/-- The step `seed_object_hash` leaves the entry count of the header alone. -/
@[simp] theorem seed_object_hash_hdr_entries {E : Env} (p : git_packfile_parser_t E) :
    hdr_entries (seed_object_hash p) = hdr_entries p := by
  simp [hdr_entries]

/-- The step `offer_input` leaves `position` alone. -/
@[simp] theorem offer_input_position {E : Env} (s1 s2 : parser_state) (p : git_packfile_parser_t E) (data : List Byte) :
    (offer_input s1 s2 p data).position = p.position := by
  unfold offer_input
  dsimp only
  split <;> rfl

/-- The step `offer_input` leaves `header` alone. -/
@[simp] theorem offer_input_header {E : Env} (s1 s2 : parser_state) (p : git_packfile_parser_t E) (data : List Byte) :
    (offer_input s1 s2 p data).header = p.header := by
  unfold offer_input
  dsimp only
  split <;> rfl

/-- The step `offer_input` leaves `header_len` alone. -/
@[simp] theorem offer_input_header_len {E : Env} (s1 s2 : parser_state) (p : git_packfile_parser_t E) (data : List Byte) :
    (offer_input s1 s2 p data).header_len = p.header_len := by
  unfold offer_input
  dsimp only
  split <;> rfl

/-- The step `offer_input` leaves `current_idx` alone. -/
@[simp] theorem offer_input_current_idx {E : Env} (s1 s2 : parser_state) (p : git_packfile_parser_t E) (data : List Byte) :
    (offer_input s1 s2 p data).current_idx = p.current_idx := by
  unfold offer_input
  dsimp only
  split <;> rfl

/-- The step `offer_input` leaves `current_position` alone. -/
@[simp] theorem offer_input_current_position {E : Env} (s1 s2 : parser_state) (p : git_packfile_parser_t E) (data : List Byte) :
    (offer_input s1 s2 p data).current_position = p.current_position := by
  unfold offer_input
  dsimp only
  split <;> rfl

/-- The step `offer_input` leaves `current_type` alone. -/
@[simp] theorem offer_input_current_type {E : Env} (s1 s2 : parser_state) (p : git_packfile_parser_t E) (data : List Byte) :
    (offer_input s1 s2 p data).current_type = p.current_type := by
  unfold offer_input
  dsimp only
  split <;> rfl

/-- The step `offer_input` leaves `current_size` alone. -/
@[simp] theorem offer_input_current_size {E : Env} (s1 s2 : parser_state) (p : git_packfile_parser_t E) (data : List Byte) :
    (offer_input s1 s2 p data).current_size = p.current_size := by
  unfold offer_input
  dsimp only
  split <;> rfl

/-- The step `offer_input` leaves `current_compressed_size` alone. -/
@[simp] theorem offer_input_current_compressed_size {E : Env} (s1 s2 : parser_state) (p : git_packfile_parser_t E) (data : List Byte) :
    (offer_input s1 s2 p data).current_compressed_size = p.current_compressed_size := by
  unfold offer_input
  dsimp only
  split <;> rfl

/-- The step `offer_input` leaves `current_compressed_crc` alone. -/
@[simp] theorem offer_input_current_compressed_crc {E : Env} (s1 s2 : parser_state) (p : git_packfile_parser_t E) (data : List Byte) :
    (offer_input s1 s2 p data).current_compressed_crc = p.current_compressed_crc := by
  unfold offer_input
  dsimp only
  split <;> rfl

/-- The step `offer_input` leaves `current_bits` alone. -/
@[simp] theorem offer_input_current_bits {E : Env} (s1 s2 : parser_state) (p : git_packfile_parser_t E) (data : List Byte) :
    (offer_input s1 s2 p data).current_bits = p.current_bits := by
  unfold offer_input
  dsimp only
  split <;> rfl

/-- The step `offer_input` leaves `current_hash` alone. -/
@[simp] theorem offer_input_current_hash {E : Env} (s1 s2 : parser_state) (p : git_packfile_parser_t E) (data : List Byte) :
    (offer_input s1 s2 p data).current_hash = p.current_hash := by
  unfold offer_input
  dsimp only
  split <;> rfl

/-- The step `offer_input` leaves `current_offset` alone. -/
@[simp] theorem offer_input_current_offset {E : Env} (s1 s2 : parser_state) (p : git_packfile_parser_t E) (data : List Byte) :
    (offer_input s1 s2 p data).current_offset = p.current_offset := by
  unfold offer_input
  dsimp only
  split <;> rfl

/-- The step `offer_input` leaves `current_base` alone. -/
@[simp] theorem offer_input_current_base {E : Env} (s1 s2 : parser_state) (p : git_packfile_parser_t E) (data : List Byte) :
    (offer_input s1 s2 p data).current_base = p.current_base := by
  unfold offer_input
  dsimp only
  split <;> rfl

/-- The step `offer_input` leaves `current_base_len` alone. -/
@[simp] theorem offer_input_current_base_len {E : Env} (s1 s2 : parser_state) (p : git_packfile_parser_t E) (data : List Byte) :
    (offer_input s1 s2 p data).current_base_len = p.current_base_len := by
  unfold offer_input
  dsimp only
  split <;> rfl

/-- The step `offer_input` leaves `trailer` alone. -/
@[simp] theorem offer_input_trailer {E : Env} (s1 s2 : parser_state) (p : git_packfile_parser_t E) (data : List Byte) :
    (offer_input s1 s2 p data).trailer = p.trailer := by
  unfold offer_input
  dsimp only
  split <;> rfl

/-- The step `offer_input` leaves `trailer_len` alone. -/
@[simp] theorem offer_input_trailer_len {E : Env} (s1 s2 : parser_state) (p : git_packfile_parser_t E) (data : List Byte) :
    (offer_input s1 s2 p data).trailer_len = p.trailer_len := by
  unfold offer_input
  dsimp only
  split <;> rfl

/-- The step `offer_input` leaves `packfile_hash` alone. -/
@[simp] theorem offer_input_packfile_hash {E : Env} (s1 s2 : parser_state) (p : git_packfile_parser_t E) (data : List Byte) :
    (offer_input s1 s2 p data).packfile_hash = p.packfile_hash := by
  unfold offer_input
  dsimp only
  split <;> rfl

/-- The step `offer_input` leaves `trace` alone. -/
@[simp] theorem offer_input_trace {E : Env} (s1 s2 : parser_state) (p : git_packfile_parser_t E) (data : List Byte) :
    (offer_input s1 s2 p data).trace = p.trace := by
  unfold offer_input
  dsimp only
  split <;> rfl

/-- The step `offer_input` leaves the entry count of the header alone. -/
@[simp] theorem offer_input_hdr_entries {E : Env} (s1 s2 : parser_state) (p : git_packfile_parser_t E) (data : List Byte) :
    hdr_entries (offer_input s1 s2 p data) = hdr_entries p := by
  simp [hdr_entries]

/-- The step `account_input` leaves `state` alone. -/
@[simp] theorem account_input_state {E : Env} (p : git_packfile_parser_t E) (data : List Byte) :
    (account_input p data).state = p.state := by
  rfl

/-- The step `account_input` leaves `position` alone. -/
@[simp] theorem account_input_position {E : Env} (p : git_packfile_parser_t E) (data : List Byte) :
    (account_input p data).position = p.position := by
  rfl

/-- The step `account_input` leaves `header` alone. -/
@[simp] theorem account_input_header {E : Env} (p : git_packfile_parser_t E) (data : List Byte) :
    (account_input p data).header = p.header := by
  rfl

/-- The step `account_input` leaves `header_len` alone. -/
@[simp] theorem account_input_header_len {E : Env} (p : git_packfile_parser_t E) (data : List Byte) :
    (account_input p data).header_len = p.header_len := by
  rfl

/-- The step `account_input` leaves `current_idx` alone. -/
@[simp] theorem account_input_current_idx {E : Env} (p : git_packfile_parser_t E) (data : List Byte) :
    (account_input p data).current_idx = p.current_idx := by
  rfl

/-- The step `account_input` leaves `current_position` alone. -/
@[simp] theorem account_input_current_position {E : Env} (p : git_packfile_parser_t E) (data : List Byte) :
    (account_input p data).current_position = p.current_position := by
  rfl

/-- The step `account_input` leaves `current_type` alone. -/
@[simp] theorem account_input_current_type {E : Env} (p : git_packfile_parser_t E) (data : List Byte) :
    (account_input p data).current_type = p.current_type := by
  rfl

/-- The step `account_input` leaves `current_size` alone. -/
@[simp] theorem account_input_current_size {E : Env} (p : git_packfile_parser_t E) (data : List Byte) :
    (account_input p data).current_size = p.current_size := by
  rfl

/-- The step `account_input` leaves `current_bits` alone. -/
@[simp] theorem account_input_current_bits {E : Env} (p : git_packfile_parser_t E) (data : List Byte) :
    (account_input p data).current_bits = p.current_bits := by
  rfl

/-- The step `account_input` leaves `current_hash` alone. -/
@[simp] theorem account_input_current_hash {E : Env} (p : git_packfile_parser_t E) (data : List Byte) :
    (account_input p data).current_hash = p.current_hash := by
  rfl

/-- The step `account_input` leaves `zstream` alone. -/
@[simp] theorem account_input_zstream {E : Env} (p : git_packfile_parser_t E) (data : List Byte) :
    (account_input p data).zstream = p.zstream := by
  rfl

/-- The step `account_input` leaves `current_offset` alone. -/
@[simp] theorem account_input_current_offset {E : Env} (p : git_packfile_parser_t E) (data : List Byte) :
    (account_input p data).current_offset = p.current_offset := by
  rfl

/-- The step `account_input` leaves `current_base` alone. -/
@[simp] theorem account_input_current_base {E : Env} (p : git_packfile_parser_t E) (data : List Byte) :
    (account_input p data).current_base = p.current_base := by
  rfl

/-- The step `account_input` leaves `current_base_len` alone. -/
@[simp] theorem account_input_current_base_len {E : Env} (p : git_packfile_parser_t E) (data : List Byte) :
    (account_input p data).current_base_len = p.current_base_len := by
  rfl

/-- The step `account_input` leaves `trailer` alone. -/
@[simp] theorem account_input_trailer {E : Env} (p : git_packfile_parser_t E) (data : List Byte) :
    (account_input p data).trailer = p.trailer := by
  rfl

/-- The step `account_input` leaves `trailer_len` alone. -/
@[simp] theorem account_input_trailer_len {E : Env} (p : git_packfile_parser_t E) (data : List Byte) :
    (account_input p data).trailer_len = p.trailer_len := by
  rfl

/-- The step `account_input` leaves `packfile_hash` alone. -/
@[simp] theorem account_input_packfile_hash {E : Env} (p : git_packfile_parser_t E) (data : List Byte) :
    (account_input p data).packfile_hash = p.packfile_hash := by
  rfl

/-- The step `account_input` leaves `trace` alone. -/
@[simp] theorem account_input_trace {E : Env} (p : git_packfile_parser_t E) (data : List Byte) :
    (account_input p data).trace = p.trace := by
  rfl

/-- The step `account_input` leaves the entry count of the header alone. -/
@[simp] theorem account_input_hdr_entries {E : Env} (p : git_packfile_parser_t E) (data : List Byte) :
    hdr_entries (account_input p data) = hdr_entries p := by
  simp [hdr_entries]

/-- The step `next_entry` leaves `position` alone. -/
@[simp] theorem next_entry_position {E : Env} (p : git_packfile_parser_t E) :
    (next_entry p).position = p.position := by
  rfl

/-- The step `next_entry` leaves `header` alone. -/
@[simp] theorem next_entry_header {E : Env} (p : git_packfile_parser_t E) :
    (next_entry p).header = p.header := by
  rfl

/-- The step `next_entry` leaves `header_len` alone. -/
@[simp] theorem next_entry_header_len {E : Env} (p : git_packfile_parser_t E) :
    (next_entry p).header_len = p.header_len := by
  rfl

/-- The step `next_entry` leaves `current_position` alone. -/
@[simp] theorem next_entry_current_position {E : Env} (p : git_packfile_parser_t E) :
    (next_entry p).current_position = p.current_position := by
  rfl

/-- The step `next_entry` leaves `current_type` alone. -/
@[simp] theorem next_entry_current_type {E : Env} (p : git_packfile_parser_t E) :
    (next_entry p).current_type = p.current_type := by
  rfl

/-- The step `next_entry` leaves `current_size` alone. -/
@[simp] theorem next_entry_current_size {E : Env} (p : git_packfile_parser_t E) :
    (next_entry p).current_size = p.current_size := by
  rfl

/-- The step `next_entry` leaves `current_compressed_size` alone. -/
@[simp] theorem next_entry_current_compressed_size {E : Env} (p : git_packfile_parser_t E) :
    (next_entry p).current_compressed_size = p.current_compressed_size := by
  rfl

/-- The step `next_entry` leaves `current_compressed_crc` alone. -/
@[simp] theorem next_entry_current_compressed_crc {E : Env} (p : git_packfile_parser_t E) :
    (next_entry p).current_compressed_crc = p.current_compressed_crc := by
  rfl

/-- The step `next_entry` leaves `current_bits` alone. -/
@[simp] theorem next_entry_current_bits {E : Env} (p : git_packfile_parser_t E) :
    (next_entry p).current_bits = p.current_bits := by
  rfl

/-- The step `next_entry` leaves `current_hash` alone. -/
@[simp] theorem next_entry_current_hash {E : Env} (p : git_packfile_parser_t E) :
    (next_entry p).current_hash = p.current_hash := by
  rfl

/-- The step `next_entry` leaves `zstream` alone. -/
@[simp] theorem next_entry_zstream {E : Env} (p : git_packfile_parser_t E) :
    (next_entry p).zstream = p.zstream := by
  rfl

/-- The step `next_entry` leaves `current_offset` alone. -/
@[simp] theorem next_entry_current_offset {E : Env} (p : git_packfile_parser_t E) :
    (next_entry p).current_offset = p.current_offset := by
  rfl

/-- The step `next_entry` leaves `current_base` alone. -/
@[simp] theorem next_entry_current_base {E : Env} (p : git_packfile_parser_t E) :
    (next_entry p).current_base = p.current_base := by
  rfl

/-- The step `next_entry` leaves `current_base_len` alone. -/
@[simp] theorem next_entry_current_base_len {E : Env} (p : git_packfile_parser_t E) :
    (next_entry p).current_base_len = p.current_base_len := by
  rfl

/-- The step `next_entry` leaves `trailer` alone. -/
@[simp] theorem next_entry_trailer {E : Env} (p : git_packfile_parser_t E) :
    (next_entry p).trailer = p.trailer := by
  rfl

/-- The step `next_entry` leaves `trailer_len` alone. -/
@[simp] theorem next_entry_trailer_len {E : Env} (p : git_packfile_parser_t E) :
    (next_entry p).trailer_len = p.trailer_len := by
  rfl

/-- The step `next_entry` leaves `packfile_hash` alone. -/
@[simp] theorem next_entry_packfile_hash {E : Env} (p : git_packfile_parser_t E) :
    (next_entry p).packfile_hash = p.packfile_hash := by
  rfl

/-- The step `next_entry` leaves `trace` alone. -/
@[simp] theorem next_entry_trace {E : Env} (p : git_packfile_parser_t E) :
    (next_entry p).trace = p.trace := by
  rfl

/-- The step `next_entry` leaves the entry count of the header alone. -/
@[simp] theorem next_entry_hdr_entries {E : Env} (p : git_packfile_parser_t E) :
    hdr_entries (next_entry p) = hdr_entries p := by
  simp [hdr_entries]

/-- The step `ofs_delta_byte` leaves `state` alone. -/
@[simp] theorem ofs_delta_byte_state {E : Env} (p : git_packfile_parser_t E) (c : Byte) :
    (ofs_delta_byte p c).state = p.state := by
  rfl

/-- The step `ofs_delta_byte` leaves `position` alone. -/
@[simp] theorem ofs_delta_byte_position {E : Env} (p : git_packfile_parser_t E) (c : Byte) :
    (ofs_delta_byte p c).position = p.position := by
  rfl

/-- The step `ofs_delta_byte` leaves `header` alone. -/
@[simp] theorem ofs_delta_byte_header {E : Env} (p : git_packfile_parser_t E) (c : Byte) :
    (ofs_delta_byte p c).header = p.header := by
  rfl

/-- The step `ofs_delta_byte` leaves `header_len` alone. -/
@[simp] theorem ofs_delta_byte_header_len {E : Env} (p : git_packfile_parser_t E) (c : Byte) :
    (ofs_delta_byte p c).header_len = p.header_len := by
  rfl

/-- The step `ofs_delta_byte` leaves `current_idx` alone. -/
@[simp] theorem ofs_delta_byte_current_idx {E : Env} (p : git_packfile_parser_t E) (c : Byte) :
    (ofs_delta_byte p c).current_idx = p.current_idx := by
  rfl

/-- The step `ofs_delta_byte` leaves `current_position` alone. -/
@[simp] theorem ofs_delta_byte_current_position {E : Env} (p : git_packfile_parser_t E) (c : Byte) :
    (ofs_delta_byte p c).current_position = p.current_position := by
  rfl

/-- The step `ofs_delta_byte` leaves `current_type` alone. -/
@[simp] theorem ofs_delta_byte_current_type {E : Env} (p : git_packfile_parser_t E) (c : Byte) :
    (ofs_delta_byte p c).current_type = p.current_type := by
  rfl

/-- The step `ofs_delta_byte` leaves `current_size` alone. -/
@[simp] theorem ofs_delta_byte_current_size {E : Env} (p : git_packfile_parser_t E) (c : Byte) :
    (ofs_delta_byte p c).current_size = p.current_size := by
  rfl

/-- The step `ofs_delta_byte` leaves `current_hash` alone. -/
@[simp] theorem ofs_delta_byte_current_hash {E : Env} (p : git_packfile_parser_t E) (c : Byte) :
    (ofs_delta_byte p c).current_hash = p.current_hash := by
  rfl

/-- The step `ofs_delta_byte` leaves `zstream` alone. -/
@[simp] theorem ofs_delta_byte_zstream {E : Env} (p : git_packfile_parser_t E) (c : Byte) :
    (ofs_delta_byte p c).zstream = p.zstream := by
  rfl

/-- The step `ofs_delta_byte` leaves `current_base` alone. -/
@[simp] theorem ofs_delta_byte_current_base {E : Env} (p : git_packfile_parser_t E) (c : Byte) :
    (ofs_delta_byte p c).current_base = p.current_base := by
  rfl

/-- The step `ofs_delta_byte` leaves `current_base_len` alone. -/
@[simp] theorem ofs_delta_byte_current_base_len {E : Env} (p : git_packfile_parser_t E) (c : Byte) :
    (ofs_delta_byte p c).current_base_len = p.current_base_len := by
  rfl

/-- The step `ofs_delta_byte` leaves `trailer` alone. -/
@[simp] theorem ofs_delta_byte_trailer {E : Env} (p : git_packfile_parser_t E) (c : Byte) :
    (ofs_delta_byte p c).trailer = p.trailer := by
  rfl

/-- The step `ofs_delta_byte` leaves `trailer_len` alone. -/
@[simp] theorem ofs_delta_byte_trailer_len {E : Env} (p : git_packfile_parser_t E) (c : Byte) :
    (ofs_delta_byte p c).trailer_len = p.trailer_len := by
  rfl

/-- The step `ofs_delta_byte` leaves `packfile_hash` alone. -/
@[simp] theorem ofs_delta_byte_packfile_hash {E : Env} (p : git_packfile_parser_t E) (c : Byte) :
    (ofs_delta_byte p c).packfile_hash = p.packfile_hash := by
  rfl

/-- The step `ofs_delta_byte` leaves `trace` alone. -/
@[simp] theorem ofs_delta_byte_trace {E : Env} (p : git_packfile_parser_t E) (c : Byte) :
    (ofs_delta_byte p c).trace = p.trace := by
  rfl

/-- The step `ofs_delta_byte` leaves the entry count of the header alone. -/
@[simp] theorem ofs_delta_byte_hdr_entries {E : Env} (p : git_packfile_parser_t E) (c : Byte) :
    hdr_entries (ofs_delta_byte p c) = hdr_entries p := by
  simp [hdr_entries]

/-- The step `stage_base` leaves `state` alone. -/
@[simp] theorem stage_base_state {E : Env} (p : git_packfile_parser_t E) (data : List Byte) :
    (stage_base p data).state = p.state := by
  rfl

/-- The step `stage_base` leaves `position` alone. -/
@[simp] theorem stage_base_position {E : Env} (p : git_packfile_parser_t E) (data : List Byte) :
    (stage_base p data).position = p.position := by
  rfl

/-- The step `stage_base` leaves `header` alone. -/
@[simp] theorem stage_base_header {E : Env} (p : git_packfile_parser_t E) (data : List Byte) :
    (stage_base p data).header = p.header := by
  rfl

/-- The step `stage_base` leaves `header_len` alone. -/
@[simp] theorem stage_base_header_len {E : Env} (p : git_packfile_parser_t E) (data : List Byte) :
    (stage_base p data).header_len = p.header_len := by
  rfl

/-- The step `stage_base` leaves `current_idx` alone. -/
@[simp] theorem stage_base_current_idx {E : Env} (p : git_packfile_parser_t E) (data : List Byte) :
    (stage_base p data).current_idx = p.current_idx := by
  rfl

/-- The step `stage_base` leaves `current_position` alone. -/
@[simp] theorem stage_base_current_position {E : Env} (p : git_packfile_parser_t E) (data : List Byte) :
    (stage_base p data).current_position = p.current_position := by
  rfl

/-- The step `stage_base` leaves `current_type` alone. -/
@[simp] theorem stage_base_current_type {E : Env} (p : git_packfile_parser_t E) (data : List Byte) :
    (stage_base p data).current_type = p.current_type := by
  rfl

/-- The step `stage_base` leaves `current_size` alone. -/
@[simp] theorem stage_base_current_size {E : Env} (p : git_packfile_parser_t E) (data : List Byte) :
    (stage_base p data).current_size = p.current_size := by
  rfl

/-- The step `stage_base` leaves `current_bits` alone. -/
@[simp] theorem stage_base_current_bits {E : Env} (p : git_packfile_parser_t E) (data : List Byte) :
    (stage_base p data).current_bits = p.current_bits := by
  rfl

/-- The step `stage_base` leaves `current_hash` alone. -/
@[simp] theorem stage_base_current_hash {E : Env} (p : git_packfile_parser_t E) (data : List Byte) :
    (stage_base p data).current_hash = p.current_hash := by
  rfl

/-- The step `stage_base` leaves `zstream` alone. -/
@[simp] theorem stage_base_zstream {E : Env} (p : git_packfile_parser_t E) (data : List Byte) :
    (stage_base p data).zstream = p.zstream := by
  rfl

/-- The step `stage_base` leaves `current_offset` alone. -/
@[simp] theorem stage_base_current_offset {E : Env} (p : git_packfile_parser_t E) (data : List Byte) :
    (stage_base p data).current_offset = p.current_offset := by
  rfl

/-- The step `stage_base` leaves `trailer` alone. -/
@[simp] theorem stage_base_trailer {E : Env} (p : git_packfile_parser_t E) (data : List Byte) :
    (stage_base p data).trailer = p.trailer := by
  rfl

/-- The step `stage_base` leaves `trailer_len` alone. -/
@[simp] theorem stage_base_trailer_len {E : Env} (p : git_packfile_parser_t E) (data : List Byte) :
    (stage_base p data).trailer_len = p.trailer_len := by
  rfl

/-- The step `stage_base` leaves `packfile_hash` alone. -/
@[simp] theorem stage_base_packfile_hash {E : Env} (p : git_packfile_parser_t E) (data : List Byte) :
    (stage_base p data).packfile_hash = p.packfile_hash := by
  rfl

/-- The step `stage_base` leaves `trace` alone. -/
@[simp] theorem stage_base_trace {E : Env} (p : git_packfile_parser_t E) (data : List Byte) :
    (stage_base p data).trace = p.trace := by
  rfl

/-- The step `stage_base` leaves the entry count of the header alone. -/
@[simp] theorem stage_base_hdr_entries {E : Env} (p : git_packfile_parser_t E) (data : List Byte) :
    hdr_entries (stage_base p data) = hdr_entries p := by
  simp [hdr_entries]

/-- The step `stage_trailer` leaves `state` alone. -/
@[simp] theorem stage_trailer_state {E : Env} (p : git_packfile_parser_t E) (data : List Byte) :
    (stage_trailer p data).state = p.state := by
  rfl

/-- The step `stage_trailer` leaves `position` alone. -/
@[simp] theorem stage_trailer_position {E : Env} (p : git_packfile_parser_t E) (data : List Byte) :
    (stage_trailer p data).position = p.position := by
  rfl

/-- The step `stage_trailer` leaves `header` alone. -/
@[simp] theorem stage_trailer_header {E : Env} (p : git_packfile_parser_t E) (data : List Byte) :
    (stage_trailer p data).header = p.header := by
  rfl

/-- The step `stage_trailer` leaves `header_len` alone. -/
@[simp] theorem stage_trailer_header_len {E : Env} (p : git_packfile_parser_t E) (data : List Byte) :
    (stage_trailer p data).header_len = p.header_len := by
  rfl

/-- The step `stage_trailer` leaves `current_idx` alone. -/
@[simp] theorem stage_trailer_current_idx {E : Env} (p : git_packfile_parser_t E) (data : List Byte) :
    (stage_trailer p data).current_idx = p.current_idx := by
  rfl

/-- The step `stage_trailer` leaves `current_position` alone. -/
@[simp] theorem stage_trailer_current_position {E : Env} (p : git_packfile_parser_t E) (data : List Byte) :
    (stage_trailer p data).current_position = p.current_position := by
  rfl

/-- The step `stage_trailer` leaves `current_type` alone. -/
@[simp] theorem stage_trailer_current_type {E : Env} (p : git_packfile_parser_t E) (data : List Byte) :
    (stage_trailer p data).current_type = p.current_type := by
  rfl

/-- The step `stage_trailer` leaves `current_size` alone. -/
@[simp] theorem stage_trailer_current_size {E : Env} (p : git_packfile_parser_t E) (data : List Byte) :
    (stage_trailer p data).current_size = p.current_size := by
  rfl

/-- The step `stage_trailer` leaves `current_compressed_size` alone. -/
@[simp] theorem stage_trailer_current_compressed_size {E : Env} (p : git_packfile_parser_t E) (data : List Byte) :
    (stage_trailer p data).current_compressed_size = p.current_compressed_size := by
  rfl

/-- The step `stage_trailer` leaves `current_compressed_crc` alone. -/
@[simp] theorem stage_trailer_current_compressed_crc {E : Env} (p : git_packfile_parser_t E) (data : List Byte) :
    (stage_trailer p data).current_compressed_crc = p.current_compressed_crc := by
  rfl

/-- The step `stage_trailer` leaves `current_bits` alone. -/
@[simp] theorem stage_trailer_current_bits {E : Env} (p : git_packfile_parser_t E) (data : List Byte) :
    (stage_trailer p data).current_bits = p.current_bits := by
  rfl

/-- The step `stage_trailer` leaves `current_hash` alone. -/
@[simp] theorem stage_trailer_current_hash {E : Env} (p : git_packfile_parser_t E) (data : List Byte) :
    (stage_trailer p data).current_hash = p.current_hash := by
  rfl

/-- The step `stage_trailer` leaves `zstream` alone. -/
@[simp] theorem stage_trailer_zstream {E : Env} (p : git_packfile_parser_t E) (data : List Byte) :
    (stage_trailer p data).zstream = p.zstream := by
  rfl

/-- The step `stage_trailer` leaves `current_offset` alone. -/
@[simp] theorem stage_trailer_current_offset {E : Env} (p : git_packfile_parser_t E) (data : List Byte) :
    (stage_trailer p data).current_offset = p.current_offset := by
  rfl

/-- The step `stage_trailer` leaves `current_base` alone. -/
@[simp] theorem stage_trailer_current_base {E : Env} (p : git_packfile_parser_t E) (data : List Byte) :
    (stage_trailer p data).current_base = p.current_base := by
  rfl

/-- The step `stage_trailer` leaves `current_base_len` alone. -/
@[simp] theorem stage_trailer_current_base_len {E : Env} (p : git_packfile_parser_t E) (data : List Byte) :
    (stage_trailer p data).current_base_len = p.current_base_len := by
  rfl

/-- The step `stage_trailer` leaves `packfile_hash` alone. -/
@[simp] theorem stage_trailer_packfile_hash {E : Env} (p : git_packfile_parser_t E) (data : List Byte) :
    (stage_trailer p data).packfile_hash = p.packfile_hash := by
  rfl

/-- The step `stage_trailer` leaves `trace` alone. -/
@[simp] theorem stage_trailer_trace {E : Env} (p : git_packfile_parser_t E) (data : List Byte) :
    (stage_trailer p data).trace = p.trace := by
  rfl

/-- The step `stage_trailer` leaves the entry count of the header alone. -/
@[simp] theorem stage_trailer_hdr_entries {E : Env} (p : git_packfile_parser_t E) (data : List Byte) :
    hdr_entries (stage_trailer p data) = hdr_entries p := by
  simp [hdr_entries]

/-- The step `store_output` leaves `state` alone. -/
@[simp] theorem store_output_state {E : Env} (p : git_packfile_parser_t E) (zs : git_zstream E) (inflated : List Byte) :
    (store_output p zs inflated).state = p.state := by
  rfl

/-- The step `store_output` leaves `position` alone. -/
@[simp] theorem store_output_position {E : Env} (p : git_packfile_parser_t E) (zs : git_zstream E) (inflated : List Byte) :
    (store_output p zs inflated).position = p.position := by
  rfl

/-- The step `store_output` leaves `header` alone. -/
@[simp] theorem store_output_header {E : Env} (p : git_packfile_parser_t E) (zs : git_zstream E) (inflated : List Byte) :
    (store_output p zs inflated).header = p.header := by
  rfl

/-- The step `store_output` leaves `header_len` alone. -/
@[simp] theorem store_output_header_len {E : Env} (p : git_packfile_parser_t E) (zs : git_zstream E) (inflated : List Byte) :
    (store_output p zs inflated).header_len = p.header_len := by
  rfl

/-- The step `store_output` leaves `current_idx` alone. -/
@[simp] theorem store_output_current_idx {E : Env} (p : git_packfile_parser_t E) (zs : git_zstream E) (inflated : List Byte) :
    (store_output p zs inflated).current_idx = p.current_idx := by
  rfl

/-- The step `store_output` leaves `current_position` alone. -/
@[simp] theorem store_output_current_position {E : Env} (p : git_packfile_parser_t E) (zs : git_zstream E) (inflated : List Byte) :
    (store_output p zs inflated).current_position = p.current_position := by
  rfl

/-- The step `store_output` leaves `current_type` alone. -/
@[simp] theorem store_output_current_type {E : Env} (p : git_packfile_parser_t E) (zs : git_zstream E) (inflated : List Byte) :
    (store_output p zs inflated).current_type = p.current_type := by
  rfl

/-- The step `store_output` leaves `current_size` alone. -/
@[simp] theorem store_output_current_size {E : Env} (p : git_packfile_parser_t E) (zs : git_zstream E) (inflated : List Byte) :
    (store_output p zs inflated).current_size = p.current_size := by
  rfl

/-- The step `store_output` leaves `current_compressed_size` alone. -/
@[simp] theorem store_output_current_compressed_size {E : Env} (p : git_packfile_parser_t E) (zs : git_zstream E) (inflated : List Byte) :
    (store_output p zs inflated).current_compressed_size = p.current_compressed_size := by
  rfl

/-- The step `store_output` leaves `current_compressed_crc` alone. -/
@[simp] theorem store_output_current_compressed_crc {E : Env} (p : git_packfile_parser_t E) (zs : git_zstream E) (inflated : List Byte) :
    (store_output p zs inflated).current_compressed_crc = p.current_compressed_crc := by
  rfl

/-- The step `store_output` leaves `current_bits` alone. -/
@[simp] theorem store_output_current_bits {E : Env} (p : git_packfile_parser_t E) (zs : git_zstream E) (inflated : List Byte) :
    (store_output p zs inflated).current_bits = p.current_bits := by
  rfl

/-- The step `store_output` leaves `current_offset` alone. -/
@[simp] theorem store_output_current_offset {E : Env} (p : git_packfile_parser_t E) (zs : git_zstream E) (inflated : List Byte) :
    (store_output p zs inflated).current_offset = p.current_offset := by
  rfl

/-- The step `store_output` leaves `current_base` alone. -/
@[simp] theorem store_output_current_base {E : Env} (p : git_packfile_parser_t E) (zs : git_zstream E) (inflated : List Byte) :
    (store_output p zs inflated).current_base = p.current_base := by
  rfl

/-- The step `store_output` leaves `current_base_len` alone. -/
@[simp] theorem store_output_current_base_len {E : Env} (p : git_packfile_parser_t E) (zs : git_zstream E) (inflated : List Byte) :
    (store_output p zs inflated).current_base_len = p.current_base_len := by
  rfl

/-- The step `store_output` leaves `trailer` alone. -/
@[simp] theorem store_output_trailer {E : Env} (p : git_packfile_parser_t E) (zs : git_zstream E) (inflated : List Byte) :
    (store_output p zs inflated).trailer = p.trailer := by
  rfl

/-- The step `store_output` leaves `trailer_len` alone. -/
@[simp] theorem store_output_trailer_len {E : Env} (p : git_packfile_parser_t E) (zs : git_zstream E) (inflated : List Byte) :
    (store_output p zs inflated).trailer_len = p.trailer_len := by
  rfl

/-- The step `store_output` leaves `packfile_hash` alone. -/
@[simp] theorem store_output_packfile_hash {E : Env} (p : git_packfile_parser_t E) (zs : git_zstream E) (inflated : List Byte) :
    (store_output p zs inflated).packfile_hash = p.packfile_hash := by
  rfl

/-- The step `store_output` leaves `trace` alone. -/
@[simp] theorem store_output_trace {E : Env} (p : git_packfile_parser_t E) (zs : git_zstream E) (inflated : List Byte) :
    (store_output p zs inflated).trace = p.trace := by
  rfl

/-- The step `store_output` leaves the entry count of the header alone. -/
@[simp] theorem store_output_hdr_entries {E : Env} (p : git_packfile_parser_t E) (zs : git_zstream E) (inflated : List Byte) :
    hdr_entries (store_output p zs inflated) = hdr_entries p := by
  simp [hdr_entries]

/-- Decompressor state after the step `store_output`. -/
@[simp] theorem store_output_zstream {E : Env} (p : git_packfile_parser_t E) (zs : git_zstream E) (inflated : List Byte) :
    (store_output p zs inflated).zstream = zs := by
  rfl

/-- The step `store_zstream` leaves `state` alone. -/
@[simp] theorem store_zstream_state {E : Env} (p : git_packfile_parser_t E) (zs : git_zstream E) :
    (store_zstream p zs).state = p.state := by
  rfl

/-- The step `store_zstream` leaves `position` alone. -/
@[simp] theorem store_zstream_position {E : Env} (p : git_packfile_parser_t E) (zs : git_zstream E) :
    (store_zstream p zs).position = p.position := by
  rfl

/-- The step `store_zstream` leaves `header` alone. -/
@[simp] theorem store_zstream_header {E : Env} (p : git_packfile_parser_t E) (zs : git_zstream E) :
    (store_zstream p zs).header = p.header := by
  rfl

/-- The step `store_zstream` leaves `header_len` alone. -/
@[simp] theorem store_zstream_header_len {E : Env} (p : git_packfile_parser_t E) (zs : git_zstream E) :
    (store_zstream p zs).header_len = p.header_len := by
  rfl

/-- The step `store_zstream` leaves `current_idx` alone. -/
@[simp] theorem store_zstream_current_idx {E : Env} (p : git_packfile_parser_t E) (zs : git_zstream E) :
    (store_zstream p zs).current_idx = p.current_idx := by
  rfl

/-- The step `store_zstream` leaves `current_position` alone. -/
@[simp] theorem store_zstream_current_position {E : Env} (p : git_packfile_parser_t E) (zs : git_zstream E) :
    (store_zstream p zs).current_position = p.current_position := by
  rfl

/-- The step `store_zstream` leaves `current_type` alone. -/
@[simp] theorem store_zstream_current_type {E : Env} (p : git_packfile_parser_t E) (zs : git_zstream E) :
    (store_zstream p zs).current_type = p.current_type := by
  rfl

/-- The step `store_zstream` leaves `current_size` alone. -/
@[simp] theorem store_zstream_current_size {E : Env} (p : git_packfile_parser_t E) (zs : git_zstream E) :
    (store_zstream p zs).current_size = p.current_size := by
  rfl

/-- The step `store_zstream` leaves `current_compressed_size` alone. -/
@[simp] theorem store_zstream_current_compressed_size {E : Env} (p : git_packfile_parser_t E) (zs : git_zstream E) :
    (store_zstream p zs).current_compressed_size = p.current_compressed_size := by
  rfl

/-- The step `store_zstream` leaves `current_compressed_crc` alone. -/
@[simp] theorem store_zstream_current_compressed_crc {E : Env} (p : git_packfile_parser_t E) (zs : git_zstream E) :
    (store_zstream p zs).current_compressed_crc = p.current_compressed_crc := by
  rfl

/-- The step `store_zstream` leaves `current_bits` alone. -/
@[simp] theorem store_zstream_current_bits {E : Env} (p : git_packfile_parser_t E) (zs : git_zstream E) :
    (store_zstream p zs).current_bits = p.current_bits := by
  rfl

/-- The step `store_zstream` leaves `current_hash` alone. -/
@[simp] theorem store_zstream_current_hash {E : Env} (p : git_packfile_parser_t E) (zs : git_zstream E) :
    (store_zstream p zs).current_hash = p.current_hash := by
  rfl

/-- The step `store_zstream` leaves `current_offset` alone. -/
@[simp] theorem store_zstream_current_offset {E : Env} (p : git_packfile_parser_t E) (zs : git_zstream E) :
    (store_zstream p zs).current_offset = p.current_offset := by
  rfl

/-- The step `store_zstream` leaves `current_base` alone. -/
@[simp] theorem store_zstream_current_base {E : Env} (p : git_packfile_parser_t E) (zs : git_zstream E) :
    (store_zstream p zs).current_base = p.current_base := by
  rfl

/-- The step `store_zstream` leaves `current_base_len` alone. -/
@[simp] theorem store_zstream_current_base_len {E : Env} (p : git_packfile_parser_t E) (zs : git_zstream E) :
    (store_zstream p zs).current_base_len = p.current_base_len := by
  rfl

/-- The step `store_zstream` leaves `trailer` alone. -/
@[simp] theorem store_zstream_trailer {E : Env} (p : git_packfile_parser_t E) (zs : git_zstream E) :
    (store_zstream p zs).trailer = p.trailer := by
  rfl

/-- The step `store_zstream` leaves `trailer_len` alone. -/
@[simp] theorem store_zstream_trailer_len {E : Env} (p : git_packfile_parser_t E) (zs : git_zstream E) :
    (store_zstream p zs).trailer_len = p.trailer_len := by
  rfl

/-- The step `store_zstream` leaves `packfile_hash` alone. -/
@[simp] theorem store_zstream_packfile_hash {E : Env} (p : git_packfile_parser_t E) (zs : git_zstream E) :
    (store_zstream p zs).packfile_hash = p.packfile_hash := by
  rfl

/-- The step `store_zstream` leaves `trace` alone. -/
@[simp] theorem store_zstream_trace {E : Env} (p : git_packfile_parser_t E) (zs : git_zstream E) :
    (store_zstream p zs).trace = p.trace := by
  rfl

/-- The step `store_zstream` leaves the entry count of the header alone. -/
@[simp] theorem store_zstream_hdr_entries {E : Env} (p : git_packfile_parser_t E) (zs : git_zstream E) :
    hdr_entries (store_zstream p zs) = hdr_entries p := by
  simp [hdr_entries]

/-- Decompressor state after the step `store_zstream`. -/
@[simp] theorem store_zstream_zstream {E : Env} (p : git_packfile_parser_t E) (zs : git_zstream E) :
    (store_zstream p zs).zstream = zs := by
  rfl

/-! ## Fields changed by the steps of the sub-parsers -/

/-- State after the per-byte updates of the object header. -/
theorem object_header_byte_state {E : Env} (p : git_packfile_parser_t E) (c : Byte)
    (h : p.state = STATE_OBJECT_HEADER_START ∨ p.state = STATE_OBJECT_HEADER) :
    (object_header_byte p c).state = STATE_OBJECT_HEADER := by
  unfold object_header_byte
  rcases h with h | h <;> simp [h]

/-- Start offset of the entry after the per-byte updates of the object header. -/
theorem object_header_byte_current_position {E : Env} (p : git_packfile_parser_t E)
    (c : Byte) :
    (object_header_byte p c).current_position =
      if p.state = STATE_OBJECT_HEADER_START then p.position else p.current_position := by
  unfold object_header_byte
  dsimp only
  split <;> rfl

/-- Compressed size after the per-byte updates of the object header. -/
theorem object_header_byte_current_compressed_size {E : Env} (p : git_packfile_parser_t E)
    (c : Byte) :
    (object_header_byte p c).current_compressed_size =
      (if p.state = STATE_OBJECT_HEADER_START then 0 else p.current_compressed_size) + 1 := by
  unfold object_header_byte
  dsimp only
  split <;> simp

/-- CRC after the per-byte updates of the object header. -/
theorem object_header_byte_current_compressed_crc {E : Env} (p : git_packfile_parser_t E)
    (c : Byte) :
    (object_header_byte p c).current_compressed_crc =
      crc32 (if p.state = STATE_OBJECT_HEADER_START then 0 else p.current_compressed_crc)
        [c] := by
  unfold object_header_byte
  dsimp only
  split <;> simp [crc32_nil]

/-- State after the prefix of a delta entry. -/
@[simp] theorem begin_delta_header_state {E : Env} (p : git_packfile_parser_t E) :
    (begin_delta_header p).state = STATE_DELTA_HEADER := rfl

/-- State after a payload sub-parser has offered its input. -/
theorem offer_input_state {E : Env} (s1 s2 : parser_state) (p : git_packfile_parser_t E)
    (data : List Byte) :
    (offer_input s1 s2 p data).state = if p.state = s1 then s2 else p.state := by
  unfold offer_input
  dsimp only
  split <;> rfl

/-- Pending input after a payload sub-parser has offered its input. -/
@[simp] theorem offer_input_inp {E : Env} (s1 s2 : parser_state)
    (p : git_packfile_parser_t E) (data : List Byte) :
    (offer_input s1 s2 p data).zstream.inp = data := by
  unfold offer_input git_zstream_set_input
  rfl

/-- Compressed size after the accounting of the input used. -/
@[simp] theorem account_input_current_compressed_size {E : Env}
    (p : git_packfile_parser_t E) (data : List Byte) :
    (account_input p data).current_compressed_size =
      p.current_compressed_size + (data.length - p.zstream.inp.length) := rfl

/-- CRC after the accounting of the input used. -/
@[simp] theorem account_input_current_compressed_crc {E : Env}
    (p : git_packfile_parser_t E) (data : List Byte) :
    (account_input p data).current_compressed_crc =
      crc32 p.current_compressed_crc (data.take (data.length - p.zstream.inp.length)) := rfl

/-- Entry index after the end of an entry. -/
@[simp] theorem next_entry_current_idx {E : Env} (p : git_packfile_parser_t E) :
    (next_entry p).current_idx = p.current_idx + 1 := rfl

/-- State after the end of an entry. -/
theorem next_entry_state {E : Env} (p : git_packfile_parser_t E) :
    (next_entry p).state =
      if p.current_idx + 1 < hdr_entries p then STATE_OBJECT_HEADER_START
      else STATE_TRAILER := rfl

/-- Compressed size after one byte of an offset-delta base. -/
@[simp] theorem ofs_delta_byte_current_compressed_size {E : Env}
    (p : git_packfile_parser_t E) (c : Byte) :
    (ofs_delta_byte p c).current_compressed_size = p.current_compressed_size + 1 := rfl

/-- CRC after one byte of an offset-delta base. -/
@[simp] theorem ofs_delta_byte_current_compressed_crc {E : Env}
    (p : git_packfile_parser_t E) (c : Byte) :
    (ofs_delta_byte p c).current_compressed_crc = crc32 p.current_compressed_crc [c] := rfl

/-- Compressed size after staging base id bytes. -/
@[simp] theorem stage_base_current_compressed_size {E : Env}
    (p : git_packfile_parser_t E) (data : List Byte) :
    (stage_base p data).current_compressed_size =
      p.current_compressed_size + min E.hash_size data.length := rfl

/-- CRC after staging base id bytes. -/
@[simp] theorem stage_base_current_compressed_crc {E : Env}
    (p : git_packfile_parser_t E) (data : List Byte) :
    (stage_base p data).current_compressed_crc =
      crc32 p.current_compressed_crc (data.take (min E.hash_size data.length)) := rfl

/-- Staged trailer bytes after the staging step. -/
@[simp] theorem stage_trailer_trailer {E : Env} (p : git_packfile_parser_t E)
    (data : List Byte) :
    (stage_trailer p data).trailer =
      p.trailer ++ data.take (min E.hash_size data.length) := rfl

/-- Staged trailer length after the staging step. -/
@[simp] theorem stage_trailer_trailer_len {E : Env} (p : git_packfile_parser_t E)
    (data : List Byte) :
    (stage_trailer p data).trailer_len = p.trailer_len + min E.hash_size data.length := rfl

/-- Staged header bytes after the staging step. -/
@[simp] theorem stage_header_header {E : Env} (p : git_packfile_parser_t E)
    (data : List Byte) :
    (stage_header p data).header =
      p.header ++ data.take (min data.length (PACK_HEADER_SIZE - p.header_len)) := rfl

/-- Staged header length after the staging step. -/
@[simp] theorem stage_header_header_len {E : Env} (p : git_packfile_parser_t E)
    (data : List Byte) :
    (stage_header p data).header_len =
      p.header_len + min data.length (PACK_HEADER_SIZE - p.header_len) := rfl

/-- The parser after a callback site, as a trace update. -/
theorem invoke_snd {E : Env} (C : Consumer) (p : git_packfile_parser_t E) (e : Event) :
    (invoke C p e).2 = { p with trace := emit C p.trace e } := by
  unfold invoke emit
  by_cases h : C.present e.kind = true
  · simp [h]
  · simp [h]

/-- The trace after a callback site. -/
theorem invoke_trace_emit {E : Env} (C : Consumer) (p : git_packfile_parser_t E)
    (e : Event) : (invoke C p e).2.trace = emit C p.trace e := by
  rw [invoke_snd]

/-- A callback site that yields a non-zero value has appended its invocation. -/
theorem emit_of_ne_zero {E : Env} (C : Consumer) (p : git_packfile_parser_t E) (e : Event)
    (h : (invoke C p e).1 ≠ 0) :
    C.present e.kind = true ∧ emit C p.trace e = p.trace ++ [e] := by
  have hp : C.present e.kind = true := by
    by_contra hc
    apply h
    simp [invoke_fst, hc]
  exact ⟨hp, by simp [emit, hp]⟩

/-- Once the state is past the object header the loop of `parse_object_header`
stops at once. -/
theorem parse_object_header_loop_done {E : Env} (C : Consumer)
    (p : git_packfile_parser_t E) (rest : List Byte) (n : Nat)
    (h : ¬ p.state.toNat < STATE_OBJECT_DATA_START.toNat) :
    parse_object_header_loop C p rest n = (0, n, p) := by
  cases rest with
  | nil => rfl
  | cons c rest => simp [parse_object_header_loop, h]

/-! ## Summaries of the sub-parsers -/

/-- Summary of the loop of `parse_object_header` started in
`STATE_OBJECT_HEADER_START` (on a non-empty slice) or `STATE_OBJECT_HEADER`. -/
theorem parse_object_header_loop_summary {E : Env} (C : Consumer) :
    ∀ (rest : List Byte) (p : git_packfile_parser_t E) (n : Nat)
      (r : Int × Nat × git_packfile_parser_t E),
      parse_object_header_loop C p rest n = r →
      p.state = STATE_OBJECT_HEADER_START ∨ p.state = STATE_OBJECT_HEADER →
      (p.state = STATE_OBJECT_HEADER_START → rest ≠ []) →
      frame_eq p r.2.2 ∧
      r.2.2.current_position =
        (if p.state = STATE_OBJECT_HEADER_START then p.position else p.current_position) ∧
      (r.1 ≠ 0 →
        C.present Callback.object_start = true ∧
        ∃ cs ty sz, r.2.2.trace = p.trace ++
          [Event.object_start r.2.2.current_position cs ty sz]) ∧
      (r.1 = 0 →
        ∃ k, k ≤ rest.length ∧ (rest ≠ [] → 0 < k) ∧ r.2.1 = n + k ∧
          r.2.2.current_compressed_size =
            (if p.state = STATE_OBJECT_HEADER_START then 0 else p.current_compressed_size) + k ∧
          r.2.2.current_compressed_crc =
            crc32 (if p.state = STATE_OBJECT_HEADER_START then 0
                   else p.current_compressed_crc) (rest.take k) ∧
          ((r.2.2.state = STATE_OBJECT_HEADER ∧ k = rest.length ∧ r.2.2.trace = p.trace) ∨
           (r.2.2.state = STATE_DELTA_HEADER ∧ r.2.2.trace = p.trace) ∨
           (r.2.2.state = STATE_OBJECT_DATA_START ∧
              ∃ ty sz, r.2.2.trace = emit C p.trace
                (Event.object_start r.2.2.current_position r.2.2.current_compressed_size
                  ty sz)))) := by
  intro rest
  induction rest with
  | nil =>
    intro p n r hr hs hne
    have hOH : p.state = STATE_OBJECT_HEADER := by
      rcases hs with h | h
      · exact absurd rfl (hne h)
      · exact h
    subst hr
    simp only [parse_object_header_loop]
    refine ⟨⟨rfl, rfl, rfl, rfl, rfl, rfl, rfl⟩, by simp [hOH], by simp, ?_⟩
    intro _
    exact ⟨0, le_refl _, by simp, rfl, by simp [hOH], by simp [hOH, crc32_nil],
      Or.inl (by simp [hOH])⟩
  | cons c rest ih =>
    intro p n r hr hs hne
    have hlt : p.state.toNat < STATE_OBJECT_DATA_START.toNat := by
      rcases hs with h | h <;> rw [h] <;> decide
    rw [parse_object_header_loop] at hr
    simp only [hlt, if_true] at hr
    have hst2 := object_header_byte_state p c hs
    have hcp := object_header_byte_current_position p c
    have hcs := object_header_byte_current_compressed_size p c
    have hcr := object_header_byte_current_compressed_crc p c
    have hfr : frame_eq p (object_header_byte p c) := by simp [frame_eq]
    by_cases hend : (c.val &&& 0x80) = 0
    · by_cases hdel : is_delta (object_header_byte p c).current_type = true
      · -- last prefix byte of a delta entry
        rw [if_pos ⟨hend, hdel⟩] at hr
        rw [parse_object_header_loop_done C _ _ _ (by simp [parser_state.toNat])] at hr
        subst hr
        refine ⟨by simp [frame_eq], by simpa using hcp, by simp, ?_⟩
        intro _
        refine ⟨1, by simp, by simp, rfl, by simpa using hcs, ?_, Or.inr (Or.inl ?_)⟩
        · simpa using hcr
        · simp
      · -- last prefix byte of a non-delta entry
        rw [if_neg (fun h => hdel h.2), if_pos hend] at hr
        by_cases hcb : (invoke C (seed_object_hash (object_header_byte p c))
            (object_start_event (seed_object_hash (object_header_byte p c)))).1 = 0
        · rw [if_neg (not_not.mpr hcb)] at hr
          rw [parse_object_header_loop_done C _ _ _ (by simp [parser_state.toNat])] at hr
          subst hr
          refine ⟨by simp [frame_eq], by simpa using hcp, by simp, ?_⟩
          intro _
          refine ⟨1, by simp, by simp, rfl, by simpa using hcs, ?_, Or.inr (Or.inr ?_)⟩
          · simpa using hcr
          · refine ⟨rfl, (object_header_byte p c).current_type,
              (object_header_byte p c).current_size, ?_⟩
            simp [invoke_trace_emit, object_start_event]
        · rw [if_pos hcb] at hr
          subst hr
          obtain ⟨hpr, hem⟩ := emit_of_ne_zero C _ _ hcb
          refine ⟨by simp [frame_eq], by simpa using hcp, ?_, ?_⟩
          · intro _
            refine ⟨by simpa [object_start_event, Event.kind] using hpr,
              (object_header_byte p c).current_compressed_size,
              (object_header_byte p c).current_type, (object_header_byte p c).current_size, ?_⟩
            rw [invoke_trace_emit, hem]
            simp [object_start_event]
          · intro h0
            exact absurd h0 hcb
    · -- a continuation byte
      rw [if_neg (fun h => hend h.1), if_neg hend] at hr
      obtain ⟨h1, h2, h3, h4⟩ := ih (object_header_byte p c) (n + 1) r hr (Or.inr hst2)
        (by rw [hst2]; intro h; cases h)
      simp only [hst2, reduceCtorEq, if_false] at h2 h4
      refine ⟨?_, ?_, ?_, ?_⟩
      · obtain ⟨a1, a2, a3, a4, a5, a6, a7⟩ := h1
        obtain ⟨b1, b2, b3, b4, b5, b6, b7⟩ := hfr
        exact ⟨a1.trans b1, a2.trans b2, a3.trans b3, a4.trans b4, a5.trans b5, a6.trans b6,
          a7.trans b7⟩
      · rw [h2, hcp]
      · intro hne0
        obtain ⟨hp, cs, ty, sz, ht⟩ := h3 hne0
        exact ⟨hp, cs, ty, sz, by rw [ht, object_header_byte_trace]⟩
      · intro h0
        obtain ⟨k, hk1, hk2, hk3, hk4, hk5, hk6⟩ := h4 h0
        refine ⟨k + 1, by simp; omega, by simp, by omega, by rw [hk4, hcs]; omega, ?_, ?_⟩
        · rw [hk5, hcr, crc32_append]; rfl
        · rw [object_header_byte_trace] at hk6
          rcases hk6 with ⟨a, b, c1⟩ | ⟨a, b⟩ | ⟨a, b⟩
          · exact Or.inl ⟨a, by simp [b], c1⟩
          · exact Or.inr (Or.inl ⟨a, b⟩)
          · exact Or.inr (Or.inr ⟨a, b⟩)

/-- Summary of the offset-delta loop of `parse_delta_header`. -/
theorem parse_ofs_delta_loop_summary {E : Env} (C : Consumer) :
    ∀ (rest : List Byte) (p : git_packfile_parser_t E) (n : Nat)
      (r : Int × Nat × git_packfile_parser_t E),
      parse_ofs_delta_loop C p rest n = r →
      frame_eq p r.2.2 ∧ r.2.2.current_position = p.current_position ∧
      (r.1 ≠ 0 →
        C.present Callback.delta_start = true ∧
        ∃ ty cs sz base off, r.2.2.trace = p.trace ++
          [Event.delta_start r.2.2.current_position ty cs sz base off]) ∧
      (r.1 = 0 →
        ∃ k, k ≤ rest.length ∧ (rest ≠ [] → 0 < k) ∧ r.2.1 = n + k ∧
          r.2.2.current_compressed_size = p.current_compressed_size + k ∧
          r.2.2.current_compressed_crc = crc32 p.current_compressed_crc (rest.take k) ∧
          ((r.2.2.state = p.state ∧ k = rest.length ∧ r.2.2.trace = p.trace) ∨
           (r.2.2.state = STATE_DELTA_DATA_START ∧
              ∃ ty sz base off, r.2.2.trace = emit C p.trace
                (Event.delta_start r.2.2.current_position ty
                  r.2.2.current_compressed_size sz base off)))) := by
  intro rest
  induction rest with
  | nil =>
    intro p n r hr
    subst hr
    simp only [parse_ofs_delta_loop]
    refine ⟨⟨rfl, rfl, rfl, rfl, rfl, rfl, rfl⟩, by simp, by simp, ?_⟩
    intro _
    exact ⟨0, le_refl _, by simp, by simp, by simp, by simp [crc32_nil], Or.inl (by simp)⟩
  | cons c rest ih =>
    intro p n r hr
    rw [parse_ofs_delta_loop] at hr
    dsimp only at hr
    have hfr : frame_eq p (ofs_delta_byte p c) := by simp [frame_eq]
    by_cases hend : (c.val &&& 0x80) = 0
    · rw [if_pos hend] at hr
      by_cases hcb : (invoke C (ofs_delta_byte p c)
          (delta_start_event (ofs_delta_byte p c) none
            (ofs_delta_byte p c).current_offset)).1 = 0
      · rw [if_neg (not_not.mpr hcb)] at hr
        subst hr
        refine ⟨by simp [frame_eq], by simp, by simp, ?_⟩
        intro _
        refine ⟨1, by simp, by simp, rfl, by simp, by simp, Or.inr ?_⟩
        refine ⟨rfl, (ofs_delta_byte p c).current_type, (ofs_delta_byte p c).current_size,
          none, (ofs_delta_byte p c).current_offset, ?_⟩
        simp [invoke_trace_emit, delta_start_event]
      · rw [if_pos hcb] at hr
        subst hr
        obtain ⟨hpr, hem⟩ := emit_of_ne_zero C _ _ hcb
        refine ⟨by simp [frame_eq], by simp, ?_, fun h0 => absurd h0 hcb⟩
        intro _
        refine ⟨by simpa [delta_start_event, Event.kind] using hpr,
          (ofs_delta_byte p c).current_type, (ofs_delta_byte p c).current_compressed_size,
          (ofs_delta_byte p c).current_size, none, (ofs_delta_byte p c).current_offset, ?_⟩
        rw [invoke_trace_emit, hem]
        simp [delta_start_event]
    · rw [if_neg hend] at hr
      obtain ⟨h1, h2, h3, h4⟩ := ih (ofs_delta_byte p c) (n + 1) r hr
      refine ⟨?_, ?_, ?_, ?_⟩
      · obtain ⟨a1, a2, a3, a4, a5, a6, a7⟩ := h1
        obtain ⟨b1, b2, b3, b4, b5, b6, b7⟩ := hfr
        exact ⟨a1.trans b1, a2.trans b2, a3.trans b3, a4.trans b4, a5.trans b5, a6.trans b6,
          a7.trans b7⟩
      · rw [h2]; simp
      · intro hne0
        obtain ⟨hp, ty, cs, sz, base, off, ht⟩ := h3 hne0
        exact ⟨hp, ty, cs, sz, base, off, by rw [ht]; simp⟩
      · intro h0
        obtain ⟨k, hk1, hk2, hk3, hk4, hk5, hk6⟩ := h4 h0
        refine ⟨k + 1, by simp; omega, by simp, by omega, by rw [hk4]; simp; omega, ?_, ?_⟩
        · rw [hk5, ofs_delta_byte_current_compressed_crc, crc32_append]; rfl
        · simp only [ofs_delta_byte_state, ofs_delta_byte_trace] at hk6
          rcases hk6 with ⟨a, b, c1⟩ | ⟨a, b⟩
          · exact Or.inl ⟨a, by simp [b], c1⟩
          · exact Or.inr ⟨a, b⟩

/-- Summary of `parse_delta_header`. -/
theorem parse_delta_header_summary {E : Env} (C : Consumer)
    (p : git_packfile_parser_t E) (data : List Byte)
    (r : Int × Nat × git_packfile_parser_t E) (hr : parse_delta_header C p data = r) :
    frame_eq p r.2.2 ∧ r.2.2.current_position = p.current_position ∧
    (r.1 ≠ 0 →
      r.2.2.trace = p.trace ∨
      (C.present Callback.delta_start = true ∧
        ∃ ty cs sz base off, r.2.2.trace = p.trace ++
          [Event.delta_start r.2.2.current_position ty cs sz base off])) ∧
    (r.1 = 0 →
      ∃ k, k ≤ data.length ∧ r.2.1 = k ∧
        r.2.2.current_compressed_size = p.current_compressed_size + k ∧
        r.2.2.current_compressed_crc = crc32 p.current_compressed_crc (data.take k) ∧
        ((r.2.2.state = p.state ∧ r.2.2.trace = p.trace) ∨
         (r.2.2.state = STATE_DELTA_DATA_START ∧
            ∃ ty sz base off, r.2.2.trace = emit C p.trace
              (Event.delta_start r.2.2.current_position ty
                r.2.2.current_compressed_size sz base off)))) := by
  unfold parse_delta_header at hr
  dsimp only at hr
  by_cases hofs : p.current_type = GIT_OBJECT_OFS_DELTA
  · rw [if_pos hofs] at hr
    obtain ⟨h1, h2, h3, h4⟩ := parse_ofs_delta_loop_summary C data p 0 r hr
    refine ⟨h1, h2, fun h => Or.inr (h3 h), ?_⟩
    intro h0
    obtain ⟨k, hk1, _, hk3, hk4, hk5, hk6⟩ := h4 h0
    refine ⟨k, hk1, by omega, hk4, hk5, ?_⟩
    rcases hk6 with ⟨a, _, c1⟩ | h
    · exact Or.inl ⟨a, c1⟩
    · exact Or.inr h
  · rw [if_neg hofs] at hr
    by_cases href : p.current_type = GIT_OBJECT_REF_DELTA
    · rw [if_pos href] at hr
      have hsub : data.length - (data.length - min E.hash_size data.length)
          = min E.hash_size data.length := by omega
      rw [hsub] at hr
      have hfr : frame_eq p (stage_base p data) := by simp [frame_eq]
      by_cases hfull : (stage_base p data).current_base_len = E.hash_size
      · rw [if_pos hfull] at hr
        by_cases hcb : (invoke C (stage_base p data)
            (delta_start_event (stage_base p data) (some (stage_base p data).current_base)
              0)).1 = 0
        · rw [if_neg (not_not.mpr hcb)] at hr
          subst hr
          refine ⟨by simp [frame_eq], by simp, by simp, ?_⟩
          intro _
          refine ⟨min E.hash_size data.length, Nat.min_le_right _ _, rfl, by simp, by simp,
            Or.inr ?_⟩
          refine ⟨rfl, (stage_base p data).current_type, (stage_base p data).current_size,
            some (stage_base p data).current_base, 0, ?_⟩
          simp [invoke_trace_emit, delta_start_event]
        · rw [if_pos hcb] at hr
          subst hr
          obtain ⟨hpr, hem⟩ := emit_of_ne_zero C _ _ hcb
          refine ⟨by simp [frame_eq], by simp, ?_, fun h0 => absurd h0 hcb⟩
          intro _
          refine Or.inr ⟨by simpa [delta_start_event, Event.kind] using hpr,
            (stage_base p data).current_type, (stage_base p data).current_compressed_size,
            (stage_base p data).current_size, some (stage_base p data).current_base, 0, ?_⟩
          rw [invoke_trace_emit, hem]
          simp [delta_start_event]
      · rw [if_neg hfull] at hr
        subst hr
        refine ⟨by simp [frame_eq], by simp, by simp, ?_⟩
        intro _
        exact ⟨min E.hash_size data.length, Nat.min_le_right _ _, rfl, by simp, by simp,
          Or.inl (by simp)⟩
    · rw [if_neg href] at hr
      subst hr
      refine ⟨⟨rfl, rfl, rfl, rfl, rfl, rfl, rfl⟩, rfl, fun _ => Or.inl rfl, ?_⟩
      intro h0
      simp at h0

/-- Summary of the draining loop of `parse_object_data`: it only appends
`object_data` invocations to the trace. -/
theorem parse_object_data_loop_summary {E : Env} (C : Consumer) :
    ∀ (fuel : Nat) (p q : git_packfile_parser_t E) (e : Int),
      parse_object_data_loop C fuel p = some (e, q) →
      payload_frame p q ∧ q.zstream.inp.length ≤ p.zstream.inp.length ∧
      ∃ ds, q.trace = p.trace ++ ds ∧ (∀ x ∈ ds, x.kind = Callback.object_data) ∧
        ∀ x ∈ ds, C.present x.kind = true := by
  intro fuel
  induction fuel with
  | zero => intro p q e h; simp [parse_object_data_loop] at h
  | succ fuel ih =>
    intro p q e h
    rw [parse_object_data_loop] at h
    cases hz : git_zstream_get_output_chunk p.zstream READ_CHUNK_SIZE with
    | none =>
      rw [hz] at h
      simp only [Option.some.injEq, Prod.mk.injEq] at h
      obtain ⟨_, rfl⟩ := h
      exact ⟨⟨⟨rfl, rfl, rfl, rfl, rfl, rfl, rfl⟩, rfl, rfl, rfl, rfl⟩, le_refl _, [],
        by simp, by simp, by simp⟩
    | some zo =>
      obtain ⟨zs, inflated⟩ := zo
      rw [hz] at h
      dsimp only at h
      have hinp : zs.inp.length ≤ p.zstream.inp.length := by
        unfold git_zstream_get_output_chunk at hz
        cases hi : E.inflate p.zstream.z p.zstream.inp READ_CHUNK_SIZE with
        | none => rw [hi] at hz; simp at hz
        | some v =>
          obtain ⟨z, used, out, fin⟩ := v
          rw [hi] at hz
          simp only [Option.some.injEq, Prod.mk.injEq] at hz
          obtain ⟨rfl, _⟩ := hz
          simp
      have htr : (invoke C (store_output p zs inflated)
          (Event.object_data inflated)).2.trace = p.trace ++
            (if C.present Callback.object_data = true then [Event.object_data inflated]
             else []) := by
        rw [invoke_trace]; rfl
      have hkind : ∀ x ∈ (if C.present Callback.object_data = true then
          [Event.object_data inflated] else []), x.kind = Callback.object_data := by
        intro x hx
        split at hx
        · simp only [List.mem_singleton] at hx; subst hx; rfl
        · simp at hx
      have hpres : ∀ x ∈ (if C.present Callback.object_data = true then
          [Event.object_data inflated] else []), C.present x.kind = true := by
        intro x hx
        split at hx
        · rename_i hp
          simp only [List.mem_singleton] at hx; subst hx; exact hp
        · simp at hx
      by_cases hcb : (invoke C (store_output p zs inflated) (Event.object_data inflated)).1 = 0
      · rw [if_neg (not_not.mpr hcb)] at h
        by_cases hlen : inflated.length > 0
        · rw [if_pos hlen] at h
          obtain ⟨⟨h1, h2, h3, h4, h5⟩, h6, ds, h7, h8, h9⟩ := ih _ _ _ h
          refine ⟨⟨?_, by simpa using h2, by simpa using h3, by simpa using h4,
            by simpa using h5⟩, by simpa using le_trans h6 (by simpa using hinp), ?_⟩
          · simpa [frame_eq] using h1
          · refine ⟨(if C.present Callback.object_data = true then [Event.object_data inflated] else []) ++ ds, ?_, ?_⟩
            · rw [h7, htr, List.append_assoc]
            · refine ⟨fun x hx => ?_, fun x hx => ?_⟩
              · rcases List.mem_append.mp hx with hx | hx
                · exact hkind x hx
                · exact h8 x hx
              · rcases List.mem_append.mp hx with hx | hx
                · exact hpres x hx
                · exact h9 x hx
        · rw [if_neg hlen] at h
          simp only [Option.some.injEq, Prod.mk.injEq] at h
          obtain ⟨_, rfl⟩ := h
          exact ⟨⟨by simp [frame_eq], by simp, by simp, by simp, by simp⟩,
            by simpa using hinp,
            (if C.present Callback.object_data = true then [Event.object_data inflated] else []), htr, hkind, hpres⟩
      · rw [if_pos hcb] at h
        simp only [Option.some.injEq, Prod.mk.injEq] at h
        obtain ⟨_, rfl⟩ := h
        exact ⟨⟨by simp [frame_eq], by simp, by simp, by simp, by simp⟩,
          by simpa using hinp,
            (if C.present Callback.object_data = true then [Event.object_data inflated] else []), htr, hkind, hpres⟩

/-- Summary of `parse_object_data`. -/
theorem parse_object_data_summary {E : Env} (C : Consumer) (fuel : Nat)
    (p : git_packfile_parser_t E) (data : List Byte)
    (r : Int × Nat × git_packfile_parser_t E)
    (hr : parse_object_data C fuel p data = some r)
    (hs : p.state = STATE_OBJECT_DATA_START ∨ p.state = STATE_OBJECT_DATA) :
    (r.2.2.position = p.position ∧ r.2.2.header = p.header ∧
      r.2.2.header_len = p.header_len ∧ r.2.2.packfile_hash = p.packfile_hash ∧
      r.2.2.trailer = p.trailer ∧ r.2.2.trailer_len = p.trailer_len ∧
      r.2.2.current_position = p.current_position) ∧
    ∃ k ds, k ≤ data.length ∧ (∀ x ∈ ds, x.kind = Callback.object_data) ∧
      (∀ x ∈ ds, C.present x.kind = true) ∧
      (r.1 ≠ 0 →
        r.2.2.trace = p.trace ++ ds ∨
        (C.present Callback.object_complete = true ∧
          ∃ oid, r.2.2.trace = p.trace ++ ds ++
            [Event.object_complete (p.current_compressed_size + k)
              (crc32 p.current_compressed_crc (data.take k)) oid])) ∧
      (r.1 = 0 →
        r.2.1 = k ∧ r.2.2.current_compressed_size = p.current_compressed_size + k ∧
        r.2.2.current_compressed_crc = crc32 p.current_compressed_crc (data.take k) ∧
        ((r.2.2.state = STATE_OBJECT_DATA ∧ r.2.2.current_idx = p.current_idx ∧
            r.2.2.trace = p.trace ++ ds) ∨
         (r.2.2.current_idx = p.current_idx + 1 ∧
            r.2.2.state = (if p.current_idx + 1 < hdr_entries p
              then STATE_OBJECT_HEADER_START else STATE_TRAILER) ∧
            ∃ oid, r.2.2.trace = emit C (p.trace ++ ds)
              (Event.object_complete (p.current_compressed_size + k)
                (crc32 p.current_compressed_crc (data.take k)) oid)))) := by
  unfold parse_object_data at hr
  dsimp only at hr
  cases hl : parse_object_data_loop C fuel
      (offer_input STATE_OBJECT_DATA_START STATE_OBJECT_DATA p data) with
  | none => rw [hl] at hr; simp at hr
  | some lo =>
    obtain ⟨err, p2⟩ := lo
    rw [hl] at hr
    dsimp only at hr
    obtain ⟨⟨⟨f1, f2, f3, f4, f5, f6, f7⟩, g1, g2, g3, g4⟩, hinp, ds, hds, hkind, hpres⟩ :=
      parse_object_data_loop_summary C fuel _ _ _ hl
    simp only [offer_input_position, offer_input_header, offer_input_header_len,
      offer_input_current_idx, offer_input_packfile_hash, offer_input_trailer,
      offer_input_trailer_len, offer_input_current_position,
      offer_input_current_compressed_size, offer_input_current_compressed_crc,
      offer_input_trace, offer_input_inp] at f1 f2 f3 f4 f5 f6 f7 g2 g3 g4 hds hinp
    have g1s : p2.state = STATE_OBJECT_DATA := by
      rw [g1, offer_input_state]
      rcases hs with h | h <;> simp [h]
    by_cases herr : err = 0
    · rw [if_neg (not_not.mpr herr)] at hr
      by_cases heos : git_zstream_eos (account_input p2 data).zstream = true
      · rw [if_pos heos] at hr
        by_cases hcb : (invoke C (account_input p2 data)
            (object_complete_event (account_input p2 data))).1 = 0
        · rw [if_neg (not_not.mpr hcb)] at hr
          simp only [Option.some.injEq] at hr
          subst hr
          refine ⟨by simp [f1, f2, f3, f5, f6, f7, g2],
            data.length - p2.zstream.inp.length, ds, Nat.sub_le _ _, hkind, hpres, by simp, ?_⟩
          intro _
          refine ⟨rfl, by simp [g3], by simp [g3, g4], Or.inr ⟨by simp [f4], ?_, ?_⟩⟩
          · simp [next_entry_state, f4, hdr_entries, f2]
          · refine ⟨E.hash_final (account_input p2 data).current_hash, ?_⟩
            simp [invoke_trace_emit, object_complete_event, hds, g3, g4]
        · rw [if_pos hcb] at hr
          simp only [Option.some.injEq] at hr
          subst hr
          obtain ⟨hpr, hem⟩ := emit_of_ne_zero C _ _ hcb
          refine ⟨by simp [f1, f2, f3, f5, f6, f7, g2],
            data.length - p2.zstream.inp.length, ds, Nat.sub_le _ _, hkind, hpres, ?_,
            fun h0 => absurd h0 hcb⟩
          intro _
          refine Or.inr ⟨by simpa [object_complete_event, Event.kind] using hpr,
            E.hash_final (account_input p2 data).current_hash, ?_⟩
          rw [invoke_trace_emit, hem]
          simp [object_complete_event, hds, g3, g4]
      · rw [if_neg heos] at hr
        simp only [Option.some.injEq] at hr
        subst hr
        refine ⟨by simp [f1, f2, f3, f5, f6, f7, g2],
          data.length - p2.zstream.inp.length, ds, Nat.sub_le _ _, hkind, hpres, by simp, ?_⟩
        intro _
        exact ⟨rfl, by simp [g3], by simp [g3, g4], Or.inl ⟨by simp [g1s], by simp [f4],
          by simp [hds]⟩⟩
    · rw [if_pos herr] at hr
      simp only [Option.some.injEq] at hr
      subst hr
      refine ⟨⟨f1, f2, f3, f5, f6, f7, g2⟩, 0, ds, Nat.zero_le _, hkind, hpres,
        fun _ => Or.inl hds, fun h0 => absurd h0 herr⟩

/-- The decompressor never leaves more pending input than it was given. -/
theorem get_output_chunk_inp_le {E : Env} (zs zs1 : git_zstream E) (cap : Nat)
    (out : List Byte) (h : git_zstream_get_output_chunk zs cap = some (zs1, out)) :
    zs1.inp.length ≤ zs.inp.length := by
  unfold git_zstream_get_output_chunk at h
  cases hi : E.inflate zs.z zs.inp cap with
  | none => rw [hi] at h; simp at h
  | some v =>
    obtain ⟨z, used, o, fin⟩ := v
    rw [hi] at h
    simp only [Option.some.injEq, Prod.mk.injEq] at h
    obtain ⟨rfl, _⟩ := h
    simp

/-- Summary of `parse_delta_data`. -/
theorem parse_delta_data_summary {E : Env} (C : Consumer)
    (p : git_packfile_parser_t E) (data : List Byte)
    (r : Int × Nat × git_packfile_parser_t E)
    (hr : parse_delta_data C p data = r)
    (hs : p.state = STATE_DELTA_DATA_START ∨ p.state = STATE_DELTA_DATA) :
    (r.2.2.position = p.position ∧ r.2.2.header = p.header ∧
      r.2.2.header_len = p.header_len ∧ r.2.2.packfile_hash = p.packfile_hash ∧
      r.2.2.trailer = p.trailer ∧ r.2.2.trailer_len = p.trailer_len ∧
      r.2.2.current_position = p.current_position) ∧
    ∃ k ds, k ≤ data.length ∧ (∀ x ∈ ds, x.kind = Callback.delta_data) ∧
      (∀ x ∈ ds, C.present x.kind = true) ∧
      (r.1 ≠ 0 →
        r.2.2.trace = p.trace ++ ds ∨
        (C.present Callback.delta_complete = true ∧
          r.2.2.trace = p.trace ++ ds ++
            [Event.delta_complete (p.current_compressed_size + k)
              (crc32 p.current_compressed_crc (data.take k))])) ∧
      (r.1 = 0 →
        r.2.1 = k ∧ r.2.2.current_compressed_size = p.current_compressed_size + k ∧
        r.2.2.current_compressed_crc = crc32 p.current_compressed_crc (data.take k) ∧
        ((r.2.2.state = STATE_DELTA_DATA ∧ r.2.2.current_idx = p.current_idx ∧
            r.2.2.trace = p.trace ++ ds) ∨
         (r.2.2.current_idx = p.current_idx + 1 ∧
            r.2.2.state = (if p.current_idx + 1 < hdr_entries p
              then STATE_OBJECT_HEADER_START else STATE_TRAILER) ∧
            r.2.2.trace = emit C (p.trace ++ ds)
              (Event.delta_complete (p.current_compressed_size + k)
                (crc32 p.current_compressed_crc (data.take k)))))) := by
  unfold parse_delta_data at hr
  dsimp only at hr
  have hst1 : (offer_input STATE_DELTA_DATA_START STATE_DELTA_DATA p data).state
      = STATE_DELTA_DATA := by
    rw [offer_input_state]
    rcases hs with h | h <;> simp [h]
  cases hz : git_zstream_get_output_chunk
      (offer_input STATE_DELTA_DATA_START STATE_DELTA_DATA p data).zstream
      READ_CHUNK_SIZE with
  | none =>
    rw [hz] at hr
    dsimp only at hr
    subst hr
    exact ⟨by simp, 0, [], Nat.zero_le _, by simp, by simp, fun _ => Or.inl (by simp),
      fun h0 => by simp at h0⟩
  | some zo =>
    obtain ⟨zs, inflated⟩ := zo
    rw [hz] at hr
    dsimp only at hr
    have hinp := get_output_chunk_inp_le _ _ _ _ hz
    simp only [offer_input_inp] at hinp
    have hkind : ∀ x ∈ (if C.present Callback.delta_data = true then
        [Event.delta_data inflated] else []), x.kind = Callback.delta_data := by
      intro x hx
      split at hx
      · simp only [List.mem_singleton] at hx; subst hx; rfl
      · simp at hx
    have hpres : ∀ x ∈ (if C.present Callback.delta_data = true then
        [Event.delta_data inflated] else []), C.present x.kind = true := by
      intro x hx
      split at hx
      · rename_i hp
        simp only [List.mem_singleton] at hx; subst hx; exact hp
      · simp at hx
    have htr : (invoke C (account_input (store_zstream
        (offer_input STATE_DELTA_DATA_START STATE_DELTA_DATA p data) zs) data)
        (Event.delta_data inflated)).2.trace = p.trace ++
          (if C.present Callback.delta_data = true then [Event.delta_data inflated]
           else []) := by
      rw [invoke_trace]; simp [Event.kind]
    by_cases hcb : (invoke C (account_input (store_zstream
        (offer_input STATE_DELTA_DATA_START STATE_DELTA_DATA p data) zs) data)
        (Event.delta_data inflated)).1 = 0
    · rw [if_neg (not_not.mpr hcb)] at hr
      by_cases heos : git_zstream_eos (invoke C (account_input (store_zstream
          (offer_input STATE_DELTA_DATA_START STATE_DELTA_DATA p data) zs) data)
          (Event.delta_data inflated)).2.zstream = true
      · rw [if_pos heos] at hr
        by_cases hcb2 : (invoke C (invoke C (account_input (store_zstream
            (offer_input STATE_DELTA_DATA_START STATE_DELTA_DATA p data) zs) data)
            (Event.delta_data inflated)).2
            (delta_complete_event (invoke C (account_input (store_zstream
              (offer_input STATE_DELTA_DATA_START STATE_DELTA_DATA p data) zs) data)
              (Event.delta_data inflated)).2)).1 = 0
        · rw [if_neg (not_not.mpr hcb2)] at hr
          subst hr
          refine ⟨by simp, data.length - zs.inp.length, _, Nat.sub_le _ _, hkind, hpres, by simp, ?_⟩
          intro _
          refine ⟨rfl, by simp, by simp, Or.inr ⟨by simp, ?_, ?_⟩⟩
          · simp [next_entry_state, hdr_entries]
          · simp [invoke_trace_emit, delta_complete_event, emit, Event.kind]
        · rw [if_pos hcb2] at hr
          subst hr
          obtain ⟨hpr, hem⟩ := emit_of_ne_zero C _ _ hcb2
          refine ⟨by simp, data.length - zs.inp.length, _, Nat.sub_le _ _, hkind, hpres, ?_,
            fun h0 => absurd h0 hcb2⟩
          intro _
          refine Or.inr ⟨by simpa [delta_complete_event, Event.kind] using hpr, ?_⟩
          rw [invoke_trace_emit, hem]
          simp [delta_complete_event, invoke_trace_emit, emit, Event.kind]
      · rw [if_neg heos] at hr
        subst hr
        refine ⟨by simp, data.length - zs.inp.length, _, Nat.sub_le _ _, hkind, hpres, by simp, ?_⟩
        intro _
        exact ⟨rfl, by simp, by simp, Or.inl ⟨by simp [hst1], by simp, htr⟩⟩
    · rw [if_pos hcb] at hr
      subst hr
      exact ⟨by simp, 0, _, Nat.zero_le _, hkind, hpres, fun _ => Or.inl htr,
        fun h0 => absurd h0 hcb⟩

/-! ## The driver -/

/-- Feeding the empty slice returns 0 and leaves the parser as it is. -/
theorem parse_nil {E : Env} (C : Consumer) (fuel : Nat) (p : git_packfile_parser_t E) :
    git_packfile_parser_parse C fuel p [] = some (0, p) := by
  cases fuel <;> rfl

/-- Unfolding of the driver loop on a non-empty slice. -/
theorem parse_succ {E : Env} (C : Consumer) (fuel : Nat) (p : git_packfile_parser_t E)
    (data : List Byte) (hne : data ≠ []) :
    git_packfile_parser_parse C (fuel + 1) p data =
      match parse_iteration C fuel p data with
      | none => none
      | some (error, consumed, p1) =>
        if error ≠ 0 then some (error, p1)
        else git_packfile_parser_parse C fuel p1 (data.drop consumed) := by
  cases data with
  | nil => exact absurd rfl hne
  | cons c rest => rfl

/-- Without fuel a non-empty slice is not drained. -/
theorem parse_zero {E : Env} (C : Consumer) (p : git_packfile_parser_t E)
    (data : List Byte) (hne : data ≠ []) :
    git_packfile_parser_parse C 0 p data = none := by
  cases data with
  | nil => exact absurd rfl hne
  | cons c rest => rfl

/-- In `STATE_FAILED` and `STATE_COMPLETE` the loop body returns -1 and touches nothing. -/
theorem parse_iteration_stuck {E : Env} (C : Consumer) (fuel : Nat)
    (p : git_packfile_parser_t E) (data : List Byte)
    (h : p.state = STATE_FAILED ∨ p.state = STATE_COMPLETE) :
    parse_iteration C fuel p data = some (-1, 0, p) := by
  unfold parse_iteration
  rcases h with h | h <;> simp [h]

/-- In every other state the loop body is the sub-parser followed by `parse_commit`. -/
theorem parse_iteration_running {E : Env} (C : Consumer) (fuel : Nat)
    (p : git_packfile_parser_t E) (data : List Byte)
    (h1 : p.state ≠ STATE_COMPLETE) (h2 : p.state ≠ STATE_FAILED) :
    parse_iteration C fuel p data =
      (dispatch C fuel p data).map (parse_commit p.state data) := by
  unfold parse_iteration
  simp only [h1, h2, if_false]
  cases dispatch C fuel p data <;> rfl

/-- The error code passes through `parse_commit`. -/
@[simp] theorem parse_commit_fst {E : Env} (s : parser_state) (data : List Byte)
    (r : Int × Nat × git_packfile_parser_t E) : (parse_commit s data r).1 = r.1 := by
  unfold parse_commit
  by_cases h : r.1 = 0 <;> simp [h]

/-- The consumed count passes through `parse_commit` on success. -/
theorem parse_commit_consumed {E : Env} (s : parser_state) (data : List Byte)
    (r : Int × Nat × git_packfile_parser_t E) (h : r.1 = 0) :
    (parse_commit s data r).2.1 = r.2.1 := by
  unfold parse_commit
  simp [h]

/-- After `parse_commit` the state is `STATE_FAILED` exactly on error. -/
theorem parse_commit_state {E : Env} (s : parser_state) (data : List Byte)
    (r : Int × Nat × git_packfile_parser_t E) :
    (parse_commit s data r).2.2.state = if r.1 = 0 then r.2.2.state else STATE_FAILED := by
  unfold parse_commit
  by_cases h : r.1 = 0
  · simp only [h, true_and, ne_eq, not_true_eq_false, if_false]
    split <;> rfl
  · simp [h]

/-- The trace passes through `parse_commit`. -/
@[simp] theorem parse_commit_trace {E : Env} (s : parser_state) (data : List Byte)
    (r : Int × Nat × git_packfile_parser_t E) :
    (parse_commit s data r).2.2.trace = r.2.2.trace := by
  unfold parse_commit
  by_cases h : r.1 = 0
  · simp only [h, true_and, ne_eq, not_true_eq_false, if_false]
    split <;> rfl
  · simp [h]

/-- A feed in `STATE_FAILED` or `STATE_COMPLETE`: 0 for the empty slice, -1 otherwise, parser unchanged. -/
theorem parse_stuck {E : Env} (C : Consumer) (fuel : Nat) (p : git_packfile_parser_t E)
    (data : List Byte) (h : p.state = STATE_FAILED ∨ p.state = STATE_COMPLETE) :
    git_packfile_parser_parse C (fuel + 1) p data =
      some (if data = [] then 0 else -1, p) := by
  by_cases hd : data = []
  · subst hd; rfl
  · rw [parse_succ C fuel p data hd, parse_iteration_stuck C fuel p _ h]
    simp [hd]

/-- Unfolding of `feed_all` on a first slice. -/
theorem feed_all_cons {E : Env} (C : Consumer) (fuel : Nat) (p : git_packfile_parser_t E)
    (c : List Byte) (cs : List (List Byte)) :
    feed_all C fuel p (c :: cs) =
      match git_packfile_parser_parse C fuel p c with
      | none => none
      | some (r, p1) =>
        match feed_all C fuel p1 cs with
        | none => none
        | some (rs, q) => some (r :: rs, q) := by
  rfl

/-- A sequence of feeds in `STATE_FAILED` or `STATE_COMPLETE`. -/
theorem feed_all_stuck {E : Env} (C : Consumer) (fuel : Nat) (p : git_packfile_parser_t E)
    (h : p.state = STATE_FAILED ∨ p.state = STATE_COMPLETE) (slices : List (List Byte)) :
    feed_all C (fuel + 1) p slices =
      some (slices.map (fun s => if s = [] then 0 else -1), p) := by
  induction slices with
  | nil => rfl
  | cons s ss ih =>
    simp only [feed_all, parse_stuck C fuel p s h, ih, List.map_cons]

/-- A loop body that returns an error leaves the state `STATE_FAILED` or `STATE_COMPLETE`. -/
theorem parse_iteration_error_state {E : Env} (C : Consumer) (fuel : Nat)
    (p q : git_packfile_parser_t E) (data : List Byte) (r : Int) (n : Nat)
    (h : parse_iteration C fuel p data = some (r, n, q)) (hr : r ≠ 0) :
    q.state = STATE_FAILED ∨ q.state = STATE_COMPLETE := by
  by_cases h1 : p.state = STATE_COMPLETE
  · rw [parse_iteration_stuck C fuel p data (Or.inr h1)] at h
    simp at h; rcases h with ⟨_, _, rfl⟩; exact Or.inr h1
  · by_cases h2 : p.state = STATE_FAILED
    · rw [parse_iteration_stuck C fuel p data (Or.inl h2)] at h
      simp at h; rcases h with ⟨_, _, rfl⟩; exact Or.inl h2
    · rw [parse_iteration_running C fuel p data h1 h2] at h
      cases hd : dispatch C fuel p data with
      | none => rw [hd] at h; simp at h
      | some d =>
        rw [hd] at h
        simp only [Option.map_some', Option.some.injEq] at h
        have hs := parse_commit_state p.state data d
        have hf := parse_commit_fst p.state data d
        rw [h] at hs hf
        simp only at hs hf
        left
        rw [hs, if_neg]
        rw [← hf]; exact hr

/-- A feed that returns an error leaves the state `STATE_FAILED` or `STATE_COMPLETE`. -/
theorem parse_error_state {E : Env} (C : Consumer) :
    ∀ (fuel : Nat) (p q : git_packfile_parser_t E) (data : List Byte) (r : Int),
      git_packfile_parser_parse C fuel p data = some (r, q) → r ≠ 0 →
      q.state = STATE_FAILED ∨ q.state = STATE_COMPLETE := by
  intro fuel
  induction fuel with
  | zero =>
    intro p q data r h hr
    by_cases hd : data = []
    · subst hd; simp [parse_nil] at h; exact absurd h.1.symm hr
    · rw [parse_zero C p data hd] at h; simp at h
  | succ fuel ih =>
    intro p q data r h hr
    by_cases hd : data = []
    · subst hd; simp [parse_nil] at h; exact absurd h.1.symm hr
    · rw [parse_succ C fuel p data hd] at h
      split at h
      · simp at h
      · rename_i error consumed p1 hit
        by_cases h3 : error = 0
        · simp only [h3, ne_eq, not_true_eq_false, if_false] at h
          exact ih _ _ _ _ h hr
        · simp only [ne_eq, h3, not_false_eq_true, if_true, Option.some.injEq,
            Prod.mk.injEq] at h
          rcases h with ⟨rfl, rfl⟩
          exact parse_iteration_error_state C fuel p _ _ _ _ hit h3


/-- The driver returns the error of a failing loop body. -/
theorem parse_of_iteration_error {E : Env} (C : Consumer) (fuel : Nat)
    (p : git_packfile_parser_t E) (data : List Byte) (hne : data ≠ [])
    (x : Int × Nat × git_packfile_parser_t E)
    (hit : parse_iteration C fuel p data = some x) (hx : x.1 ≠ 0) :
    git_packfile_parser_parse C (fuel + 1) p data = some (x.1, x.2.2) := by
  rw [parse_succ C fuel p data hne, hit]
  simp [hx]

/-- The driver continues after a successful loop body. -/
theorem parse_of_iteration_ok {E : Env} (C : Consumer) (fuel : Nat)
    (p : git_packfile_parser_t E) (data : List Byte) (hne : data ≠ [])
    (x : Int × Nat × git_packfile_parser_t E)
    (hit : parse_iteration C fuel p data = some x) (hx : x.1 = 0) :
    git_packfile_parser_parse C (fuel + 1) p data =
      git_packfile_parser_parse C fuel x.2.2 (data.drop x.2.1) := by
  rw [parse_succ C fuel p data hne, hit]
  simp [hx]

/-! ## The header decoder -/

/-- The sub-parser of `STATE_HEADER`. -/
theorem dispatch_header {E : Env} (C : Consumer) (fuel : Nat) (p : git_packfile_parser_t E)
    (data : List Byte) (hst : p.state = STATE_HEADER) :
    dispatch C fuel p data = some (parse_header C p data) := by
  simp [dispatch, hst]

/-- The sub-parser of `STATE_TRAILER`. -/
theorem dispatch_trailer {E : Env} (C : Consumer) (fuel : Nat) (p : git_packfile_parser_t E)
    (data : List Byte) (hst : p.state = STATE_TRAILER) :
    dispatch C fuel p data = some (parse_trailer C p data) := by
  simp [dispatch, hst]

/-- `parse_header` on a slice that does not complete the header. -/
theorem parse_header_partial_eq {E : Env} (C : Consumer)
    (p : git_packfile_parser_t E) (data : List Byte)
    (hlen : p.header_len = p.header.length)
    (hlt : p.header.length + data.length < PACK_HEADER_SIZE) :
    parse_header C p data =
      (0, data.length, { p with header := p.header ++ data,
                                header_len := p.header_len + data.length }) := by
  have hmin : min data.length (PACK_HEADER_SIZE - p.header.length) = data.length := by
    apply Nat.min_eq_left; omega
  have hne : ¬ (p.header.length + data.length = PACK_HEADER_SIZE) := by omega
  simp [parse_header, stage_header, header_event, hlen, hmin, hne]

/-- A feed in `STATE_HEADER` that does not complete the header stages the slice. -/
theorem parse_header_partial {E : Env} (C : Consumer) (fuel : Nat)
    (p : git_packfile_parser_t E) (data : List Byte)
    (hst : p.state = STATE_HEADER) (hlen : p.header_len = p.header.length)
    (hlt : p.header.length + data.length < PACK_HEADER_SIZE) :
    ∃ q, git_packfile_parser_parse C (fuel + 1) p data = some (0, q) ∧
      q.state = STATE_HEADER ∧ q.header = p.header ++ data ∧
      q.header_len = q.header.length ∧ q.trace = p.trace := by
  by_cases hd : data = []
  · subst hd
    exact ⟨p, rfl, hst, by simp, hlen, rfl⟩
  · rw [parse_succ C fuel p data hd,
      parse_iteration_running C fuel p data (by rw [hst]; decide) (by rw [hst]; decide),
      dispatch_header C fuel p data hst, parse_header_partial_eq C p data hlen hlt]
    simp [parse_commit, parse_nil, hst, hlen, parser_state.toNat]

/-- `parse_header` on a slice that completes a header with a wrong signature. -/
theorem parse_header_bad_signature_eq {E : Env} (C : Consumer)
    (p : git_packfile_parser_t E) (data : List Byte)
    (hlen : p.header_len = p.header.length)
    (hlt : p.header.length ≤ PACK_HEADER_SIZE)
    (hfull : PACK_HEADER_SIZE ≤ p.header.length + data.length)
    (hsig : (p.header ++ data).take 4 ≠ [80, 65, 67, 75]) :
    parse_header C p data =
      (-1, 0, { p with header := (p.header ++ data).take PACK_HEADER_SIZE,
                       header_len := PACK_HEADER_SIZE }) := by
  have hstage := header_stage_eq p.header data hlt
  have hl12 : ((p.header ++ data).take PACK_HEADER_SIZE).length = PACK_HEADER_SIZE := by
    rw [List.length_take, List.length_append]; omega
  have hsig2 : be32 ((p.header ++ data).take PACK_HEADER_SIZE) ≠ PACK_SIGNATURE := by
    rw [Ne, be32_eq_signature_iff _ (by rw [hl12]; decide), List.take_take]
    exact hsig
  have hfl : p.header.length + min data.length (PACK_HEADER_SIZE - p.header.length)
      = PACK_HEADER_SIZE := by omega
  simp [parse_header, stage_header, header_event, hlen, hstage, hfl, hdr_signature, hsig2]

/-- A feed that completes a header with a wrong signature fails. -/
theorem parse_header_bad_signature {E : Env} (C : Consumer) (fuel : Nat)
    (p : git_packfile_parser_t E) (data : List Byte)
    (hst : p.state = STATE_HEADER) (hlen : p.header_len = p.header.length)
    (hlt : p.header.length < PACK_HEADER_SIZE)
    (hfull : PACK_HEADER_SIZE ≤ p.header.length + data.length)
    (hsig : (p.header ++ data).take 4 ≠ [80, 65, 67, 75]) :
    ∃ q, git_packfile_parser_parse C (fuel + 1) p data = some (-1, q) ∧
      q.state = STATE_FAILED ∧ q.trace = p.trace := by
  have hd : data ≠ [] := by
    intro h; subst h; simp at hfull; omega
  rw [parse_succ C fuel p data hd,
    parse_iteration_running C fuel p data (by rw [hst]; decide) (by rw [hst]; decide),
    dispatch_header C fuel p data hst,
    parse_header_bad_signature_eq C p data hlen (Nat.le_of_lt hlt) hfull hsig]
  simp [parse_commit]

/-- C10. Unsupported version: when the staged header becomes complete (twelve
bytes) and starts with the ASCII bytes "PACK", `parse_header` returns an error
without having invoked any callback if and only if the big-endian word in bytes
4..8 differs from 2. -/
theorem parse_header_rejects_other_versions {E : Env} (C : Consumer)
    (p : git_packfile_parser_t E) (data : List Byte)
    (hlen : p.header_len = p.header.length)
    (hle : p.header.length ≤ PACK_HEADER_SIZE)
    (hfull : PACK_HEADER_SIZE ≤ p.header.length + data.length)
    (hsig : (p.header ++ data).take 4 = [80, 65, 67, 75]) :
    ((parse_header C p data).1 ≠ 0 ∧ (parse_header C p data).2.2.trace = p.trace) ↔
      be32 (((p.header ++ data).take PACK_HEADER_SIZE).drop 4) ≠ 2 := by
  have hst := header_stage_eq p.header data hle
  have hl12 : ((p.header ++ data).take PACK_HEADER_SIZE).length = PACK_HEADER_SIZE := by
    rw [List.length_take, List.length_append]; omega
  have hsig2 : be32 ((p.header ++ data).take PACK_HEADER_SIZE) = PACK_SIGNATURE := by
    rw [be32_eq_signature_iff _ (by rw [hl12]; decide), List.take_take]
    exact hsig
  have hfl : p.header.length + min data.length (PACK_HEADER_SIZE - p.header.length)
      = PACK_HEADER_SIZE := by omega
  simp only [parse_header, stage_header, header_event, hlen, hst, hfl, if_true, hdr_signature, hdr_version, hsig2,
    ne_eq, not_true_eq_false, if_false]
  by_cases hv : be32 (((p.header ++ data).take PACK_HEADER_SIZE).drop 4) = 2
  · simp only [hv, not_true_eq_false, if_false, iff_false, not_and]
    by_cases hp : C.present Callback.packfile_header = true
    · intro _
      split_ifs <;> simp [invoke_trace, Event.kind, hp]
    · split_ifs <;> simp_all [invoke_fst, Event.kind]
  · simp [hv]

/-- Witness for C10: a header announcing version 3, split after five bytes, is
rejected by the call that completes it and no callback is invoked. -/
theorem parse_header_rejects_other_versions_witness :
    ((parse_header all_callbacks
        { git_packfile_parser_init stored_env with
            header := [80, 65, 67, 75, 0], header_len := 5 }
        [0, 0, 3, 0, 0, 0, 1]).1 ≠ 0 ∧
      (parse_header all_callbacks
        { git_packfile_parser_init stored_env with
            header := [80, 65, 67, 75, 0], header_len := 5 }
        [0, 0, 3, 0, 0, 0, 1]).2.2.trace = []) ∧
      be32 ((([80, 65, 67, 75, 0] ++ [0, 0, 3, 0, 0, 0, 1] : List Byte).take
        PACK_HEADER_SIZE).drop 4) = 3 :=
  ⟨(parse_header_rejects_other_versions all_callbacks
      { git_packfile_parser_init stored_env with
          header := [80, 65, 67, 75, 0], header_len := 5 }
      [0, 0, 3, 0, 0, 0, 1] rfl (by decide) (by decide) rfl).mpr (by decide), by decide⟩

/-- Feeding slices to a parser that is staging a header whose signature is wrong. -/
theorem feed_bad_signature_aux {E : Env} (C : Consumer) (fuel : Nat) :
    ∀ (chunks : List (List Byte)) (p : git_packfile_parser_t E),
      p.state = STATE_HEADER → p.header_len = p.header.length →
      p.header.length < PACK_HEADER_SIZE →
      PACK_HEADER_SIZE ≤ p.header.length + chunks.flatten.length →
      (p.header ++ chunks.flatten).take 4 ≠ [80, 65, 67, 75] →
      ∃ pre post q, feed_all C (fuel + 1) p chunks = some (pre ++ -1 :: post, q) ∧
        (∀ r ∈ pre, r = 0) ∧
        p.header.length + (chunks.take pre.length).flatten.length < PACK_HEADER_SIZE ∧
        PACK_HEADER_SIZE ≤ p.header.length + (chunks.take (pre.length + 1)).flatten.length ∧
        q.state = STATE_FAILED ∧ q.trace = p.trace := by
  intro chunks
  induction chunks with
  | nil => intro p _ _ hlt hfull _; simp at hfull; omega
  | cons c cs ih =>
    intro p hst hlen hlt hfull hsig
    by_cases hc : p.header.length + c.length < PACK_HEADER_SIZE
    · obtain ⟨q1, hq1, hst1, hhd1, hlen1, htr1⟩ := parse_header_partial C fuel p c hst hlen hc
      have hl1 : q1.header.length = p.header.length + c.length := by
        rw [hhd1, List.length_append]
      obtain ⟨pre, post, q, hfeed, hpre, hlo, hhi, hqs, hqt⟩ := ih q1 hst1 hlen1
        (by rw [hl1]; exact hc)
        (by rw [hl1]; simp only [List.flatten_cons, List.length_append] at hfull; omega)
        (by rw [hhd1, List.append_assoc]; simpa using hsig)
      refine ⟨0 :: pre, post, q, ?_, ?_, ?_, ?_, hqs, by rw [hqt, htr1]⟩
      · rw [feed_all_cons, hq1]
        simp only [hfeed, List.cons_append]
      · intro r hr
        rcases List.mem_cons.mp hr with h | h
        · exact h
        · exact hpre r h
      · simp only [List.length_cons, List.take_succ_cons, List.flatten_cons, List.length_append]
        omega
      · simp only [List.length_cons, List.take_succ_cons, List.flatten_cons, List.length_append]
        omega
    · obtain ⟨q1, hq1, hst1, htr1⟩ := parse_header_bad_signature C fuel p c hst hlen hlt
        (by omega)
        (by
          intro h
          apply hsig
          have h4 : 4 ≤ (p.header ++ c).length := by
            rw [List.length_append]
            have : PACK_HEADER_SIZE = 12 := rfl
            omega
          rw [List.flatten_cons, ← List.append_assoc, List.take_append_of_le_length h4]
          exact h)
      refine ⟨[], cs.map (fun s => if s = [] then 0 else -1), q1, ?_, ?_, ?_, ?_, hst1, htr1⟩
      · rw [feed_all_cons, hq1]
        simp only [feed_all_stuck C fuel q1 (Or.inl hst1) cs, List.nil_append]
      · intro r hr; simp at hr
      · simp; exact hlt
      · simp; omega



/-- C9. Invalid signature: when slices holding at least twelve bytes in total are
fed to a fresh parser and the first four bytes are not "PACK", the feed call that
supplies the twelfth byte returns -1 (every earlier call returned 0), no callback
has been invoked at any point and the parser ends in `STATE_FAILED`, whatever the
remaining header bytes are and however the bytes are split into slices. -/
theorem invalid_signature_fails {E : Env} (C : Consumer) (fuel : Nat)
    (chunks : List (List Byte))
    (h12 : PACK_HEADER_SIZE ≤ chunks.flatten.length)
    (hsig : chunks.flatten.take 4 ≠ [80, 65, 67, 75]) :
    ∃ pre post q,
      feed_all C (fuel + 1) (git_packfile_parser_init E) chunks = some (pre ++ -1 :: post, q) ∧
      (∀ r ∈ pre, r = 0) ∧
      (chunks.take pre.length).flatten.length < PACK_HEADER_SIZE ∧
      PACK_HEADER_SIZE ≤ (chunks.take (pre.length + 1)).flatten.length ∧
      q.state = STATE_FAILED ∧ q.trace = [] := by
  obtain ⟨pre, post, q, h1, h2, h3, h4, h5, h6⟩ :=
    feed_bad_signature_aux C fuel chunks (git_packfile_parser_init E) rfl rfl
      (by simp [git_packfile_parser_init, PACK_HEADER_SIZE]) (by simpa [git_packfile_parser_init] using h12)
      (by simpa [git_packfile_parser_init] using hsig)
  refine ⟨pre, post, q, h1, h2, ?_, ?_, h5, h6⟩
  · simpa [git_packfile_parser_init] using h3
  · simpa [git_packfile_parser_init] using h4

/-- Witness for C9: the bytes "XACK", version 2, one entry and one more byte, split
after three bytes. -/
theorem invalid_signature_fails_witness :
    PACK_HEADER_SIZE ≤
        ([[88, 65, 67], [75, 0, 0, 0, 2, 0, 0, 0, 1, 9]] : List (List Byte)).flatten.length ∧
      ∃ pre post q,
        feed_all all_callbacks 1 (git_packfile_parser_init stored_env)
            [[88, 65, 67], [75, 0, 0, 0, 2, 0, 0, 0, 1, 9]] = some (pre ++ -1 :: post, q) ∧
        (∀ r ∈ pre, r = 0) ∧
        (([[88, 65, 67], [75, 0, 0, 0, 2, 0, 0, 0, 1, 9]] : List (List Byte)).take
          pre.length).flatten.length < PACK_HEADER_SIZE ∧
        PACK_HEADER_SIZE ≤
          (([[88, 65, 67], [75, 0, 0, 0, 2, 0, 0, 0, 1, 9]] : List (List Byte)).take
            (pre.length + 1)).flatten.length ∧
        q.state = STATE_FAILED ∧ q.trace = [] :=
  ⟨by decide, invalid_signature_fails all_callbacks 0 _ (by decide) (by decide)⟩

/-! ## The trailer decoder -/

/-- `parse_trailer` on a slice that fills the trailer staging buffer. -/
theorem parse_trailer_full_spec {E : Env} (C : Consumer)
    (p : git_packfile_parser_t E) (data : List Byte)
    (hlen : p.trailer_len = p.trailer.length)
    (hfull : p.trailer_len + min E.hash_size data.length = E.hash_size) :
    (p.trailer ++ data.take (min E.hash_size data.length) ≠ E.hash_final p.packfile_hash →
      (parse_trailer C p data).1 = -1 ∧ (parse_trailer C p data).2.2.trace = p.trace) ∧
    (p.trailer ++ data.take (min E.hash_size data.length) = E.hash_final p.packfile_hash →
      (parse_trailer C p data).1 =
        (if C.present Callback.packfile_complete = true then
          C.ret p.trace (Event.packfile_complete (E.hash_final p.packfile_hash) E.hash_size)
         else 0) ∧
      (parse_trailer C p data).2.2.trace = p.trace ++
        (if C.present Callback.packfile_complete = true then
          [Event.packfile_complete (E.hash_final p.packfile_hash) E.hash_size] else []) ∧
      ((parse_trailer C p data).1 = 0 →
        (parse_trailer C p data).2.1 = min E.hash_size data.length ∧
        (parse_trailer C p data).2.2.state = STATE_COMPLETE)) := by
  have hdl := E.hash_final_length p.packfile_hash
  have hsl : (p.trailer ++ data.take (min E.hash_size data.length)).length = E.hash_size := by
    rw [List.length_append, List.length_take, ← hlen]
    omega
  have e1 : List.take E.hash_size (E.hash_final p.packfile_hash)
      = E.hash_final p.packfile_hash := List.take_of_length_le (le_of_eq hdl)
  have e2 : List.take E.hash_size (p.trailer ++ data.take (min E.hash_size data.length))
      = p.trailer ++ data.take (min E.hash_size data.length) :=
    List.take_of_length_le (le_of_eq hsl)
  have hsub : data.length - (data.length - min E.hash_size data.length)
      = min E.hash_size data.length := by omega
  unfold parse_trailer stage_trailer
  simp only [hfull, if_true, e1, e2, hsub]
  constructor
  · intro hneq
    simp [Ne.symm hneq]
  · intro heq
    simp only [heq, ne_eq, not_true_eq_false, if_false]
    by_cases hp : C.present Callback.packfile_complete = true
    · simp only [invoke_fst, invoke_trace, Event.kind, hp, if_true]
      by_cases hv : C.ret p.trace
          (Event.packfile_complete (E.hash_final p.packfile_hash) E.hash_size) = 0
      · simp [hv, invoke_trace, Event.kind, hp]
      · simp [hv, invoke_trace, Event.kind, hp]
    · simp [invoke_fst, invoke_trace, Event.kind, hp]

/-- Trailer verification when the slice brings the staged bytes to exactly
`hash_len`: a feed in `STATE_TRAILER` whose slice fills the trailer staging
buffer in this way decides in that same call.  If the staged bytes differ from
the finalised whole-stream digest the feed returns -1, no callback is invoked and
the state is `STATE_FAILED`.  If they are equal, `packfile_complete` is invoked
(when present) exactly once, with that digest; when it returns 0 (or is absent)
the state is `STATE_COMPLETE` and the feed returns 0 unless bytes follow the
trailer; when it returns a non-zero value the feed returns that value. -/
theorem trailer_verification {E : Env} (C : Consumer) (fuel : Nat)
    (p : git_packfile_parser_t E) (data : List Byte)
    (hst : p.state = STATE_TRAILER) (hlen : p.trailer_len = p.trailer.length)
    (hne : data ≠ [])
    (hfull : p.trailer_len + min E.hash_size data.length = E.hash_size) :
    (p.trailer ++ data.take (min E.hash_size data.length) ≠ E.hash_final p.packfile_hash →
      ∃ q, git_packfile_parser_parse C (fuel + 2) p data = some (-1, q) ∧
        q.state = STATE_FAILED ∧ q.trace = p.trace) ∧
    (p.trailer ++ data.take (min E.hash_size data.length) = E.hash_final p.packfile_hash →
      ∃ r q, git_packfile_parser_parse C (fuel + 2) p data = some (r, q) ∧
        q.trace = p.trace ++
          (if C.present Callback.packfile_complete = true then
            [Event.packfile_complete (E.hash_final p.packfile_hash) E.hash_size] else []) ∧
        ((if C.present Callback.packfile_complete = true then
            C.ret p.trace (Event.packfile_complete (E.hash_final p.packfile_hash) E.hash_size)
          else 0) = 0 →
          q.state = STATE_COMPLETE ∧ (data.length ≤ E.hash_size → r = 0)) ∧
        ((if C.present Callback.packfile_complete = true then
            C.ret p.trace (Event.packfile_complete (E.hash_final p.packfile_hash) E.hash_size)
          else 0) ≠ 0 →
          q.state = STATE_FAILED ∧
          r = C.ret p.trace
            (Event.packfile_complete (E.hash_final p.packfile_hash) E.hash_size))) := by
  have hit : parse_iteration C (fuel + 1) p data
      = some (parse_commit p.state data (parse_trailer C p data)) := by
    rw [parse_iteration_running C (fuel + 1) p data (by rw [hst]; decide)
      (by rw [hst]; decide), dispatch_trailer C (fuel + 1) p data hst]
    rfl
  obtain ⟨hA, hB⟩ := parse_trailer_full_spec C p data hlen hfull
  constructor
  · intro hneq
    obtain ⟨h1, h2⟩ := hA hneq
    have hx : (parse_commit p.state data (parse_trailer C p data)).1 ≠ 0 := by
      rw [parse_commit_fst, h1]; decide
    refine ⟨(parse_commit p.state data (parse_trailer C p data)).2.2, ?_, ?_, ?_⟩
    · rw [parse_of_iteration_error C (fuel + 1) p data hne _ hit hx, parse_commit_fst, h1]
    · rw [parse_commit_state, h1]; rfl
    · rw [parse_commit_trace, h2]
  · intro heq
    obtain ⟨h1, h2, h3⟩ := hB heq
    by_cases hv : (parse_trailer C p data).1 = 0
    · obtain ⟨h4, h5⟩ := h3 hv
      have hx : (parse_commit p.state data (parse_trailer C p data)).1 = 0 := by
        rw [parse_commit_fst, hv]
      have hs : (parse_commit p.state data (parse_trailer C p data)).2.2.state
          = STATE_COMPLETE := by
        rw [parse_commit_state, if_pos hv, h5]
      refine ⟨if data.drop (parse_commit p.state data (parse_trailer C p data)).2.1 = []
          then 0 else -1, (parse_commit p.state data (parse_trailer C p data)).2.2, ?_, ?_, ?_, ?_⟩
      · rw [parse_of_iteration_ok C (fuel + 1) p data hne _ hit hx,
          parse_stuck C fuel _ _ (Or.inr hs)]
      · rw [parse_commit_trace, h2]
      · intro _
        refine ⟨hs, ?_⟩
        intro hle
        rw [parse_commit_consumed _ _ _ hv, h4, Nat.min_eq_right hle, List.drop_length]
        rfl
      · intro hnz
        rw [← h1] at hnz
        exact absurd hv hnz
    · have hx : (parse_commit p.state data (parse_trailer C p data)).1 ≠ 0 := by
        rw [parse_commit_fst]; exact hv
      refine ⟨(parse_commit p.state data (parse_trailer C p data)).1, (parse_commit p.state data (parse_trailer C p data)).2.2,
        parse_of_iteration_error C (fuel + 1) p data hne _ hit hx, ?_, ?_, ?_⟩
      · rw [parse_commit_trace, h2]
      · intro hz
        rw [← h1] at hz
        exact absurd hz hv
      · intro _
        refine ⟨?_, ?_⟩
        · rw [parse_commit_state, if_neg hv]
        · rw [parse_commit_fst, h1]
          by_cases hp : C.present Callback.packfile_complete = true
          · simp [hp]
          · rw [h1] at hv
            simp [hp] at hv


/-- Instance of the trailer verification: the matching trailer of the one-blob
pack is accepted, and the
same trailer with its last byte changed is rejected. -/
theorem trailer_verification_witness :
    (∃ r q, git_packfile_parser_parse all_callbacks 2 trailer_state
        (sum_digest blob_pack_body) = some (r, q) ∧
      q.trace = trailer_state.trace ++
        (if all_callbacks.present Callback.packfile_complete = true then
          [Event.packfile_complete (stored_env.hash_final trailer_state.packfile_hash)
            stored_env.hash_size] else []) ∧
      ((if all_callbacks.present Callback.packfile_complete = true then
          all_callbacks.ret trailer_state.trace
            (Event.packfile_complete (stored_env.hash_final trailer_state.packfile_hash)
              stored_env.hash_size)
        else 0) = 0 →
        q.state = STATE_COMPLETE ∧
          ((sum_digest blob_pack_body).length ≤ stored_env.hash_size → r = 0)) ∧
      ((if all_callbacks.present Callback.packfile_complete = true then
          all_callbacks.ret trailer_state.trace
            (Event.packfile_complete (stored_env.hash_final trailer_state.packfile_hash)
              stored_env.hash_size)
        else 0) ≠ 0 →
        q.state = STATE_FAILED ∧
        r = all_callbacks.ret trailer_state.trace
          (Event.packfile_complete (stored_env.hash_final trailer_state.packfile_hash)
            stored_env.hash_size))) ∧
    (∃ q, git_packfile_parser_parse all_callbacks 2 trailer_state
        ((sum_digest blob_pack_body).dropLast ++ [0]) = some (-1, q) ∧
      q.state = STATE_FAILED ∧ q.trace = trailer_state.trace) :=
  ⟨(trailer_verification all_callbacks 0 trailer_state (sum_digest blob_pack_body)
      rfl rfl (by decide) (by decide)).2 (by decide),
   (trailer_verification all_callbacks 0 trailer_state
      ((sum_digest blob_pack_body).dropLast ++ [0]) rfl rfl (by decide) (by decide)).1
      (by decide)⟩

/-! ## Behaviour after an error -/

/-- C6 (as amended). Once a feed call has returned a non-zero value, every later
feed call with a non-empty slice returns -1, every later feed call with the empty
slice returns 0, and none of them changes the parser. -/
theorem feed_after_error {E : Env} (C : Consumer) (fuel : Nat)
    (p q : git_packfile_parser_t E) (data : List Byte) (r : Int)
    (h : git_packfile_parser_parse C fuel p data = some (r, q)) (hr : r ≠ 0)
    (fuel2 : Nat) (slices : List (List Byte)) :
    feed_all C (fuel2 + 1) q slices =
      some (slices.map (fun s => if s = [] then 0 else -1), q) :=
  feed_all_stuck C fuel2 q (parse_error_state C fuel p q data r h hr) slices

/-- Witness for C6 (as amended): after the rejected signature, three more feeds. -/
theorem feed_after_error_witness :
    git_packfile_parser_parse all_callbacks 1 (git_packfile_parser_init stored_env)
        bad_signature_slice = some (-1, rejected_state) ∧
      feed_all all_callbacks 1 rejected_state [[80], [], [1, 2]] =
        some (([[80], [], [1, 2]] : List (List Byte)).map (fun s => if s = [] then 0 else -1),
          rejected_state) :=
  ⟨rfl, feed_after_error all_callbacks 1 (git_packfile_parser_init stored_env)
    rejected_state bad_signature_slice (-1) rfl (by decide) 0 [[80], [], [1, 2]]⟩

/-- C6, counterexample to the claim as stated: the feed of a header with a wrong
signature returns -1, and the next feed, with the empty slice, returns 0 instead
of an error. -/
theorem feed_empty_slice_after_error_returns_zero :
    git_packfile_parser_parse all_callbacks 1 (git_packfile_parser_init stored_env)
        bad_signature_slice = some (-1, rejected_state) ∧
      git_packfile_parser_parse all_callbacks 1 rejected_state [] =
        some (0, rejected_state) :=
  ⟨rfl, rfl⟩

/-! ## Finishing -/

/-- C7. `git_packfile_parser_complete` returns 0 in a state other than
`STATE_COMPLETE`: after the one-blob pack has been fed without its last trailer
byte the feed succeeded, the state is `STATE_TRAILER`, and finishing returns 0
all the same. -/
theorem complete_succeeds_on_truncated_pack :
    (feed_all all_callbacks 10 (git_packfile_parser_init stored_env)
        [blob_pack.dropLast]).map
      (fun r => (r.1, r.2.state, git_packfile_parser_complete r.2)) =
      some ([0], STATE_TRAILER, 0) := by
  decide

/-! ## The invariant of the driver loop -/

/-- The tail of the loop body leaves `header` alone. -/
@[simp] theorem parse_commit_header {E : Env} (s : parser_state) (data : List Byte)
    (r : Int × Nat × git_packfile_parser_t E) :
    (parse_commit s data r).2.2.header = r.2.2.header := by
  unfold parse_commit
  by_cases h : r.1 = 0
  · simp only [h, true_and, ne_eq, not_true_eq_false, if_false]
    split <;> rfl
  · simp [h]

/-- The tail of the loop body leaves `header_len` alone. -/
@[simp] theorem parse_commit_header_len {E : Env} (s : parser_state) (data : List Byte)
    (r : Int × Nat × git_packfile_parser_t E) :
    (parse_commit s data r).2.2.header_len = r.2.2.header_len := by
  unfold parse_commit
  by_cases h : r.1 = 0
  · simp only [h, true_and, ne_eq, not_true_eq_false, if_false]
    split <;> rfl
  · simp [h]

/-- The tail of the loop body leaves `current_idx` alone. -/
@[simp] theorem parse_commit_current_idx {E : Env} (s : parser_state) (data : List Byte)
    (r : Int × Nat × git_packfile_parser_t E) :
    (parse_commit s data r).2.2.current_idx = r.2.2.current_idx := by
  unfold parse_commit
  by_cases h : r.1 = 0
  · simp only [h, true_and, ne_eq, not_true_eq_false, if_false]
    split <;> rfl
  · simp [h]

/-- The tail of the loop body leaves `current_position` alone. -/
@[simp] theorem parse_commit_current_position {E : Env} (s : parser_state) (data : List Byte)
    (r : Int × Nat × git_packfile_parser_t E) :
    (parse_commit s data r).2.2.current_position = r.2.2.current_position := by
  unfold parse_commit
  by_cases h : r.1 = 0
  · simp only [h, true_and, ne_eq, not_true_eq_false, if_false]
    split <;> rfl
  · simp [h]

/-- The tail of the loop body leaves `current_type` alone. -/
@[simp] theorem parse_commit_current_type {E : Env} (s : parser_state) (data : List Byte)
    (r : Int × Nat × git_packfile_parser_t E) :
    (parse_commit s data r).2.2.current_type = r.2.2.current_type := by
  unfold parse_commit
  by_cases h : r.1 = 0
  · simp only [h, true_and, ne_eq, not_true_eq_false, if_false]
    split <;> rfl
  · simp [h]

/-- The tail of the loop body leaves `current_size` alone. -/
@[simp] theorem parse_commit_current_size {E : Env} (s : parser_state) (data : List Byte)
    (r : Int × Nat × git_packfile_parser_t E) :
    (parse_commit s data r).2.2.current_size = r.2.2.current_size := by
  unfold parse_commit
  by_cases h : r.1 = 0
  · simp only [h, true_and, ne_eq, not_true_eq_false, if_false]
    split <;> rfl
  · simp [h]

/-- The tail of the loop body leaves `current_compressed_size` alone. -/
@[simp] theorem parse_commit_current_compressed_size {E : Env} (s : parser_state) (data : List Byte)
    (r : Int × Nat × git_packfile_parser_t E) :
    (parse_commit s data r).2.2.current_compressed_size = r.2.2.current_compressed_size := by
  unfold parse_commit
  by_cases h : r.1 = 0
  · simp only [h, true_and, ne_eq, not_true_eq_false, if_false]
    split <;> rfl
  · simp [h]

/-- The tail of the loop body leaves `current_compressed_crc` alone. -/
@[simp] theorem parse_commit_current_compressed_crc {E : Env} (s : parser_state) (data : List Byte)
    (r : Int × Nat × git_packfile_parser_t E) :
    (parse_commit s data r).2.2.current_compressed_crc = r.2.2.current_compressed_crc := by
  unfold parse_commit
  by_cases h : r.1 = 0
  · simp only [h, true_and, ne_eq, not_true_eq_false, if_false]
    split <;> rfl
  · simp [h]

/-- The tail of the loop body leaves `current_bits` alone. -/
@[simp] theorem parse_commit_current_bits {E : Env} (s : parser_state) (data : List Byte)
    (r : Int × Nat × git_packfile_parser_t E) :
    (parse_commit s data r).2.2.current_bits = r.2.2.current_bits := by
  unfold parse_commit
  by_cases h : r.1 = 0
  · simp only [h, true_and, ne_eq, not_true_eq_false, if_false]
    split <;> rfl
  · simp [h]

/-- The tail of the loop body leaves `current_hash` alone. -/
@[simp] theorem parse_commit_current_hash {E : Env} (s : parser_state) (data : List Byte)
    (r : Int × Nat × git_packfile_parser_t E) :
    (parse_commit s data r).2.2.current_hash = r.2.2.current_hash := by
  unfold parse_commit
  by_cases h : r.1 = 0
  · simp only [h, true_and, ne_eq, not_true_eq_false, if_false]
    split <;> rfl
  · simp [h]

/-- The tail of the loop body leaves `zstream` alone. -/
@[simp] theorem parse_commit_zstream {E : Env} (s : parser_state) (data : List Byte)
    (r : Int × Nat × git_packfile_parser_t E) :
    (parse_commit s data r).2.2.zstream = r.2.2.zstream := by
  unfold parse_commit
  by_cases h : r.1 = 0
  · simp only [h, true_and, ne_eq, not_true_eq_false, if_false]
    split <;> rfl
  · simp [h]

/-- The tail of the loop body leaves `current_offset` alone. -/
@[simp] theorem parse_commit_current_offset {E : Env} (s : parser_state) (data : List Byte)
    (r : Int × Nat × git_packfile_parser_t E) :
    (parse_commit s data r).2.2.current_offset = r.2.2.current_offset := by
  unfold parse_commit
  by_cases h : r.1 = 0
  · simp only [h, true_and, ne_eq, not_true_eq_false, if_false]
    split <;> rfl
  · simp [h]

/-- The tail of the loop body leaves `current_base` alone. -/
@[simp] theorem parse_commit_current_base {E : Env} (s : parser_state) (data : List Byte)
    (r : Int × Nat × git_packfile_parser_t E) :
    (parse_commit s data r).2.2.current_base = r.2.2.current_base := by
  unfold parse_commit
  by_cases h : r.1 = 0
  · simp only [h, true_and, ne_eq, not_true_eq_false, if_false]
    split <;> rfl
  · simp [h]

/-- The tail of the loop body leaves `current_base_len` alone. -/
@[simp] theorem parse_commit_current_base_len {E : Env} (s : parser_state) (data : List Byte)
    (r : Int × Nat × git_packfile_parser_t E) :
    (parse_commit s data r).2.2.current_base_len = r.2.2.current_base_len := by
  unfold parse_commit
  by_cases h : r.1 = 0
  · simp only [h, true_and, ne_eq, not_true_eq_false, if_false]
    split <;> rfl
  · simp [h]

/-- The tail of the loop body leaves `trailer` alone. -/
@[simp] theorem parse_commit_trailer {E : Env} (s : parser_state) (data : List Byte)
    (r : Int × Nat × git_packfile_parser_t E) :
    (parse_commit s data r).2.2.trailer = r.2.2.trailer := by
  unfold parse_commit
  by_cases h : r.1 = 0
  · simp only [h, true_and, ne_eq, not_true_eq_false, if_false]
    split <;> rfl
  · simp [h]

/-- The tail of the loop body leaves `trailer_len` alone. -/
@[simp] theorem parse_commit_trailer_len {E : Env} (s : parser_state) (data : List Byte)
    (r : Int × Nat × git_packfile_parser_t E) :
    (parse_commit s data r).2.2.trailer_len = r.2.2.trailer_len := by
  unfold parse_commit
  by_cases h : r.1 = 0
  · simp only [h, true_and, ne_eq, not_true_eq_false, if_false]
    split <;> rfl
  · simp [h]

/-- The position after the tail of the loop body. -/
theorem parse_commit_position {E : Env} (s : parser_state) (data : List Byte)
    (r : Int × Nat × git_packfile_parser_t E) :
    (parse_commit s data r).2.2.position =
      if r.1 = 0 then r.2.2.position + r.2.1 else r.2.2.position := by
  unfold parse_commit
  by_cases h : r.1 = 0
  · simp only [h, true_and, ne_eq, not_true_eq_false, if_false, if_true]
    split <;> rfl
  · simp [h]

/-- The whole-stream hash after the tail of the loop body. -/
theorem parse_commit_packfile_hash {E : Env} (s : parser_state) (data : List Byte)
    (r : Int × Nat × git_packfile_parser_t E) :
    (parse_commit s data r).2.2.packfile_hash =
      if r.1 = 0 ∧ s.toNat < STATE_TRAILER.toNat then
        r.2.2.packfile_hash ++ data.take r.2.1
      else r.2.2.packfile_hash := by
  unfold parse_commit
  by_cases h : r.1 = 0
  · simp only [h, true_and, ne_eq, not_true_eq_false, if_false]
    split <;> rfl
  · simp [h]

/-- The header entry count passes through the tail of the loop body. -/
@[simp] theorem parse_commit_hdr_entries {E : Env} (s : parser_state) (data : List Byte)
    (r : Int × Nat × git_packfile_parser_t E) :
    hdr_entries (parse_commit s data r).2.2 = hdr_entries r.2.2 := by
  simp [hdr_entries]

/-- The CRC law of a trace survives the arrival of more bytes. -/
theorem crc_ok_mono (S X : List Byte) : ∀ t : List Event, crc_ok S t → crc_ok (S ++ X) t := by
  intro t
  induction t with
  | nil => intro _; trivial
  | cons e t ih =>
    intro h
    have key : ∀ (off cs : Nat), off + cs ≤ S.length →
        ((S ++ X).drop off).take cs = (S.drop off).take cs := by
      intro off cs hle
      rw [List.drop_append_of_le_length (by omega),
        List.take_append_of_le_length (by rw [List.length_drop]; omega)]
    cases e with
    | object_complete cs crc oid =>
      obtain ⟨h1, h2⟩ := h
      refine ⟨fun off ho => ?_, ih h2⟩
      obtain ⟨h3, h4⟩ := h1 off ho
      exact ⟨by rw [List.length_append]; omega, by rw [key off cs h3]; exact h4⟩
    | delta_complete cs crc =>
      obtain ⟨h1, h2⟩ := h
      refine ⟨fun off ho => ?_, ih h2⟩
      obtain ⟨h3, h4⟩ := h1 off ho
      exact ⟨by rw [List.length_append]; omega, by rw [key off cs h3]; exact h4⟩
    | packfile_header _ _ => exact ih h
    | object_start _ _ _ _ => exact ih h
    | object_data _ => exact ih h
    | delta_start _ _ _ _ _ _ => exact ih h
    | delta_data _ => exact ih h
    | packfile_complete _ _ => exact ih h

/-- Phase of a trace extended by one invocation. -/
theorem trace_phase_snoc (t : List Event) (e : Event) :
    trace_phase (t ++ [e]) = (trace_phase t).step e := by
  simp [trace_phase, List.foldl_append]

/-- Number of starts in a trace extended by one invocation. -/
theorem count_starts_snoc (t : List Event) (e : Event) :
    count_starts (t ++ [e]) = count_starts t +
      (if e.kind = Callback.object_start ∨ e.kind = Callback.delta_start then 1 else 0) := by
  simp only [count_starts, List.filter_append, List.length_append]
  by_cases h : e.kind = Callback.object_start ∨ e.kind = Callback.delta_start
  · rcases h with h | h <;> simp [h]
  · have h1 : e.kind ≠ Callback.object_start := fun hh => h (Or.inl hh)
    have h2 : e.kind ≠ Callback.delta_start := fun hh => h (Or.inr hh)
    simp [h1, h2]

/-- A fresh parser satisfies the invariant for the empty stream. -/
theorem inv_init {E : Env} (C : Consumer) : Inv C [] (git_packfile_parser_init E) := by
  constructor <;>
    simp [git_packfile_parser_init, crc_ok, in_entry, trace_phase, expected_phase,
      expected_starts, count_starts, PACK_HEADER_SIZE]

/-- A property of (consumed bytes, parser) kept by every iteration of the driver
loop is kept by a feed: the bytes consumed by the feed are a leading part of the
slice, and all of it when the feed returns 0. -/
theorem parse_preserves {E : Env} (C : Consumer)
    (I : List Byte → git_packfile_parser_t E → Prop)
    (hstep : ∀ fuel S p data x, I S p → data ≠ [] →
      parse_iteration C fuel p data = some x →
      ∃ k, I (S ++ data.take k) x.2.2 ∧ (x.1 = 0 → k = x.2.1)) :
    ∀ (fuel : Nat) (S : List Byte) (p q : git_packfile_parser_t E) (data : List Byte)
      (r : Int), I S p → git_packfile_parser_parse C fuel p data = some (r, q) →
      ∃ k, I (S ++ data.take k) q ∧ (r = 0 → data.take k = data) := by
  intro fuel
  induction fuel with
  | zero =>
    intro S p q data r hI h
    by_cases hd : data = []
    · subst hd
      simp only [parse_nil, Option.some.injEq, Prod.mk.injEq] at h
      obtain ⟨_, rfl⟩ := h
      exact ⟨0, by simpa using hI, fun _ => rfl⟩
    · rw [parse_zero C p data hd] at h; simp at h
  | succ fuel ih =>
    intro S p q data r hI h
    by_cases hd : data = []
    · subst hd
      simp only [parse_nil, Option.some.injEq, Prod.mk.injEq] at h
      obtain ⟨_, rfl⟩ := h
      exact ⟨0, by simpa using hI, fun _ => rfl⟩
    · rw [parse_succ C fuel p data hd] at h
      cases hit : parse_iteration C fuel p data with
      | none => rw [hit] at h; simp at h
      | some x =>
        obtain ⟨k, hk, hk0⟩ := hstep fuel S p data x hI hd hit
        rw [hit] at h
        by_cases hx : x.1 = 0
        · simp only [hx, ne_eq, not_true_eq_false, if_false] at h
          have hk1 := hk0 hx
          subst hk1
          obtain ⟨k2, hk2, hk3⟩ := ih _ _ _ _ _ hk h
          refine ⟨x.2.1 + k2, ?_, ?_⟩
          · rw [List.take_add, ← List.append_assoc]; exact hk2
          · intro hr
            rw [List.take_add, hk3 hr, List.take_append_drop]
        · simp only [ne_eq, hx, not_false_eq_true, if_true, Option.some.injEq,
            Prod.mk.injEq] at h
          obtain ⟨rfl, rfl⟩ := h
          exact ⟨k, hk, fun h0 => absurd h0 hx⟩

/-- The same for a sequence of feeds: the bytes consumed are a leading part of
the concatenated slices, and all of them when every feed returned 0. -/
theorem feed_all_preserves {E : Env} (C : Consumer)
    (I : List Byte → git_packfile_parser_t E → Prop)
    (hstep : ∀ fuel S p data x, I S p → data ≠ [] →
      parse_iteration C fuel p data = some x →
      ∃ k, I (S ++ data.take k) x.2.2 ∧ (x.1 = 0 → k = x.2.1)) (fuel : Nat) :
    ∀ (chunks : List (List Byte)) (S : List Byte) (p q : git_packfile_parser_t E)
      (rets : List Int), I S p → feed_all C fuel p chunks = some (rets, q) →
      ∃ k, I (S ++ chunks.flatten.take k) q ∧
        ((∀ r ∈ rets, r = 0) → chunks.flatten.take k = chunks.flatten) := by
  intro chunks
  induction chunks with
  | nil =>
    intro S p q rets hI h
    simp only [feed_all, Option.some.injEq, Prod.mk.injEq] at h
    obtain ⟨_, rfl⟩ := h
    exact ⟨0, by simpa using hI, fun _ => rfl⟩
  | cons c cs ih =>
    intro S p q rets hI h
    rw [feed_all_cons] at h
    cases hp : git_packfile_parser_parse C fuel p c with
    | none => rw [hp] at h; simp at h
    | some x =>
      obtain ⟨r1, p1⟩ := x
      rw [hp] at h
      dsimp only at h
      obtain ⟨k1, hk1, hk1z⟩ := parse_preserves C I hstep fuel S p p1 c r1 hI hp
      cases hf : feed_all C fuel p1 cs with
      | none => rw [hf] at h; simp at h
      | some y =>
        obtain ⟨rs, q2⟩ := y
        rw [hf] at h
        simp only [Option.some.injEq, Prod.mk.injEq] at h
        obtain ⟨rfl, rfl⟩ := h
        by_cases hr1 : r1 = 0
        · have hc := hk1z hr1
          rw [hc] at hk1
          obtain ⟨k2, hk2, hk2z⟩ := ih _ _ _ _ hk1 hf
          refine ⟨c.length + k2, ?_, ?_⟩
          · rw [List.flatten_cons, List.take_append, ← List.append_assoc]; exact hk2
          · intro hall
            rw [List.flatten_cons, List.take_append,
              hk2z (fun r hr => hall r (List.mem_cons_of_mem _ hr))]
        · have hstuck := parse_error_state C fuel p p1 c r1 hp hr1
          have hfuel : ∃ f, fuel = f + 1 := by
            cases fuel with
            | zero =>
              exfalso
              by_cases hc : c = []
              · subst hc; simp [parse_nil] at hp; exact hr1 hp.1.symm
              · rw [parse_zero C p c hc] at hp; simp at hp
            | succ f => exact ⟨f, rfl⟩
          obtain ⟨f, rfl⟩ := hfuel
          rw [feed_all_stuck C f p1 hstuck cs] at hf
          simp only [Option.some.injEq, Prod.mk.injEq] at hf
          obtain ⟨_, rfl⟩ := hf
          refine ⟨min k1 c.length, ?_, ?_⟩
          · rw [List.flatten_cons, List.take_append_of_le_length (Nat.min_le_right _ _)]
            have : c.take (min k1 c.length) = c.take k1 := by
              rw [List.take_eq_take]; omega
            rw [this]; exact hk1
          · intro hall
            exact absurd (hall r1 (List.mem_cons_self _ _)) hr1

/-- Summary of `parse_header`. -/
theorem parse_header_summary {E : Env} (C : Consumer)
    (p : git_packfile_parser_t E) (data : List Byte)
    (r : Int × Nat × git_packfile_parser_t E) (hr : parse_header C p data = r)
    (hlen : p.header_len = p.header.length) (hle : p.header.length < PACK_HEADER_SIZE) :
    (r.2.2.position = p.position ∧ r.2.2.current_idx = p.current_idx ∧
      r.2.2.packfile_hash = p.packfile_hash ∧ r.2.2.trailer = p.trailer ∧
      r.2.2.trailer_len = p.trailer_len) ∧
    (p.header.length + data.length < PACK_HEADER_SIZE →
      r.1 = 0 ∧ r.2.1 = data.length ∧ r.2.2.header = p.header ++ data ∧
      r.2.2.header_len = p.header.length + data.length ∧ r.2.2.state = p.state ∧
      r.2.2.trace = p.trace) ∧
    (PACK_HEADER_SIZE ≤ p.header.length + data.length →
      (r.1 ≠ 0 →
        r.2.2.trace = p.trace ∨
        (C.present Callback.packfile_header = true ∧
          ∃ v n, r.2.2.trace = p.trace ++ [Event.packfile_header v n])) ∧
      (r.1 = 0 →
        r.2.1 = PACK_HEADER_SIZE - p.header.length ∧
        r.2.2.header = (p.header ++ data).take PACK_HEADER_SIZE ∧
        r.2.2.header_len = PACK_HEADER_SIZE ∧
        r.2.2.state = (if hdr_entries r.2.2 > 0 then STATE_OBJECT_HEADER_START
                       else STATE_TRAILER) ∧
        r.2.2.trace = emit C p.trace (Event.packfile_header 2 (hdr_entries r.2.2)))) := by
  by_cases hc : p.header.length + data.length < PACK_HEADER_SIZE
  · rw [parse_header_partial_eq C p data hlen hc] at hr
    subst hr
    refine ⟨⟨rfl, rfl, rfl, rfl, rfl⟩, fun _ => ⟨rfl, rfl, rfl, by simp [hlen], rfl, rfl⟩, ?_⟩
    intro h
    omega
  · have hfull : PACK_HEADER_SIZE ≤ p.header.length + data.length := by omega
    have hstage := header_stage_eq p.header data (Nat.le_of_lt hle)
    have hfl : (stage_header p data).header_len = PACK_HEADER_SIZE := by
      simp only [stage_header_header_len, hlen]; omega
    have hsub : data.length - (data.length - min data.length (PACK_HEADER_SIZE - p.header_len))
        = PACK_HEADER_SIZE - p.header.length := by rw [hlen]; omega
    have hhd : (stage_header p data).header = (p.header ++ data).take PACK_HEADER_SIZE := by
      simp only [stage_header_header, hlen]; exact hstage
    unfold parse_header at hr
    dsimp only at hr
    rw [if_pos hfl, hsub] at hr
    refine ⟨?_, fun h => absurd h hc, fun _ => ?_⟩
    · subst hr
      split_ifs <;> simp
    · by_cases h1 : hdr_signature (stage_header p data) ≠ PACK_SIGNATURE
      · rw [if_pos h1] at hr
        subst hr
        exact ⟨fun _ => Or.inl (by simp), fun h0 => by simp at h0⟩
      · rw [if_neg h1] at hr
        by_cases h2 : hdr_version (stage_header p data) ≠ 2
        · rw [if_pos h2] at hr
          subst hr
          exact ⟨fun _ => Or.inl (by simp), fun h0 => by simp at h0⟩
        · rw [if_neg h2] at hr
          have hv : hdr_version (stage_header p data) = 2 := not_not.mp h2
          by_cases h3 : (invoke C (stage_header p data)
              (header_event (stage_header p data))).1 ≠ 0
          · rw [if_pos h3] at hr
            subst hr
            obtain ⟨hpr, hem⟩ := emit_of_ne_zero C _ _ h3
            refine ⟨fun _ => Or.inr ⟨by simpa [header_event, Event.kind] using hpr,
              hdr_version (stage_header p data), hdr_entries (stage_header p data), ?_⟩,
              fun h0 => absurd h0 h3⟩
            rw [invoke_trace_emit, hem]
            simp [header_event]
          · rw [if_neg h3] at hr
            subst hr
            refine ⟨fun h => by simp at h, fun _ => ⟨rfl, ?_, ?_, ?_, ?_⟩⟩
            · show (invoke C _ _).2.header = _
              rw [invoke_header]; exact hhd
            · show (invoke C _ _).2.header_len = _
              rw [invoke_header_len]; exact hfl
            · simp [hdr_entries]
            · simp [hdr_entries, invoke_trace_emit, header_event, hv]

/-- Summary of `parse_trailer`. -/
theorem parse_trailer_summary {E : Env} (C : Consumer)
    (p : git_packfile_parser_t E) (data : List Byte)
    (r : Int × Nat × git_packfile_parser_t E) (hr : parse_trailer C p data = r)
    (hlen : p.trailer_len = p.trailer.length) :
    (r.2.2.position = p.position ∧ r.2.2.header = p.header ∧
      r.2.2.header_len = p.header_len ∧ r.2.2.current_idx = p.current_idx ∧
      r.2.2.packfile_hash = p.packfile_hash) ∧
    (r.1 ≠ 0 →
      r.2.2.trace = p.trace ∨
      (C.present Callback.packfile_complete = true ∧
        r.2.2.trace = p.trace ++
          [Event.packfile_complete (E.hash_final p.packfile_hash) E.hash_size])) ∧
    (r.1 = 0 →
      r.2.1 = min E.hash_size data.length ∧
      r.2.2.trailer = p.trailer ++ data.take (min E.hash_size data.length) ∧
      r.2.2.trailer_len = r.2.2.trailer.length ∧
      ((r.2.2.state = p.state ∧ r.2.2.trace = p.trace) ∨
       (r.2.2.state = STATE_COMPLETE ∧
          r.2.2.trailer = E.hash_final p.packfile_hash ∧
          r.2.2.trace = emit C p.trace
            (Event.packfile_complete (E.hash_final p.packfile_hash) E.hash_size)))) := by
  have hsub : data.length - (data.length - min E.hash_size data.length)
      = min E.hash_size data.length := by omega
  have hl2 : (stage_trailer p data).trailer_len = (stage_trailer p data).trailer.length := by
    simp [hlen]
  unfold parse_trailer at hr
  dsimp only at hr
  rw [hsub] at hr
  by_cases hfull : (stage_trailer p data).trailer_len = E.hash_size
  · rw [if_pos hfull] at hr
    have hdl := E.hash_final_length (stage_trailer p data).packfile_hash
    have e1 : List.take (stage_trailer p data).trailer_len
        (E.hash_final (stage_trailer p data).packfile_hash)
        = E.hash_final (stage_trailer p data).packfile_hash :=
      List.take_of_length_le (by rw [hdl, hfull])
    have e2 : List.take (stage_trailer p data).trailer_len (stage_trailer p data).trailer
        = (stage_trailer p data).trailer :=
      List.take_of_length_le (by rw [hl2])
    rw [e1, e2] at hr
    by_cases hneq : E.hash_final (stage_trailer p data).packfile_hash
        ≠ (stage_trailer p data).trailer
    · rw [if_pos hneq] at hr
      subst hr
      exact ⟨by simp, fun _ => Or.inl (by simp), fun h0 => by simp at h0⟩
    · rw [if_neg hneq] at hr
      have heq := not_not.mp hneq
      by_cases hcb : (invoke C (stage_trailer p data)
          (.packfile_complete (E.hash_final (stage_trailer p data).packfile_hash)
            E.hash_size)).1 ≠ 0
      · rw [if_pos hcb] at hr
        subst hr
        obtain ⟨hpr, hem⟩ := emit_of_ne_zero C _ _ hcb
        refine ⟨by simp, fun _ => Or.inr ⟨by simpa [Event.kind] using hpr, ?_⟩,
          fun h0 => absurd h0 hcb⟩
        rw [invoke_trace_emit, hem]
        simp
      · rw [if_neg hcb] at hr
        subst hr
        refine ⟨by simp, fun h => by simp at h, fun _ => ⟨rfl, by simp, by simpa using hl2,
          Or.inr ⟨rfl, ?_, ?_⟩⟩⟩
        · simpa using heq.symm
        · simp [invoke_trace_emit]
  · rw [if_neg hfull] at hr
    subst hr
    exact ⟨by simp, fun h => by simp at h, fun _ => ⟨rfl, by simp, by simpa using hl2,
      Or.inl ⟨by simp, by simp⟩⟩⟩

/-- Membership in a trace extended at a callback site. -/
theorem mem_emit (C : Consumer) (t : List Event) (e x : Event) :
    x ∈ emit C t e ↔ x ∈ t ∨ (C.present e.kind = true ∧ x = e) := by
  unfold emit
  by_cases h : C.present e.kind = true <;> simp [h]

/-- With every callback present a callback site appends its invocation. -/
theorem emit_all (C : Consumer) (hall : ∀ cb, C.present cb = true) (t : List Event)
    (e : Event) : emit C t e = t ++ [e] := by
  simp [emit, hall]

/-- A trace extended at a callback site is the trace or the trace with one more
invocation. -/
theorem emit_cases (C : Consumer) (t : List Event) (e : Event) :
    (C.present e.kind = false ∧ emit C t e = t) ∨
      (C.present e.kind = true ∧ emit C t e = t ++ [e]) := by
  unfold emit
  by_cases h : C.present e.kind = true <;> simp [h]

/-- Data invocations are skipped by the backward scan for the open entry. -/
theorem last_start_append_data (t ds : List Event)
    (h : ∀ x ∈ ds, x.kind = Callback.object_data ∨ x.kind = Callback.delta_data) :
    last_start (t ++ ds).reverse = last_start t.reverse := by
  induction ds using List.reverseRecOn with
  | nil => simp
  | append_singleton ds d ih =>
    rw [← List.append_assoc, List.reverse_append, List.reverse_singleton,
      List.singleton_append]
    have hd := h d (by simp)
    have ih2 := ih (fun x hx => h x (by simp [hx]))
    cases d <;> simp_all [last_start, Event.kind]

/-- Data invocations do not affect the CRC law. -/
theorem crc_ok_append_data (S : List Byte) (t ds : List Event)
    (h : ∀ x ∈ ds, x.kind = Callback.object_data ∨ x.kind = Callback.delta_data) :
    crc_ok S (t ++ ds).reverse ↔ crc_ok S t.reverse := by
  induction ds using List.reverseRecOn with
  | nil => simp
  | append_singleton ds d ih =>
    rw [← List.append_assoc, List.reverse_append, List.reverse_singleton,
      List.singleton_append]
    have hd := h d (by simp)
    have ih2 := ih (fun x hx => h x (by simp [hx]))
    cases d <;> simp_all [crc_ok, Event.kind]

/-- The backward scan finds an `object_start` only if the trace has one. -/
theorem last_start_object_mem (l : List Event) (off : Nat)
    (h : last_start l = some (false, off)) :
    ∃ e ∈ l, e.kind = Callback.object_start := by
  induction l with
  | nil => simp [last_start] at h
  | cons e l ih =>
    cases e <;> simp_all [last_start, Event.kind]

/-- The backward scan finds a `delta_start` only if the trace has one. -/
theorem last_start_delta_mem (l : List Event) (off : Nat)
    (h : last_start l = some (true, off)) :
    ∃ e ∈ l, e.kind = Callback.delta_start := by
  induction l with
  | nil => simp [last_start] at h
  | cons e l ih =>
    cases e <;> simp_all [last_start, Event.kind]

/-- The phase of a trace is kept by `object_data` invocations inside a non-delta
entry. -/
theorem trace_phase_append_object_data (t ds : List Event)
    (h : ∀ x ∈ ds, x.kind = Callback.object_data)
    (hp : trace_phase t = Phase.in_object) : trace_phase (t ++ ds) = Phase.in_object := by
  induction ds using List.reverseRecOn with
  | nil => simpa using hp
  | append_singleton ds d ih =>
    rw [← List.append_assoc, trace_phase_snoc, ih (fun x hx => h x (by simp [hx]))]
    have hd := h d (by simp)
    cases d <;> simp_all [Phase.step, Event.kind]

/-- The phase of a trace is kept by `delta_data` invocations inside a delta
entry. -/
theorem trace_phase_append_delta_data (t ds : List Event)
    (h : ∀ x ∈ ds, x.kind = Callback.delta_data)
    (hp : trace_phase t = Phase.in_delta) : trace_phase (t ++ ds) = Phase.in_delta := by
  induction ds using List.reverseRecOn with
  | nil => simpa using hp
  | append_singleton ds d ih =>
    rw [← List.append_assoc, trace_phase_snoc, ih (fun x hx => h x (by simp [hx]))]
    have hd := h d (by simp)
    cases d <;> simp_all [Phase.step, Event.kind]

/-- Data invocations are not counted as starts. -/
theorem count_starts_append_data (t ds : List Event)
    (h : ∀ x ∈ ds, x.kind = Callback.object_data ∨ x.kind = Callback.delta_data) :
    count_starts (t ++ ds) = count_starts t := by
  induction ds using List.reverseRecOn with
  | nil => simp
  | append_singleton ds d ih =>
    rw [← List.append_assoc, count_starts_snoc, ih (fun x hx => h x (by simp [hx]))]
    have hd := h d (by simp)
    rcases hd with hd | hd <;> simp [hd]

/-- In `STATE_FAILED` the invariant only constrains the trace. -/
theorem inv_failed {E : Env} (C : Consumer) (S : List Byte) (q : git_packfile_parser_t E)
    (hst : q.state = STATE_FAILED) (hcrc : crc_ok S q.trace.reverse)
    (hpr : ∀ e ∈ q.trace, C.present e.kind = true)
    (hph : (∀ cb, C.present cb = true) → trace_phase q.trace ≠ Phase.bad) : Inv C S q := by
  constructor <;>
    simp_all [in_entry, expected_phase, expected_starts, parser_state.toNat]

/-- The invariant in a state between the header and the trailer. -/
theorem inv_mk_entry {E : Env} (C : Consumer) (S : List Byte) (q : git_packfile_parser_t E)
    (hst : q.state ≠ STATE_HEADER) (hlt : q.state.toNat < STATE_TRAILER.toNat)
    (hcrc : crc_ok S q.trace.reverse)
    (hpr : ∀ e ∈ q.trace, C.present e.kind = true)
    (hpos : q.position = S.length) (hhl : q.header_len = q.header.length)
    (hhd : q.header = S.take PACK_HEADER_SIZE) (h12 : PACK_HEADER_SIZE ≤ S.length)
    (hph : q.packfile_hash = S) (htr : q.trailer = []) (htl : q.trailer_len = 0)
    (hpc : ∀ e ∈ q.trace, e.kind ≠ Callback.packfile_complete)
    (hent : in_entry q.state = true →
      q.current_position + q.current_compressed_size = S.length ∧
      q.current_compressed_crc = crc32 0 (S.drop q.current_position))
    (hoo : q.state = STATE_OBJECT_DATA_START ∨ q.state = STATE_OBJECT_DATA →
      ∀ off, last_start q.trace.reverse = some (false, off) → off = q.current_position)
    (hod : q.state = STATE_DELTA_DATA_START ∨ q.state = STATE_DELTA_DATA →
      ∀ off, last_start q.trace.reverse = some (true, off) → off = q.current_position)
    (hphase : (∀ cb, C.present cb = true) →
      expected_phase q.state = some (trace_phase q.trace))
    (hcount : (∀ cb, C.present cb = true) →
      expected_starts q = some (count_starts q.trace) ∧ q.current_idx < hdr_entries q) :
    Inv C S q := by
  have hnf : q.state ≠ STATE_FAILED := by
    intro h; rw [h] at hlt; simp [parser_state.toNat] at hlt
  have hnt : q.state ≠ STATE_TRAILER := by
    intro h; rw [h] at hlt; simp [parser_state.toNat] at hlt
  have hnc : q.state ≠ STATE_COMPLETE := by
    intro h; rw [h] at hlt; simp [parser_state.toNat] at hlt
  refine { crc := hcrc, present := hpr, pos := fun _ => ⟨hpos, hhl⟩,
           hdr0 := fun h => absurd h hst, hdr1 := fun _ _ => ⟨hhd, h12⟩,
           pre := fun _ => ⟨hph, htr, htl⟩, ent := hent, open_object := hoo,
           open_delta := hod, trl := ?_, fin := fun h => absurd h hnc,
           pc_none := fun _ _ => hpc, pc_done := fun h => absurd h hnc,
           phase := ?_, starts := ?_ }
  · rintro (h | h)
    · exact absurd h hnt
    · exact absurd h hnc
  · intro hall
    have h := hphase hall
    refine ⟨?_, fun ph hp => ?_⟩
    · intro hb
      rw [hb] at h
      cases hq : q.state <;> simp [hq, expected_phase] at h
    · rw [h] at hp
      exact (Option.some.inj hp)
  · intro hall
    obtain ⟨h1, h2⟩ := hcount hall
    refine ⟨fun n hn => ?_, fun _ _ => h2⟩
    rw [h1] at hn
    exact (Option.some.inj hn)

/-- The invariant in `STATE_TRAILER`. -/
theorem inv_mk_trailer {E : Env} (C : Consumer) (S : List Byte)
    (q : git_packfile_parser_t E) (hst : q.state = STATE_TRAILER)
    (hcrc : crc_ok S q.trace.reverse)
    (hpr : ∀ e ∈ q.trace, C.present e.kind = true)
    (hpos : q.position = S.length) (hhl : q.header_len = q.header.length)
    (hhd : q.header = S.take PACK_HEADER_SIZE) (h12 : PACK_HEADER_SIZE ≤ S.length)
    (hS : S = q.packfile_hash ++ q.trailer) (htl : q.trailer_len = q.trailer.length)
    (hpc : ∀ e ∈ q.trace, e.kind ≠ Callback.packfile_complete)
    (hphase : (∀ cb, C.present cb = true) → trace_phase q.trace = Phase.idle)
    (hcount : (∀ cb, C.present cb = true) → count_starts q.trace = hdr_entries q) :
    Inv C S q := by
  refine { crc := hcrc, present := hpr, pos := fun _ => ⟨hpos, hhl⟩,
           hdr0 := ?_, hdr1 := fun _ _ => ⟨hhd, h12⟩,
           pre := ?_, ent := ?_, open_object := ?_,
           open_delta := ?_, trl := fun _ => ⟨hS, htl⟩, fin := ?_,
           pc_none := fun _ _ => hpc, pc_done := ?_,
           phase := ?_, starts := ?_ } <;>
    simp_all [in_entry, expected_phase, expected_starts, parser_state.toNat]

/-- The invariant in `STATE_COMPLETE`. -/
theorem inv_mk_complete {E : Env} (C : Consumer) (S : List Byte)
    (q : git_packfile_parser_t E) (hst : q.state = STATE_COMPLETE)
    (hcrc : crc_ok S q.trace.reverse)
    (hpr : ∀ e ∈ q.trace, C.present e.kind = true)
    (hpos : q.position = S.length) (hhl : q.header_len = q.header.length)
    (hhd : q.header = S.take PACK_HEADER_SIZE) (h12 : PACK_HEADER_SIZE ≤ S.length)
    (hS : S = q.packfile_hash ++ q.trailer) (htl : q.trailer_len = q.trailer.length)
    (hfin : q.trailer = E.hash_final q.packfile_hash)
    (hpc : ∀ e ∈ q.trace, e.kind = Callback.packfile_complete →
      e = Event.packfile_complete (E.hash_final q.packfile_hash) E.hash_size)
    (hpe : C.present Callback.packfile_complete = true →
      Event.packfile_complete (E.hash_final q.packfile_hash) E.hash_size ∈ q.trace)
    (hphase : (∀ cb, C.present cb = true) → trace_phase q.trace = Phase.done)
    (hcount : (∀ cb, C.present cb = true) → count_starts q.trace = hdr_entries q) :
    Inv C S q := by
  refine { crc := hcrc, present := hpr, pos := fun _ => ⟨hpos, hhl⟩,
           hdr0 := ?_, hdr1 := fun _ _ => ⟨hhd, h12⟩,
           pre := ?_, ent := ?_, open_object := ?_,
           open_delta := ?_, trl := fun _ => ⟨hS, htl⟩, fin := fun _ => hfin,
           pc_none := ?_, pc_done := fun _ => ⟨hpc, hpe⟩,
           phase := ?_, starts := ?_ } <;>
    simp_all [in_entry, expected_phase, expected_starts, parser_state.toNat]

/-- What the invariant says in a state between the header and the trailer. -/
theorem inv_entry_facts {E : Env} {C : Consumer} {S : List Byte}
    {p : git_packfile_parser_t E} (hI : Inv C S p)
    (hne : p.state ≠ STATE_HEADER) (hlt : p.state.toNat < STATE_TRAILER.toNat) :
    p.position = S.length ∧ p.header_len = p.header.length ∧
    p.header = S.take PACK_HEADER_SIZE ∧ PACK_HEADER_SIZE ≤ S.length ∧
    p.packfile_hash = S ∧ p.trailer = [] ∧ p.trailer_len = 0 ∧
    (∀ e ∈ p.trace, e.kind ≠ Callback.packfile_complete) := by
  have hnf : p.state ≠ STATE_FAILED := by
    intro h; rw [h] at hlt; simp [parser_state.toNat] at hlt
  have hnc : p.state ≠ STATE_COMPLETE := by
    intro h; rw [h] at hlt; simp [parser_state.toNat] at hlt
  obtain ⟨h1, h2⟩ := hI.pos hnf
  obtain ⟨h3, h4⟩ := hI.hdr1 hne hnf
  obtain ⟨h5, h6, h7⟩ := hI.pre hlt
  exact ⟨h1, h2, h3, h4, h5, h6, h7, hI.pc_none hnc hnf⟩

/-- The CRC law is not affected by an invocation that is not a completion. -/
theorem crc_ok_snoc_other (S : List Byte) (t : List Event) (e : Event)
    (h1 : e.kind ≠ Callback.object_complete) (h2 : e.kind ≠ Callback.delta_complete) :
    crc_ok S (t ++ [e]).reverse ↔ crc_ok S t.reverse := by
  rw [List.reverse_append, List.reverse_singleton, List.singleton_append]
  cases e <;> simp_all [crc_ok, Event.kind]

/-- The CRC law is not affected by a callback site that is not a completion. -/
theorem crc_ok_emit_other (C : Consumer) (S : List Byte) (t : List Event) (e : Event)
    (h1 : e.kind ≠ Callback.object_complete) (h2 : e.kind ≠ Callback.delta_complete) :
    crc_ok S (emit C t e).reverse ↔ crc_ok S t.reverse := by
  rcases emit_cases C t e with ⟨_, h⟩ | ⟨_, h⟩
  · rw [h]
  · rw [h]; exact crc_ok_snoc_other S t e h1 h2

/-- Invocations stay invocations of present callbacks across a callback site. -/
theorem present_emit (C : Consumer) (t : List Event) (e : Event)
    (h : ∀ x ∈ t, C.present x.kind = true) : ∀ x ∈ emit C t e, C.present x.kind = true := by
  intro x hx
  rcases (mem_emit C t e x).mp hx with hx | ⟨hp, rfl⟩
  · exact h x hx
  · exact hp

/-- The bytes of the open entry after more bytes were consumed. -/
theorem entry_bytes_extend (S X : List Byte) (cp c0 crc0 : Nat)
    (h1 : cp + c0 = S.length) (h2 : crc0 = crc32 0 (S.drop cp)) :
    cp + (c0 + X.length) = (S ++ X).length ∧
    crc32 crc0 X = crc32 0 ((S ++ X).drop cp) := by
  refine ⟨by rw [List.length_append]; omega, ?_⟩
  rw [h2, crc32_append, List.drop_append_of_le_length (by omega)]

/-- The parser after a successful iteration started between the header and the
trailer, when the sub-parser left position, header, whole-stream hash and
trailer alone. -/
theorem commit_entry_frame {E : Env} {C : Consumer} {S : List Byte}
    {p : git_packfile_parser_t E} (hI : Inv C S p) (data : List Byte)
    (hne : p.state ≠ STATE_HEADER) (hlt : p.state.toNat < STATE_TRAILER.toNat)
    (r : Int × Nat × git_packfile_parser_t E) (h0 : r.1 = 0) (hk : r.2.1 ≤ data.length)
    (f1 : r.2.2.position = p.position) (f2 : r.2.2.header = p.header)
    (f3 : r.2.2.header_len = p.header_len) (f4 : r.2.2.packfile_hash = p.packfile_hash)
    (f5 : r.2.2.trailer = p.trailer) (f6 : r.2.2.trailer_len = p.trailer_len) :
    (parse_commit p.state data r).2.2.position = (S ++ data.take r.2.1).length ∧
    (parse_commit p.state data r).2.2.header_len =
      (parse_commit p.state data r).2.2.header.length ∧
    (parse_commit p.state data r).2.2.header = (S ++ data.take r.2.1).take PACK_HEADER_SIZE ∧
    PACK_HEADER_SIZE ≤ (S ++ data.take r.2.1).length ∧
    (parse_commit p.state data r).2.2.packfile_hash = S ++ data.take r.2.1 ∧
    (parse_commit p.state data r).2.2.trailer = [] ∧
    (parse_commit p.state data r).2.2.trailer_len = 0 ∧
    (parse_commit p.state data r).2.2.state = r.2.2.state ∧
    hdr_entries (parse_commit p.state data r).2.2 = hdr_entries p := by
  obtain ⟨hpos, hhl, hhd, h12, hph, htr, htl, _⟩ := inv_entry_facts hI hne hlt
  refine ⟨?_, ?_, ?_, ?_, ?_, ?_, ?_, ?_, ?_⟩
  · rw [parse_commit_position, if_pos h0, f1, hpos, List.length_append, List.length_take,
      Nat.min_eq_left hk]
  · rw [parse_commit_header_len, parse_commit_header, f2, f3, hhl]
  · rw [parse_commit_header, f2, hhd, List.take_append_of_le_length h12]
  · rw [List.length_append]; omega
  · rw [parse_commit_packfile_hash, if_pos ⟨h0, hlt⟩, f4, hph]
  · rw [parse_commit_trailer, f5, htr]
  · rw [parse_commit_trailer_len, f6, htl]
  · rw [parse_commit_state, if_pos h0]
  · rw [parse_commit_hdr_entries]; simp [hdr_entries, f2]

/-- The driver iteration in `STATE_OBJECT_HEADER_START` or `STATE_OBJECT_HEADER`
keeps the invariant. -/
theorem inv_step_object_header {E : Env} (C : Consumer) (S : List Byte)
    (p : git_packfile_parser_t E) (data : List Byte) (hI : Inv C S p)
    (hst : p.state = STATE_OBJECT_HEADER_START ∨ p.state = STATE_OBJECT_HEADER)
    (hne : data ≠ []) :
    ∃ k, Inv C (S ++ data.take k)
        (parse_commit p.state data (parse_object_header C p data)).2.2 ∧
      ((parse_commit p.state data (parse_object_header C p data)).1 = 0 →
        k = (parse_commit p.state data (parse_object_header C p data)).2.1) := by
  have hltT : p.state.toNat < STATE_TRAILER.toNat := by
    rcases hst with h | h <;> rw [h] <;> decide
  have hneH : p.state ≠ STATE_HEADER := by
    rcases hst with h | h <;> rw [h] <;> decide
  obtain ⟨hpos, hhl, hhd, h12, hph, htr, htl, hpc⟩ := inv_entry_facts hI hneH hltT
  have hr : parse_object_header_loop C p data 0 = parse_object_header C p data := rfl
  obtain ⟨hfr, hcp, herr, hok⟩ :=
    parse_object_header_loop_summary C data p 0 _ hr hst (fun _ => hne)
  generalize parse_object_header C p data = r at hfr hcp herr hok ⊢
  obtain ⟨f1, f2, f3, f4, f5, f6, f7⟩ := hfr
  have hidle : (∀ cb, C.present cb = true) → trace_phase p.trace = Phase.idle := by
    intro hall
    apply (hI.phase hall).2
    rcases hst with h | h <;> rw [h] <;> rfl
  have hcnt : (∀ cb, C.present cb = true) →
      count_starts p.trace = p.current_idx ∧ p.current_idx < hdr_entries p := by
    intro hall
    obtain ⟨h1, h2⟩ := hI.starts hall
    refine ⟨h1 _ ?_, h2 hltT hneH⟩
    rcases hst with h | h <;> simp [expected_starts, h]
  have hbase :
      (if p.state = STATE_OBJECT_HEADER_START then p.position else p.current_position) +
        (if p.state = STATE_OBJECT_HEADER_START then 0 else p.current_compressed_size)
          = S.length ∧
      (if p.state = STATE_OBJECT_HEADER_START then 0 else p.current_compressed_crc)
        = crc32 0 (S.drop
          (if p.state = STATE_OBJECT_HEADER_START then p.position
           else p.current_position)) := by
    rcases hst with h | h
    · simp [h, hpos, crc32_nil]
    · have := hI.ent (by rw [h]; rfl)
      simpa [h] using this
  by_cases h0 : r.1 = 0
  · obtain ⟨k, hk1, hk2, hk3, hk4, hk5, hk6⟩ := hok h0
    have hk3' : r.2.1 = k := by omega
    obtain ⟨c1, c2, c3, c4, c5, c6, c7, c8, c9⟩ :=
      commit_entry_frame hI data hneH hltT r h0 (by omega) f1 f2 f3 f5 f6 f7
    rw [hk3'] at c1 c3 c4 c5
    have hext := entry_bytes_extend S (data.take k) _ _ _ hbase.1 hbase.2
    rw [List.length_take, Nat.min_eq_left hk1] at hext
    have hent : (parse_commit p.state data r).2.2.current_position +
          (parse_commit p.state data r).2.2.current_compressed_size
            = (S ++ data.take k).length ∧
        (parse_commit p.state data r).2.2.current_compressed_crc
          = crc32 0 ((S ++ data.take k).drop
            (parse_commit p.state data r).2.2.current_position) := by
      simp only [parse_commit_current_position, parse_commit_current_compressed_size,
        parse_commit_current_compressed_crc, hcp, hk4, hk5]
      exact hext
    refine ⟨k, ?_, fun _ => by rw [parse_commit_consumed _ _ _ h0, hk3']⟩
    have hidx : (parse_commit p.state data r).2.2.current_idx = p.current_idx := by
      rw [parse_commit_current_idx, f4]
    rcases hk6 with ⟨hs', _, ht'⟩ | ⟨hs', ht'⟩ | ⟨hs', ty, sz, ht'⟩
    · -- still inside the prefix
      rw [← c8] at hs'
      apply inv_mk_entry C _ _ (by rw [hs']; decide) (by rw [hs']; decide)
        (by rw [parse_commit_trace, ht']; exact crc_ok_mono S _ _ hI.crc)
        (by rw [parse_commit_trace, ht']; exact hI.present)
        c1 c2 c3 c4 c5 c6 c7 (by rw [parse_commit_trace, ht']; exact hpc)
        (fun _ => hent) (by rw [hs']; simp) (by rw [hs']; simp)
      · intro hall
        rw [hs', parse_commit_trace, ht', hidle hall]; rfl
      · intro hall
        rw [parse_commit_trace, ht', c9, hidx]
        exact ⟨by simp [expected_starts, hs', f4, (hcnt hall).1], (hcnt hall).2⟩
    · -- a delta entry begins
      rw [← c8] at hs'
      apply inv_mk_entry C _ _ (by rw [hs']; decide) (by rw [hs']; decide)
        (by rw [parse_commit_trace, ht']; exact crc_ok_mono S _ _ hI.crc)
        (by rw [parse_commit_trace, ht']; exact hI.present)
        c1 c2 c3 c4 c5 c6 c7 (by rw [parse_commit_trace, ht']; exact hpc)
        (fun _ => hent) (by rw [hs']; simp) (by rw [hs']; simp)
      · intro hall
        rw [hs', parse_commit_trace, ht', hidle hall]; rfl
      · intro hall
        rw [parse_commit_trace, ht', c9, hidx]
        exact ⟨by simp [expected_starts, hs', f4, (hcnt hall).1], (hcnt hall).2⟩
    · -- a non-delta entry begins
      rw [← c8] at hs'
      apply inv_mk_entry C _ _ (by rw [hs']; decide) (by rw [hs']; decide)
        (by
          rw [parse_commit_trace, ht',
            crc_ok_emit_other C _ _ _ (by simp [Event.kind]) (by simp [Event.kind])]
          exact crc_ok_mono S _ _ hI.crc)
        (by rw [parse_commit_trace, ht']; exact present_emit C _ _ hI.present)
        c1 c2 c3 c4 c5 c6 c7
        (by
          rw [parse_commit_trace, ht']
          intro e he
          rcases (mem_emit C _ _ e).mp he with he | ⟨_, rfl⟩
          · exact hpc e he
          · simp [Event.kind])
        (fun _ => hent)
        (by
          intro _ off hoff
          rw [parse_commit_trace, ht'] at hoff
          rw [parse_commit_current_position]
          rcases emit_cases C p.trace (Event.object_start r.2.2.current_position
            r.2.2.current_compressed_size ty sz) with ⟨hab, he⟩ | ⟨_, he⟩
          · rw [he] at hoff
            obtain ⟨e, he1, he2⟩ := last_start_object_mem _ _ hoff
            have := hI.present e (List.mem_reverse.mp he1)
            rw [he2] at this
            simp [Event.kind, this] at hab
          · rw [he, List.reverse_append, List.reverse_singleton, List.singleton_append]
              at hoff
            simp only [last_start, Option.some.injEq, Prod.mk.injEq, true_and] at hoff
            exact hoff.symm)
        (by rw [hs']; simp)
      · intro hall
        rw [hs', parse_commit_trace, ht', emit_all C hall, trace_phase_snoc, hidle hall]
        rfl
      · intro hall
        rw [parse_commit_trace, ht', emit_all C hall, count_starts_snoc, c9, hidx]
        exact ⟨by simp [expected_starts, hs', f4, (hcnt hall).1, Event.kind],
          (hcnt hall).2⟩
  · obtain ⟨hpr, cs, ty, sz, ht'⟩ := herr h0
    refine ⟨0, ?_, fun h => absurd (by rw [parse_commit_fst] at h; exact h) h0⟩
    apply inv_failed
    · rw [parse_commit_state, if_neg h0]
    · rw [parse_commit_trace, ht', crc_ok_snoc_other _ _ _ (by simp [Event.kind])
        (by simp [Event.kind])]
      simpa using hI.crc
    · rw [parse_commit_trace, ht']
      intro e he
      rcases List.mem_append.mp he with he | he
      · exact hI.present e he
      · simp only [List.mem_singleton] at he
        subst he
        exact hpr
    · intro hall
      rw [parse_commit_trace, ht', trace_phase_snoc, hidle hall]
      simp [Phase.step]

/-- The driver iteration in `STATE_DELTA_HEADER` keeps the invariant. -/
theorem inv_step_delta_header {E : Env} (C : Consumer) (S : List Byte)
    (p : git_packfile_parser_t E) (data : List Byte) (hI : Inv C S p)
    (hst : p.state = STATE_DELTA_HEADER) :
    ∃ k, Inv C (S ++ data.take k)
        (parse_commit p.state data (parse_delta_header C p data)).2.2 ∧
      ((parse_commit p.state data (parse_delta_header C p data)).1 = 0 →
        k = (parse_commit p.state data (parse_delta_header C p data)).2.1) := by
  have hltT : p.state.toNat < STATE_TRAILER.toNat := by rw [hst]; decide
  have hneH : p.state ≠ STATE_HEADER := by rw [hst]; decide
  obtain ⟨hpos, hhl, hhd, h12, hph, htr, htl, hpc⟩ := inv_entry_facts hI hneH hltT
  obtain ⟨hfr, hcp, herr, hok⟩ := parse_delta_header_summary C p data _ rfl
  generalize parse_delta_header C p data = r at hfr hcp herr hok ⊢
  obtain ⟨f1, f2, f3, f4, f5, f6, f7⟩ := hfr
  have hidle : (∀ cb, C.present cb = true) → trace_phase p.trace = Phase.idle := by
    intro hall
    apply (hI.phase hall).2
    rw [hst]; rfl
  have hcnt : (∀ cb, C.present cb = true) →
      count_starts p.trace = p.current_idx ∧ p.current_idx < hdr_entries p := by
    intro hall
    obtain ⟨h1, h2⟩ := hI.starts hall
    exact ⟨h1 _ (by simp [expected_starts, hst]), h2 hltT hneH⟩
  have hbase := hI.ent (by rw [hst]; rfl)
  by_cases h0 : r.1 = 0
  · obtain ⟨k, hk1, hk3, hk4, hk5, hk6⟩ := hok h0
    obtain ⟨c1, c2, c3, c4, c5, c6, c7, c8, c9⟩ :=
      commit_entry_frame hI data hneH hltT r h0 (by omega) f1 f2 f3 f5 f6 f7
    rw [hk3] at c1 c3 c4 c5
    have hext := entry_bytes_extend S (data.take k) _ _ _ hbase.1 hbase.2
    rw [List.length_take, Nat.min_eq_left hk1] at hext
    have hent : (parse_commit p.state data r).2.2.current_position +
          (parse_commit p.state data r).2.2.current_compressed_size
            = (S ++ data.take k).length ∧
        (parse_commit p.state data r).2.2.current_compressed_crc
          = crc32 0 ((S ++ data.take k).drop
            (parse_commit p.state data r).2.2.current_position) := by
      simp only [parse_commit_current_position, parse_commit_current_compressed_size,
        parse_commit_current_compressed_crc, hcp, hk4, hk5]
      exact hext
    refine ⟨k, ?_, fun _ => by rw [parse_commit_consumed _ _ _ h0, hk3]⟩
    have hidx : (parse_commit p.state data r).2.2.current_idx = p.current_idx := by
      rw [parse_commit_current_idx, f4]
    rcases hk6 with ⟨hs', ht'⟩ | ⟨hs', ty, sz, base, off, ht'⟩
    · -- still inside the base specifier
      rw [hst, ← c8] at hs'
      apply inv_mk_entry C _ _ (by rw [hs']; decide) (by rw [hs']; decide)
        (by rw [parse_commit_trace, ht']; exact crc_ok_mono S _ _ hI.crc)
        (by rw [parse_commit_trace, ht']; exact hI.present)
        c1 c2 c3 c4 c5 c6 c7 (by rw [parse_commit_trace, ht']; exact hpc)
        (fun _ => hent) (by rw [hs']; simp) (by rw [hs']; simp)
      · intro hall
        rw [hs', parse_commit_trace, ht', hidle hall]; rfl
      · intro hall
        rw [parse_commit_trace, ht', c9, hidx]
        exact ⟨by simp [expected_starts, hs', f4, (hcnt hall).1], (hcnt hall).2⟩
    · -- the delta payload begins
      rw [← c8] at hs'
      apply inv_mk_entry C _ _ (by rw [hs']; decide) (by rw [hs']; decide)
        (by
          rw [parse_commit_trace, ht',
            crc_ok_emit_other C _ _ _ (by simp [Event.kind]) (by simp [Event.kind])]
          exact crc_ok_mono S _ _ hI.crc)
        (by rw [parse_commit_trace, ht']; exact present_emit C _ _ hI.present)
        c1 c2 c3 c4 c5 c6 c7
        (by
          rw [parse_commit_trace, ht']
          intro e he
          rcases (mem_emit C _ _ e).mp he with he | ⟨_, rfl⟩
          · exact hpc e he
          · simp [Event.kind])
        (fun _ => hent)
        (by rw [hs']; simp)
        (by
          intro _ o hoff
          rw [parse_commit_trace, ht'] at hoff
          rw [parse_commit_current_position]
          rcases emit_cases C p.trace (Event.delta_start r.2.2.current_position ty
            r.2.2.current_compressed_size sz base off) with ⟨hab, he⟩ | ⟨_, he⟩
          · rw [he] at hoff
            obtain ⟨e, he1, he2⟩ := last_start_delta_mem _ _ hoff
            have := hI.present e (List.mem_reverse.mp he1)
            rw [he2] at this
            simp [Event.kind, this] at hab
          · rw [he, List.reverse_append, List.reverse_singleton, List.singleton_append]
              at hoff
            simp only [last_start, Option.some.injEq, Prod.mk.injEq, true_and] at hoff
            exact hoff.symm)
      · intro hall
        rw [hs', parse_commit_trace, ht', emit_all C hall, trace_phase_snoc, hidle hall]
        rfl
      · intro hall
        rw [parse_commit_trace, ht', emit_all C hall, count_starts_snoc, c9, hidx]
        exact ⟨by simp [expected_starts, hs', f4, (hcnt hall).1, Event.kind],
          (hcnt hall).2⟩
  · refine ⟨0, ?_, fun h => absurd (by rw [parse_commit_fst] at h; exact h) h0⟩
    rcases herr h0 with ht' | ⟨hpr, ty, cs, sz, base, off, ht'⟩
    · apply inv_failed
      · rw [parse_commit_state, if_neg h0]
      · rw [parse_commit_trace, ht']; simpa using hI.crc
      · rw [parse_commit_trace, ht']; exact hI.present
      · intro hall
        rw [parse_commit_trace, ht']; exact (hI.phase hall).1
    · apply inv_failed
      · rw [parse_commit_state, if_neg h0]
      · rw [parse_commit_trace, ht', crc_ok_snoc_other _ _ _ (by simp [Event.kind])
          (by simp [Event.kind])]
        simpa using hI.crc
      · rw [parse_commit_trace, ht']
        intro e he
        rcases List.mem_append.mp he with he | he
        · exact hI.present e he
        · simp only [List.mem_singleton] at he
          subst he
          exact hpr
      · intro hall
        rw [parse_commit_trace, ht', trace_phase_snoc, hidle hall]
        simp [Phase.step]

/-- The CRC law after the completion of a non-delta entry. -/
theorem crc_ok_object_complete (S : List Byte) (t ds : List Event) (cs crc : Nat)
    (oid : List Byte) (h : crc_ok S t.reverse)
    (hds : ∀ x ∈ ds, x.kind = Callback.object_data)
    (hcheck : ∀ off, last_start t.reverse = some (false, off) →
      off + cs ≤ S.length ∧ crc = crc32 0 ((S.drop off).take cs)) :
    crc_ok S (t ++ ds ++ [Event.object_complete cs crc oid]).reverse := by
  have hd : ∀ x ∈ ds, x.kind = Callback.object_data ∨ x.kind = Callback.delta_data :=
    fun x hx => Or.inl (hds x hx)
  rw [List.reverse_append, List.reverse_singleton, List.singleton_append]
  refine ⟨?_, (crc_ok_append_data S t ds hd).mpr h⟩
  intro off ho
  rw [last_start_append_data t ds hd] at ho
  exact hcheck off ho

/-- The CRC law after the completion of a delta entry. -/
theorem crc_ok_delta_complete (S : List Byte) (t ds : List Event) (cs crc : Nat)
    (h : crc_ok S t.reverse)
    (hds : ∀ x ∈ ds, x.kind = Callback.delta_data)
    (hcheck : ∀ off, last_start t.reverse = some (true, off) →
      off + cs ≤ S.length ∧ crc = crc32 0 ((S.drop off).take cs)) :
    crc_ok S (t ++ ds ++ [Event.delta_complete cs crc]).reverse := by
  have hd : ∀ x ∈ ds, x.kind = Callback.object_data ∨ x.kind = Callback.delta_data :=
    fun x hx => Or.inr (hds x hx)
  rw [List.reverse_append, List.reverse_singleton, List.singleton_append]
  refine ⟨?_, (crc_ok_append_data S t ds hd).mpr h⟩
  intro off ho
  rw [last_start_append_data t ds hd] at ho
  exact hcheck off ho

/-- The check a completion has to pass, from the facts about the open entry. -/
theorem complete_check (S X : List Byte) (cp ccs crc0 off : Nat)
    (h1 : cp + ccs = S.length) (h2 : crc0 = crc32 0 (S.drop cp)) (ho : off = cp) :
    off + (ccs + X.length) ≤ (S ++ X).length ∧
    crc32 crc0 X = crc32 0 (((S ++ X).drop off).take (ccs + X.length)) := by
  subst ho
  obtain ⟨h3, h4⟩ := entry_bytes_extend S X off ccs crc0 h1 h2
  refine ⟨by omega, ?_⟩
  rw [h4, List.take_of_length_le]
  rw [List.length_drop]; omega

/-- The driver iteration in `STATE_OBJECT_DATA_START` or `STATE_OBJECT_DATA`
keeps the invariant. -/
theorem inv_step_object_data {E : Env} (C : Consumer) (fuel : Nat) (S : List Byte)
    (p : git_packfile_parser_t E) (data : List Byte) (hI : Inv C S p)
    (hst : p.state = STATE_OBJECT_DATA_START ∨ p.state = STATE_OBJECT_DATA)
    (r : Int × Nat × git_packfile_parser_t E)
    (hr : parse_object_data C fuel p data = some r) :
    ∃ k, Inv C (S ++ data.take k) (parse_commit p.state data r).2.2 ∧
      ((parse_commit p.state data r).1 = 0 → k = (parse_commit p.state data r).2.1) := by
  have hltT : p.state.toNat < STATE_TRAILER.toNat := by
    rcases hst with h | h <;> rw [h] <;> decide
  have hneH : p.state ≠ STATE_HEADER := by
    rcases hst with h | h <;> rw [h] <;> decide
  obtain ⟨hpos, hhl, hhd, h12, hph, htr, htl, hpc⟩ := inv_entry_facts hI hneH hltT
  obtain ⟨⟨f1, f2, f3, f5, f6, f7, hcp⟩, k, ds, hk1, hds, hdp, herr, hok⟩ :=
    parse_object_data_summary C fuel p data r hr hst
  have hdd : ∀ x ∈ ds, x.kind = Callback.object_data ∨ x.kind = Callback.delta_data :=
    fun x hx => Or.inl (hds x hx)
  have hin : (∀ cb, C.present cb = true) → trace_phase p.trace = Phase.in_object := by
    intro hall
    apply (hI.phase hall).2
    rcases hst with h | h <;> rw [h] <;> rfl
  have hcnt : (∀ cb, C.present cb = true) →
      count_starts p.trace = p.current_idx + 1 ∧ p.current_idx < hdr_entries p := by
    intro hall
    obtain ⟨h1, h2⟩ := hI.starts hall
    refine ⟨h1 _ ?_, h2 hltT hneH⟩
    rcases hst with h | h <;> simp [expected_starts, h]
  have hbase := hI.ent (by rcases hst with h | h <;> rw [h] <;> rfl)
  have hopen := hI.open_object hst
  have hext := entry_bytes_extend S (data.take k) _ _ _ hbase.1 hbase.2
  have hchk : ∀ off, last_start p.trace.reverse = some (false, off) →
      off + (p.current_compressed_size + k) ≤ (S ++ data.take k).length ∧
      crc32 p.current_compressed_crc (data.take k) = crc32 0
        (((S ++ data.take k).drop off).take (p.current_compressed_size + k)) := by
    intro off ho
    have := complete_check S (data.take k) _ _ _ off hbase.1 hbase.2 (hopen off ho)
    rwa [List.length_take, Nat.min_eq_left hk1] at this
  rw [List.length_take, Nat.min_eq_left hk1] at hext
  have hpcds : ∀ e ∈ p.trace ++ ds, e.kind ≠ Callback.packfile_complete := by
    intro e he
    rcases List.mem_append.mp he with he | he
    · exact hpc e he
    · rw [hds e he]; decide
  have hprds : ∀ e ∈ p.trace ++ ds, C.present e.kind = true := by
    intro e he
    rcases List.mem_append.mp he with he | he
    · exact hI.present e he
    · exact hdp e he
  have hcrcds : crc_ok (S ++ data.take k) (p.trace ++ ds).reverse :=
    (crc_ok_append_data _ _ _ hdd).mpr (crc_ok_mono S _ _ hI.crc)
  by_cases h0 : r.1 = 0
  · obtain ⟨hk3, hk4, hk5, hk6⟩ := hok h0
    obtain ⟨c1, c2, c3, c4, c5, c6, c7, c8, c9⟩ :=
      commit_entry_frame hI data hneH hltT r h0 (by omega) f1 f2 f3 f5 f6 f7
    rw [hk3] at c1 c3 c4 c5
    refine ⟨k, ?_, fun _ => by rw [parse_commit_consumed _ _ _ h0, hk3]⟩
    rcases hk6 with ⟨hs', hidx, ht'⟩ | ⟨hidx, hs', oid, ht'⟩
    · -- the payload goes on
      rw [← c8] at hs'
      have hent : (parse_commit p.state data r).2.2.current_position +
            (parse_commit p.state data r).2.2.current_compressed_size
              = (S ++ data.take k).length ∧
          (parse_commit p.state data r).2.2.current_compressed_crc
            = crc32 0 ((S ++ data.take k).drop
              (parse_commit p.state data r).2.2.current_position) := by
        simp only [parse_commit_current_position, parse_commit_current_compressed_size,
          parse_commit_current_compressed_crc, hcp, hk4, hk5]
        exact hext
      apply inv_mk_entry C _ _ (by rw [hs']; decide) (by rw [hs']; decide)
        (by rw [parse_commit_trace, ht']; exact hcrcds)
        (by rw [parse_commit_trace, ht']; exact hprds)
        c1 c2 c3 c4 c5 c6 c7 (by rw [parse_commit_trace, ht']; exact hpcds)
        (fun _ => hent)
        (by
          intro _ off hoff
          rw [parse_commit_trace, ht', last_start_append_data _ _ hdd] at hoff
          rw [parse_commit_current_position, hcp]
          exact hopen off hoff)
        (by rw [hs']; simp)
      · intro hall
        rw [hs', parse_commit_trace, ht', trace_phase_append_object_data _ _ hds (hin hall)]
        rfl
      · intro hall
        rw [parse_commit_trace, ht', c9, count_starts_append_data _ _ hdd,
          parse_commit_current_idx, hidx]
        exact ⟨by simp [expected_starts, hs', hidx, (hcnt hall).1], (hcnt hall).2⟩
    · -- the entry is complete
      have hcrc' : crc_ok (S ++ data.take k) (parse_commit p.state data r).2.2.trace.reverse := by
        rw [parse_commit_trace, ht']
        rcases emit_cases C (p.trace ++ ds) (Event.object_complete
          (p.current_compressed_size + k) (crc32 p.current_compressed_crc (data.take k))
          oid) with ⟨_, he⟩ | ⟨_, he⟩
        · rw [he]; exact hcrcds
        · rw [he]
          exact crc_ok_object_complete _ _ _ _ _ _ (crc_ok_mono S _ _ hI.crc) hds hchk
      have hpr' : ∀ e ∈ (parse_commit p.state data r).2.2.trace, C.present e.kind = true := by
        rw [parse_commit_trace, ht']; exact present_emit C _ _ hprds
      have hpc' : ∀ e ∈ (parse_commit p.state data r).2.2.trace,
          e.kind ≠ Callback.packfile_complete := by
        rw [parse_commit_trace, ht']
        intro e he
        rcases (mem_emit C _ _ e).mp he with he | ⟨_, rfl⟩
        · exact hpcds e he
        · simp [Event.kind]
      have hph' : (∀ cb, C.present cb = true) →
          trace_phase (parse_commit p.state data r).2.2.trace = Phase.idle := by
        intro hall
        rw [parse_commit_trace, ht', emit_all C hall, trace_phase_snoc,
          trace_phase_append_object_data _ _ hds (hin hall)]
        rfl
      have hcn' : (∀ cb, C.present cb = true) →
          count_starts (parse_commit p.state data r).2.2.trace = p.current_idx + 1 := by
        intro hall
        rw [parse_commit_trace, ht', emit_all C hall, count_starts_snoc,
          count_starts_append_data _ _ hdd, (hcnt hall).1]
        simp [Event.kind]
      rw [← c8] at hs'
      by_cases hmore : p.current_idx + 1 < hdr_entries p
      · rw [if_pos hmore] at hs'
        apply inv_mk_entry C _ _ (by rw [hs']; decide) (by rw [hs']; decide) hcrc' hpr'
          c1 c2 c3 c4 c5 c6 c7 hpc' (by rw [hs']; simp [in_entry]) (by rw [hs']; simp)
          (by rw [hs']; simp)
        · intro hall
          rw [hs', hph' hall]; rfl
        · intro hall
          rw [hcn' hall, c9, parse_commit_current_idx, hidx]
          exact ⟨by simp [expected_starts, hs', hidx], hmore⟩
      · rw [if_neg hmore] at hs'
        apply inv_mk_trailer C _ _ hs' hcrc' hpr' c1 c2 c3 c4 (by rw [c5, c6]; simp)
          (by rw [c6, c7]; rfl) hpc' hph'
        intro hall
        rw [hcn' hall, c9]
        have := (hcnt hall).2
        omega
  · rcases herr h0 with ht' | ⟨hpr, oid, ht'⟩
    · refine ⟨0, ?_, fun h => absurd (by rw [parse_commit_fst] at h; exact h) h0⟩
      apply inv_failed
      · rw [parse_commit_state, if_neg h0]
      · rw [parse_commit_trace, ht', crc_ok_append_data _ _ _ hdd]; simpa using hI.crc
      · rw [parse_commit_trace, ht']; exact hprds
      · intro hall
        rw [parse_commit_trace, ht', trace_phase_append_object_data _ _ hds (hin hall)]
        decide
    · refine ⟨k, ?_, fun h => absurd (by rw [parse_commit_fst] at h; exact h) h0⟩
      apply inv_failed
      · rw [parse_commit_state, if_neg h0]
      · rw [parse_commit_trace, ht']
        exact crc_ok_object_complete _ _ _ _ _ _ (crc_ok_mono S _ _ hI.crc) hds hchk
      · rw [parse_commit_trace, ht']
        intro e he
        rcases List.mem_append.mp he with he | he
        · exact hprds e he
        · simp only [List.mem_singleton] at he
          subst he
          exact hpr
      · intro hall
        rw [parse_commit_trace, ht', trace_phase_snoc,
          trace_phase_append_object_data _ _ hds (hin hall)]
        simp [Phase.step]

/-- The driver iteration in `STATE_DELTA_DATA_START` or `STATE_DELTA_DATA`
keeps the invariant. -/
theorem inv_step_delta_data {E : Env} (C : Consumer) (S : List Byte)
    (p : git_packfile_parser_t E) (data : List Byte) (hI : Inv C S p)
    (hst : p.state = STATE_DELTA_DATA_START ∨ p.state = STATE_DELTA_DATA)
    (r : Int × Nat × git_packfile_parser_t E)
    (hr : parse_delta_data C p data = r) :
    ∃ k, Inv C (S ++ data.take k) (parse_commit p.state data r).2.2 ∧
      ((parse_commit p.state data r).1 = 0 → k = (parse_commit p.state data r).2.1) := by
  have hltT : p.state.toNat < STATE_TRAILER.toNat := by
    rcases hst with h | h <;> rw [h] <;> decide
  have hneH : p.state ≠ STATE_HEADER := by
    rcases hst with h | h <;> rw [h] <;> decide
  obtain ⟨hpos, hhl, hhd, h12, hph, htr, htl, hpc⟩ := inv_entry_facts hI hneH hltT
  obtain ⟨⟨f1, f2, f3, f5, f6, f7, hcp⟩, k, ds, hk1, hds, hdp, herr, hok⟩ :=
    parse_delta_data_summary C p data r hr hst
  have hdd : ∀ x ∈ ds, x.kind = Callback.object_data ∨ x.kind = Callback.delta_data :=
    fun x hx => Or.inr (hds x hx)
  have hin : (∀ cb, C.present cb = true) → trace_phase p.trace = Phase.in_delta := by
    intro hall
    apply (hI.phase hall).2
    rcases hst with h | h <;> rw [h] <;> rfl
  have hcnt : (∀ cb, C.present cb = true) →
      count_starts p.trace = p.current_idx + 1 ∧ p.current_idx < hdr_entries p := by
    intro hall
    obtain ⟨h1, h2⟩ := hI.starts hall
    refine ⟨h1 _ ?_, h2 hltT hneH⟩
    rcases hst with h | h <;> simp [expected_starts, h]
  have hbase := hI.ent (by rcases hst with h | h <;> rw [h] <;> rfl)
  have hopen := hI.open_delta hst
  have hext := entry_bytes_extend S (data.take k) _ _ _ hbase.1 hbase.2
  have hchk : ∀ off, last_start p.trace.reverse = some (true, off) →
      off + (p.current_compressed_size + k) ≤ (S ++ data.take k).length ∧
      crc32 p.current_compressed_crc (data.take k) = crc32 0
        (((S ++ data.take k).drop off).take (p.current_compressed_size + k)) := by
    intro off ho
    have := complete_check S (data.take k) _ _ _ off hbase.1 hbase.2 (hopen off ho)
    rwa [List.length_take, Nat.min_eq_left hk1] at this
  rw [List.length_take, Nat.min_eq_left hk1] at hext
  have hpcds : ∀ e ∈ p.trace ++ ds, e.kind ≠ Callback.packfile_complete := by
    intro e he
    rcases List.mem_append.mp he with he | he
    · exact hpc e he
    · rw [hds e he]; decide
  have hprds : ∀ e ∈ p.trace ++ ds, C.present e.kind = true := by
    intro e he
    rcases List.mem_append.mp he with he | he
    · exact hI.present e he
    · exact hdp e he
  have hcrcds : crc_ok (S ++ data.take k) (p.trace ++ ds).reverse :=
    (crc_ok_append_data _ _ _ hdd).mpr (crc_ok_mono S _ _ hI.crc)
  by_cases h0 : r.1 = 0
  · obtain ⟨hk3, hk4, hk5, hk6⟩ := hok h0
    obtain ⟨c1, c2, c3, c4, c5, c6, c7, c8, c9⟩ :=
      commit_entry_frame hI data hneH hltT r h0 (by omega) f1 f2 f3 f5 f6 f7
    rw [hk3] at c1 c3 c4 c5
    refine ⟨k, ?_, fun _ => by rw [parse_commit_consumed _ _ _ h0, hk3]⟩
    rcases hk6 with ⟨hs', hidx, ht'⟩ | ⟨hidx, hs', ht'⟩
    · -- the payload goes on
      rw [← c8] at hs'
      have hent : (parse_commit p.state data r).2.2.current_position +
            (parse_commit p.state data r).2.2.current_compressed_size
              = (S ++ data.take k).length ∧
          (parse_commit p.state data r).2.2.current_compressed_crc
            = crc32 0 ((S ++ data.take k).drop
              (parse_commit p.state data r).2.2.current_position) := by
        simp only [parse_commit_current_position, parse_commit_current_compressed_size,
          parse_commit_current_compressed_crc, hcp, hk4, hk5]
        exact hext
      apply inv_mk_entry C _ _ (by rw [hs']; decide) (by rw [hs']; decide)
        (by rw [parse_commit_trace, ht']; exact hcrcds)
        (by rw [parse_commit_trace, ht']; exact hprds)
        c1 c2 c3 c4 c5 c6 c7 (by rw [parse_commit_trace, ht']; exact hpcds)
        (fun _ => hent)
        (by rw [hs']; simp)
        (by
          intro _ off hoff
          rw [parse_commit_trace, ht', last_start_append_data _ _ hdd] at hoff
          rw [parse_commit_current_position, hcp]
          exact hopen off hoff)
      · intro hall
        rw [hs', parse_commit_trace, ht', trace_phase_append_delta_data _ _ hds (hin hall)]
        rfl
      · intro hall
        rw [parse_commit_trace, ht', c9, count_starts_append_data _ _ hdd,
          parse_commit_current_idx, hidx]
        exact ⟨by simp [expected_starts, hs', hidx, (hcnt hall).1], (hcnt hall).2⟩
    · -- the entry is complete
      have hcrc' : crc_ok (S ++ data.take k) (parse_commit p.state data r).2.2.trace.reverse := by
        rw [parse_commit_trace, ht']
        rcases emit_cases C (p.trace ++ ds) (Event.delta_complete
          (p.current_compressed_size + k) (crc32 p.current_compressed_crc (data.take k))) with ⟨_, he⟩ | ⟨_, he⟩
        · rw [he]; exact hcrcds
        · rw [he]
          exact crc_ok_delta_complete _ _ _ _ _ (crc_ok_mono S _ _ hI.crc) hds hchk
      have hpr' : ∀ e ∈ (parse_commit p.state data r).2.2.trace, C.present e.kind = true := by
        rw [parse_commit_trace, ht']; exact present_emit C _ _ hprds
      have hpc' : ∀ e ∈ (parse_commit p.state data r).2.2.trace,
          e.kind ≠ Callback.packfile_complete := by
        rw [parse_commit_trace, ht']
        intro e he
        rcases (mem_emit C _ _ e).mp he with he | ⟨_, rfl⟩
        · exact hpcds e he
        · simp [Event.kind]
      have hph' : (∀ cb, C.present cb = true) →
          trace_phase (parse_commit p.state data r).2.2.trace = Phase.idle := by
        intro hall
        rw [parse_commit_trace, ht', emit_all C hall, trace_phase_snoc,
          trace_phase_append_delta_data _ _ hds (hin hall)]
        rfl
      have hcn' : (∀ cb, C.present cb = true) →
          count_starts (parse_commit p.state data r).2.2.trace = p.current_idx + 1 := by
        intro hall
        rw [parse_commit_trace, ht', emit_all C hall, count_starts_snoc,
          count_starts_append_data _ _ hdd, (hcnt hall).1]
        simp [Event.kind]
      rw [← c8] at hs'
      by_cases hmore : p.current_idx + 1 < hdr_entries p
      · rw [if_pos hmore] at hs'
        apply inv_mk_entry C _ _ (by rw [hs']; decide) (by rw [hs']; decide) hcrc' hpr'
          c1 c2 c3 c4 c5 c6 c7 hpc' (by rw [hs']; simp [in_entry]) (by rw [hs']; simp)
          (by rw [hs']; simp)
        · intro hall
          rw [hs', hph' hall]; rfl
        · intro hall
          rw [hcn' hall, c9, parse_commit_current_idx, hidx]
          exact ⟨by simp [expected_starts, hs', hidx], hmore⟩
      · rw [if_neg hmore] at hs'
        apply inv_mk_trailer C _ _ hs' hcrc' hpr' c1 c2 c3 c4 (by rw [c5, c6]; simp)
          (by rw [c6, c7]; rfl) hpc' hph'
        intro hall
        rw [hcn' hall, c9]
        have := (hcnt hall).2
        omega
  · rcases herr h0 with ht' | ⟨hpr, ht'⟩
    · refine ⟨0, ?_, fun h => absurd (by rw [parse_commit_fst] at h; exact h) h0⟩
      apply inv_failed
      · rw [parse_commit_state, if_neg h0]
      · rw [parse_commit_trace, ht', crc_ok_append_data _ _ _ hdd]; simpa using hI.crc
      · rw [parse_commit_trace, ht']; exact hprds
      · intro hall
        rw [parse_commit_trace, ht', trace_phase_append_delta_data _ _ hds (hin hall)]
        decide
    · refine ⟨k, ?_, fun h => absurd (by rw [parse_commit_fst] at h; exact h) h0⟩
      apply inv_failed
      · rw [parse_commit_state, if_neg h0]
      · rw [parse_commit_trace, ht']
        exact crc_ok_delta_complete _ _ _ _ _ (crc_ok_mono S _ _ hI.crc) hds hchk
      · rw [parse_commit_trace, ht']
        intro e he
        rcases List.mem_append.mp he with he | he
        · exact hprds e he
        · simp only [List.mem_singleton] at he
          subst he
          exact hpr
      · intro hall
        rw [parse_commit_trace, ht', trace_phase_snoc,
          trace_phase_append_delta_data _ _ hds (hin hall)]
        simp [Phase.step]

/-- The driver iteration in `STATE_HEADER` keeps the invariant. -/
theorem inv_step_header {E : Env} (C : Consumer) (S : List Byte)
    (p : git_packfile_parser_t E) (data : List Byte) (hI : Inv C S p)
    (hst : p.state = STATE_HEADER) :
    ∃ k, Inv C (S ++ data.take k) (parse_commit p.state data (parse_header C p data)).2.2 ∧
      ((parse_commit p.state data (parse_header C p data)).1 = 0 →
        k = (parse_commit p.state data (parse_header C p data)).2.1) := by
  have hltT : p.state.toNat < STATE_TRAILER.toNat := by rw [hst]; decide
  obtain ⟨hpos, hhl⟩ := hI.pos (by rw [hst]; decide)
  obtain ⟨hhd, hlt, hidx⟩ := hI.hdr0 hst
  obtain ⟨hph, htr, htl⟩ := hI.pre hltT
  have hpc := hI.pc_none (by rw [hst]; decide) (by rw [hst]; decide)
  have hinit : (∀ cb, C.present cb = true) → trace_phase p.trace = Phase.init := by
    intro hall
    apply (hI.phase hall).2
    rw [hst]; rfl
  have hcnt : (∀ cb, C.present cb = true) → count_starts p.trace = 0 := by
    intro hall
    exact (hI.starts hall).1 _ (by simp [expected_starts, hst])
  obtain ⟨⟨f1, f2, f3, f4, f5⟩, hpart, hfull⟩ :=
    parse_header_summary C p data _ rfl hhl (by rw [hhd]; exact hlt)
  generalize parse_header C p data = r at f1 f2 f3 f4 f5 hpart hfull ⊢
  rw [hhd] at hpart hfull
  by_cases hc : S.length + data.length < PACK_HEADER_SIZE
  · -- the header is not complete yet
    obtain ⟨h0, hk, g1, g2, g3, g4⟩ := hpart hc
    refine ⟨data.length, ?_, fun _ => by rw [parse_commit_consumed _ _ _ h0, hk]⟩
    have hS' : (S ++ data.take data.length).length = S.length + data.length := by simp
    constructor
    · rw [parse_commit_trace, g4]; exact crc_ok_mono S _ _ hI.crc
    · rw [parse_commit_trace, g4]; exact hI.present
    · intro _
      rw [parse_commit_position, if_pos h0, f1, hpos, hk, parse_commit_header_len,
        parse_commit_header, g1, g2]
      simp
    · intro _
      rw [parse_commit_header, g1, parse_commit_current_idx, f2, hidx]
      simp [hc]
    · intro h1 h2
      rw [parse_commit_state, if_pos h0, g3, hst] at h1
      exact absurd rfl h1
    · intro _
      rw [parse_commit_packfile_hash, if_pos ⟨h0, hltT⟩, f3, hph, hk,
        parse_commit_trailer, f4, htr, parse_commit_trailer_len, f5, htl]
      simp
    · intro h
      rw [parse_commit_state, if_pos h0, g3, hst] at h
      simp [in_entry] at h
    · intro h
      rw [parse_commit_state, if_pos h0, g3, hst] at h
      simp at h
    · intro h
      rw [parse_commit_state, if_pos h0, g3, hst] at h
      simp at h
    · intro h
      rw [parse_commit_state, if_pos h0, g3, hst] at h
      simp at h
    · intro h
      rw [parse_commit_state, if_pos h0, g3, hst] at h
      simp at h
    · intro _ _
      rw [parse_commit_trace, g4]; exact hpc
    · intro h
      rw [parse_commit_state, if_pos h0, g3, hst] at h
      simp at h
    · intro hall
      rw [parse_commit_trace, g4, parse_commit_state, if_pos h0, g3, hst, hinit hall]
      simp [expected_phase]
    · intro hall
      rw [parse_commit_trace, g4, hcnt hall]
      refine ⟨fun n hn => ?_, fun _ h => ?_⟩
      · simp only [expected_starts, parse_commit_state, if_pos h0, g3, hst,
          Option.some.injEq] at hn
        exact hn
      · rw [parse_commit_state, if_pos h0, g3, hst] at h
        exact absurd rfl h
  · have hge : PACK_HEADER_SIZE ≤ S.length + data.length := by omega
    obtain ⟨herr, hok⟩ := hfull hge
    by_cases h0 : r.1 = 0
    · obtain ⟨hk, g1, g2, g3, g4⟩ := hok h0
      refine ⟨PACK_HEADER_SIZE - S.length, ?_,
        fun _ => by rw [parse_commit_consumed _ _ _ h0, hk]⟩
      have hstage := header_stage_eq S data (Nat.le_of_lt hlt)
      rw [Nat.min_eq_right (by omega)] at hstage
      have hSl : (S ++ data.take (PACK_HEADER_SIZE - S.length)).length = PACK_HEADER_SIZE := by
        rw [List.length_append, List.length_take]; omega
      have c1 : (parse_commit p.state data r).2.2.position
          = (S ++ data.take (PACK_HEADER_SIZE - S.length)).length := by
        rw [parse_commit_position, if_pos h0, f1, hpos, hk, hSl]; omega
      have c2 : (parse_commit p.state data r).2.2.header_len
          = (parse_commit p.state data r).2.2.header.length := by
        rw [parse_commit_header_len, parse_commit_header, g2, g1, ← hstage, hSl]
      have c3 : (parse_commit p.state data r).2.2.header
          = (S ++ data.take (PACK_HEADER_SIZE - S.length)).take PACK_HEADER_SIZE := by
        rw [parse_commit_header, g1, ← hstage, List.take_of_length_le (le_of_eq hSl)]
      have c5 : (parse_commit p.state data r).2.2.packfile_hash
          = S ++ data.take (PACK_HEADER_SIZE - S.length) := by
        rw [parse_commit_packfile_hash, if_pos ⟨h0, hltT⟩, f3, hph, hk]
      have c6 : (parse_commit p.state data r).2.2.trailer = [] := by
        rw [parse_commit_trailer, f4, htr]
      have c7 : (parse_commit p.state data r).2.2.trailer_len = 0 := by
        rw [parse_commit_trailer_len, f5, htl]
      have hcrc' : crc_ok (S ++ data.take (PACK_HEADER_SIZE - S.length))
          (parse_commit p.state data r).2.2.trace.reverse := by
        rw [parse_commit_trace, g4,
          crc_ok_emit_other C _ _ _ (by simp [Event.kind]) (by simp [Event.kind])]
        exact crc_ok_mono S _ _ hI.crc
      have hpr' : ∀ e ∈ (parse_commit p.state data r).2.2.trace, C.present e.kind = true := by
        rw [parse_commit_trace, g4]; exact present_emit C _ _ hI.present
      have hpc' : ∀ e ∈ (parse_commit p.state data r).2.2.trace,
          e.kind ≠ Callback.packfile_complete := by
        rw [parse_commit_trace, g4]
        intro e he
        rcases (mem_emit C _ _ e).mp he with he | ⟨_, rfl⟩
        · exact hpc e he
        · simp [Event.kind]
      have hph' : (∀ cb, C.present cb = true) →
          trace_phase (parse_commit p.state data r).2.2.trace = Phase.idle := by
        intro hall
        rw [parse_commit_trace, g4, emit_all C hall, trace_phase_snoc, hinit hall]
        rfl
      have hcn' : (∀ cb, C.present cb = true) →
          count_starts (parse_commit p.state data r).2.2.trace = 0 := by
        intro hall
        rw [parse_commit_trace, g4, emit_all C hall, count_starts_snoc, hcnt hall]
        simp [Event.kind]
      have hs' : (parse_commit p.state data r).2.2.state =
          if hdr_entries r.2.2 > 0 then STATE_OBJECT_HEADER_START else STATE_TRAILER := by
        rw [parse_commit_state, if_pos h0, g3]
      have hidx' : (parse_commit p.state data r).2.2.current_idx = 0 := by
        rw [parse_commit_current_idx, f2, hidx]
      by_cases hent : hdr_entries r.2.2 > 0
      · rw [if_pos hent] at hs'
        apply inv_mk_entry C _ _ (by rw [hs']; decide) (by rw [hs']; decide) hcrc' hpr'
          c1 c2 c3 (le_of_eq hSl.symm) c5 c6 c7 hpc' (by rw [hs']; simp [in_entry])
          (by rw [hs']; simp) (by rw [hs']; simp)
        · intro hall
          rw [hs', hph' hall]; rfl
        · intro hall
          rw [hcn' hall, parse_commit_hdr_entries, hidx']
          exact ⟨by simp [expected_starts, hs', f2, hidx], hent⟩
      · rw [if_neg hent] at hs'
        apply inv_mk_trailer C _ _ hs' hcrc' hpr' c1 c2 c3 (le_of_eq hSl.symm)
          (by rw [c5, c6]; simp) (by rw [c6, c7]; rfl) hpc' hph'
        intro hall
        rw [hcn' hall, parse_commit_hdr_entries]
        omega
    · refine ⟨0, ?_, fun h => absurd (by rw [parse_commit_fst] at h; exact h) h0⟩
      rcases herr h0 with ht' | ⟨hpr, v, n, ht'⟩
      · apply inv_failed
        · rw [parse_commit_state, if_neg h0]
        · rw [parse_commit_trace, ht']; simpa using hI.crc
        · rw [parse_commit_trace, ht']; exact hI.present
        · intro hall
          rw [parse_commit_trace, ht']; exact (hI.phase hall).1
      · apply inv_failed
        · rw [parse_commit_state, if_neg h0]
        · rw [parse_commit_trace, ht', crc_ok_snoc_other _ _ _ (by simp [Event.kind])
            (by simp [Event.kind])]
          simpa using hI.crc
        · rw [parse_commit_trace, ht']
          intro e he
          rcases List.mem_append.mp he with he | he
          · exact hI.present e he
          · simp only [List.mem_singleton] at he
            subst he
            exact hpr
        · intro hall
          rw [parse_commit_trace, ht', trace_phase_snoc, hinit hall]
          simp [Phase.step]

/-- The driver iteration in `STATE_TRAILER` keeps the invariant. -/
theorem inv_step_trailer {E : Env} (C : Consumer) (S : List Byte)
    (p : git_packfile_parser_t E) (data : List Byte) (hI : Inv C S p)
    (hst : p.state = STATE_TRAILER) :
    ∃ k, Inv C (S ++ data.take k) (parse_commit p.state data (parse_trailer C p data)).2.2 ∧
      ((parse_commit p.state data (parse_trailer C p data)).1 = 0 →
        k = (parse_commit p.state data (parse_trailer C p data)).2.1) := by
  have hnlt : ¬ p.state.toNat < STATE_TRAILER.toNat := by rw [hst]; decide
  obtain ⟨hpos, hhl⟩ := hI.pos (by rw [hst]; decide)
  obtain ⟨hhd, h12⟩ := hI.hdr1 (by rw [hst]; decide) (by rw [hst]; decide)
  obtain ⟨hS, htl⟩ := hI.trl (Or.inl hst)
  have hpc := hI.pc_none (by rw [hst]; decide) (by rw [hst]; decide)
  have hidle : (∀ cb, C.present cb = true) → trace_phase p.trace = Phase.idle := by
    intro hall
    apply (hI.phase hall).2
    rw [hst]; rfl
  have hcnt : (∀ cb, C.present cb = true) → count_starts p.trace = hdr_entries p := by
    intro hall
    exact (hI.starts hall).1 _ (by simp [expected_starts, hst])
  obtain ⟨⟨f1, f2, f3, f4, f5⟩, herr, hok⟩ := parse_trailer_summary C p data _ rfl htl
  generalize parse_trailer C p data = r at f1 f2 f3 f4 f5 herr hok ⊢
  by_cases h0 : r.1 = 0
  · obtain ⟨hk, g1, g2, g3⟩ := hok h0
    have hkle : min E.hash_size data.length ≤ data.length := Nat.min_le_right _ _
    refine ⟨min E.hash_size data.length, ?_,
      fun _ => by rw [parse_commit_consumed _ _ _ h0, hk]⟩
    have c1 : (parse_commit p.state data r).2.2.position
        = (S ++ data.take (min E.hash_size data.length)).length := by
      rw [parse_commit_position, if_pos h0, f1, hpos, hk, List.length_append,
        List.length_take, Nat.min_eq_left hkle]
    have c2 : (parse_commit p.state data r).2.2.header_len
        = (parse_commit p.state data r).2.2.header.length := by
      rw [parse_commit_header_len, parse_commit_header, f2, f3, hhl]
    have c3 : (parse_commit p.state data r).2.2.header
        = (S ++ data.take (min E.hash_size data.length)).take PACK_HEADER_SIZE := by
      rw [parse_commit_header, f2, hhd, List.take_append_of_le_length h12]
    have c4 : PACK_HEADER_SIZE ≤ (S ++ data.take (min E.hash_size data.length)).length := by
      rw [List.length_append]; omega
    have c5 : (parse_commit p.state data r).2.2.packfile_hash = p.packfile_hash := by
      rw [parse_commit_packfile_hash, if_neg (fun h => hnlt h.2), f5]
    have c6 : S ++ data.take (min E.hash_size data.length)
        = (parse_commit p.state data r).2.2.packfile_hash ++
          (parse_commit p.state data r).2.2.trailer := by
      rw [c5, parse_commit_trailer, g1, ← List.append_assoc, ← hS]
    have c7 : (parse_commit p.state data r).2.2.trailer_len
        = (parse_commit p.state data r).2.2.trailer.length := by
      rw [parse_commit_trailer_len, parse_commit_trailer, g2]
    rcases g3 with ⟨hs', ht'⟩ | ⟨hs', hfin, ht'⟩
    · apply inv_mk_trailer C _ _ (by rw [parse_commit_state, if_pos h0, hs', hst])
        (by rw [parse_commit_trace, ht']; exact crc_ok_mono S _ _ hI.crc)
        (by rw [parse_commit_trace, ht']; exact hI.present) c1 c2 c3 c4 c6 c7
        (by rw [parse_commit_trace, ht']; exact hpc)
        (by intro hall; rw [parse_commit_trace, ht']; exact hidle hall)
      intro hall
      rw [parse_commit_trace, ht', hcnt hall, parse_commit_hdr_entries]
      simp [hdr_entries, f2]
    · apply inv_mk_complete C _ _ (by rw [parse_commit_state, if_pos h0, hs'])
        (by
          rw [parse_commit_trace, ht',
            crc_ok_emit_other C _ _ _ (by simp [Event.kind]) (by simp [Event.kind])]
          exact crc_ok_mono S _ _ hI.crc)
        (by rw [parse_commit_trace, ht']; exact present_emit C _ _ hI.present)
        c1 c2 c3 c4 c6 c7 (by rw [c5, parse_commit_trailer, hfin])
      · rw [parse_commit_trace, ht', c5]
        intro e he hk'
        rcases (mem_emit C _ _ e).mp he with he | ⟨_, rfl⟩
        · exact absurd hk' (hpc e he)
        · rfl
      · intro hp
        rw [parse_commit_trace, ht', c5]
        exact (mem_emit C _ _ _).mpr (Or.inr ⟨hp, rfl⟩)
      · intro hall
        rw [parse_commit_trace, ht', emit_all C hall, trace_phase_snoc, hidle hall]
        rfl
      · intro hall
        rw [parse_commit_trace, ht', emit_all C hall, count_starts_snoc, hcnt hall,
          parse_commit_hdr_entries]
        simp [hdr_entries, f2, Event.kind]
  · refine ⟨0, ?_, fun h => absurd (by rw [parse_commit_fst] at h; exact h) h0⟩
    rcases herr h0 with ht' | ⟨hpr, ht'⟩
    · apply inv_failed
      · rw [parse_commit_state, if_neg h0]
      · rw [parse_commit_trace, ht']; simpa using hI.crc
      · rw [parse_commit_trace, ht']; exact hI.present
      · intro hall
        rw [parse_commit_trace, ht']; exact (hI.phase hall).1
    · apply inv_failed
      · rw [parse_commit_state, if_neg h0]
      · rw [parse_commit_trace, ht', crc_ok_snoc_other _ _ _ (by simp [Event.kind])
          (by simp [Event.kind])]
        simpa using hI.crc
      · rw [parse_commit_trace, ht']
        intro e he
        rcases List.mem_append.mp he with he | he
        · exact hI.present e he
        · simp only [List.mem_singleton] at he
          subst he
          exact hpr
      · intro hall
        rw [parse_commit_trace, ht', trace_phase_snoc, hidle hall]
        simp [Phase.step]

/-- One iteration of the driver loop keeps the invariant, extending the
consumed stream by the bytes the iteration consumed. -/
theorem iteration_inv {E : Env} (C : Consumer) (fuel : Nat) (S : List Byte)
    (p : git_packfile_parser_t E) (data : List Byte)
    (x : Int × Nat × git_packfile_parser_t E) (hI : Inv C S p) (hne : data ≠ [])
    (hx : parse_iteration C fuel p data = some x) :
    ∃ k, Inv C (S ++ data.take k) x.2.2 ∧ (x.1 = 0 → k = x.2.1) := by
  by_cases hstuck : p.state = STATE_FAILED ∨ p.state = STATE_COMPLETE
  · rw [parse_iteration_stuck C fuel p data hstuck] at hx
    cases hx
    exact ⟨0, by simpa using hI, fun h => by simp at h⟩
  · have h1 : p.state ≠ STATE_COMPLETE := fun h => hstuck (Or.inr h)
    have h2 : p.state ≠ STATE_FAILED := fun h => hstuck (Or.inl h)
    rw [parse_iteration_running C fuel p data h1 h2] at hx
    cases hs : p.state with
    | STATE_COMPLETE => exact absurd hs h1
    | STATE_FAILED => exact absurd hs h2
    | STATE_HEADER =>
      simp only [dispatch, hs, Option.map_some', Option.some.injEq] at hx
      subst hx
      have := inv_step_header C S p data hI hs
      rwa [hs] at this
    | STATE_OBJECT_HEADER_START =>
      simp only [dispatch, hs, Option.map_some', Option.some.injEq] at hx
      subst hx
      have := inv_step_object_header C S p data hI (Or.inl hs) hne
      rwa [hs] at this
    | STATE_OBJECT_HEADER =>
      simp only [dispatch, hs, Option.map_some', Option.some.injEq] at hx
      subst hx
      have := inv_step_object_header C S p data hI (Or.inr hs) hne
      rwa [hs] at this
    | STATE_DELTA_HEADER =>
      simp only [dispatch, hs, Option.map_some', Option.some.injEq] at hx
      subst hx
      have := inv_step_delta_header C S p data hI hs
      rwa [hs] at this
    | STATE_OBJECT_DATA_START =>
      simp only [dispatch, hs] at hx
      cases hr : parse_object_data C fuel p data with
      | none => rw [hr] at hx; cases hx
      | some r =>
        rw [hr] at hx
        simp only [Option.map_some', Option.some.injEq] at hx
        subst hx
        have := inv_step_object_data C fuel S p data hI (Or.inl hs) r hr
        rwa [hs] at this
    | STATE_OBJECT_DATA =>
      simp only [dispatch, hs] at hx
      cases hr : parse_object_data C fuel p data with
      | none => rw [hr] at hx; cases hx
      | some r =>
        rw [hr] at hx
        simp only [Option.map_some', Option.some.injEq] at hx
        subst hx
        have := inv_step_object_data C fuel S p data hI (Or.inr hs) r hr
        rwa [hs] at this
    | STATE_DELTA_DATA_START =>
      simp only [dispatch, hs, Option.map_some', Option.some.injEq] at hx
      subst hx
      have := inv_step_delta_data C S p data hI (Or.inl hs) _ rfl
      rwa [hs] at this
    | STATE_DELTA_DATA =>
      simp only [dispatch, hs, Option.map_some', Option.some.injEq] at hx
      subst hx
      have := inv_step_delta_data C S p data hI (Or.inr hs) _ rfl
      rwa [hs] at this
    | STATE_TRAILER =>
      simp only [dispatch, hs, Option.map_some', Option.some.injEq] at hx
      subst hx
      have := inv_step_trailer C S p data hI hs
      rwa [hs] at this

/-- Feeding slices to a fresh parser leaves it in a state that satisfies the
invariant for a leading part of the concatenated slices, and for all of them when
every feed returned 0. -/
theorem feed_all_inv {E : Env} (C : Consumer) (fuel : Nat) (chunks : List (List Byte))
    (rets : List Int) (q : git_packfile_parser_t E)
    (h : feed_all C fuel (git_packfile_parser_init E) chunks = some (rets, q)) :
    ∃ k, Inv C (chunks.flatten.take k) q ∧
      ((∀ r ∈ rets, r = 0) → chunks.flatten.take k = chunks.flatten) := by
  have := feed_all_preserves C (Inv C)
    (fun fuel S p data x hI hne hx => iteration_inv C fuel S p data x hI hne hx)
    fuel chunks [] _ q rets (inv_init C) h
  simpa using this

/-- The CRC law of a trace holds for every later part of it. -/
theorem crc_ok_suffix (S : List Byte) (a b : List Event) (h : crc_ok S (a ++ b)) :
    crc_ok S b := by
  induction a with
  | nil => simpa using h
  | cons e a ih =>
    apply ih
    cases e <;> simp only [List.cons_append, crc_ok] at h
    all_goals first | exact h | exact h.2

/-- The bytes from `off` on, `cs` of them, in a leading part of a stream that
holds them all. -/
theorem take_drop_prefix (B : List Byte) (k off cs : Nat)
    (h : off + cs ≤ (B.take k).length) :
    ((B.take k).drop off).take cs = (B.drop off).take cs := by
  conv_rhs => rw [← List.take_append_drop k B]
  rw [List.drop_append_of_le_length (by omega), List.take_append_of_le_length]
  rw [List.length_drop]; omega

/-- C3. CRC integrity: in the callback trace of any sequence of feeds to a fresh
parser, whatever the consumer and the partition into slices, an
`object_complete` (`delta_complete`) that follows an `object_start`
(`delta_start`) with only data invocations in between reports a compressed size
`cs` and a CRC such that the `cs` bytes from the offset reported by that start
lie within the bytes fed and the CRC is their CRC-32 from initial state 0. -/
theorem crc_integrity {E : Env} (C : Consumer) (fuel : Nat) (chunks : List (List Byte))
    (rets : List Int) (q : git_packfile_parser_t E)
    (hfeed : feed_all C fuel (git_packfile_parser_init E) chunks = some (rets, q)) :
    (∀ pre mid post off cs0 ty sz cs crc oid,
      q.trace = pre ++ Event.object_start off cs0 ty sz :: mid ++
        Event.object_complete cs crc oid :: post →
      (∀ e ∈ mid, e.kind = Callback.object_data ∨ e.kind = Callback.delta_data) →
      off + cs ≤ chunks.flatten.length ∧
        crc = crc32 0 ((chunks.flatten.drop off).take cs)) ∧
    (∀ pre mid post off ty cs0 sz base bo cs crc,
      q.trace = pre ++ Event.delta_start off ty cs0 sz base bo :: mid ++
        Event.delta_complete cs crc :: post →
      (∀ e ∈ mid, e.kind = Callback.object_data ∨ e.kind = Callback.delta_data) →
      off + cs ≤ chunks.flatten.length ∧
        crc = crc32 0 ((chunks.flatten.drop off).take cs)) := by
  obtain ⟨k, hI, -⟩ := feed_all_inv C fuel chunks rets q hfeed
  have hcrc := hI.crc
  have hlen : (chunks.flatten.take k).length ≤ chunks.flatten.length := by
    rw [List.length_take]; exact Nat.min_le_right _ _
  constructor
  · intro pre mid post off cs0 ty sz cs crc oid ht hmid
    rw [ht] at hcrc
    have e1 : (pre ++ Event.object_start off cs0 ty sz :: mid ++
        Event.object_complete cs crc oid :: post).reverse
        = post.reverse ++ (Event.object_complete cs crc oid ::
            ((pre ++ [Event.object_start off cs0 ty sz]) ++ mid).reverse) := by
      simp
    rw [e1] at hcrc
    have h2 := crc_ok_suffix _ _ _ hcrc
    simp only [crc_ok] at h2
    have h3 := h2.1 off (by
      rw [last_start_append_data _ _ hmid]
      simp [last_start])
    exact ⟨le_trans h3.1 hlen, by rw [h3.2, take_drop_prefix _ _ _ _ h3.1]⟩
  · intro pre mid post off ty cs0 sz base bo cs crc ht hmid
    rw [ht] at hcrc
    have e1 : (pre ++ Event.delta_start off ty cs0 sz base bo :: mid ++
        Event.delta_complete cs crc :: post).reverse
        = post.reverse ++ (Event.delta_complete cs crc ::
            ((pre ++ [Event.delta_start off ty cs0 sz base bo]) ++ mid).reverse) := by
      simp
    rw [e1] at hcrc
    have h2 := crc_ok_suffix _ _ _ hcrc
    simp only [crc_ok] at h2
    have h3 := h2.1 off (by
      rw [last_start_append_data _ _ hmid]
      simp [last_start])
    exact ⟨le_trans h3.1 hlen, by rw [h3.2, take_drop_prefix _ _ _ _ h3.1]⟩

/-- C2. Hash integrity: when feeds to a fresh parser leave it in `STATE_COMPLETE`,
the bytes `B` it consumed (a leading part of the slices fed, all of them when
every feed returned 0) are at least `hash_size` long, the bytes mixed into the
whole-stream hash are, in order, exactly `B` without its last `hash_size` bytes,
those last bytes are the finalised digest of the others, and every
`packfile_complete` invocation carries that digest (one is made when the callback
is present). -/
theorem hash_integrity {E : Env} (C : Consumer) (fuel : Nat) (chunks : List (List Byte))
    (rets : List Int) (q : git_packfile_parser_t E)
    (hfeed : feed_all C fuel (git_packfile_parser_init E) chunks = some (rets, q))
    (hq : q.state = STATE_COMPLETE) :
    ∃ B, B <+: chunks.flatten ∧ ((∀ r ∈ rets, r = 0) → B = chunks.flatten) ∧
      E.hash_size ≤ B.length ∧
      q.packfile_hash = B.take (B.length - E.hash_size) ∧
      B.drop (B.length - E.hash_size) = E.hash_final (B.take (B.length - E.hash_size)) ∧
      (∀ e ∈ q.trace, e.kind = Callback.packfile_complete →
        e = Event.packfile_complete
          (E.hash_final (B.take (B.length - E.hash_size))) E.hash_size) ∧
      (C.present Callback.packfile_complete = true →
        Event.packfile_complete
          (E.hash_final (B.take (B.length - E.hash_size))) E.hash_size ∈ q.trace) := by
  obtain ⟨k, hI, hall⟩ := feed_all_inv C fuel chunks rets q hfeed
  obtain ⟨hS, -⟩ := hI.trl (Or.inr hq)
  have hfin := hI.fin hq
  obtain ⟨hpc1, hpc2⟩ := hI.pc_done hq
  have htl : q.trailer.length = E.hash_size := by rw [hfin, E.hash_final_length]
  have hlen : (chunks.flatten.take k).length = q.packfile_hash.length + E.hash_size := by
    rw [hS, List.length_append, htl]
  have hsub : (chunks.flatten.take k).length - E.hash_size = q.packfile_hash.length := by
    omega
  have htake : (chunks.flatten.take k).take ((chunks.flatten.take k).length - E.hash_size)
      = q.packfile_hash := by
    rw [hsub, hS, List.take_left]
  have hdrop : (chunks.flatten.take k).drop ((chunks.flatten.take k).length - E.hash_size)
      = q.trailer := by
    rw [hsub, hS, List.drop_left]
  refine ⟨chunks.flatten.take k, List.take_prefix _ _, hall, by omega, htake.symm, ?_, ?_, ?_⟩
  · rw [hdrop, htake, hfin]
  · rw [htake]; exact hpc1
  · rw [htake]; exact hpc2

/-- Witness for C2: the one-blob pack fed in one slice. -/
theorem hash_integrity_witness :
    feed_all all_callbacks 10 (git_packfile_parser_init stored_env) [blob_pack]
      = some ([0], blob_done) ∧ blob_done.state = STATE_COMPLETE ∧
    ∃ B, B <+: [blob_pack].flatten ∧ ((∀ r ∈ [(0 : Int)], r = 0) → B = [blob_pack].flatten) ∧
      stored_env.hash_size ≤ B.length ∧
      blob_done.packfile_hash = B.take (B.length - stored_env.hash_size) ∧
      B.drop (B.length - stored_env.hash_size)
        = stored_env.hash_final (B.take (B.length - stored_env.hash_size)) ∧
      (∀ e ∈ blob_done.trace, e.kind = Callback.packfile_complete →
        e = Event.packfile_complete
          (stored_env.hash_final (B.take (B.length - stored_env.hash_size)))
          stored_env.hash_size) ∧
      (all_callbacks.present Callback.packfile_complete = true →
        Event.packfile_complete
          (stored_env.hash_final (B.take (B.length - stored_env.hash_size)))
          stored_env.hash_size ∈ blob_done.trace) :=
  ⟨rfl, rfl, hash_integrity all_callbacks 10 [blob_pack] [0] blob_done rfl rfl⟩

/-- The entry-count word of a stream is read off its first twelve bytes. -/
theorem be32_take_drop (l : List Byte) : be32 ((l.take 12).drop 8) = be32 (l.drop 8) := by
  have h : ∀ i, i < 4 → ((l.take 12).drop 8).getD i 0 = (l.drop 8).getD i 0 := by
    intro i hi
    simp only [List.getD_eq_getElem?_getD, List.getElem?_drop]
    rw [List.getElem?_take_of_lt (by omega)]
  unfold be32
  rw [h 0 (by omega), h 1 (by omega), h 2 (by omega), h 3 (by omega)]

/-- C4. Count conservation: when feeds to a fresh parser with every callback
present leave it in `STATE_TRAILER` (or `STATE_COMPLETE`), the number of
`object_start` and `delta_start` invocations made equals the entry count of the
header, which is the big-endian word in bytes 8 to 11 of the bytes fed. -/
theorem count_conservation {E : Env} (C : Consumer) (fuel : Nat)
    (chunks : List (List Byte)) (rets : List Int) (q : git_packfile_parser_t E)
    (hall : ∀ cb, C.present cb = true)
    (hfeed : feed_all C fuel (git_packfile_parser_init E) chunks = some (rets, q))
    (hq : q.state = STATE_TRAILER ∨ q.state = STATE_COMPLETE) :
    PACK_HEADER_SIZE ≤ chunks.flatten.length ∧
      count_starts q.trace = be32 (chunks.flatten.drop 8) := by
  obtain ⟨k, hI, -⟩ := feed_all_inv C fuel chunks rets q hfeed
  obtain ⟨hhd, h12⟩ := hI.hdr1 (by rcases hq with h | h <;> rw [h] <;> decide)
    (by rcases hq with h | h <;> rw [h] <;> decide)
  have hcnt := (hI.starts hall).1 (hdr_entries q)
    (by rcases hq with h | h <;> simp [expected_starts, h])
  have hlen : (chunks.flatten.take k).length ≤ chunks.flatten.length := by
    rw [List.length_take]; exact Nat.min_le_right _ _
  have hk : PACK_HEADER_SIZE ≤ k := by
    rw [List.length_take] at h12; omega
  refine ⟨le_trans h12 hlen, ?_⟩
  rw [hcnt]
  unfold hdr_entries
  rw [hhd, List.take_take, Nat.min_eq_left hk]
  exact be32_take_drop _

/-- Witness for C4: the one-blob pack, whose header announces one entry, fed up
to its trailer. -/
theorem count_conservation_witness :
    (∀ cb, all_callbacks.present cb = true) ∧
    feed_all all_callbacks 10 (git_packfile_parser_init stored_env) [blob_pack_body]
      = some ([0], blob_at_trailer) ∧
    (blob_at_trailer.state = STATE_TRAILER ∨ blob_at_trailer.state = STATE_COMPLETE) ∧
    PACK_HEADER_SIZE ≤ [blob_pack_body].flatten.length ∧
      count_starts blob_at_trailer.trace = be32 ([blob_pack_body].flatten.drop 8) :=
  ⟨fun _ => rfl, rfl, Or.inl rfl,
    count_conservation all_callbacks 10 [blob_pack_body] [0] blob_at_trailer (fun _ => rfl) rfl
      (Or.inl rfl)⟩

/-- Once the ordering law is broken it stays broken. -/
theorem foldl_step_bad (t : List Event) : t.foldl Phase.step Phase.bad = Phase.bad := by
  induction t with
  | nil => rfl
  | cons e t ih => simpa [List.foldl_cons, Phase.step] using ih

/-- A trace that keeps the ordering law from a phase other than `init` holds no
`packfile_header` invocation. -/
theorem no_header_after (t : List Event) :
    ∀ ph, ph ≠ Phase.init → t.foldl Phase.step ph ≠ Phase.bad →
      ∀ x ∈ t, x.kind ≠ Callback.packfile_header := by
  induction t with
  | nil => intro ph _ _ x hx; cases hx
  | cons e t ih =>
    intro ph hph hfold x hx
    rw [List.foldl_cons] at hfold
    have hne : Phase.step ph e ≠ Phase.init := by
      cases ph <;> cases e <;> simp [Phase.step]
    rcases List.mem_cons.mp hx with rfl | hx
    · intro hk
      apply hfold
      have : Phase.step ph x = Phase.bad := by
        cases ph <;> cases x <;> simp_all [Phase.step, Event.kind]
      rw [this, foldl_step_bad]
    · exact ih _ hne hfold x hx

/-- A trace that keeps the ordering law starts with `packfile_header`. -/
theorem first_is_header (e : Event) (t : List Event)
    (h : trace_phase (e :: t) ≠ Phase.bad) : e.kind = Callback.packfile_header := by
  unfold trace_phase at h
  rw [List.foldl_cons] at h
  cases e <;> first | rfl | (exfalso; apply h; simp [Phase.step, foldl_step_bad])

/-- In a trace that keeps the ordering law nothing follows `packfile_complete`. -/
theorem nothing_after_complete (pre post : List Event) (e : Event)
    (hk : e.kind = Callback.packfile_complete)
    (h : trace_phase (pre ++ e :: post) ≠ Phase.bad) : post = [] := by
  unfold trace_phase at h
  rw [List.foldl_append, List.foldl_cons] at h
  cases post with
  | nil => rfl
  | cons x post =>
    exfalso
    apply h
    rw [List.foldl_cons]
    have : Phase.step (Phase.step (List.foldl Phase.step Phase.init pre) e) x = Phase.bad := by
      generalize List.foldl Phase.step Phase.init pre = ph
      cases ph <;> cases e <;> simp_all [Phase.step, Event.kind]
    rw [this, foldl_step_bad]

/-- C5. Event discipline, for a consumer with every callback present: the
callback trace of any sequence of feeds to a fresh parser keeps the ordering law
of `Phase.step` (a `packfile_header` first; then entries, each an `object_start`,
`object_data` invocations and one `object_complete`, or a `delta_start`,
`delta_data` invocations and one `delta_complete`; a `packfile_complete` only
between entries and last), and stands where the parser state says: not yet
started in `STATE_HEADER`, inside an entry in the data states, done in
`STATE_COMPLETE`, between entries otherwise.  In particular the first invocation
is the only `packfile_header`, and nothing follows a `packfile_complete`. -/
theorem event_discipline {E : Env} (C : Consumer) (fuel : Nat)
    (chunks : List (List Byte)) (rets : List Int) (q : git_packfile_parser_t E)
    (hall : ∀ cb, C.present cb = true)
    (hfeed : feed_all C fuel (git_packfile_parser_init E) chunks = some (rets, q)) :
    trace_phase q.trace ≠ Phase.bad ∧
    (∀ ph, expected_phase q.state = some ph → trace_phase q.trace = ph) ∧
    (∀ e t, q.trace = e :: t →
      e.kind = Callback.packfile_header ∧ ∀ x ∈ t, x.kind ≠ Callback.packfile_header) ∧
    (∀ pre e post, q.trace = pre ++ e :: post → e.kind = Callback.packfile_complete →
      post = []) := by
  obtain ⟨k, hI, -⟩ := feed_all_inv C fuel chunks rets q hfeed
  obtain ⟨hbad, hexp⟩ := hI.phase hall
  refine ⟨hbad, hexp, ?_, ?_⟩
  · intro e t ht
    rw [ht] at hbad
    have hk := first_is_header e t hbad
    refine ⟨hk, ?_⟩
    unfold trace_phase at hbad
    rw [List.foldl_cons] at hbad
    apply no_header_after t _ _ hbad
    cases e <;> simp [Phase.step]
  · intro pre e post ht hk
    rw [ht] at hbad
    exact nothing_after_complete pre post e hk hbad

/-- Witness for C5: the one-blob pack fed in one slice. -/
theorem event_discipline_witness :
    (∀ cb, all_callbacks.present cb = true) ∧
    feed_all all_callbacks 10 (git_packfile_parser_init stored_env) [blob_pack]
      = some ([0], blob_done) ∧
    trace_phase blob_done.trace ≠ Phase.bad ∧
    (∀ ph, expected_phase blob_done.state = some ph → trace_phase blob_done.trace = ph) ∧
    (∀ e t, blob_done.trace = e :: t →
      e.kind = Callback.packfile_header ∧ ∀ x ∈ t, x.kind ≠ Callback.packfile_header) ∧
    (∀ pre e post, blob_done.trace = pre ++ e :: post →
      e.kind = Callback.packfile_complete → post = []) :=
  ⟨fun _ => rfl, rfl,
    event_discipline all_callbacks 10 [blob_pack] [0] blob_done (fun _ => rfl) rfl⟩

/-- Counterexample to C5 read for every consumer: with `object_data` as the only
callback present, the trace of the one-blob pack is two `object_data`
invocations, with no `packfile_header` and no `object_start` before them and no
`object_complete` after them. -/
theorem data_invoked_without_start :
    (feed_all data_only_callbacks 10 (git_packfile_parser_init stored_env) [blob_pack]).map
      (fun r => (r.1, r.2.state, r.2.trace)) =
      some ([0], STATE_COMPLETE, [Event.object_data [104, 105, 10], Event.object_data []]) := by
  decide

/-- C1. Chunk-invariance fails on a `GIT_OBJECT_REF_DELTA` entry whose base name
is split between two slices.  The one-delta pack fed in one slice is parsed to
`STATE_COMPLETE` with a `delta_start`, a `delta_data`, a `delta_complete` and a
`packfile_complete` invocation; the same bytes fed as the first 14 and the
remaining 53 leave the parser in `STATE_DELTA_HEADER` after the
`packfile_header` invocation alone, both feeds returning 0. -/
theorem ref_delta_split_changes_trace :
    (feed_all all_callbacks 10 (git_packfile_parser_init stored_env) [ref_delta_pack]).map
      (fun r => (r.1, r.2.state, r.2.trace)) =
      some ([0], STATE_COMPLETE,
        [Event.packfile_header 2 1,
         Event.delta_start 12 7 21 0 (some (List.replicate 20 7)) 0,
         Event.delta_data [104, 105, 10],
         Event.delta_complete 35 2748163897,
         Event.packfile_complete (List.replicate 20 102) 20]) ∧
    (feed_all all_callbacks 10 (git_packfile_parser_init stored_env)
        [ref_delta_pack.take 14, ref_delta_pack.drop 14]).map
      (fun r => (r.1, r.2.state, r.2.trace)) =
      some ([0, 0], STATE_DELTA_HEADER, [Event.packfile_header 2 1]) := by
  set_option maxRecDepth 4000 in
  decide

/-- Witness for C3: in the trace of the one-blob pack fed in one slice the
entry starts at offset 12 and `object_complete` reports 15 compressed bytes with
their CRC-32. -/
theorem crc_integrity_witness :
    feed_all all_callbacks 10 (git_packfile_parser_init stored_env) [blob_pack]
      = some ([0], blob_done) ∧
    12 + 15 ≤ [blob_pack].flatten.length ∧
    3144681359 = crc32 0 (([blob_pack].flatten.drop 12).take 15) :=
  ⟨rfl,
    (crc_integrity all_callbacks 10 [blob_pack] [0] blob_done rfl).1
      [Event.packfile_header 2 1]
      [Event.object_data [104, 105, 10], Event.object_data []]
      [Event.packfile_complete (List.replicate 20 157) 20]
      12 1 3 3 15 3144681359 (List.replicate 20 205)
      (by set_option maxRecDepth 4000 in decide) (by decide)⟩

/-! ## Errors and completion -/

/-- C16. Data after completion: a feed of a non-empty slice to a parser in
`STATE_COMPLETE` returns the error -1 and leaves the parser as it was, its trace
included, so no callback is invoked. -/
theorem data_after_completion {E : Env} (C : Consumer) (fuel : Nat)
    (p : git_packfile_parser_t E) (data : List Byte)
    (hst : p.state = STATE_COMPLETE) (hne : data ≠ []) :
    git_packfile_parser_parse C (fuel + 1) p data = some (-1, p) := by
  rw [parse_stuck C fuel p data (Or.inr hst), if_neg hne]

/-- Witness for C16: one more byte fed after the one-blob pack. -/
theorem data_after_completion_witness :
    blob_done.state = STATE_COMPLETE ∧ ([0] : List Byte) ≠ [] ∧
    git_packfile_parser_parse all_callbacks (0 + 1) blob_done [0] = some (-1, blob_done) :=
  ⟨rfl, by decide, data_after_completion all_callbacks 0 blob_done [0] rfl (by decide)⟩

/-- C15. A feed can return an error and leave a state other than `STATE_FAILED`:
after the one-blob pack has been parsed to `STATE_COMPLETE`, the feed of one more
byte returns -1 and the state is still `STATE_COMPLETE`. -/
theorem error_after_complete_keeps_state :
    (feed_all all_callbacks 10 (git_packfile_parser_init stored_env) [blob_pack, [0]]).map
      (fun r => (r.1, r.2.state)) = some ([0, -1], STATE_COMPLETE) := by
  decide

/-- C14. No offset overflow check: the ten-byte OffsetDelta base specifier
`ofs_overflow_bytes` has the value 1189887617730934227071, which is beyond the
range of an unsigned 64-bit integer, and the parser returns 0 and invokes
`delta_start` with that value reduced modulo 2^64. -/
theorem ofs_delta_offset_wraps :
    ofs_delta_value ofs_overflow_bytes = 1189887617730934227071 ∧
    2 ^ 64 ≤ ofs_delta_value ofs_overflow_bytes ∧
    (feed_all all_callbacks 10 (git_packfile_parser_init stored_env) [ofs_overflow_pack]).map
      (fun r => (r.1, r.2.state, r.2.trace)) =
      some ([0], STATE_DELTA_DATA_START,
        [Event.packfile_header 2 1,
         Event.delta_start 12 6 11 0 none (ofs_delta_value ofs_overflow_bytes % 2 ^ 64)]) := by
  refine ⟨by decide, by decide, ?_⟩
  decide

/-! ## The type/size prefix of an entry -/

/-- Bytes of a type/size prefix taken in `STATE_OBJECT_HEADER`: what the
per-byte updates leave in the parser. -/
theorem object_header_bytes_fold {E : Env} :
    ∀ (cs : List Byte) (p : git_packfile_parser_t E), p.state = STATE_OBJECT_HEADER →
      (cs.foldl object_header_byte p).state = STATE_OBJECT_HEADER ∧
      (cs.foldl object_header_byte p).current_type = p.current_type ∧
      (cs.foldl object_header_byte p).current_position = p.current_position ∧
      (cs.foldl object_header_byte p).position = p.position ∧
      (cs.foldl object_header_byte p).current_compressed_size
        = p.current_compressed_size + cs.length ∧
      ((cs.foldl object_header_byte p).current_size,
        (cs.foldl object_header_byte p).current_bits)
        = cs.foldl (preamble_step E) (p.current_size, p.current_bits) ∧
      (cs.foldl object_header_byte p).trace = p.trace ∧
      (cs.foldl object_header_byte p).current_hash = p.current_hash := by
  intro cs
  induction cs with
  | nil => intro p hp; simp [hp]
  | cons c cs ih =>
    intro p hp
    have hs : (object_header_byte p c).state = STATE_OBJECT_HEADER :=
      object_header_byte_state p c (Or.inr hp)
    obtain ⟨h1, h2, h3, h4, h5, h6, h7, h8⟩ := ih (object_header_byte p c) hs
    simp only [List.foldl_cons]
    refine ⟨h1, ?_, ?_, ?_, ?_, ?_, ?_, ?_⟩
    · rw [h2]; simp [object_header_byte, hp]
    · rw [h3]; simp [object_header_byte, hp]
    · rw [h4]; simp [object_header_byte, hp]
    · rw [h5]; simp [object_header_byte, hp]; omega
    · rw [h6]; simp [object_header_byte, hp, preamble_step]
    · rw [h7]; simp [object_header_byte, hp]
    · rw [h8]; simp [object_header_byte, hp]

/-- The bytes of a type/size prefix taken from `STATE_OBJECT_HEADER_START`:
what the per-byte updates leave in the parser. -/
theorem object_header_preamble_fold {E : Env} (p : git_packfile_parser_t E)
    (c : Byte) (cs : List Byte) (hp : p.state = STATE_OBJECT_HEADER_START) :
    ((c :: cs).foldl object_header_byte p).state = STATE_OBJECT_HEADER ∧
    ((c :: cs).foldl object_header_byte p).current_type = preamble_kind c ∧
    ((c :: cs).foldl object_header_byte p).current_position = p.position ∧
    ((c :: cs).foldl object_header_byte p).position = p.position ∧
    ((c :: cs).foldl object_header_byte p).current_compressed_size = cs.length + 1 ∧
    ((c :: cs).foldl object_header_byte p).current_size = preamble_size E (c :: cs) ∧
    ((c :: cs).foldl object_header_byte p).trace = p.trace ∧
    ((c :: cs).foldl object_header_byte p).current_hash = [] := by
  have hs : (object_header_byte p c).state = STATE_OBJECT_HEADER :=
    object_header_byte_state p c (Or.inl hp)
  obtain ⟨h1, h2, h3, h4, h5, h6, h7, h8⟩ := object_header_bytes_fold cs _ hs
  simp only [List.foldl_cons]
  refine ⟨h1, ?_, ?_, ?_, ?_, ?_, ?_, ?_⟩
  · rw [h2]; simp [object_header_byte, hp, preamble_kind]
  · rw [h3]; simp [object_header_byte, hp]
  · rw [h4]; simp [object_header_byte, hp]
  · rw [h5]; simp [object_header_byte, hp]; omega
  · have := congrArg Prod.fst h6
    simp only at this
    rw [this]
    simp [object_header_byte, hp, preamble_size]
  · rw [h7]; simp [object_header_byte, hp]
  · rw [h8]; simp [object_header_byte, hp]

/-- Continuation bytes of a type/size prefix are taken one by one by the loop
of `parse_object_header`. -/
theorem parse_object_header_loop_continue {E : Env} (C : Consumer) :
    ∀ (cs : List Byte) (p : git_packfile_parser_t E) (rest : List Byte) (n : Nat),
      p.state = STATE_OBJECT_HEADER_START ∨ p.state = STATE_OBJECT_HEADER →
      (∀ b ∈ cs, b.val &&& 0x80 ≠ 0) →
      parse_object_header_loop C p (cs ++ rest) n =
        parse_object_header_loop C (cs.foldl object_header_byte p) rest (n + cs.length) := by
  intro cs
  induction cs with
  | nil => intro p rest n _ _; simp
  | cons c cs ih =>
    intro p rest n hp hcs
    have hc : c.val &&& 0x80 ≠ 0 := hcs c (List.mem_cons_self _ _)
    have hlt : p.state.toNat < STATE_OBJECT_DATA_START.toNat := by
      rcases hp with h | h <;> rw [h] <;> decide
    have hs : (object_header_byte p c).state = STATE_OBJECT_HEADER :=
      object_header_byte_state p c hp
    rw [List.cons_append, parse_object_header_loop, if_pos hlt]
    dsimp only
    rw [if_neg (fun h => hc h.1), if_neg hc, ih _ rest (n + 1) (Or.inr hs)
      (fun b hb => hcs b (List.mem_cons_of_mem _ hb))]
    simp only [List.foldl_cons, List.length_cons]
    congr 1
    omega

/-- The terminator byte of a type/size prefix: a delta entry goes on to its
delta header, any other entry seeds the object hash and invokes
`object_start`. -/
theorem parse_object_header_loop_last {E : Env} (C : Consumer)
    (p : git_packfile_parser_t E) (last : Byte) (rest : List Byte) (n : Nat)
    (hp : p.state = STATE_OBJECT_HEADER_START ∨ p.state = STATE_OBJECT_HEADER)
    (hlast : last.val &&& 0x80 = 0) :
    parse_object_header_loop C p (last :: rest) n =
      if is_delta (object_header_byte p last).current_type = true then
        (0, n + 1, begin_delta_header (object_header_byte p last))
      else if (invoke C (seed_object_hash (object_header_byte p last))
          (object_start_event (seed_object_hash (object_header_byte p last)))).1 ≠ 0 then
        ((invoke C (seed_object_hash (object_header_byte p last))
            (object_start_event (seed_object_hash (object_header_byte p last)))).1, 0,
          (invoke C (seed_object_hash (object_header_byte p last))
            (object_start_event (seed_object_hash (object_header_byte p last)))).2)
      else
        (0, n + 1,
          { (invoke C (seed_object_hash (object_header_byte p last))
              (object_start_event (seed_object_hash (object_header_byte p last)))).2 with
            state := STATE_OBJECT_DATA_START }) := by
  have hlt : p.state.toNat < STATE_OBJECT_DATA_START.toNat := by
    rcases hp with h | h <;> rw [h] <;> decide
  rw [parse_object_header_loop, if_pos hlt]
  dsimp only
  by_cases hd : is_delta (object_header_byte p last).current_type = true
  · rw [if_pos ⟨hlast, hd⟩, if_pos hd]
    apply parse_object_header_loop_done
    simp [parser_state.toNat]
  · rw [if_neg (fun h => hd h.2), if_pos hlast, if_neg hd]
    by_cases hr : (invoke C (seed_object_hash (object_header_byte p last))
        (object_start_event (seed_object_hash (object_header_byte p last)))).1 ≠ 0
    · rw [if_pos hr, if_pos hr]
    · rw [if_neg hr, if_neg hr]
      apply parse_object_header_loop_done
      simp [parser_state.toNat]

/-- A whole type/size prefix in one slice: `parse_object_header` applies the
per-byte updates to all its bytes and finishes at the terminator byte. -/
theorem parse_object_header_preamble {E : Env} (C : Consumer)
    (p : git_packfile_parser_t E) (pre : List Byte) (last : Byte) (rest : List Byte)
    (hp : p.state = STATE_OBJECT_HEADER_START ∨ p.state = STATE_OBJECT_HEADER)
    (hpre : ∀ b ∈ pre, b.val &&& 0x80 ≠ 0) (hlast : last.val &&& 0x80 = 0) :
    parse_object_header C p (pre ++ last :: rest) =
      if is_delta ((pre ++ [last]).foldl object_header_byte p).current_type = true then
        (0, pre.length + 1, begin_delta_header ((pre ++ [last]).foldl object_header_byte p))
      else if (invoke C (seed_object_hash ((pre ++ [last]).foldl object_header_byte p))
          (object_start_event
            (seed_object_hash ((pre ++ [last]).foldl object_header_byte p)))).1 ≠ 0 then
        ((invoke C (seed_object_hash ((pre ++ [last]).foldl object_header_byte p))
            (object_start_event
              (seed_object_hash ((pre ++ [last]).foldl object_header_byte p)))).1, 0,
          (invoke C (seed_object_hash ((pre ++ [last]).foldl object_header_byte p))
            (object_start_event
              (seed_object_hash ((pre ++ [last]).foldl object_header_byte p)))).2)
      else
        (0, pre.length + 1,
          { (invoke C (seed_object_hash ((pre ++ [last]).foldl object_header_byte p))
              (object_start_event
                (seed_object_hash ((pre ++ [last]).foldl object_header_byte p)))).2 with
            state := STATE_OBJECT_DATA_START }) := by
  have hs : (pre.foldl object_header_byte p).state = STATE_OBJECT_HEADER_START ∨
      (pre.foldl object_header_byte p).state = STATE_OBJECT_HEADER := by
    cases pre with
    | nil => exact hp
    | cons c cs =>
      right
      simp only [List.foldl_cons]
      exact (object_header_bytes_fold cs _ (object_header_byte_state p c hp)).1
  unfold parse_object_header
  rw [parse_object_header_loop_continue C pre p (last :: rest) 0 hp hpre,
    parse_object_header_loop_last C _ last rest _ hs hlast]
  simp only [List.foldl_append, List.foldl_cons, List.foldl_nil, Nat.zero_add]

/-- What the bytes of a whole type/size prefix, taken from
`STATE_OBJECT_HEADER_START`, leave in the parser. -/
theorem preamble_fields {E : Env} (p : git_packfile_parser_t E) (pre : List Byte)
    (last : Byte) (hp : p.state = STATE_OBJECT_HEADER_START) :
    ((pre ++ [last]).foldl object_header_byte p).current_type
      = preamble_kind ((pre ++ [last]).headD last) ∧
    ((pre ++ [last]).foldl object_header_byte p).current_position = p.position ∧
    ((pre ++ [last]).foldl object_header_byte p).position = p.position ∧
    ((pre ++ [last]).foldl object_header_byte p).current_compressed_size = pre.length + 1 ∧
    ((pre ++ [last]).foldl object_header_byte p).current_size
      = preamble_size E (pre ++ [last]) ∧
    ((pre ++ [last]).foldl object_header_byte p).trace = p.trace ∧
    ((pre ++ [last]).foldl object_header_byte p).current_hash = [] := by
  cases pre with
  | nil =>
    obtain ⟨-, h2, h3, h4, h5, h6, h7, h8⟩ := object_header_preamble_fold p last [] hp
    exact ⟨h2, h3, h4, h5, h6, h7, h8⟩
  | cons c cs =>
    obtain ⟨-, h2, h3, h4, h5, h6, h7, h8⟩ :=
      object_header_preamble_fold p c (cs ++ [last]) hp
    refine ⟨h2, h3, h4, ?_, h6, h7, h8⟩
    rw [List.cons_append, h5]
    simp

/-- The `object_start` invocation at the end of a whole type/size prefix taken
from `STATE_OBJECT_HEADER_START`. -/
theorem preamble_start_event {E : Env} (p : git_packfile_parser_t E) (pre : List Byte)
    (last : Byte) (hp : p.state = STATE_OBJECT_HEADER_START) :
    object_start_event (seed_object_hash ((pre ++ [last]).foldl object_header_byte p))
      = Event.object_start p.position (pre.length + 1)
          (preamble_kind ((pre ++ [last]).headD last)) (preamble_size E (pre ++ [last])) := by
  obtain ⟨h1, h2, -, h4, h5, -, -⟩ := preamble_fields p pre last hp
  unfold object_start_event seed_object_hash
  dsimp only
  rw [h1, h2, h4, h5]

/-- The trace before the `object_start` invocation at the end of a whole
type/size prefix. -/
theorem preamble_seed_trace {E : Env} (p : git_packfile_parser_t E) (pre : List Byte)
    (last : Byte) (hp : p.state = STATE_OBJECT_HEADER_START) :
    (seed_object_hash ((pre ++ [last]).foldl object_header_byte p)).trace = p.trace := by
  obtain ⟨-, -, -, -, -, h6, -⟩ := preamble_fields p pre last hp
  unfold seed_object_hash
  exact h6

/-- Result of `parse_object_header` on a slice that starts with a whole
type/size prefix of a non-delta kind. -/
theorem parse_object_header_non_delta {E : Env} (C : Consumer)
    (p : git_packfile_parser_t E) (pre : List Byte) (last : Byte) (rest : List Byte)
    (hp : p.state = STATE_OBJECT_HEADER_START)
    (hpre : ∀ b ∈ pre, b.val &&& 0x80 ≠ 0) (hlast : last.val &&& 0x80 = 0)
    (hk : is_delta (preamble_kind ((pre ++ [last]).headD last)) = false) :
    (parse_object_header C p (pre ++ last :: rest)).2.2.trace =
      emit C p.trace (Event.object_start p.position (pre.length + 1)
        (preamble_kind ((pre ++ [last]).headD last)) (preamble_size E (pre ++ [last]))) ∧
    (parse_object_header C p (pre ++ last :: rest)).1 =
      (if C.present Callback.object_start = true then
        C.ret p.trace (Event.object_start p.position (pre.length + 1)
          (preamble_kind ((pre ++ [last]).headD last)) (preamble_size E (pre ++ [last])))
       else 0) ∧
    ((parse_object_header C p (pre ++ last :: rest)).1 = 0 →
      (parse_object_header C p (pre ++ last :: rest)).2.1 = pre.length + 1 ∧
      (parse_object_header C p (pre ++ last :: rest)).2.2.state = STATE_OBJECT_DATA_START) := by
  have hty := (preamble_fields p pre last hp).1
  have hev := preamble_start_event p pre last hp
  have htr := preamble_seed_trace p pre last hp
  rw [parse_object_header_preamble C p pre last rest (Or.inl hp) hpre hlast,
    if_neg (by rw [hty, hk]; simp)]
  have h1 : (invoke C (seed_object_hash ((pre ++ [last]).foldl object_header_byte p))
      (object_start_event (seed_object_hash ((pre ++ [last]).foldl object_header_byte p)))).1
      = (if C.present Callback.object_start = true then
        C.ret p.trace (Event.object_start p.position (pre.length + 1)
          (preamble_kind ((pre ++ [last]).headD last)) (preamble_size E (pre ++ [last])))
       else 0) := by
    rw [invoke_fst, hev, htr]; rfl
  have h2 : (invoke C (seed_object_hash ((pre ++ [last]).foldl object_header_byte p))
      (object_start_event (seed_object_hash ((pre ++ [last]).foldl object_header_byte p)))).2.trace
      = emit C p.trace (Event.object_start p.position (pre.length + 1)
        (preamble_kind ((pre ++ [last]).headD last)) (preamble_size E (pre ++ [last]))) := by
    rw [invoke_trace_emit, hev, htr]
  by_cases hr : (invoke C (seed_object_hash ((pre ++ [last]).foldl object_header_byte p))
      (object_start_event
        (seed_object_hash ((pre ++ [last]).foldl object_header_byte p)))).1 ≠ 0
  · rw [if_pos hr]
    exact ⟨h2, h1, fun h => absurd h hr⟩
  · rw [if_neg hr]
    exact ⟨h2, by rw [← h1]; exact (not_not.mp hr).symm, fun _ => ⟨rfl, rfl⟩⟩

/-- Result of `parse_object_header` on a slice that starts with a whole
type/size prefix of a delta kind. -/
theorem parse_object_header_delta {E : Env} (C : Consumer)
    (p : git_packfile_parser_t E) (pre : List Byte) (last : Byte) (rest : List Byte)
    (hp : p.state = STATE_OBJECT_HEADER_START)
    (hpre : ∀ b ∈ pre, b.val &&& 0x80 ≠ 0) (hlast : last.val &&& 0x80 = 0)
    (hk : is_delta (preamble_kind ((pre ++ [last]).headD last)) = true) :
    (parse_object_header C p (pre ++ last :: rest)).2.2.trace = p.trace ∧
    (parse_object_header C p (pre ++ last :: rest)).1 = 0 ∧
    (parse_object_header C p (pre ++ last :: rest)).2.1 = pre.length + 1 ∧
    (parse_object_header C p (pre ++ last :: rest)).2.2.state = STATE_DELTA_HEADER := by
  have hf := preamble_fields p pre last hp
  rw [parse_object_header_preamble C p pre last rest (Or.inl hp) hpre hlast,
    if_pos (by rw [hf.1, hk])]
  exact ⟨by unfold begin_delta_header; exact hf.2.2.2.2.2.1, rfl, rfl,
    by unfold begin_delta_header; rfl⟩

/-- Counterexample to C12: the one-byte prefixes 0x03 (kind bits 0) and 0x53
(kind bits 5) are accepted: the feed returns 0, `object_start` is invoked with
kind 0, respectively 5, and the state is `STATE_OBJECT_DATA_START`. -/
theorem invalid_kind_starts_object :
    (feed_all all_callbacks 10 (git_packfile_parser_init stored_env) [kind0_pack]).map
      (fun r => (r.1, r.2.state, r.2.trace)) =
      some ([0], STATE_OBJECT_DATA_START,
        [Event.packfile_header 2 1, Event.object_start 12 1 0 3]) ∧
    (feed_all all_callbacks 10 (git_packfile_parser_init stored_env) [kind5_pack]).map
      (fun r => (r.1, r.2.state, r.2.trace)) =
      some ([0], STATE_OBJECT_DATA_START,
        [Event.packfile_header 2 1, Event.object_start 12 1 5 3]) := by
  decide

/-- C12, as amended: a type/size prefix whose first byte has kind bits 0 or 5 is
not rejected by `parse_object_header`.  On a slice that starts with the whole
prefix (continuation bytes `pre`, terminator `last`) the decoder invokes
`object_start`, when present, with that kind; its return value is the one of the
callback (0 when absent), and when that is 0 the prefix is consumed and the state
becomes `STATE_OBJECT_DATA_START`. -/
theorem kind_not_validated {E : Env} (C : Consumer)
    (p : git_packfile_parser_t E) (pre : List Byte) (last : Byte) (rest : List Byte)
    (hp : p.state = STATE_OBJECT_HEADER_START)
    (hpre : ∀ b ∈ pre, b.val &&& 0x80 ≠ 0) (hlast : last.val &&& 0x80 = 0)
    (hkind : preamble_kind ((pre ++ [last]).headD last) = 0 ∨
      preamble_kind ((pre ++ [last]).headD last) = 5) :
    (parse_object_header C p (pre ++ last :: rest)).2.2.trace =
      emit C p.trace (Event.object_start p.position (pre.length + 1)
        (preamble_kind ((pre ++ [last]).headD last)) (preamble_size E (pre ++ [last]))) ∧
    (parse_object_header C p (pre ++ last :: rest)).1 =
      (if C.present Callback.object_start = true then
        C.ret p.trace (Event.object_start p.position (pre.length + 1)
          (preamble_kind ((pre ++ [last]).headD last)) (preamble_size E (pre ++ [last])))
       else 0) ∧
    ((parse_object_header C p (pre ++ last :: rest)).1 = 0 →
      (parse_object_header C p (pre ++ last :: rest)).2.1 = pre.length + 1 ∧
      (parse_object_header C p (pre ++ last :: rest)).2.2.state = STATE_OBJECT_DATA_START) := by
  apply parse_object_header_non_delta C p pre last rest hp hpre hlast
  rcases hkind with h | h <;> rw [h] <;> decide

/-- Witness for C12: the two-byte prefix 0x83 0x00 of kind bits 0. -/
theorem kind_not_validated_witness :
    first_entry_state.state = STATE_OBJECT_HEADER_START ∧
    (∀ b ∈ ([0x83] : List Byte), b.val &&& 0x80 ≠ 0) ∧ (0x00 : Byte).val &&& 0x80 = 0 ∧
    (preamble_kind (([0x83] ++ [(0x00 : Byte)]).headD 0x00) = 0 ∨
      preamble_kind (([0x83] ++ [(0x00 : Byte)]).headD 0x00) = 5) ∧
    (parse_object_header all_callbacks first_entry_state ([0x83] ++ 0x00 :: [0x78])).2.2.trace =
      emit all_callbacks first_entry_state.trace
        (Event.object_start first_entry_state.position (([0x83] : List Byte).length + 1)
          (preamble_kind (([0x83] ++ [(0x00 : Byte)]).headD 0x00))
          (preamble_size stored_env ([0x83] ++ [0x00]))) ∧
    (parse_object_header all_callbacks first_entry_state ([0x83] ++ 0x00 :: [0x78])).1 =
      (if all_callbacks.present Callback.object_start = true then
        all_callbacks.ret first_entry_state.trace
          (Event.object_start first_entry_state.position (([0x83] : List Byte).length + 1)
            (preamble_kind (([0x83] ++ [(0x00 : Byte)]).headD 0x00))
            (preamble_size stored_env ([0x83] ++ [0x00])))
       else 0) ∧
    ((parse_object_header all_callbacks first_entry_state ([0x83] ++ 0x00 :: [0x78])).1 = 0 →
      (parse_object_header all_callbacks first_entry_state
          ([0x83] ++ 0x00 :: [0x78])).2.1 = ([0x83] : List Byte).length + 1 ∧
      (parse_object_header all_callbacks first_entry_state
          ([0x83] ++ 0x00 :: [0x78])).2.2.state = STATE_OBJECT_DATA_START) :=
  ⟨rfl, by set_option maxRecDepth 4000 in decide, by set_option maxRecDepth 4000 in decide, by set_option maxRecDepth 4000 in decide,
    kind_not_validated all_callbacks first_entry_state [0x83] 0x00 [0x78] rfl
      (by set_option maxRecDepth 4000 in decide) (by set_option maxRecDepth 4000 in decide) (by set_option maxRecDepth 4000 in decide)⟩

/-- Counterexample to C13: an eleven-byte prefix whose tenth continuation byte
carries a payload bit at bit position 67 is accepted: the feed returns 0 and
`object_start` is invoked with the eleven prefix bytes counted and a size that
is not the encoded one. -/
theorem long_size_starts_object :
    (feed_all all_callbacks 10 (git_packfile_parser_init stored_env) [long_size_pack]).map
      (fun r => (r.1, r.2.state, r.2.trace)) =
      some ([0], STATE_OBJECT_DATA_START,
        [Event.packfile_header 2 1, Event.object_start 12 11 3 11]) := by
  decide

/-- C13, as amended: `parse_object_header` has no size-overflow error.  On a
slice that starts with a whole type/size prefix, whatever the number and the
payload of its continuation bytes `pre`, the decoder consumes the prefix up to
its terminator `last` and starts the entry: for a delta kind it returns 0 in
`STATE_DELTA_HEADER` without a callback; for any other kind it invokes
`object_start`, when present, with the size it has accumulated, returns what the
callback returns (0 when absent) and on 0 is in `STATE_OBJECT_DATA_START`. -/
theorem size_overflow_not_detected {E : Env} (C : Consumer)
    (p : git_packfile_parser_t E) (pre : List Byte) (last : Byte) (rest : List Byte)
    (hp : p.state = STATE_OBJECT_HEADER_START)
    (hpre : ∀ b ∈ pre, b.val &&& 0x80 ≠ 0) (hlast : last.val &&& 0x80 = 0) :
    (is_delta (preamble_kind ((pre ++ [last]).headD last)) = true →
      (parse_object_header C p (pre ++ last :: rest)).2.2.trace = p.trace ∧
      (parse_object_header C p (pre ++ last :: rest)).1 = 0 ∧
      (parse_object_header C p (pre ++ last :: rest)).2.1 = pre.length + 1 ∧
      (parse_object_header C p (pre ++ last :: rest)).2.2.state = STATE_DELTA_HEADER) ∧
    (is_delta (preamble_kind ((pre ++ [last]).headD last)) = false →
      (parse_object_header C p (pre ++ last :: rest)).2.2.trace =
        emit C p.trace (Event.object_start p.position (pre.length + 1)
          (preamble_kind ((pre ++ [last]).headD last)) (preamble_size E (pre ++ [last]))) ∧
      (parse_object_header C p (pre ++ last :: rest)).1 =
        (if C.present Callback.object_start = true then
          C.ret p.trace (Event.object_start p.position (pre.length + 1)
            (preamble_kind ((pre ++ [last]).headD last)) (preamble_size E (pre ++ [last])))
         else 0) ∧
      ((parse_object_header C p (pre ++ last :: rest)).1 = 0 →
        (parse_object_header C p (pre ++ last :: rest)).2.1 = pre.length + 1 ∧
        (parse_object_header C p (pre ++ last :: rest)).2.2.state
          = STATE_OBJECT_DATA_START)) :=
  ⟨parse_object_header_delta C p pre last rest hp hpre hlast,
    parse_object_header_non_delta C p pre last rest hp hpre hlast⟩

/-- Witness for C13: the eleven-byte prefix of `long_size_pack`, consumed whole
with `object_start` invoked and 0 returned. -/
theorem size_overflow_not_detected_witness :
    first_entry_state.state = STATE_OBJECT_HEADER_START ∧
    (∀ b ∈ (0xB3 :: List.replicate 9 (0x80 : Byte)), b.val &&& 0x80 ≠ 0) ∧
    (0x01 : Byte).val &&& 0x80 = 0 ∧
    (parse_object_header all_callbacks first_entry_state
        ((0xB3 :: List.replicate 9 (0x80 : Byte)) ++ 0x01 :: [])).1 = 0 ∧
    (parse_object_header all_callbacks first_entry_state
        ((0xB3 :: List.replicate 9 (0x80 : Byte)) ++ 0x01 :: [])).2.1 = 11 ∧
    (parse_object_header all_callbacks first_entry_state
        ((0xB3 :: List.replicate 9 (0x80 : Byte)) ++ 0x01 :: [])).2.2.state
      = STATE_OBJECT_DATA_START :=
  ⟨rfl, by set_option maxRecDepth 4000 in decide, by set_option maxRecDepth 4000 in decide,
    ((size_overflow_not_detected all_callbacks first_entry_state
      (0xB3 :: List.replicate 9 (0x80 : Byte)) 0x01 [] rfl (by set_option maxRecDepth 4000 in decide) (by set_option maxRecDepth 4000 in decide)).2
        (by set_option maxRecDepth 4000 in decide)).2.1,
    (((size_overflow_not_detected all_callbacks first_entry_state
      (0xB3 :: List.replicate 9 (0x80 : Byte)) 0x01 [] rfl (by set_option maxRecDepth 4000 in decide) (by set_option maxRecDepth 4000 in decide)).2
        (by set_option maxRecDepth 4000 in decide)).2.2 (by set_option maxRecDepth 4000 in decide)).1,
    (((size_overflow_not_detected all_callbacks first_entry_state
      (0xB3 :: List.replicate 9 (0x80 : Byte)) 0x01 [] rfl (by set_option maxRecDepth 4000 in decide) (by set_option maxRecDepth 4000 in decide)).2
        (by set_option maxRecDepth 4000 in decide)).2.2 (by set_option maxRecDepth 4000 in decide)).2⟩

/-- `parse_header` on a slice that completes a header with the signature "PACK"
and version 2: the callback site of `packfile_header` is reached. -/
theorem parse_header_valid_eq {E : Env} (C : Consumer)
    (p : git_packfile_parser_t E) (data : List Byte)
    (hlen : p.header_len = p.header.length) (hlt : p.header.length < PACK_HEADER_SIZE)
    (hfull : PACK_HEADER_SIZE ≤ p.header.length + data.length)
    (hsig : be32 ((p.header ++ data).take PACK_HEADER_SIZE) = PACK_SIGNATURE)
    (hver : be32 (((p.header ++ data).take PACK_HEADER_SIZE).drop 4) = 2) :
    (stage_header p data).header = (p.header ++ data).take PACK_HEADER_SIZE ∧
    parse_header C p data =
      if (invoke C (stage_header p data) (header_event (stage_header p data))).1 ≠ 0 then
        ((invoke C (stage_header p data) (header_event (stage_header p data))).1, 0,
          (invoke C (stage_header p data) (header_event (stage_header p data))).2)
      else
        (0, PACK_HEADER_SIZE - p.header.length,
          { (invoke C (stage_header p data) (header_event (stage_header p data))).2 with
            state := if hdr_entries (invoke C (stage_header p data)
                (header_event (stage_header p data))).2 > 0
              then STATE_OBJECT_HEADER_START else STATE_TRAILER }) := by
  have hstage := header_stage_eq p.header data (Nat.le_of_lt hlt)
  have hfl : (stage_header p data).header_len = PACK_HEADER_SIZE := by
    simp only [stage_header_header_len, hlen]; omega
  have hsub : data.length - (data.length - min data.length (PACK_HEADER_SIZE - p.header_len))
      = PACK_HEADER_SIZE - p.header.length := by rw [hlen]; omega
  have hhd : (stage_header p data).header = (p.header ++ data).take PACK_HEADER_SIZE := by
    simp only [stage_header_header, hlen]; exact hstage
  refine ⟨hhd, ?_⟩
  unfold parse_header
  dsimp only
  rw [if_pos hfl, hsub, if_neg (by unfold hdr_signature; rw [hhd, hsig]; simp),
    if_neg (by unfold hdr_version; rw [hhd, hver]; simp)]

/-- C11. Header completion.  With fewer than twelve header bytes staged, a slice
that does not bring the twelfth byte is staged whole: `parse_header` returns 0,
the state stays `STATE_HEADER` and the trace is unchanged.  A slice that
completes a header with the signature "PACK" and version 2 makes `parse_header`
invoke `packfile_header`, when present, exactly once, with version 2 and the
big-endian value of bytes 8 to 11; it returns what the callback returns (0 when
absent) and on 0 has consumed the missing header bytes, the next state being
`STATE_OBJECT_HEADER_START` when that value is positive and `STATE_TRAILER` when
it is 0. -/
theorem header_completion {E : Env} (C : Consumer)
    (p : git_packfile_parser_t E) (data : List Byte)
    (hst : p.state = STATE_HEADER)
    (hlen : p.header_len = p.header.length) (hlt : p.header.length < PACK_HEADER_SIZE) :
    (p.header.length + data.length < PACK_HEADER_SIZE →
      (parse_header C p data).1 = 0 ∧ (parse_header C p data).2.1 = data.length ∧
      (parse_header C p data).2.2.state = STATE_HEADER ∧
      (parse_header C p data).2.2.trace = p.trace ∧
      (parse_header C p data).2.2.header = p.header ++ data) ∧
    (PACK_HEADER_SIZE ≤ p.header.length + data.length →
      be32 ((p.header ++ data).take PACK_HEADER_SIZE) = PACK_SIGNATURE →
      be32 (((p.header ++ data).take PACK_HEADER_SIZE).drop 4) = 2 →
      (parse_header C p data).2.2.trace = p.trace ++
        (if C.present Callback.packfile_header = true then
          [Event.packfile_header 2 (be32 (((p.header ++ data).take PACK_HEADER_SIZE).drop 8))]
         else []) ∧
      (parse_header C p data).1 =
        (if C.present Callback.packfile_header = true then
          C.ret p.trace
            (Event.packfile_header 2 (be32 (((p.header ++ data).take PACK_HEADER_SIZE).drop 8)))
         else 0) ∧
      ((parse_header C p data).1 = 0 →
        (parse_header C p data).2.1 = PACK_HEADER_SIZE - p.header.length ∧
        (parse_header C p data).2.2.state =
          (if be32 (((p.header ++ data).take PACK_HEADER_SIZE).drop 8) > 0
           then STATE_OBJECT_HEADER_START else STATE_TRAILER))) := by
  constructor
  · intro hc
    rw [parse_header_partial_eq C p data hlen hc]
    exact ⟨rfl, rfl, hst, rfl, rfl⟩
  · intro hfull hsig hver
    obtain ⟨hhd, heq⟩ := parse_header_valid_eq C p data hlen hlt hfull hsig hver
    have hev : header_event (stage_header p data) = Event.packfile_header 2
        (be32 (((p.header ++ data).take PACK_HEADER_SIZE).drop 8)) := by
      unfold header_event hdr_version hdr_entries
      rw [hhd, hver]
    have htr : (stage_header p data).trace = p.trace := stage_header_trace p data
    have h1 : (invoke C (stage_header p data) (header_event (stage_header p data))).1 =
        (if C.present Callback.packfile_header = true then
          C.ret p.trace
            (Event.packfile_header 2 (be32 (((p.header ++ data).take PACK_HEADER_SIZE).drop 8)))
         else 0) := by
      rw [invoke_fst, hev, htr]; rfl
    have h2 : (invoke C (stage_header p data) (header_event (stage_header p data))).2.trace =
        p.trace ++ (if C.present Callback.packfile_header = true then
          [Event.packfile_header 2 (be32 (((p.header ++ data).take PACK_HEADER_SIZE).drop 8))]
         else []) := by
      rw [invoke_trace, hev, htr]; rfl
    have h3 : hdr_entries (invoke C (stage_header p data)
        (header_event (stage_header p data))).2
        = be32 (((p.header ++ data).take PACK_HEADER_SIZE).drop 8) := by
      rw [invoke_hdr_entries]; unfold hdr_entries; rw [hhd]
    rw [heq]
    by_cases hr : (invoke C (stage_header p data) (header_event (stage_header p data))).1 ≠ 0
    · rw [if_pos hr]
      exact ⟨h2, h1, fun h => absurd h hr⟩
    · rw [if_neg hr]
      refine ⟨h2, by rw [← h1]; exact (not_not.mp hr).symm, fun _ => ⟨rfl, ?_⟩⟩
      show (if hdr_entries _ > 0 then _ else _) = _
      rw [h3]

/-- Witness for C11: the header of the one-blob pack, four bytes staged and the
other eight in the slice. -/
theorem header_completion_witness :
    ({ git_packfile_parser_init stored_env with
        header := [80, 65, 67, 75], header_len := 4 } : git_packfile_parser_t stored_env).state
      = STATE_HEADER ∧
    (parse_header all_callbacks
      ({ git_packfile_parser_init stored_env with header := [80, 65, 67, 75], header_len := 4 })
      [0, 0, 0, 2, 0, 0, 0, 1, 0x33]).2.2.trace = [Event.packfile_header 2 1] ∧
    (parse_header all_callbacks
      ({ git_packfile_parser_init stored_env with header := [80, 65, 67, 75], header_len := 4 })
      [0, 0, 0, 2, 0, 0, 0, 1, 0x33]).2.2.state = STATE_OBJECT_HEADER_START :=
  ⟨rfl,
    ((header_completion all_callbacks
      ({ git_packfile_parser_init stored_env with header := [80, 65, 67, 75], header_len := 4 })
      [0, 0, 0, 2, 0, 0, 0, 1, 0x33] rfl rfl (by decide)).2 (by decide) (by decide)
        (by decide)).1,
    (((header_completion all_callbacks
      ({ git_packfile_parser_init stored_env with header := [80, 65, 67, 75], header_len := 4 })
      [0, 0, 0, 2, 0, 0, 0, 1, 0x33] rfl rfl (by decide)).2 (by decide) (by decide)
        (by decide)).2.2 (by decide)).2⟩

/-! ## Return values of the callbacks -/

/-- No invocation: nothing returned a non-zero value. -/
theorem all_zero_nil (C : Consumer) (t : List Event) : all_zero C t [] := by
  intro pre e post h
  cases pre <;> simp at h

/-- Invocations that all returned 0, followed by more that did. -/
theorem all_zero_append (C : Consumer) (t a b : List Event)
    (ha : all_zero C t a) (hb : all_zero C (t ++ a) b) : all_zero C t (a ++ b) := by
  intro pre e post h
  rcases List.append_eq_append_iff.mp h with ⟨a', h1, h2⟩ | ⟨c', h1, h2⟩
  · -- pre = a ++ a', b = a' ++ e :: post
    have := hb a' e post h2
    rw [h1, ← List.append_assoc]; exact this
  · -- a = pre ++ c', e :: post = c' ++ b
    cases c' with
    | nil =>
      simp only [List.nil_append] at h2
      simp only [List.append_nil] at h1
      have := hb [] e post h2.symm
      rw [← h1]; simpa using this
    | cons x c' =>
      simp only [List.cons_append, List.cons.injEq] at h2
      obtain ⟨rfl, -⟩ := h2
      exact ha pre e c' h1

/-- One invocation that returned 0. -/
theorem all_zero_singleton (C : Consumer) (t : List Event) (e : Event)
    (h : C.ret t e = 0) : all_zero C t [e] := by
  intro pre x post hx
  cases pre with
  | nil =>
    simp only [List.nil_append, List.cons.injEq] at hx
    obtain ⟨rfl, -⟩ := hx
    simpa using h
  | cons y pre =>
    simp only [List.cons_append, List.cons.injEq] at hx
    obtain ⟨-, hx⟩ := hx
    cases pre <;> simp at hx

/-- A trace extends itself quietly. -/
theorem quiet_refl (C : Consumer) (t : List Event) (err : Int) : quiet_run C t t err :=
  ⟨[], by simp, Or.inl (all_zero_nil C t)⟩

/-- A quiet extension with result 0 consists of invocations that returned 0. -/
theorem quiet_zero (C : Consumer) (t t2 : List Event) (h : quiet_run C t t2 0) :
    ∃ evs, t2 = t ++ evs ∧ all_zero C t evs := by
  obtain ⟨evs, h1, h2⟩ := h
  rcases h2 with h2 | ⟨h2, -⟩
  · exact ⟨evs, h1, h2⟩
  · exact absurd rfl h2

/-- Quiet extensions compose when the first has result 0. -/
theorem quiet_trans (C : Consumer) (t t1 t2 : List Event) (err : Int)
    (h1 : quiet_run C t t1 0) (h2 : quiet_run C t1 t2 err) : quiet_run C t t2 err := by
  obtain ⟨a, ha, hza⟩ := quiet_zero C t t1 h1
  obtain ⟨b, hb, hsb⟩ := h2
  subst ha
  refine ⟨a ++ b, by rw [hb, List.append_assoc], ?_⟩
  rcases hsb with hzb | ⟨hne, b0, e, hbe, hzb0, hret⟩
  · exact Or.inl (all_zero_append C t a b hza hzb)
  · refine Or.inr ⟨hne, a ++ b0, e, by rw [hbe, List.append_assoc], ?_, ?_⟩
    · exact all_zero_append C t a b0 hza hzb0
    · rw [← List.append_assoc]; exact hret

/-- A quiet extension with result 0 is a quiet extension for any result. -/
theorem quiet_of_zero (C : Consumer) (t t2 : List Event) (err : Int)
    (h : quiet_run C t t2 0) : quiet_run C t t2 err := by
  obtain ⟨evs, h1, h2⟩ := quiet_zero C t t2 h
  exact ⟨evs, h1, Or.inl h2⟩

/-- A callback site extends the trace quietly for the value it yields. -/
theorem quiet_invoke {E : Env} (C : Consumer) (p : git_packfile_parser_t E) (e : Event) :
    quiet_run C p.trace (invoke C p e).2.trace (invoke C p e).1 := by
  rw [invoke_trace, invoke_fst]
  by_cases hp : C.present e.kind = true
  · rw [if_pos hp, if_pos hp]
    refine ⟨[e], rfl, ?_⟩
    by_cases hr : C.ret p.trace e = 0
    · exact Or.inl (all_zero_singleton C _ e hr)
    · exact Or.inr ⟨hr, [], e, rfl, all_zero_nil C _, by simp⟩
  · rw [if_neg hp, if_neg hp]
    exact ⟨[], rfl, Or.inl (all_zero_nil C _)⟩

/-- A quiet extension does not depend on the trace being read off another
parser value with the same trace. -/
theorem quiet_invoke_of {E : Env} (C : Consumer) (p : git_packfile_parser_t E) (e : Event)
    (t : List Event) (ht : p.trace = t) :
    quiet_run C t (invoke C p e).2.trace (invoke C p e).1 := by
  rw [← ht]; exact quiet_invoke C p e

/-- A callback site that yields 0 extends the trace quietly with result 0. -/
theorem quiet_invoke_zero {E : Env} (C : Consumer) (p : git_packfile_parser_t E) (e : Event)
    (t : List Event) (h0 : (invoke C p e).1 = 0) (ht : p.trace = t) :
    quiet_run C t (invoke C p e).2.trace 0 := by
  have := quiet_invoke_of C p e t ht
  rw [h0] at this
  exact this

/-- `parse_header` extends the trace quietly. -/
theorem parse_header_quiet {E : Env} (C : Consumer) (p : git_packfile_parser_t E)
    (data : List Byte) :
    quiet_run C p.trace (parse_header C p data).2.2.trace (parse_header C p data).1 := by
  have ht : (stage_header p data).trace = p.trace := stage_header_trace p data
  unfold parse_header
  dsimp only
  split_ifs
  all_goals (try dsimp only)
  all_goals first
    | exact quiet_invoke_of C _ _ _ ht
    | exact quiet_invoke_zero C _ _ _ (not_not.mp (by assumption)) ht
    | (rw [ht]; exact quiet_refl C _ _)

/-- The loop of `parse_object_header` extends the trace quietly. -/
theorem parse_object_header_loop_quiet {E : Env} (C : Consumer) :
    ∀ (data : List Byte) (p : git_packfile_parser_t E) (n : Nat),
      quiet_run C p.trace (parse_object_header_loop C p data n).2.2.trace
        (parse_object_header_loop C p data n).1 := by
  intro data
  induction data with
  | nil => intro p n; unfold parse_object_header_loop; exact quiet_refl C _ _
  | cons c rest ih =>
    intro p n
    have ht : (object_header_byte p c).trace = p.trace := object_header_byte_trace p c
    unfold parse_object_header_loop
    dsimp only
    split_ifs with h1 h2 h3 h4
    · have := ih (begin_delta_header (object_header_byte p c)) (n + 1)
      rw [begin_delta_header_trace, ht] at this
      exact this
    · exact quiet_invoke_of C _ _ _ (by rw [seed_object_hash_trace, ht])
    · have h0 : (invoke C (seed_object_hash (object_header_byte p c))
          (object_start_event (seed_object_hash (object_header_byte p c)))).1 = 0 :=
        not_not.mp h4
      have hq := quiet_invoke_of C (seed_object_hash (object_header_byte p c))
        (object_start_event (seed_object_hash (object_header_byte p c))) p.trace
        (by rw [seed_object_hash_trace, ht])
      rw [h0] at hq
      exact quiet_trans C _ _ _ _ hq (ih _ (n + 1))
    · have := ih (object_header_byte p c) (n + 1)
      rw [ht] at this
      exact this
    · exact quiet_refl C _ _

/-- The loop of the `GIT_OBJECT_OFS_DELTA` case extends the trace quietly. -/
theorem parse_ofs_delta_loop_quiet {E : Env} (C : Consumer) :
    ∀ (data : List Byte) (p : git_packfile_parser_t E) (n : Nat),
      quiet_run C p.trace (parse_ofs_delta_loop C p data n).2.2.trace
        (parse_ofs_delta_loop C p data n).1 := by
  intro data
  induction data with
  | nil => intro p n; unfold parse_ofs_delta_loop; exact quiet_refl C _ _
  | cons c rest ih =>
    intro p n
    have ht : (ofs_delta_byte p c).trace = p.trace := ofs_delta_byte_trace p c
    unfold parse_ofs_delta_loop
    dsimp only
    split_ifs with h1 h2
    · exact quiet_invoke_of C _ _ _ ht
    · have h0 := not_not.mp h2
      have hq := quiet_invoke_of C (ofs_delta_byte p c)
        (delta_start_event (ofs_delta_byte p c) none (ofs_delta_byte p c).current_offset)
        p.trace ht
      rw [h0] at hq
      exact hq
    · have := ih (ofs_delta_byte p c) (n + 1)
      rw [ht] at this
      exact this

/-- `parse_delta_header` extends the trace quietly. -/
theorem parse_delta_header_quiet {E : Env} (C : Consumer) (p : git_packfile_parser_t E)
    (data : List Byte) :
    quiet_run C p.trace (parse_delta_header C p data).2.2.trace
      (parse_delta_header C p data).1 := by
  have ht : (stage_base p data).trace = p.trace := stage_base_trace p data
  unfold parse_delta_header
  dsimp only
  split_ifs with h1 h2 h3 h4
  · exact parse_ofs_delta_loop_quiet C data p 0
  · exact quiet_invoke_of C _ _ _ ht
  · have h0 := not_not.mp h4
    have hq := quiet_invoke_of C (stage_base p data)
      (delta_start_event (stage_base p data) (some (stage_base p data).current_base) 0)
      p.trace ht
    rw [h0] at hq
    exact hq
  · rw [ht]; exact quiet_refl C _ _
  · exact quiet_refl C _ _

/-- `parse_trailer` extends the trace quietly. -/
theorem parse_trailer_quiet {E : Env} (C : Consumer) (p : git_packfile_parser_t E)
    (data : List Byte) :
    quiet_run C p.trace (parse_trailer C p data).2.2.trace (parse_trailer C p data).1 := by
  have ht : (stage_trailer p data).trace = p.trace := stage_trailer_trace p data
  unfold parse_trailer
  dsimp only
  split_ifs with h1 h2 h3
  · rw [ht]; exact quiet_refl C _ _
  · exact quiet_invoke_of C _ _ _ ht
  · have h0 := not_not.mp h3
    have hq := quiet_invoke_of C (stage_trailer p data)
      (Event.packfile_complete (E.hash_final (stage_trailer p data).packfile_hash) E.hash_size)
      p.trace ht
    rw [h0] at hq
    exact hq
  · rw [ht]; exact quiet_refl C _ _

/-- The drain loop of `parse_object_data` extends the trace quietly. -/
theorem parse_object_data_loop_quiet {E : Env} (C : Consumer) :
    ∀ (fuel : Nat) (p : git_packfile_parser_t E) (r : Int × git_packfile_parser_t E),
      parse_object_data_loop C fuel p = some r → quiet_run C p.trace r.2.trace r.1 := by
  intro fuel
  induction fuel with
  | zero => intro p r h; simp [parse_object_data_loop] at h
  | succ fuel ih =>
    intro p r h
    unfold parse_object_data_loop at h
    cases hg : git_zstream_get_output_chunk p.zstream READ_CHUNK_SIZE with
    | none =>
      rw [hg] at h
      simp only [Option.some.injEq] at h
      subst h
      exact quiet_refl C _ _
    | some x =>
      obtain ⟨zs, inflated⟩ := x
      rw [hg] at h
      dsimp only at h
      have ht : (store_output p zs inflated).trace = p.trace := store_output_trace p zs inflated
      by_cases hr : (invoke C (store_output p zs inflated) (Event.object_data inflated)).1 ≠ 0
      · rw [if_pos hr] at h
        simp only [Option.some.injEq] at h
        subst h
        exact quiet_invoke_of C _ _ _ ht
      · rw [if_neg hr] at h
        have hq := quiet_invoke_zero C _ _ _ (not_not.mp hr) ht
        by_cases hl : inflated.length > 0
        · rw [if_pos hl] at h
          exact quiet_trans C _ _ _ _ hq (ih _ r h)
        · rw [if_neg hl] at h
          simp only [Option.some.injEq] at h
          subst h
          exact hq

/-- `parse_object_data` extends the trace quietly. -/
theorem parse_object_data_quiet {E : Env} (C : Consumer) (fuel : Nat)
    (p : git_packfile_parser_t E) (data : List Byte)
    (r : Int × Nat × git_packfile_parser_t E)
    (h : parse_object_data C fuel p data = some r) :
    quiet_run C p.trace r.2.2.trace r.1 := by
  unfold parse_object_data at h
  dsimp only at h
  cases hl : parse_object_data_loop C fuel
      (offer_input STATE_OBJECT_DATA_START STATE_OBJECT_DATA p data) with
  | none => rw [hl] at h; simp at h
  | some lo =>
    obtain ⟨err, p2⟩ := lo
    rw [hl] at h
    dsimp only at h
    have hq := parse_object_data_loop_quiet C fuel _ _ hl
    rw [offer_input_trace] at hq
    dsimp only at hq
    by_cases herr : err ≠ 0
    · rw [if_pos herr] at h
      simp only [Option.some.injEq] at h
      subst h
      exact hq
    · rw [if_neg herr] at h
      have h0 : err = 0 := not_not.mp herr
      subst h0
      have ht : (account_input p2 data).trace = p2.trace := account_input_trace p2 data
      by_cases heos : git_zstream_eos (account_input p2 data).zstream = true
      · rw [if_pos heos] at h
        by_cases hcb : (invoke C (account_input p2 data)
            (object_complete_event (account_input p2 data))).1 ≠ 0
        · rw [if_pos hcb] at h
          simp only [Option.some.injEq] at h
          subst h
          exact quiet_trans C _ _ _ _ hq (quiet_invoke_of C _ _ _ ht)
        · rw [if_neg hcb] at h
          simp only [Option.some.injEq] at h
          subst h
          have := quiet_invoke_zero C _ _ _ (not_not.mp hcb) ht
          show quiet_run C p.trace (next_entry _).trace 0
          rw [next_entry_trace]
          exact quiet_trans C _ _ _ _ hq this
      · rw [if_neg heos] at h
        simp only [Option.some.injEq] at h
        subst h
        show quiet_run C p.trace (account_input p2 data).trace 0
        rw [ht]
        exact hq

/-- `parse_delta_data` extends the trace quietly. -/
theorem parse_delta_data_quiet {E : Env} (C : Consumer) (p : git_packfile_parser_t E)
    (data : List Byte) :
    quiet_run C p.trace (parse_delta_data C p data).2.2.trace
      (parse_delta_data C p data).1 := by
  unfold parse_delta_data
  dsimp only
  cases hg : git_zstream_get_output_chunk
      (offer_input STATE_DELTA_DATA_START STATE_DELTA_DATA p data).zstream
      READ_CHUNK_SIZE with
  | none =>
    dsimp only
    rw [offer_input_trace]
    exact quiet_refl C _ _
  | some x =>
    obtain ⟨zs, inflated⟩ := x
    dsimp only
    have ht : (account_input (store_zstream
        (offer_input STATE_DELTA_DATA_START STATE_DELTA_DATA p data) zs) data).trace
        = p.trace := by
      rw [account_input_trace, store_zstream_trace, offer_input_trace]
    by_cases hr : (invoke C (account_input (store_zstream
        (offer_input STATE_DELTA_DATA_START STATE_DELTA_DATA p data) zs) data)
        (Event.delta_data inflated)).1 ≠ 0
    · rw [if_pos hr]
      exact quiet_invoke_of C _ _ _ ht
    · rw [if_neg hr]
      have hq := quiet_invoke_zero C _ _ _ (not_not.mp hr) ht
      by_cases heos : git_zstream_eos (invoke C (account_input (store_zstream
          (offer_input STATE_DELTA_DATA_START STATE_DELTA_DATA p data) zs) data)
          (Event.delta_data inflated)).2.zstream = true
      · rw [if_pos heos]
        by_cases hcb : (invoke C (invoke C (account_input (store_zstream
            (offer_input STATE_DELTA_DATA_START STATE_DELTA_DATA p data) zs) data)
            (Event.delta_data inflated)).2
            (delta_complete_event (invoke C (account_input (store_zstream
              (offer_input STATE_DELTA_DATA_START STATE_DELTA_DATA p data) zs) data)
              (Event.delta_data inflated)).2)).1 ≠ 0
        · rw [if_pos hcb]
          exact quiet_trans C _ _ _ _ hq (quiet_invoke C _ _)
        · rw [if_neg hcb]
          show quiet_run C p.trace (next_entry _).trace 0
          rw [next_entry_trace]
          exact quiet_trans C _ _ _ _ hq (quiet_invoke_zero C _ _ _ (not_not.mp hcb) rfl)
      · rw [if_neg heos]
        exact hq

/-- One iteration of the driver loop extends the trace quietly. -/
theorem parse_iteration_quiet {E : Env} (C : Consumer) (fuel : Nat)
    (p : git_packfile_parser_t E) (data : List Byte)
    (x : Int × Nat × git_packfile_parser_t E)
    (h : parse_iteration C fuel p data = some x) :
    quiet_run C p.trace x.2.2.trace x.1 := by
  by_cases hstuck : p.state = STATE_FAILED ∨ p.state = STATE_COMPLETE
  · rw [parse_iteration_stuck C fuel p data hstuck] at h
    cases h
    exact quiet_refl C _ _
  · have h1 : p.state ≠ STATE_COMPLETE := fun h => hstuck (Or.inr h)
    have h2 : p.state ≠ STATE_FAILED := fun h => hstuck (Or.inl h)
    rw [parse_iteration_running C fuel p data h1 h2] at h
    cases hd : dispatch C fuel p data with
    | none => rw [hd] at h; cases h
    | some r =>
      rw [hd] at h
      simp only [Option.map_some', Option.some.injEq] at h
      subst h
      rw [parse_commit_trace, parse_commit_fst]
      unfold dispatch at hd
      cases hs : p.state <;> rw [hs] at hd <;> dsimp only at hd
      all_goals first
        | exact parse_object_data_quiet C fuel p data r hd
        | (simp only [Option.some.injEq] at hd
           subst hd
           first
             | exact parse_header_quiet C p data
             | exact parse_object_header_loop_quiet C data p 0
             | exact parse_delta_header_quiet C p data
             | exact parse_delta_data_quiet C p data
             | exact parse_trailer_quiet C p data
             | exact quiet_refl C _ _)

/-- A feed extends the trace quietly for the value it returns. -/
theorem parse_quiet {E : Env} (C : Consumer) :
    ∀ (fuel : Nat) (data : List Byte) (p q : git_packfile_parser_t E) (r : Int),
      git_packfile_parser_parse C fuel p data = some (r, q) →
      quiet_run C p.trace q.trace r := by
  intro fuel
  induction fuel with
  | zero =>
    intro data p q r h
    cases data with
    | nil =>
      simp only [git_packfile_parser_parse, Option.some.injEq, Prod.mk.injEq] at h
      obtain ⟨rfl, rfl⟩ := h
      exact quiet_refl C _ _
    | cons c rest => simp [git_packfile_parser_parse] at h
  | succ fuel ih =>
    intro data p q r h
    by_cases hne : data = []
    · subst hne
      simp only [git_packfile_parser_parse, Option.some.injEq, Prod.mk.injEq] at h
      obtain ⟨rfl, rfl⟩ := h
      exact quiet_refl C _ _
    · rw [parse_succ C fuel p data hne] at h
      cases hit : parse_iteration C fuel p data with
      | none => rw [hit] at h; cases h
      | some x =>
        obtain ⟨err, consumed, p1⟩ := x
        rw [hit] at h
        dsimp only at h
        have hq := parse_iteration_quiet C fuel p data _ hit
        by_cases herr : err ≠ 0
        · rw [if_pos herr] at h
          simp only [Option.some.injEq, Prod.mk.injEq] at h
          obtain ⟨rfl, rfl⟩ := h
          exact hq
        · rw [if_neg herr] at h
          have h0 : err = 0 := not_not.mp herr
          subst h0
          exact quiet_trans C _ _ _ _ hq (ih _ _ _ _ h)

/-- C17. Consumer abort: the invocations made during one feed extend the trace,
and if any of them, whatever its callback, returned a non-zero value, then the
feed returned exactly that value and that invocation is the last one of the
feed. -/
theorem consumer_abort {E : Env} (C : Consumer) (fuel : Nat)
    (p q : git_packfile_parser_t E) (data : List Byte) (r : Int)
    (h : git_packfile_parser_parse C fuel p data = some (r, q)) :
    ∃ evs, q.trace = p.trace ++ evs ∧
      ∀ pre e post, evs = pre ++ e :: post → C.ret (p.trace ++ pre) e ≠ 0 →
        r = C.ret (p.trace ++ pre) e ∧ post = [] := by
  obtain ⟨evs, hev, hst⟩ := parse_quiet C fuel data p q r h
  refine ⟨evs, hev, ?_⟩
  intro pre e post hsplit hne
  rcases hst with hz | ⟨-, evs0, e0, he0, hz0, hret⟩
  · exact absurd (hz pre e post hsplit) hne
  · rw [he0] at hsplit
    rcases List.eq_nil_or_concat post with hp | ⟨post0, x, hp⟩
    · subst hp
      have hh := List.append_inj' (show evs0 ++ [e0] = pre ++ [e] from hsplit) rfl
      obtain ⟨h1, h2⟩ := hh
      simp only [List.cons.injEq, and_true] at h2
      subst h1; subst h2
      exact ⟨hret.symm, rfl⟩
    · exfalso
      rw [hp] at hsplit
      have hh : evs0 ++ [e0] = (pre ++ e :: post0) ++ [x] := by
        rw [hsplit]; simp
      have h1 := (List.append_inj' hh rfl).1
      exact hne (hz0 pre e post0 h1)

/-- Witness for C17: `object_start` returns 7 on the one-blob pack; the feed
returns 7 and `object_start` is the last invocation. -/
theorem consumer_abort_witness :
    git_packfile_parser_parse abort_on_start 10 (git_packfile_parser_init stored_env) blob_pack
      = some (7, aborted_state) ∧
    aborted_state.trace = [Event.packfile_header 2 1, Event.object_start 12 1 3 3] ∧
    ∃ evs, aborted_state.trace = (git_packfile_parser_init stored_env).trace ++ evs ∧
      ∀ pre e post, evs = pre ++ e :: post →
        abort_on_start.ret ((git_packfile_parser_init stored_env).trace ++ pre) e ≠ 0 →
        (7 : Int) = abort_on_start.ret ((git_packfile_parser_init stored_env).trace ++ pre) e ∧
          post = [] :=
  ⟨rfl, rfl,
    consumer_abort abort_on_start 10 (git_packfile_parser_init stored_env) aborted_state
      blob_pack 7 rfl⟩

/-- The driver iteration that completes a header with the signature "PACK" and
version 2, when the `packfile_header` callback is absent or returns 0. -/
theorem iteration_header_valid {E : Env} (C : Consumer) (fuel : Nat)
    (p : git_packfile_parser_t E) (data : List Byte)
    (hst : p.state = STATE_HEADER)
    (hlen : p.header_len = p.header.length) (hlt : p.header.length < PACK_HEADER_SIZE)
    (hfull : PACK_HEADER_SIZE ≤ p.header.length + data.length)
    (hsig : be32 ((p.header ++ data).take PACK_HEADER_SIZE) = PACK_SIGNATURE)
    (hver : be32 (((p.header ++ data).take PACK_HEADER_SIZE).drop 4) = 2)
    (hret : C.present Callback.packfile_header = true →
      C.ret p.trace (Event.packfile_header 2
        (be32 (((p.header ++ data).take PACK_HEADER_SIZE).drop 8))) = 0) :
    ∃ x, parse_iteration C fuel p data = some x ∧ x.1 = 0 ∧
      x.2.1 = PACK_HEADER_SIZE - p.header.length ∧
      x.2.2.state = (if be32 (((p.header ++ data).take PACK_HEADER_SIZE).drop 8) > 0
        then STATE_OBJECT_HEADER_START else STATE_TRAILER) ∧
      x.2.2.header = (p.header ++ data).take PACK_HEADER_SIZE ∧
      x.2.2.header_len = PACK_HEADER_SIZE ∧
      x.2.2.trace = emit C p.trace (Event.packfile_header 2
        (be32 (((p.header ++ data).take PACK_HEADER_SIZE).drop 8))) ∧
      x.2.2.packfile_hash = p.packfile_hash ++ data.take (PACK_HEADER_SIZE - p.header.length) ∧
      x.2.2.position = p.position + (PACK_HEADER_SIZE - p.header.length) ∧
      x.2.2.trailer = p.trailer ∧ x.2.2.trailer_len = p.trailer_len ∧
      x.2.2.current_idx = p.current_idx := by
  obtain ⟨hhd, heq⟩ := parse_header_valid_eq C p data hlen hlt hfull hsig hver
  have hev : header_event (stage_header p data) = Event.packfile_header 2
      (be32 (((p.header ++ data).take PACK_HEADER_SIZE).drop 8)) := by
    unfold header_event hdr_version hdr_entries
    rw [hhd, hver]
  have h0 : (invoke C (stage_header p data) (header_event (stage_header p data))).1 = 0 := by
    rw [invoke_fst, hev, stage_header_trace]
    by_cases hp : C.present Callback.packfile_header = true
    · have : C.present (Event.packfile_header 2
          (be32 (((p.header ++ data).take PACK_HEADER_SIZE).drop 8))).kind = true := hp
      rw [if_pos this]; exact hret hp
    · have : ¬ C.present (Event.packfile_header 2
          (be32 (((p.header ++ data).take PACK_HEADER_SIZE).drop 8))).kind = true := hp
      rw [if_neg this]
  rw [if_neg (not_not.mpr h0)] at heq
  have hr1 : (parse_header C p data).1 = 0 := by rw [heq]
  obtain ⟨⟨f1, f2, f3, f4, f5⟩, -, hfl⟩ := parse_header_summary C p data _ rfl hlen hlt
  obtain ⟨g1, g2, g3, g4, g5⟩ := (hfl hfull).2 hr1
  have hent : hdr_entries (parse_header C p data).2.2
      = be32 (((p.header ++ data).take PACK_HEADER_SIZE).drop 8) := by
    unfold hdr_entries; rw [g2]
  have hltT : p.state.toNat < STATE_TRAILER.toNat := by rw [hst]; decide
  refine ⟨parse_commit p.state data (parse_header C p data), ?_, ?_, ?_, ?_, ?_, ?_, ?_, ?_, ?_,
    ?_, ?_, ?_⟩
  · rw [parse_iteration_running C fuel p data (by rw [hst]; decide) (by rw [hst]; decide),
      dispatch_header C fuel p data hst]
    rfl
  · rw [parse_commit_fst, hr1]
  · rw [parse_commit_consumed _ _ _ hr1, g1]
  · rw [parse_commit_state, if_pos hr1, g4, hent]
  · rw [parse_commit_header, g2]
  · rw [parse_commit_header_len, g3]
  · rw [parse_commit_trace, g5, hent]
  · rw [parse_commit_packfile_hash, if_pos ⟨hr1, hltT⟩, f3, g1]
  · rw [parse_commit_position, if_pos hr1, f1, g1]
  · rw [parse_commit_trailer, f4]
  · rw [parse_commit_trailer_len, f5]
  · rw [parse_commit_current_idx, f2]

/-- The driver iteration on a whole type/size prefix of a non-delta kind. -/
theorem iteration_preamble_non_delta {E : Env} (C : Consumer) (fuel : Nat)
    (p : git_packfile_parser_t E) (pre : List Byte) (last : Byte) (rest : List Byte)
    (hp : p.state = STATE_OBJECT_HEADER_START)
    (hpre : ∀ b ∈ pre, b.val &&& 0x80 ≠ 0) (hlast : last.val &&& 0x80 = 0)
    (hk : is_delta (preamble_kind ((pre ++ [last]).headD last)) = false) :
    ∃ x, parse_iteration C fuel p (pre ++ last :: rest) = some x ∧
      x.2.2.trace = emit C p.trace (Event.object_start p.position (pre.length + 1)
        (preamble_kind ((pre ++ [last]).headD last)) (preamble_size E (pre ++ [last]))) ∧
      (x.1 = 0 → x.2.1 = pre.length + 1 ∧ x.2.2.state = STATE_OBJECT_DATA_START) := by
  obtain ⟨h1, h2, h3⟩ := parse_object_header_non_delta C p pre last rest hp hpre hlast hk
  refine ⟨parse_commit p.state (pre ++ last :: rest)
    (parse_object_header C p (pre ++ last :: rest)), ?_, ?_, ?_⟩
  · rw [parse_iteration_running C fuel p _ (by rw [hp]; decide) (by rw [hp]; decide)]
    simp [dispatch, hp]
  · rw [parse_commit_trace, h1]
  · intro h0
    rw [parse_commit_fst] at h0
    rw [parse_commit_consumed _ _ _ h0, parse_commit_state, if_pos h0]
    exact h3 h0

/-- Continuation bytes without payload bits, taken while the shift count stays
below 32, leave the accumulated size as it is. -/
theorem preamble_fold_zero (E : Env) :
    ∀ (cs : List Byte) (v bits : Nat), v < SIZE_MOD → bits + 7 * cs.length ≤ 32 →
      (∀ b ∈ cs, b.val &&& 0x7f = 0) →
      (cs.foldl (preamble_step E) (v, bits)).1 = v := by
  intro cs
  induction cs with
  | nil => intro v bits _ _ _; rfl
  | cons c cs ih =>
    intro v bits hv hb hz
    have hc : c.val &&& 0x7f = 0 := hz c (List.mem_cons_self _ _)
    have hbits : bits < 32 := by simp only [List.length_cons] at hb; omega
    have hstep : preamble_step E (v, bits) c = (v, bits + 7) := by
      unfold preamble_step int_shl
      simp only [hc, Nat.zero_shiftLeft]
      rw [if_pos ⟨hbits, by norm_num⟩, Nat.add_zero, Nat.mod_eq_of_lt hv]
    rw [List.foldl_cons, hstep]
    apply ih v (bits + 7) hv
    · simp only [List.length_cons] at hb; omega
    · exact fun b hb => hz b (List.mem_cons_of_mem _ hb)

/-- A type/size prefix of at most five bytes whose continuation bytes carry no
payload bits: the accumulated size is the low four bits of the first byte. -/
theorem preamble_size_low (E : Env) (pre : List Byte) (last : Byte)
    (hshort : pre.length ≤ 4)
    (hzero : ∀ b ∈ (pre ++ [last]).tail, b.val &&& 0x7f = 0) :
    preamble_size E (pre ++ [last]) = ((pre ++ [last]).headD last).val &&& 0x0f := by
  have hlow : ∀ c : Byte, c.val &&& 0x0f < SIZE_MOD := by
    intro c
    have : c.val &&& 0x0f ≤ 0x0f := Nat.and_le_right
    unfold SIZE_MOD
    omega
  cases pre with
  | nil => simp [preamble_size]
  | cons c cs =>
    simp only [List.cons_append, preamble_size, List.headD_cons]
    simp only [List.cons_append, List.tail_cons] at hzero
    apply preamble_fold_zero E _ _ 4 (hlow c) _ hzero
    simp only [List.length_cons, List.length_append, List.length_singleton,
      List.length_nil] at hshort ⊢
    omega

/-- Counterexample to C20: in the one-blob pack the entry is a blob of declared
size 3 right after the header, and `object_start` is invoked with the
compressed-size argument 1, which is less than 2. -/
theorem single_blob_start_size_one :
    (feed_all all_callbacks 10 (git_packfile_parser_init stored_env) [blob_pack]).map
      (fun r => r.2.trace.take 2) =
      some [Event.packfile_header 2 1, Event.object_start 12 1 3 3] ∧ ¬ (2 ≤ 1) := by
  decide

/-- C20, as amended: a pack fed in one slice to a fresh parser, whose header
announces one entry and whose entry starts right after it with a type/size
prefix of at most five bytes for a blob of size 3 (kind bits 3, low size bits 3,
no payload bits in the continuation bytes).  When `packfile_header` is absent or
returns 0, the trace of the feed starts with `packfile_header (2, 1)` and
`object_start` with offset 12, the number of prefix bytes as compressed size,
kind 3 and size 3 (each when its callback is present). -/
theorem single_blob_start {E : Env} (C : Consumer) (fuel : Nat)
    (hdr pre : List Byte) (last : Byte) (rest : List Byte)
    (r : Int) (q : git_packfile_parser_t E)
    (hlen : hdr.length = PACK_HEADER_SIZE)
    (hsig : be32 hdr = PACK_SIGNATURE) (hver : be32 (hdr.drop 4) = 2)
    (hone : be32 (hdr.drop 8) = 1)
    (hpre : ∀ b ∈ pre, b.val &&& 0x80 ≠ 0) (hlast : last.val &&& 0x80 = 0)
    (hshort : pre.length ≤ 4)
    (hkind : preamble_kind ((pre ++ [last]).headD last) = 3)
    (hlow : ((pre ++ [last]).headD last).val &&& 0x0f = 3)
    (hzero : ∀ b ∈ (pre ++ [last]).tail, b.val &&& 0x7f = 0)
    (hret : C.present Callback.packfile_header = true →
      C.ret [] (Event.packfile_header 2 1) = 0)
    (hfeed : git_packfile_parser_parse C fuel (git_packfile_parser_init E)
      (hdr ++ (pre ++ last :: rest)) = some (r, q)) :
    1 ≤ pre.length + 1 ∧
    ∃ more, q.trace =
      emit C (emit C [] (Event.packfile_header 2 1))
        (Event.object_start 12 (pre.length + 1) 3 3) ++ more := by
  refine ⟨by omega, ?_⟩
  have hne : hdr ++ (pre ++ last :: rest) ≠ [] := by simp
  have htake : ([] ++ (hdr ++ (pre ++ last :: rest))).take PACK_HEADER_SIZE = hdr := by
    rw [List.nil_append, ← hlen, List.take_left]
  cases fuel with
  | zero => rw [parse_zero C _ _ hne] at hfeed; cases hfeed
  | succ f =>
    obtain ⟨x, hx, x0, xk, xs, -, -, xt, -, xp, -, -, -⟩ :=
      iteration_header_valid C f (git_packfile_parser_init E) (hdr ++ (pre ++ last :: rest))
        rfl rfl (by simp [git_packfile_parser_init, PACK_HEADER_SIZE])
        (by simp only [git_packfile_parser_init, List.length_nil, List.length_append, hlen]
            omega)
        (by rw [show (git_packfile_parser_init E).header = [] from rfl, htake]; exact hsig)
        (by rw [show (git_packfile_parser_init E).header = [] from rfl, htake]; exact hver)
        (by rw [show (git_packfile_parser_init E).header = [] from rfl, htake, hone]
            exact hret)
    rw [show (git_packfile_parser_init E).header = [] from rfl, htake, hone] at xs xt
    rw [show (git_packfile_parser_init E).header = [] from rfl] at xk xp
    simp only [List.length_nil, Nat.sub_zero] at xk xp
    rw [show (git_packfile_parser_init E).position = 0 from rfl, Nat.zero_add] at xp
    rw [show (git_packfile_parser_init E).trace = [] from rfl] at xt
    rw [if_pos (by decide)] at xs
    rw [parse_of_iteration_ok C f _ _ hne x hx x0, xk, ← hlen, List.drop_left] at hfeed
    have hne2 : pre ++ last :: rest ≠ [] := by simp
    cases f with
    | zero => rw [parse_zero C _ _ hne2] at hfeed; cases hfeed
    | succ f2 =>
      have hk : is_delta (preamble_kind ((pre ++ [last]).headD last)) = false := by
        rw [hkind]; decide
      obtain ⟨y, hy, yt, ys⟩ :=
        iteration_preamble_non_delta C f2 x.2.2 pre last rest xs hpre hlast hk
      rw [xt, xp, hkind, preamble_size_low E pre last hshort hzero, hlow] at yt
      by_cases hy0 : y.1 = 0
      · rw [parse_of_iteration_ok C f2 _ _ hne2 y hy hy0] at hfeed
        obtain ⟨evs, hev, -⟩ := parse_quiet C f2 _ _ _ _ hfeed
        exact ⟨evs, by rw [hev, yt]; rfl⟩
      · rw [parse_of_iteration_error C f2 _ _ hne2 y hy hy0] at hfeed
        simp only [Option.some.injEq, Prod.mk.injEq] at hfeed
        obtain ⟨-, rfl⟩ := hfeed
        exact ⟨[], by rw [yt]; simp [PACK_HEADER_SIZE]⟩

/-- Witness for C20: the one-blob pack, whose entry has the one-byte prefix
0x33. -/
theorem single_blob_start_witness :
    git_packfile_parser_parse all_callbacks 10 (git_packfile_parser_init stored_env)
      ([80, 65, 67, 75, 0, 0, 0, 2, 0, 0, 0, 1] ++ ([] ++ 0x33 :: blob_pack.drop 13))
      = some (0, blob_done) ∧
    1 ≤ ([] : List Byte).length + 1 ∧
    ∃ more, blob_done.trace =
      emit all_callbacks (emit all_callbacks [] (Event.packfile_header 2 1))
        (Event.object_start 12 (([] : List Byte).length + 1) 3 3) ++ more :=
  ⟨rfl,
    single_blob_start all_callbacks 10 [80, 65, 67, 75, 0, 0, 0, 2, 0, 0, 0, 1] [] 0x33
      (blob_pack.drop 13) 0 blob_done rfl (by set_option maxRecDepth 4000 in decide) (by set_option maxRecDepth 4000 in decide) (by set_option maxRecDepth 4000 in decide)
      (by set_option maxRecDepth 4000 in decide) (by set_option maxRecDepth 4000 in decide) (by set_option maxRecDepth 4000 in decide)
      (by set_option maxRecDepth 4000 in decide) (by set_option maxRecDepth 4000 in decide)
      (by set_option maxRecDepth 4000 in decide) (fun _ => rfl) rfl⟩

/-- A feed in `STATE_HEADER` that does not complete the header: the slice is
staged and mixed into the whole-stream hash. -/
theorem feed_header_partial {E : Env} (C : Consumer) (fuel : Nat)
    (p : git_packfile_parser_t E) (data : List Byte)
    (hst : p.state = STATE_HEADER) (hlen : p.header_len = p.header.length)
    (hlt : p.header.length + data.length < PACK_HEADER_SIZE) :
    ∃ q, git_packfile_parser_parse C (fuel + 1) p data = some (0, q) ∧
      q.state = STATE_HEADER ∧ q.header = p.header ++ data ∧
      q.header_len = p.header_len + data.length ∧ q.trace = p.trace ∧
      q.packfile_hash = p.packfile_hash ++ data ∧
      q.trailer = p.trailer ∧ q.trailer_len = p.trailer_len := by
  by_cases hne : data = []
  · subst hne
    exact ⟨p, parse_nil C _ p, hst, by simp, by simp, rfl, by simp, rfl, rfl⟩
  · have hltT : p.state.toNat < STATE_TRAILER.toNat := by rw [hst]; decide
    have hit : parse_iteration C fuel p data
        = some (parse_commit p.state data (parse_header C p data)) := by
      rw [parse_iteration_running C fuel p data (by rw [hst]; decide) (by rw [hst]; decide),
        dispatch_header C fuel p data hst]
      rfl
    have heq := parse_header_partial_eq C p data hlen hlt
    have h0 : (parse_commit p.state data (parse_header C p data)).1 = 0 := by
      rw [parse_commit_fst, heq]
    have hk : (parse_commit p.state data (parse_header C p data)).2.1 = data.length := by
      rw [parse_commit_consumed _ _ _ (by rw [heq]), heq]
    refine ⟨(parse_commit p.state data (parse_header C p data)).2.2, ?_, ?_, ?_, ?_, ?_, ?_,
      ?_, ?_⟩
    · rw [parse_of_iteration_ok C fuel p data hne _ hit h0, hk, List.drop_length]
      exact parse_nil C _ _
    · rw [parse_commit_state, if_pos (by rw [heq]), heq]; exact hst
    · rw [parse_commit_header, heq]
    · rw [parse_commit_header_len, heq]
    · rw [parse_commit_trace, heq]
    · rw [parse_commit_packfile_hash, if_pos ⟨by rw [heq], hltT⟩, heq]
      simp
    · rw [parse_commit_trailer, heq]
    · rw [parse_commit_trailer_len, heq]

/-- `parse_trailer` on a slice that does not complete the trailer. -/
theorem parse_trailer_partial_eq {E : Env} (C : Consumer)
    (p : git_packfile_parser_t E) (data : List Byte)
    (hlen : p.trailer_len = p.trailer.length)
    (hlt : p.trailer.length + data.length < E.hash_size) :
    parse_trailer C p data =
      (0, data.length, { p with trailer := p.trailer ++ data,
                                trailer_len := p.trailer_len + data.length }) := by
  have hmin : min E.hash_size data.length = data.length := by
    apply Nat.min_eq_right; omega
  have hne : ¬ (p.trailer.length + data.length = E.hash_size) := by omega
  simp [parse_trailer, stage_trailer, hlen, hmin, hne]

/-- A feed in `STATE_TRAILER` that does not complete the trailer stages the
slice and leaves the whole-stream hash alone. -/
theorem feed_trailer_partial {E : Env} (C : Consumer) (fuel : Nat)
    (p : git_packfile_parser_t E) (data : List Byte)
    (hst : p.state = STATE_TRAILER) (hlen : p.trailer_len = p.trailer.length)
    (hlt : p.trailer.length + data.length < E.hash_size) :
    ∃ q, git_packfile_parser_parse C (fuel + 1) p data = some (0, q) ∧
      q.state = STATE_TRAILER ∧ q.trailer = p.trailer ++ data ∧
      q.trailer_len = p.trailer_len + data.length ∧ q.trace = p.trace ∧
      q.packfile_hash = p.packfile_hash := by
  by_cases hne : data = []
  · subst hne
    exact ⟨p, parse_nil C _ p, hst, by simp, by simp, rfl, rfl⟩
  · have hltT : ¬ p.state.toNat < STATE_TRAILER.toNat := by rw [hst]; decide
    have hit : parse_iteration C fuel p data
        = some (parse_commit p.state data (parse_trailer C p data)) := by
      rw [parse_iteration_running C fuel p data (by rw [hst]; decide) (by rw [hst]; decide),
        dispatch_trailer C fuel p data hst]
      rfl
    have heq := parse_trailer_partial_eq C p data hlen hlt
    have h0 : (parse_commit p.state data (parse_trailer C p data)).1 = 0 := by
      rw [parse_commit_fst, heq]
    have hk : (parse_commit p.state data (parse_trailer C p data)).2.1 = data.length := by
      rw [parse_commit_consumed _ _ _ (by rw [heq]), heq]
    refine ⟨(parse_commit p.state data (parse_trailer C p data)).2.2, ?_, ?_, ?_, ?_, ?_, ?_⟩
    · rw [parse_of_iteration_ok C fuel p data hne _ hit h0, hk, List.drop_length]
      exact parse_nil C _ _
    · rw [parse_commit_state, if_pos (by rw [heq]), heq]; exact hst
    · rw [parse_commit_trailer, heq]
    · rw [parse_commit_trailer_len, heq]
    · rw [parse_commit_trace, heq]
    · rw [parse_commit_packfile_hash, if_neg (fun h => hltT h.2), heq]

/-- A feed in `STATE_TRAILER` whose slice brings exactly the missing trailer
bytes, the staged trailer being the finalised digest: `packfile_complete` is
invoked when present, and when it is absent or returns 0 the feed returns 0 in
`STATE_COMPLETE`. -/
theorem feed_trailer_match {E : Env} (C : Consumer) (fuel : Nat)
    (p : git_packfile_parser_t E) (data : List Byte)
    (hst : p.state = STATE_TRAILER) (hlen : p.trailer_len = p.trailer.length)
    (hne : data ≠ [])
    (hfull : p.trailer.length + data.length = E.hash_size)
    (hmatch : p.trailer ++ data = E.hash_final p.packfile_hash)
    (hret : C.present Callback.packfile_complete = true →
      C.ret p.trace (Event.packfile_complete (E.hash_final p.packfile_hash) E.hash_size) = 0) :
    ∃ q, git_packfile_parser_parse C (fuel + 1) p data = some (0, q) ∧
      q.state = STATE_COMPLETE ∧
      q.trace = emit C p.trace
        (Event.packfile_complete (E.hash_final p.packfile_hash) E.hash_size) := by
  have hmin : min E.hash_size data.length = data.length := by
    apply Nat.min_eq_right; omega
  have hit : parse_iteration C fuel p data
      = some (parse_commit p.state data (parse_trailer C p data)) := by
    rw [parse_iteration_running C fuel p data (by rw [hst]; decide) (by rw [hst]; decide),
      dispatch_trailer C fuel p data hst]
    rfl
  obtain ⟨-, hB⟩ := parse_trailer_full_spec C p data hlen (by rw [hlen, hmin]; exact hfull)
  obtain ⟨h1, h2, h3⟩ := hB (by rw [hmin, List.take_length]; exact hmatch)
  have hr0 : (parse_trailer C p data).1 = 0 := by
    rw [h1]
    by_cases hp : C.present Callback.packfile_complete = true
    · rw [if_pos hp]; exact hret hp
    · rw [if_neg hp]
  obtain ⟨h4, h5⟩ := h3 hr0
  have h0 : (parse_commit p.state data (parse_trailer C p data)).1 = 0 := by
    rw [parse_commit_fst, hr0]
  have hk : (parse_commit p.state data (parse_trailer C p data)).2.1 = data.length := by
    rw [parse_commit_consumed _ _ _ hr0, h4, hmin]
  refine ⟨(parse_commit p.state data (parse_trailer C p data)).2.2, ?_, ?_, ?_⟩
  · rw [parse_of_iteration_ok C fuel p data hne _ hit h0, hk, List.drop_length]
    exact parse_nil C _ _
  · rw [parse_commit_state, if_pos hr0, h5]
  · rw [parse_commit_trace, h2]; rfl

/-- Empty pack, trailer phase: a feed of the next `n` digest bytes. -/
theorem empty_pack_trailer_step {E : Env} (C : Consumer) (fuel : Nat) (hdr : List Byte)
    (hret : C.present Callback.packfile_complete = true →
      C.ret (emit C [] (Event.packfile_header 2 0))
        (Event.packfile_complete (E.hash_final hdr) E.hash_size) = 0)
    (k n : Nat) (p : git_packfile_parser_t E)
    (hk : PACK_HEADER_SIZE ≤ k) (hkn : k + n ≤ PACK_HEADER_SIZE + E.hash_size)
    (hp : empty_pack_at C hdr k p) :
    ∃ q, git_packfile_parser_parse C (fuel + 1) p
        (((E.hash_final hdr).drop (k - PACK_HEADER_SIZE)).take n) = some (0, q) ∧
      empty_pack_at C hdr (k + n) q := by
  have hD : (E.hash_final hdr).length = E.hash_size := E.hash_final_length hdr
  have hdl : (((E.hash_final hdr).drop (k - PACK_HEADER_SIZE)).take n).length = n := by
    rw [List.length_take, List.length_drop, hD]; omega
  have hcat0 : (E.hash_final hdr).take (k - PACK_HEADER_SIZE) ++
      ((E.hash_final hdr).drop (k - PACK_HEADER_SIZE)).take n
      = (E.hash_final hdr).take (k + n - PACK_HEADER_SIZE) := by
    rw [show k + n - PACK_HEADER_SIZE = (k - PACK_HEADER_SIZE) + n by omega, List.take_add]
  generalize ((E.hash_final hdr).drop (k - PACK_HEADER_SIZE)).take n = data at hdl hcat0 ⊢
  by_cases hn : n = 0
  · subst hn
    have : data = [] := List.length_eq_zero.mp hdl
    subst this
    exact ⟨p, parse_nil C _ p, by simpa using hp⟩
  · have hk2 : k < PACK_HEADER_SIZE + E.hash_size := by omega
    unfold empty_pack_at at hp
    rw [if_neg (by omega), if_pos hk2] at hp
    obtain ⟨hst, hph, htr, htl, htc⟩ := hp
    have htlen : p.trailer.length = k - PACK_HEADER_SIZE := by
      rw [htr, List.length_take, hD]; omega
    have hlen : p.trailer_len = p.trailer.length := by rw [htl, htlen]
    have hcat : p.trailer ++ data = (E.hash_final hdr).take (k + n - PACK_HEADER_SIZE) := by
      rw [htr, hcat0]
    by_cases hfin : k + n < PACK_HEADER_SIZE + E.hash_size
    · obtain ⟨q, hq, q1, q2, q3, q4, q5⟩ := feed_trailer_partial C fuel p data hst hlen
        (by rw [htlen, hdl]; omega)
      refine ⟨q, hq, ?_⟩
      unfold empty_pack_at
      rw [if_neg (by omega), if_pos hfin]
      exact ⟨q1, by rw [q5, hph], by rw [q2, hcat], by rw [q3, htl, hdl]; omega,
        by rw [q4, htc]⟩
    · have hall : k + n - PACK_HEADER_SIZE = E.hash_size := by omega
      have hne : data ≠ [] := by
        intro h
        rw [h] at hdl
        exact hn hdl.symm
      obtain ⟨q, hq, q1, q2⟩ := feed_trailer_match C fuel p data hst hlen hne
        (by rw [htlen, hdl]; omega)
        (by rw [hcat, hall, ← hD, List.take_length, hph])
        (by rw [htc, hph]; exact hret)
      refine ⟨q, hq, ?_⟩
      unfold empty_pack_at
      rw [if_neg (by omega), if_neg hfin]
      exact ⟨q1, by rw [q2, htc, hph]⟩

/-- Empty pack: a feed of the next `n` bytes, wherever the parser stands. -/
theorem empty_pack_step {E : Env} (C : Consumer) (fuel : Nat) (hdr : List Byte)
    (hH : hdr.length = PACK_HEADER_SIZE)
    (hsig : be32 hdr = PACK_SIGNATURE) (hver : be32 (hdr.drop 4) = 2)
    (hzero : be32 (hdr.drop 8) = 0) (hs : 0 < E.hash_size)
    (hret1 : C.present Callback.packfile_header = true →
      C.ret [] (Event.packfile_header 2 0) = 0)
    (hret2 : C.present Callback.packfile_complete = true →
      C.ret (emit C [] (Event.packfile_header 2 0))
        (Event.packfile_complete (E.hash_final hdr) E.hash_size) = 0)
    (k n : Nat) (p : git_packfile_parser_t E)
    (hkn : k + n ≤ PACK_HEADER_SIZE + E.hash_size)
    (hp : empty_pack_at C hdr k p) :
    ∃ q, git_packfile_parser_parse C (fuel + 2) p
        (((hdr ++ E.hash_final hdr).drop k).take n) = some (0, q) ∧
      empty_pack_at C hdr (k + n) q := by
  have hD : (E.hash_final hdr).length = E.hash_size := E.hash_final_length hdr
  by_cases hk : PACK_HEADER_SIZE ≤ k
  · have hdrop : (hdr ++ E.hash_final hdr).drop k
        = (E.hash_final hdr).drop (k - PACK_HEADER_SIZE) := by
      rw [List.drop_append_eq_append_drop, List.drop_eq_nil_of_le (by omega), hH,
        List.nil_append]
    rw [hdrop]
    exact empty_pack_trailer_step C (fuel + 1) hdr hret2 k n p hk hkn hp
  · have hk' : k < PACK_HEADER_SIZE := by omega
    have hpk := hp
    unfold empty_pack_at at hpk
    rw [if_pos hk'] at hpk
    obtain ⟨hst, hhd, hhl, htc, hph, htr, htl⟩ := hpk
    have hhlen : p.header.length = k := by rw [hhd, List.length_take, hH]; omega
    have hlen : p.header_len = p.header.length := by rw [hhl, hhlen]
    have htk : hdr.take k = (hdr ++ E.hash_final hdr).take k :=
      (List.take_append_of_le_length (by omega)).symm
    have hdl : (((hdr ++ E.hash_final hdr).drop k).take n).length = n := by
      rw [List.length_take, List.length_drop, List.length_append, hH, hD]; omega
    have hcat : hdr.take k ++ ((hdr ++ E.hash_final hdr).drop k).take n
        = (hdr ++ E.hash_final hdr).take (k + n) := by
      rw [htk, List.take_add]
    by_cases hlt : k + n < PACK_HEADER_SIZE
    · have hcat2 : (hdr ++ E.hash_final hdr).take (k + n) = hdr.take (k + n) :=
        List.take_append_of_le_length (by omega)
      generalize ((hdr ++ E.hash_final hdr).drop k).take n = data at hdl hcat ⊢
      obtain ⟨q, hq, q1, q2, q3, q4, q5, q6, q7⟩ := feed_header_partial C (fuel + 1) p data
        hst hlen (by rw [hhlen, hdl]; exact hlt)
      refine ⟨q, hq, ?_⟩
      unfold empty_pack_at
      rw [if_pos hlt]
      exact ⟨q1, by rw [q2, hhd, hcat, hcat2], by rw [q3, hhl, hdl], by rw [q4, htc],
        by rw [q5, hph, hcat, hcat2], by rw [q6, htr], by rw [q7, htl]⟩
    · have hfull : PACK_HEADER_SIZE ≤ k + n := by omega
      have htake12 : (hdr.take k ++ ((hdr ++ E.hash_final hdr).drop k).take n).take
          PACK_HEADER_SIZE = hdr := by
        rw [hcat, List.take_take, Nat.min_eq_left hfull, ← hH, List.take_left]
      have hrest : (((hdr ++ E.hash_final hdr).drop k).take n).drop (PACK_HEADER_SIZE - k)
          = ((E.hash_final hdr).drop (PACK_HEADER_SIZE - PACK_HEADER_SIZE)).take
              (k + n - PACK_HEADER_SIZE) := by
        rw [List.drop_take, List.drop_drop,
          show k + (PACK_HEADER_SIZE - k) = hdr.length by rw [hH]; omega, List.drop_left,
          Nat.sub_self, List.drop_zero]
        congr 1
        omega
      have hhash : hdr.take k ++ (((hdr ++ E.hash_final hdr).drop k).take n).take
          (PACK_HEADER_SIZE - k) = hdr := by
        rw [List.take_take, Nat.min_eq_left (by omega), htk, ← List.take_add,
          show k + (PACK_HEADER_SIZE - k) = hdr.length by rw [hH]; omega, List.take_left]
      have hne : ((hdr ++ E.hash_final hdr).drop k).take n ≠ [] := by
        intro h
        rw [h] at hdl
        simp only [List.length_nil] at hdl
        omega
      generalize ((hdr ++ E.hash_final hdr).drop k).take n = data
        at hdl hcat htake12 hrest hhash hne ⊢
      obtain ⟨x, hx, x0, xk, xs, -, -, xt, xh, -, xtr, xtl, -⟩ :=
        iteration_header_valid C (fuel + 1) p data hst hlen (by rw [hhlen]; exact hk')
          (by rw [hhlen, hdl]; exact hfull)
          (by rw [hhd, htake12]; exact hsig) (by rw [hhd, htake12]; exact hver)
          (by rw [hhd, htake12, hzero, htc]; exact hret1)
      rw [hhd, htake12, hzero] at xs xt
      rw [if_neg (by decide)] at xs
      rw [hhlen] at xk xh
      have hp12 : empty_pack_at C hdr PACK_HEADER_SIZE x.2.2 := by
        unfold empty_pack_at
        rw [if_neg (by omega), if_pos (by omega)]
        exact ⟨xs, by rw [xh, hph, hhash], by rw [xtr, htr]; simp, by rw [xtl, htl]; simp,
          by rw [xt, htc]⟩
      obtain ⟨q, hq, hq2⟩ := empty_pack_trailer_step C fuel hdr hret2 PACK_HEADER_SIZE
        (k + n - PACK_HEADER_SIZE) x.2.2 (le_refl _) (by omega) hp12
      refine ⟨q, ?_, ?_⟩
      · rw [parse_of_iteration_ok C (fuel + 1) p data hne x hx x0, xk, hrest]
        exact hq
      · rw [show k + n = PACK_HEADER_SIZE + (k + n - PACK_HEADER_SIZE) by omega]
        exact hq2

/-- Empty pack: the remaining bytes fed in any partition into slices. -/
theorem empty_pack_feed {E : Env} (C : Consumer) (fuel : Nat) (hdr : List Byte)
    (hH : hdr.length = PACK_HEADER_SIZE)
    (hsig : be32 hdr = PACK_SIGNATURE) (hver : be32 (hdr.drop 4) = 2)
    (hzero : be32 (hdr.drop 8) = 0) (hs : 0 < E.hash_size)
    (hret1 : C.present Callback.packfile_header = true →
      C.ret [] (Event.packfile_header 2 0) = 0)
    (hret2 : C.present Callback.packfile_complete = true →
      C.ret (emit C [] (Event.packfile_header 2 0))
        (Event.packfile_complete (E.hash_final hdr) E.hash_size) = 0) :
    ∀ (chunks : List (List Byte)) (k : Nat) (p : git_packfile_parser_t E),
      k ≤ PACK_HEADER_SIZE + E.hash_size → empty_pack_at C hdr k p →
      chunks.flatten = (hdr ++ E.hash_final hdr).drop k →
      ∃ q, feed_all C (fuel + 2) p chunks = some (List.replicate chunks.length 0, q) ∧
        empty_pack_at C hdr (PACK_HEADER_SIZE + E.hash_size) q := by
  have hD : (E.hash_final hdr).length = E.hash_size := E.hash_final_length hdr
  intro chunks
  induction chunks with
  | nil =>
    intro k p hk hp hflat
    have hkl : (hdr ++ E.hash_final hdr).length ≤ k := by
      have := congrArg List.length hflat
      simp only [List.flatten_nil, List.length_nil, List.length_drop] at this
      omega
    rw [List.length_append, hH, hD] at hkl
    have : k = PACK_HEADER_SIZE + E.hash_size := by omega
    subst this
    exact ⟨p, rfl, hp⟩
  | cons c cs ih =>
    intro k p hk hp hflat
    rw [List.flatten_cons] at hflat
    have hc : c = ((hdr ++ E.hash_final hdr).drop k).take c.length := by
      rw [← hflat, List.take_left]
    have hcs : cs.flatten = (hdr ++ E.hash_final hdr).drop (k + c.length) := by
      rw [← List.drop_drop, ← hflat, List.drop_left]
    have hcl : k + c.length ≤ PACK_HEADER_SIZE + E.hash_size := by
      have := congrArg List.length hflat
      simp only [List.length_append, List.length_drop, hH, hD] at this
      omega
    obtain ⟨q1, hq1, hp1⟩ := empty_pack_step C fuel hdr hH hsig hver hzero hs hret1 hret2
      k c.length p hcl hp
    rw [← hc] at hq1
    obtain ⟨q, hq, hpq⟩ := ih (k + c.length) q1 hcl hp1 hcs
    refine ⟨q, ?_, hpq⟩
    simp only [feed_all, hq1, hq, List.length_cons, List.replicate_succ]

/-- C19. Empty pack: a valid header announcing no entry (12 bytes, signature
"PACK", version 2, count 0) followed by exactly its digest, fed to a fresh parser
in any partition into slices (empty slices included), with `packfile_header` and
`packfile_complete` absent or returning 0.  Every feed returns 0, the final state
is `STATE_COMPLETE`, and the trace is exactly `packfile_header (2, 0)` followed by
`packfile_complete` with the digest (each when its callback is present). -/
theorem empty_pack {E : Env} (C : Consumer) (fuel : Nat) (hdr : List Byte)
    (chunks : List (List Byte))
    (hH : hdr.length = PACK_HEADER_SIZE)
    (hsig : be32 hdr = PACK_SIGNATURE) (hver : be32 (hdr.drop 4) = 2)
    (hzero : be32 (hdr.drop 8) = 0) (hs : 0 < E.hash_size)
    (hret1 : C.present Callback.packfile_header = true →
      C.ret [] (Event.packfile_header 2 0) = 0)
    (hret2 : C.present Callback.packfile_complete = true →
      C.ret (emit C [] (Event.packfile_header 2 0))
        (Event.packfile_complete (E.hash_final hdr) E.hash_size) = 0)
    (hflat : chunks.flatten = hdr ++ E.hash_final hdr) :
    ∃ q, feed_all C (fuel + 2) (git_packfile_parser_init E) chunks
        = some (List.replicate chunks.length 0, q) ∧
      q.state = STATE_COMPLETE ∧
      q.trace = emit C (emit C [] (Event.packfile_header 2 0))
        (Event.packfile_complete (E.hash_final hdr) E.hash_size) := by
  have h0 : empty_pack_at C hdr 0 (git_packfile_parser_init E) := by
    unfold empty_pack_at
    rw [if_pos (by decide)]
    simp [git_packfile_parser_init]
  obtain ⟨q, hq, hpq⟩ := empty_pack_feed C fuel hdr hH hsig hver hzero hs hret1 hret2
    chunks 0 (git_packfile_parser_init E) (Nat.zero_le _) h0 (by rw [hflat, List.drop_zero])
  unfold empty_pack_at at hpq
  rw [if_neg (by omega), if_neg (by omega)] at hpq
  exact ⟨q, hq, hpq.1, hpq.2⟩

/-- Witness for C19: the empty pack under the additive checksum, fed in four
slices. -/
theorem empty_pack_witness :
    empty_pack_header.length = PACK_HEADER_SIZE ∧
    be32 empty_pack_header = PACK_SIGNATURE ∧ be32 (empty_pack_header.drop 4) = 2 ∧
    be32 (empty_pack_header.drop 8) = 0 ∧ 0 < stored_env.hash_size ∧
    empty_pack_slices.flatten = empty_pack_header ++ stored_env.hash_final empty_pack_header ∧
    ∃ q, feed_all all_callbacks (0 + 2) (git_packfile_parser_init stored_env)
        empty_pack_slices = some (List.replicate empty_pack_slices.length 0, q) ∧
      q.state = STATE_COMPLETE ∧
      q.trace = emit all_callbacks (emit all_callbacks [] (Event.packfile_header 2 0))
        (Event.packfile_complete (stored_env.hash_final empty_pack_header)
          stored_env.hash_size) :=
  ⟨rfl, by decide, by decide, by decide, by decide, by decide,
    empty_pack all_callbacks 0 empty_pack_header empty_pack_slices rfl (by decide)
      (by decide) (by decide) (by decide) (fun _ => rfl) (fun _ => rfl) (by decide)⟩

/-! ## The object identity -/

/-- A trace extends itself by nothing. -/
theorem grows_refl (Q : Event → Prop) (t : List Event) : grows_by Q t t :=
  ⟨[], by simp, by simp⟩

/-- Extensions compose. -/
theorem grows_trans (Q : Event → Prop) (t t1 t2 : List Event)
    (h1 : grows_by Q t t1) (h2 : grows_by Q t1 t2) : grows_by Q t t2 := by
  obtain ⟨a, rfl, ha⟩ := h1
  obtain ⟨b, rfl, hb⟩ := h2
  refine ⟨a ++ b, by simp, ?_⟩
  intro e he
  rcases List.mem_append.mp he with h | h
  · exact ha e h
  · exact hb e h

/-- A callback site extends the trace by its invocation at most. -/
theorem grows_invoke {E : Env} (C : Consumer) (Q : Event → Prop)
    (p : git_packfile_parser_t E) (e : Event) (t : List Event) (ht : p.trace = t) (hQ : Q e) :
    grows_by Q t (invoke C p e).2.trace := by
  rw [invoke_trace, ht]
  by_cases hp : C.present e.kind = true
  · rw [if_pos hp]
    exact ⟨[e], rfl, by simpa using hQ⟩
  · rw [if_neg hp]
    exact ⟨[], rfl, by simp⟩

/-- The identity law is not affected by an invocation other than
`object_complete` arriving. -/
theorem oid_ok_cons_other (E : Env) (e : Event) (t : List Event)
    (h : e.kind ≠ Callback.object_complete) : oid_ok E (e :: t) ↔ oid_ok E t := by
  cases e <;> first | rfl | exact absurd rfl h

/-- The identity law survives an extension without `object_complete`. -/
theorem oid_ok_grows (E : Env) (t t2 : List Event)
    (hg : grows_by (fun e => e.kind ≠ Callback.object_complete) t t2)
    (h : oid_ok E t.reverse) : oid_ok E t2.reverse := by
  obtain ⟨evs, rfl, hev⟩ := hg
  induction evs using List.reverseRecOn with
  | nil => simpa using h
  | append_singleton evs e ih =>
    rw [← List.append_assoc, List.reverse_append, List.reverse_singleton,
      List.singleton_append]
    rw [oid_ok_cons_other E e _ (hev e (by simp))]
    exact ih (fun x hx => hev x (by simp [hx]))

/-- Chunks delivered through `object_data` after a trace: the scan for the
opening invocation passes over them. -/
theorem opened_object_append_data (t : List Event) (chunks : List (List Byte)) :
    opened_object (t ++ chunks.map Event.object_data).reverse = opened_object t.reverse := by
  induction chunks using List.reverseRecOn with
  | nil => simp
  | append_singleton cs c ih =>
    rw [List.map_append, ← List.append_assoc, List.reverse_append]
    simp only [List.map_cons, List.map_nil, List.reverse_singleton, List.singleton_append,
      opened_object]
    exact ih

/-- Chunks delivered through `object_data` after a trace are joined behind the
chunks delivered before. -/
theorem data_since_start_append_data (t : List Event) (chunks : List (List Byte)) :
    data_since_start (t ++ chunks.map Event.object_data).reverse
      = data_since_start t.reverse ++ chunks.flatten := by
  induction chunks using List.reverseRecOn with
  | nil => simp
  | append_singleton cs c ih =>
    rw [List.map_append, ← List.append_assoc, List.reverse_append]
    simp only [List.map_cons, List.map_nil, List.reverse_singleton, List.singleton_append,
      data_since_start]
    show data_since_start (t ++ List.map Event.object_data cs).reverse ++ c = _
    rw [ih]
    simp

/-- An extension by invocations satisfying `Q` is one by invocations satisfying
anything `Q` implies. -/
theorem grows_mono (Q R : Event → Prop) (t t2 : List Event) (hQR : ∀ e, Q e → R e)
    (h : grows_by Q t t2) : grows_by R t t2 := by
  obtain ⟨evs, h1, h2⟩ := h
  exact ⟨evs, h1, fun e he => hQR e (h2 e he)⟩

/-- `parse_header` invokes `packfile_header` at most and leaves the state as it
is or moves to the first entry or to the trailer. -/
theorem parse_header_neutral {E : Env} (C : Consumer) (p : git_packfile_parser_t E)
    (data : List Byte) :
    grows_by (fun e => e.kind = Callback.packfile_header) p.trace
      (parse_header C p data).2.2.trace ∧
    ((parse_header C p data).2.2.state = p.state ∨
      (parse_header C p data).2.2.state = STATE_OBJECT_HEADER_START ∨
      (parse_header C p data).2.2.state = STATE_TRAILER) := by
  have ht : (stage_header p data).trace = p.trace := stage_header_trace p data
  have hg := grows_invoke C (fun e => e.kind = Callback.packfile_header)
    (stage_header p data) (header_event (stage_header p data)) p.trace ht rfl
  unfold parse_header
  dsimp only
  split_ifs
  all_goals (try dsimp only)
  all_goals first
    | exact ⟨by rw [ht]; exact grows_refl _ _, Or.inl (by simp)⟩
    | exact ⟨hg, Or.inl (by simp)⟩
    | exact ⟨hg, Or.inr (Or.inl rfl)⟩
    | exact ⟨hg, Or.inr (Or.inr rfl)⟩

/-- The loop of the `GIT_OBJECT_OFS_DELTA` case invokes `delta_start` at most
and leaves the state as it is or moves to the delta payload. -/
theorem parse_ofs_delta_loop_neutral {E : Env} (C : Consumer) :
    ∀ (data : List Byte) (p : git_packfile_parser_t E) (n : Nat),
      grows_by (fun e => e.kind = Callback.delta_start) p.trace
        (parse_ofs_delta_loop C p data n).2.2.trace ∧
      ((parse_ofs_delta_loop C p data n).2.2.state = p.state ∨
        (parse_ofs_delta_loop C p data n).2.2.state = STATE_DELTA_DATA_START) := by
  intro data
  induction data with
  | nil => intro p n; unfold parse_ofs_delta_loop; exact ⟨grows_refl _ _, Or.inl rfl⟩
  | cons c rest ih =>
    intro p n
    have ht : (ofs_delta_byte p c).trace = p.trace := ofs_delta_byte_trace p c
    have hg := grows_invoke C (fun e => e.kind = Callback.delta_start)
      (ofs_delta_byte p c)
      (delta_start_event (ofs_delta_byte p c) none (ofs_delta_byte p c).current_offset)
      p.trace ht rfl
    unfold parse_ofs_delta_loop
    dsimp only
    split_ifs
    · exact ⟨hg, Or.inl (by simp)⟩
    · exact ⟨hg, Or.inr rfl⟩
    · have := ih (ofs_delta_byte p c) (n + 1)
      rw [ht, ofs_delta_byte_state] at this
      exact this

/-- `parse_delta_header` invokes `delta_start` at most and leaves the state as
it is or moves to the delta payload. -/
theorem parse_delta_header_neutral {E : Env} (C : Consumer) (p : git_packfile_parser_t E)
    (data : List Byte) :
    grows_by (fun e => e.kind = Callback.delta_start) p.trace
      (parse_delta_header C p data).2.2.trace ∧
    ((parse_delta_header C p data).2.2.state = p.state ∨
      (parse_delta_header C p data).2.2.state = STATE_DELTA_DATA_START) := by
  have ht : (stage_base p data).trace = p.trace := stage_base_trace p data
  have hg := grows_invoke C (fun e => e.kind = Callback.delta_start)
    (stage_base p data)
    (delta_start_event (stage_base p data) (some (stage_base p data).current_base) 0)
    p.trace ht rfl
  unfold parse_delta_header
  dsimp only
  split_ifs
  all_goals (try dsimp only)
  all_goals first
    | exact parse_ofs_delta_loop_neutral C data p 0
    | exact ⟨grows_refl _ _, Or.inl rfl⟩
    | exact ⟨hg, Or.inl (by simp)⟩
    | exact ⟨hg, Or.inr rfl⟩

/-- `parse_trailer` invokes `packfile_complete` at most and leaves the state as
it is or moves to `STATE_COMPLETE`. -/
theorem parse_trailer_neutral {E : Env} (C : Consumer) (p : git_packfile_parser_t E)
    (data : List Byte) :
    grows_by (fun e => e.kind = Callback.packfile_complete) p.trace
      (parse_trailer C p data).2.2.trace ∧
    ((parse_trailer C p data).2.2.state = p.state ∨
      (parse_trailer C p data).2.2.state = STATE_COMPLETE) := by
  have ht : (stage_trailer p data).trace = p.trace := stage_trailer_trace p data
  have hg := grows_invoke C (fun e => e.kind = Callback.packfile_complete)
    (stage_trailer p data)
    (Event.packfile_complete (E.hash_final (stage_trailer p data).packfile_hash) E.hash_size)
    p.trace ht rfl
  unfold parse_trailer
  dsimp only
  split_ifs
  all_goals (try dsimp only)
  all_goals first
    | exact ⟨by rw [ht]; exact grows_refl _ _, Or.inl (by simp)⟩
    | exact ⟨hg, Or.inl (by simp)⟩
    | exact ⟨hg, Or.inr rfl⟩

/-- `parse_delta_data` invokes `delta_data` and `delta_complete` at most, and
leaves a state that is no state of a non-delta entry. -/
theorem parse_delta_data_neutral {E : Env} (C : Consumer) (p : git_packfile_parser_t E)
    (data : List Byte) :
    grows_by (fun e => e.kind = Callback.delta_data ∨ e.kind = Callback.delta_complete)
      p.trace (parse_delta_data C p data).2.2.trace ∧
    ((parse_delta_data C p data).2.2.state = p.state ∨
      (parse_delta_data C p data).2.2.state = STATE_DELTA_DATA ∨
      (parse_delta_data C p data).2.2.state = STATE_OBJECT_HEADER_START ∨
      (parse_delta_data C p data).2.2.state = STATE_TRAILER) := by
  have hs0 : (offer_input STATE_DELTA_DATA_START STATE_DELTA_DATA p data).state = p.state ∨
      (offer_input STATE_DELTA_DATA_START STATE_DELTA_DATA p data).state
        = STATE_DELTA_DATA := by
    rw [offer_input_state]
    by_cases h : p.state = STATE_DELTA_DATA_START
    · rw [if_pos h]; exact Or.inr rfl
    · rw [if_neg h]; exact Or.inl rfl
  have hs1 : ∀ s : parser_state, (s = p.state ∨ s = STATE_DELTA_DATA) →
      (s = p.state ∨ s = STATE_DELTA_DATA ∨ s = STATE_OBJECT_HEADER_START ∨
        s = STATE_TRAILER) := by
    intro s h
    rcases h with h | h
    · exact Or.inl h
    · exact Or.inr (Or.inl h)
  unfold parse_delta_data
  dsimp only
  cases hg : git_zstream_get_output_chunk
      (offer_input STATE_DELTA_DATA_START STATE_DELTA_DATA p data).zstream
      READ_CHUNK_SIZE with
  | none =>
    dsimp only
    exact ⟨by rw [offer_input_trace]; exact grows_refl _ _, hs1 _ hs0⟩
  | some x =>
    obtain ⟨zs, inflated⟩ := x
    dsimp only
    have ht : (account_input (store_zstream
        (offer_input STATE_DELTA_DATA_START STATE_DELTA_DATA p data) zs) data).trace
        = p.trace := by
      rw [account_input_trace, store_zstream_trace, offer_input_trace]
    have hst : (account_input (store_zstream
        (offer_input STATE_DELTA_DATA_START STATE_DELTA_DATA p data) zs) data).state
        = (offer_input STATE_DELTA_DATA_START STATE_DELTA_DATA p data).state := by
      rw [account_input_state, store_zstream_state]
    have hg1 := grows_invoke C
      (fun e => e.kind = Callback.delta_data ∨ e.kind = Callback.delta_complete)
      (account_input (store_zstream
        (offer_input STATE_DELTA_DATA_START STATE_DELTA_DATA p data) zs) data)
      (Event.delta_data inflated) p.trace ht (Or.inl rfl)
    have hg2 := grows_invoke C
      (fun e => e.kind = Callback.delta_data ∨ e.kind = Callback.delta_complete)
      (invoke C (account_input (store_zstream
        (offer_input STATE_DELTA_DATA_START STATE_DELTA_DATA p data) zs) data)
        (Event.delta_data inflated)).2
      (delta_complete_event (invoke C (account_input (store_zstream
        (offer_input STATE_DELTA_DATA_START STATE_DELTA_DATA p data) zs) data)
        (Event.delta_data inflated)).2) _ rfl (Or.inr rfl)
    have hg12 := grows_trans _ _ _ _ hg1 hg2
    split_ifs
    · exact ⟨hg1, hs1 _ (by rw [invoke_state, hst]; exact hs0)⟩
    · exact ⟨hg12, hs1 _ (by rw [invoke_state, invoke_state, hst]; exact hs0)⟩
    · refine ⟨by rw [next_entry_trace]; exact hg12, ?_⟩
      rw [next_entry_state]
      split_ifs
      · exact Or.inr (Or.inr (Or.inl rfl))
      · exact Or.inr (Or.inr (Or.inr rfl))
    · exact ⟨hg1, hs1 _ (by rw [invoke_state, hst]; exact hs0)⟩

/-- The per-byte updates of the object header leave an empty object hash when
the entry is opened by them or the hash was empty before. -/
theorem object_header_byte_current_hash_nil {E : Env} (p : git_packfile_parser_t E)
    (c : Byte)
    (hp : p.state = STATE_OBJECT_HEADER_START ∨
      (p.state = STATE_OBJECT_HEADER ∧ p.current_hash = [])) :
    (object_header_byte p c).current_hash = [] := by
  unfold object_header_byte
  rcases hp with h | ⟨h, h2⟩
  · simp [h]
  · simp [h, h2]

/-- The loop of `parse_object_header`, for the identity law: it invokes
`object_start` at most; when it returns 0 it leaves the object hash empty inside
the prefix, and at the end of the prefix of a non-delta entry it leaves the
canonical header in the object hash, `object_start` being the last invocation,
made with the current kind and size. -/
theorem parse_object_header_loop_hash {E : Env} (C : Consumer)
    (hstart : C.present Callback.object_start = true) :
    ∀ (data : List Byte) (p : git_packfile_parser_t E) (n : Nat),
      (p.state = STATE_OBJECT_HEADER_START ∨
        (p.state = STATE_OBJECT_HEADER ∧ p.current_hash = [])) →
      grows_by (fun e => e.kind = Callback.object_start) p.trace
        (parse_object_header_loop C p data n).2.2.trace ∧
      ((parse_object_header_loop C p data n).1 = 0 →
        ((parse_object_header_loop C p data n).2.2.state = STATE_OBJECT_HEADER_START ∨
          (parse_object_header_loop C p data n).2.2.state = STATE_OBJECT_HEADER ∨
          (parse_object_header_loop C p data n).2.2.state = STATE_OBJECT_DATA_START ∨
          (parse_object_header_loop C p data n).2.2.state = STATE_DELTA_HEADER) ∧
        ((parse_object_header_loop C p data n).2.2.state = STATE_OBJECT_HEADER →
          (parse_object_header_loop C p data n).2.2.current_hash = []) ∧
        ((parse_object_header_loop C p data n).2.2.state = STATE_OBJECT_DATA_START →
          opened_object (parse_object_header_loop C p data n).2.2.trace.reverse
            = some ((parse_object_header_loop C p data n).2.2.current_type,
                (parse_object_header_loop C p data n).2.2.current_size) ∧
          data_since_start (parse_object_header_loop C p data n).2.2.trace.reverse = [] ∧
          (parse_object_header_loop C p data n).2.2.current_hash
            = git_odb__format_object_header
                (parse_object_header_loop C p data n).2.2.current_size
                (parse_object_header_loop C p data n).2.2.current_type)) := by
  intro data
  induction data with
  | nil =>
    intro p n hp
    unfold parse_object_header_loop
    refine ⟨grows_refl _ _, fun _ => ⟨?_, ?_, ?_⟩⟩
    · rcases hp with h | ⟨h, -⟩
      · exact Or.inl h
      · exact Or.inr (Or.inl h)
    · intro h
      rcases hp with h2 | ⟨-, h2⟩
      · rw [h2] at h; cases h
      · exact h2
    · intro h
      rcases hp with h2 | ⟨h2, -⟩ <;> (rw [h2] at h; cases h)
  | cons c rest ih =>
    intro p n hp
    have hst : p.state = STATE_OBJECT_HEADER_START ∨ p.state = STATE_OBJECT_HEADER := by
      rcases hp with h | ⟨h, -⟩
      · exact Or.inl h
      · exact Or.inr h
    have hlt : p.state.toNat < STATE_OBJECT_DATA_START.toNat := by
      rcases hst with h | h <;> rw [h] <;> decide
    have ht : (object_header_byte p c).trace = p.trace := object_header_byte_trace p c
    have hs2 : (object_header_byte p c).state = STATE_OBJECT_HEADER :=
      object_header_byte_state p c hst
    have hh2 : (object_header_byte p c).current_hash = [] :=
      object_header_byte_current_hash_nil p c hp
    rw [parse_object_header_loop, if_pos hlt]
    dsimp only
    by_cases hd : (c.val &&& 0x80) = 0 ∧ is_delta (object_header_byte p c).current_type = true
    · rw [if_pos hd, parse_object_header_loop_done C _ rest _
        (by simp [begin_delta_header, parser_state.toNat])]
      refine ⟨by rw [begin_delta_header_trace, ht]; exact grows_refl _ _, fun _ => ⟨?_, ?_, ?_⟩⟩
      · exact Or.inr (Or.inr (Or.inr rfl))
      · intro h; cases h
      · intro h; cases h
    · rw [if_neg hd]
      by_cases hl : (c.val &&& 0x80) = 0
      · rw [if_pos hl]
        have hts : (seed_object_hash (object_header_byte p c)).trace = p.trace := by
          rw [seed_object_hash_trace, ht]
        have hg := grows_invoke C (fun e => e.kind = Callback.object_start)
          (seed_object_hash (object_header_byte p c))
          (object_start_event (seed_object_hash (object_header_byte p c))) p.trace hts rfl
        by_cases hr : (invoke C (seed_object_hash (object_header_byte p c))
            (object_start_event (seed_object_hash (object_header_byte p c)))).1 ≠ 0
        · rw [if_pos hr]
          exact ⟨hg, fun h => absurd h hr⟩
        · rw [if_neg hr, parse_object_header_loop_done C _ rest _
            (by simp [parser_state.toNat])]
          refine ⟨hg, fun _ => ⟨Or.inr (Or.inr (Or.inl rfl)), ?_, fun _ => ?_⟩⟩
          · intro h; cases h
          have htr : (invoke C (seed_object_hash (object_header_byte p c))
              (object_start_event (seed_object_hash (object_header_byte p c)))).2.trace
              = p.trace ++ [object_start_event (seed_object_hash (object_header_byte p c))] := by
            rw [invoke_trace, hts, if_pos (by exact hstart)]
          refine ⟨?_, ?_, ?_⟩
          · show opened_object (invoke C _ _).2.trace.reverse
              = some ((invoke C _ _).2.current_type, (invoke C _ _).2.current_size)
            rw [htr, List.reverse_append, List.reverse_singleton, List.singleton_append,
              invoke_current_type, invoke_current_size]
            rfl
          · show data_since_start (invoke C _ _).2.trace.reverse = []
            rw [htr, List.reverse_append, List.reverse_singleton, List.singleton_append]
            rfl
          · show (invoke C _ _).2.current_hash = git_odb__format_object_header
              (invoke C _ _).2.current_size (invoke C _ _).2.current_type
            rw [invoke_current_hash, invoke_current_type, invoke_current_size]
            unfold seed_object_hash
            dsimp only
            rw [hh2, List.nil_append]
      · rw [if_neg hl]
        have := ih (object_header_byte p c) (n + 1) (Or.inr ⟨hs2, hh2⟩)
        rw [ht] at this
        exact this

/-- The drain loop of `parse_object_data`, for the identity law: with
`object_data` present the trace grows by one invocation per chunk, and when the
loop returns 0 the chunks have been mixed into the object hash, in order. -/
theorem parse_object_data_loop_hash {E : Env} (C : Consumer)
    (hdata : C.present Callback.object_data = true) :
    ∀ (fuel : Nat) (p : git_packfile_parser_t E) (r : Int × git_packfile_parser_t E),
      parse_object_data_loop C fuel p = some r →
      ∃ chunks : List (List Byte),
        r.2.trace = p.trace ++ chunks.map Event.object_data ∧
        (r.1 = 0 → r.2.current_hash = p.current_hash ++ chunks.flatten ∧
          r.2.current_type = p.current_type ∧ r.2.current_size = p.current_size ∧
          r.2.state = p.state) := by
  intro fuel
  induction fuel with
  | zero => intro p r h; simp [parse_object_data_loop] at h
  | succ fuel ih =>
    intro p r h
    unfold parse_object_data_loop at h
    cases hg : git_zstream_get_output_chunk p.zstream READ_CHUNK_SIZE with
    | none =>
      rw [hg] at h
      simp only [Option.some.injEq] at h
      subst h
      exact ⟨[], by simp, fun h0 => by simp at h0⟩
    | some x =>
      obtain ⟨zs, inflated⟩ := x
      rw [hg] at h
      dsimp only at h
      have htr : (invoke C (store_output p zs inflated) (Event.object_data inflated)).2.trace
          = p.trace ++ [Event.object_data inflated] := by
        rw [invoke_trace, store_output_trace, if_pos (by exact hdata)]
      by_cases hr : (invoke C (store_output p zs inflated) (Event.object_data inflated)).1 ≠ 0
      · rw [if_pos hr] at h
        simp only [Option.some.injEq] at h
        subst h
        exact ⟨[inflated], by rw [htr]; rfl, fun h0 => absurd h0 hr⟩
      · rw [if_neg hr] at h
        have hfields : (invoke C (store_output p zs inflated)
              (Event.object_data inflated)).2.current_hash = p.current_hash ++ inflated ∧
            (invoke C (store_output p zs inflated)
              (Event.object_data inflated)).2.current_type = p.current_type ∧
            (invoke C (store_output p zs inflated)
              (Event.object_data inflated)).2.current_size = p.current_size ∧
            (invoke C (store_output p zs inflated)
              (Event.object_data inflated)).2.state = p.state := by
          refine ⟨?_, ?_, ?_, ?_⟩
          · rw [invoke_current_hash]; rfl
          · rw [invoke_current_type]; rfl
          · rw [invoke_current_size]; rfl
          · rw [invoke_state]; rfl
        by_cases hl : inflated.length > 0
        · rw [if_pos hl] at h
          obtain ⟨chunks, h1, h2⟩ := ih _ r h
          refine ⟨inflated :: chunks, by rw [h1, htr]; simp, fun h0 => ?_⟩
          obtain ⟨g1, g2, g3, g4⟩ := h2 h0
          obtain ⟨f1, f2, f3, f4⟩ := hfields
          exact ⟨by rw [g1, f1]; simp, by rw [g2, f2], by rw [g3, f3], by rw [g4, f4]⟩
        · rw [if_neg hl] at h
          simp only [Option.some.injEq] at h
          subst h
          obtain ⟨f1, f2, f3, f4⟩ := hfields
          exact ⟨[inflated], by rw [htr]; rfl, fun _ => ⟨by rw [f1]; simp, f2, f3, f4⟩⟩

/-- `parse_object_data`, for the identity law: with `object_data` present the
law survives the call, and when the call returns 0 the parser is still inside
the payload, with the object hash the canonical header followed by the chunks
delivered so far, or the entry is over. -/
theorem parse_object_data_hash {E : Env} (C : Consumer)
    (hdata : C.present Callback.object_data = true) (fuel : Nat)
    (p : git_packfile_parser_t E) (data : List Byte)
    (r : Int × Nat × git_packfile_parser_t E)
    (h : parse_object_data C fuel p data = some r)
    (hs : p.state = STATE_OBJECT_DATA_START ∨ p.state = STATE_OBJECT_DATA)
    (hop : opened_object p.trace.reverse = some (p.current_type, p.current_size))
    (hha : p.current_hash = git_odb__format_object_header p.current_size p.current_type ++
      data_since_start p.trace.reverse)
    (hoid : oid_ok E p.trace.reverse) :
    oid_ok E r.2.2.trace.reverse ∧
    (r.1 = 0 →
      (r.2.2.state = STATE_OBJECT_DATA ∨ r.2.2.state = STATE_OBJECT_HEADER_START ∨
        r.2.2.state = STATE_TRAILER) ∧
      (r.2.2.state = STATE_OBJECT_DATA →
        opened_object r.2.2.trace.reverse = some (r.2.2.current_type, r.2.2.current_size) ∧
        r.2.2.current_hash =
          git_odb__format_object_header r.2.2.current_size r.2.2.current_type ++
            data_since_start r.2.2.trace.reverse)) := by
  unfold parse_object_data at h
  dsimp only at h
  cases hl : parse_object_data_loop C fuel
      (offer_input STATE_OBJECT_DATA_START STATE_OBJECT_DATA p data) with
  | none => rw [hl] at h; simp at h
  | some lo =>
    obtain ⟨err, p2⟩ := lo
    rw [hl] at h
    dsimp only at h
    obtain ⟨chunks, htr, hok⟩ := parse_object_data_loop_hash C hdata fuel _ _ hl
    simp only [offer_input_trace, offer_input_current_hash, offer_input_current_type,
      offer_input_current_size] at htr hok
    have hst1 : (offer_input STATE_OBJECT_DATA_START STATE_OBJECT_DATA p data).state
        = STATE_OBJECT_DATA := by
      rw [offer_input_state]
      rcases hs with h1 | h1 <;> simp [h1]
    rw [hst1] at hok
    have hoid2 : oid_ok E p2.trace.reverse := by
      apply oid_ok_grows E p.trace p2.trace _ hoid
      refine ⟨chunks.map Event.object_data, htr, ?_⟩
      intro e he
      obtain ⟨c, -, rfl⟩ := List.mem_map.mp he
      simp [Event.kind]
    have hop2 : opened_object p2.trace.reverse = some (p.current_type, p.current_size) := by
      rw [htr, opened_object_append_data, hop]
    have hds2 : data_since_start p2.trace.reverse
        = data_since_start p.trace.reverse ++ chunks.flatten := by
      rw [htr, data_since_start_append_data]
    by_cases herr : err ≠ 0
    · rw [if_pos herr] at h
      simp only [Option.some.injEq] at h
      subst h
      exact ⟨hoid2, fun h0 => absurd h0 herr⟩
    · rw [if_neg herr] at h
      obtain ⟨g1, g2, g3, g4⟩ := hok (not_not.mp herr)
      have hha2 : p2.current_hash = git_odb__format_object_header p.current_size
          p.current_type ++ data_since_start p2.trace.reverse := by
        rw [g1, hha, hds2, List.append_assoc]
      by_cases heos : git_zstream_eos (account_input p2 data).zstream = true
      · rw [if_pos heos] at h
        have hoid3 : oid_ok E (invoke C (account_input p2 data)
            (object_complete_event (account_input p2 data))).2.trace.reverse := by
          rw [invoke_trace, account_input_trace]
          by_cases hp : C.present (object_complete_event (account_input p2 data)).kind = true
          · rw [if_pos hp, List.reverse_append, List.reverse_singleton, List.singleton_append]
            unfold object_complete_event
            refine ⟨?_, hoid2⟩
            intro ty sz hts
            rw [hop2] at hts
            simp only [Option.some.injEq, Prod.mk.injEq] at hts
            obtain ⟨rfl, rfl⟩ := hts
            rw [account_input_current_hash, hha2]
          · rw [if_neg hp, List.append_nil]
            exact hoid2
        by_cases hcb : (invoke C (account_input p2 data)
            (object_complete_event (account_input p2 data))).1 ≠ 0
        · rw [if_pos hcb] at h
          simp only [Option.some.injEq] at h
          subst h
          exact ⟨hoid3, fun h0 => absurd h0 hcb⟩
        · rw [if_neg hcb] at h
          simp only [Option.some.injEq] at h
          subst h
          refine ⟨?_, fun _ => ⟨?_, ?_⟩⟩
          · show oid_ok E (next_entry _).trace.reverse
            rw [next_entry_trace]
            exact hoid3
          · show (next_entry _).state = _ ∨ (next_entry _).state = _ ∨ (next_entry _).state = _
            rw [next_entry_state]
            split_ifs
            · exact Or.inr (Or.inl rfl)
            · exact Or.inr (Or.inr rfl)
          · intro hx
            exfalso
            have : (next_entry (invoke C (account_input p2 data)
                (object_complete_event (account_input p2 data))).2).state
                = STATE_OBJECT_DATA := hx
            rw [next_entry_state] at this
            split_ifs at this
      · rw [if_neg heos] at h
        simp only [Option.some.injEq] at h
        subst h
        refine ⟨hoid2, fun _ => ⟨Or.inl ?_, fun _ => ⟨?_, ?_⟩⟩⟩
        · show (account_input p2 data).state = _
          rw [account_input_state, g4]
        · show opened_object (account_input p2 data).trace.reverse
            = some ((account_input p2 data).current_type, (account_input p2 data).current_size)
          rw [account_input_trace, account_input_current_type, account_input_current_size,
            g2, g3, hop2]
        · show (account_input p2 data).current_hash
            = git_odb__format_object_header (account_input p2 data).current_size
                (account_input p2 data).current_type ++
              data_since_start (account_input p2 data).trace.reverse
          rw [account_input_current_hash, account_input_trace, account_input_current_type,
            account_input_current_size, g2, g3, hha2]

/-- The tail of the loop body keeps what the identity law needs, given the
sub-parser left it. -/
theorem hash_inv_commit {E : Env} (s : parser_state) (data : List Byte)
    (r : Int × Nat × git_packfile_parser_t E)
    (hoid : oid_ok E r.2.2.trace.reverse)
    (hhdr : r.1 = 0 → r.2.2.state = STATE_OBJECT_HEADER → r.2.2.current_hash = [])
    (hdat : r.1 = 0 →
      r.2.2.state = STATE_OBJECT_DATA_START ∨ r.2.2.state = STATE_OBJECT_DATA →
      opened_object r.2.2.trace.reverse = some (r.2.2.current_type, r.2.2.current_size) ∧
      r.2.2.current_hash = git_odb__format_object_header r.2.2.current_size
        r.2.2.current_type ++ data_since_start r.2.2.trace.reverse) :
    HashInv (parse_commit s data r).2.2 := by
  constructor
  · rw [parse_commit_trace]; exact hoid
  · intro h
    rw [parse_commit_state] at h
    by_cases h0 : r.1 = 0
    · rw [if_pos h0] at h
      rw [parse_commit_current_hash]
      exact hhdr h0 h
    · rw [if_neg h0] at h; cases h
  · intro h
    rw [parse_commit_state] at h
    by_cases h0 : r.1 = 0
    · rw [if_pos h0] at h
      rw [parse_commit_trace, parse_commit_current_hash, parse_commit_current_type,
        parse_commit_current_size]
      exact hdat h0 h
    · rw [if_neg h0] at h
      rcases h with h | h <;> cases h

/-- A sub-parser that invokes no `object_complete` and leaves no state of a
non-delta entry keeps what the identity law needs. -/
theorem hash_inv_neutral {E : Env} (s : parser_state) (data : List Byte)
    (p : git_packfile_parser_t E) (r : Int × Nat × git_packfile_parser_t E)
    (Q : Event → Prop) (hQ : ∀ e, Q e → e.kind ≠ Callback.object_complete)
    (hI : HashInv p) (hg : grows_by Q p.trace r.2.2.trace)
    (h1 : r.2.2.state ≠ STATE_OBJECT_HEADER) (h2 : r.2.2.state ≠ STATE_OBJECT_DATA_START)
    (h3 : r.2.2.state ≠ STATE_OBJECT_DATA) :
    HashInv (parse_commit s data r).2.2 := by
  apply hash_inv_commit
  · exact oid_ok_grows E _ _ (grows_mono Q _ _ _ hQ hg) hI.oid
  · exact fun _ h => absurd h h1
  · intro _ h
    rcases h with h | h
    · exact absurd h h2
    · exact absurd h h3

/-- One iteration of the driver loop keeps what the identity law needs, when
`object_start` and `object_data` are present. -/
theorem hash_inv_iteration {E : Env} (C : Consumer)
    (hstart : C.present Callback.object_start = true)
    (hdata : C.present Callback.object_data = true) (fuel : Nat)
    (p : git_packfile_parser_t E) (data : List Byte)
    (x : Int × Nat × git_packfile_parser_t E) (hI : HashInv p)
    (hx : parse_iteration C fuel p data = some x) : HashInv x.2.2 := by
  by_cases hstuck : p.state = STATE_FAILED ∨ p.state = STATE_COMPLETE
  · rw [parse_iteration_stuck C fuel p data hstuck] at hx
    cases hx
    exact hI
  · have h1 : p.state ≠ STATE_COMPLETE := fun h => hstuck (Or.inr h)
    have h2 : p.state ≠ STATE_FAILED := fun h => hstuck (Or.inl h)
    rw [parse_iteration_running C fuel p data h1 h2] at hx
    cases hd : dispatch C fuel p data with
    | none => rw [hd] at hx; cases hx
    | some r =>
      rw [hd] at hx
      simp only [Option.map_some', Option.some.injEq] at hx
      subst hx
      unfold dispatch at hd
      cases hs : p.state with
      | STATE_COMPLETE => exact absurd hs h1
      | STATE_FAILED => exact absurd hs h2
      | STATE_HEADER =>
        rw [hs] at hd
        simp only [Option.some.injEq] at hd
        subst hd
        obtain ⟨hg, hst⟩ := parse_header_neutral C p data
        rw [hs] at hst
        apply hash_inv_neutral _ _ p _ _ (fun e he => by rw [he]; decide) hI hg <;>
          (rcases hst with h | h | h <;> rw [h] <;> decide)
      | STATE_DELTA_HEADER =>
        rw [hs] at hd
        simp only [Option.some.injEq] at hd
        subst hd
        obtain ⟨hg, hst⟩ := parse_delta_header_neutral C p data
        rw [hs] at hst
        apply hash_inv_neutral _ _ p _ _ (fun e he => by rw [he]; decide) hI hg <;>
          (rcases hst with h | h <;> rw [h] <;> decide)
      | STATE_TRAILER =>
        rw [hs] at hd
        simp only [Option.some.injEq] at hd
        subst hd
        obtain ⟨hg, hst⟩ := parse_trailer_neutral C p data
        rw [hs] at hst
        apply hash_inv_neutral _ _ p _ _ (fun e he => by rw [he]; decide) hI hg <;>
          (rcases hst with h | h <;> rw [h] <;> decide)
      | STATE_DELTA_DATA_START =>
        rw [hs] at hd
        simp only [Option.some.injEq] at hd
        subst hd
        obtain ⟨hg, hst⟩ := parse_delta_data_neutral C p data
        rw [hs] at hst
        apply hash_inv_neutral _ _ p _ _
          (fun e he => by rcases he with he | he <;> rw [he] <;> decide) hI hg <;>
          (rcases hst with h | h | h | h <;> rw [h] <;> decide)
      | STATE_DELTA_DATA =>
        rw [hs] at hd
        simp only [Option.some.injEq] at hd
        subst hd
        obtain ⟨hg, hst⟩ := parse_delta_data_neutral C p data
        rw [hs] at hst
        apply hash_inv_neutral _ _ p _ _
          (fun e he => by rcases he with he | he <;> rw [he] <;> decide) hI hg <;>
          (rcases hst with h | h | h | h <;> rw [h] <;> decide)
      | STATE_OBJECT_HEADER_START =>
        rw [hs] at hd
        simp only [Option.some.injEq] at hd
        subst hd
        obtain ⟨hg, hok⟩ := parse_object_header_loop_hash C hstart data p 0 (Or.inl hs)
        apply hash_inv_commit
        · exact oid_ok_grows E _ _
            (grows_mono _ _ _ _ (fun e he => by rw [he]; decide) hg) hI.oid
        · exact fun h0 h => (hok h0).2.1 h
        · intro h0 h
          rcases h with h | h
          · obtain ⟨a, b, c⟩ := (hok h0).2.2 h
            refine ⟨a, ?_⟩
            show (parse_object_header_loop C p data 0).2.2.current_hash = _ ++
              data_since_start (parse_object_header_loop C p data 0).2.2.trace.reverse
            rw [c, b, List.append_nil]
            rfl
          · rcases (hok h0).1 with g | g | g | g <;>
              (exfalso; unfold parse_object_header at h; rw [g] at h; cases h)
      | STATE_OBJECT_HEADER =>
        rw [hs] at hd
        simp only [Option.some.injEq] at hd
        subst hd
        obtain ⟨hg, hok⟩ := parse_object_header_loop_hash C hstart data p 0
          (Or.inr ⟨hs, hI.hdr hs⟩)
        apply hash_inv_commit
        · exact oid_ok_grows E _ _
            (grows_mono _ _ _ _ (fun e he => by rw [he]; decide) hg) hI.oid
        · exact fun h0 h => (hok h0).2.1 h
        · intro h0 h
          rcases h with h | h
          · obtain ⟨a, b, c⟩ := (hok h0).2.2 h
            refine ⟨a, ?_⟩
            show (parse_object_header_loop C p data 0).2.2.current_hash = _ ++
              data_since_start (parse_object_header_loop C p data 0).2.2.trace.reverse
            rw [c, b, List.append_nil]
            rfl
          · rcases (hok h0).1 with g | g | g | g <;>
              (exfalso; unfold parse_object_header at h; rw [g] at h; cases h)
      | STATE_OBJECT_DATA_START =>
        rw [hs] at hd
        dsimp only at hd
        obtain ⟨hop, hha⟩ := hI.dat (Or.inl hs)
        obtain ⟨ho, hok⟩ := parse_object_data_hash C hdata fuel p data r hd (Or.inl hs)
          hop hha hI.oid
        apply hash_inv_commit _ _ _ ho
        · intro h0 h
          rcases (hok h0).1 with g | g | g <;> (rw [g] at h; cases h)
        · intro h0 h
          rcases h with h | h
          · rcases (hok h0).1 with g | g | g <;> (rw [g] at h; cases h)
          · exact (hok h0).2 h
      | STATE_OBJECT_DATA =>
        rw [hs] at hd
        dsimp only at hd
        obtain ⟨hop, hha⟩ := hI.dat (Or.inr hs)
        obtain ⟨ho, hok⟩ := parse_object_data_hash C hdata fuel p data r hd (Or.inr hs)
          hop hha hI.oid
        apply hash_inv_commit _ _ _ ho
        · intro h0 h
          rcases (hok h0).1 with g | g | g <;> (rw [g] at h; cases h)
        · intro h0 h
          rcases h with h | h
          · rcases (hok h0).1 with g | g | g <;> (rw [g] at h; cases h)
          · exact (hok h0).2 h

/-- The identity law of a trace holds for every later part of it. -/
theorem oid_ok_suffix (E : Env) (a b : List Event) (h : oid_ok E (a ++ b)) :
    oid_ok E b := by
  induction a with
  | nil => simpa using h
  | cons e a ih =>
    apply ih
    cases e <;> simp only [List.cons_append, oid_ok] at h
    all_goals first | exact h | exact h.2

/-- A fresh parser satisfies what the identity law needs. -/
theorem hash_inv_init (E : Env) : HashInv (git_packfile_parser_init E) := by
  constructor <;> simp [git_packfile_parser_init, oid_ok]

/-- Feeding slices to a fresh parser whose consumer has `object_start` and
`object_data` leaves a trace that satisfies the identity law. -/
theorem feed_all_hash_inv {E : Env} (C : Consumer)
    (hstart : C.present Callback.object_start = true)
    (hdata : C.present Callback.object_data = true) (fuel : Nat)
    (chunks : List (List Byte)) (rets : List Int) (q : git_packfile_parser_t E)
    (h : feed_all C fuel (git_packfile_parser_init E) chunks = some (rets, q)) :
    HashInv q := by
  obtain ⟨k, hk, -⟩ := feed_all_preserves C (fun _ p => HashInv p)
    (fun fuel S p data x hI _ hx =>
      ⟨x.2.1, hash_inv_iteration C hstart hdata fuel p data x hI hx, fun _ => rfl⟩)
    fuel chunks [] _ q rets (hash_inv_init E) h
  exact hk

/-- The offset loop of `parse_delta_header` leaves the identity hash alone. -/
theorem parse_ofs_delta_loop_current_hash {E : Env} (C : Consumer) :
    ∀ (data : List Byte) (p : git_packfile_parser_t E) (n : Nat),
      (parse_ofs_delta_loop C p data n).2.2.current_hash = p.current_hash := by
  intro data
  induction data with
  | nil => intro p n; rfl
  | cons c rest ih =>
    intro p n
    unfold parse_ofs_delta_loop
    dsimp only
    split_ifs
    · simp
    · simp
    · rw [ih]; simp

/-- The function `parse_delta_header` leaves the identity hash alone. -/
theorem parse_delta_header_current_hash {E : Env} (C : Consumer)
    (p : git_packfile_parser_t E) (data : List Byte) :
    (parse_delta_header C p data).2.2.current_hash = p.current_hash := by
  unfold parse_delta_header
  dsimp only
  split_ifs
  all_goals first
    | exact parse_ofs_delta_loop_current_hash C data p 0
    | simp

/-- The function `parse_delta_data` leaves the identity hash alone. -/
theorem parse_delta_data_current_hash {E : Env} (C : Consumer)
    (p : git_packfile_parser_t E) (data : List Byte) :
    (parse_delta_data C p data).2.2.current_hash = p.current_hash := by
  unfold parse_delta_data
  dsimp only
  cases hz : git_zstream_get_output_chunk
      (offer_input STATE_DELTA_DATA_START STATE_DELTA_DATA p data).zstream READ_CHUNK_SIZE with
  | none => simp
  | some x =>
    obtain ⟨zs, inflated⟩ := x
    dsimp only
    split_ifs <;> simp

/-- The function `parse_header` leaves the position alone and reports at most
the length of the slice as consumed. -/
theorem parse_header_position {E : Env} (C : Consumer) (p : git_packfile_parser_t E)
    (data : List Byte) :
    (parse_header C p data).2.2.position = p.position ∧
    (parse_header C p data).2.1 ≤ data.length := by
  unfold parse_header
  dsimp only
  split_ifs <;> simp

/-- The function `parse_trailer` leaves the position alone and reports at most
the length of the slice as consumed. -/
theorem parse_trailer_position {E : Env} (C : Consumer) (p : git_packfile_parser_t E)
    (data : List Byte) :
    (parse_trailer C p data).2.2.position = p.position ∧
    (parse_trailer C p data).2.1 ≤ data.length := by
  unfold parse_trailer
  dsimp only
  split_ifs <;> simp

/-- One iteration of the driver loop that returns 0 advances the position by
the number of bytes it reports as consumed, which is at most the length of the
slice. -/
theorem parse_iteration_position {E : Env} (C : Consumer) (fuel : Nat)
    (p : git_packfile_parser_t E) (data : List Byte)
    (x : Int × Nat × git_packfile_parser_t E)
    (hx : parse_iteration C fuel p data = some x) (hne : data ≠ []) (h0 : x.1 = 0) :
    x.2.2.position = p.position + x.2.1 ∧ x.2.1 ≤ data.length := by
  by_cases hstuck : p.state = STATE_FAILED ∨ p.state = STATE_COMPLETE
  · rw [parse_iteration_stuck C fuel p data hstuck] at hx
    cases hx
    simp at h0
  · have h1 : p.state ≠ STATE_COMPLETE := fun h => hstuck (Or.inr h)
    have h2 : p.state ≠ STATE_FAILED := fun h => hstuck (Or.inl h)
    rw [parse_iteration_running C fuel p data h1 h2] at hx
    cases hd : dispatch C fuel p data with
    | none => rw [hd] at hx; cases hx
    | some r =>
      rw [hd] at hx
      simp only [Option.map_some', Option.some.injEq] at hx
      subst hx
      rw [parse_commit_fst] at h0
      rw [parse_commit_position, if_pos h0, parse_commit_consumed _ _ _ h0]
      suffices h : r.2.2.position = p.position ∧ r.2.1 ≤ data.length by
        rw [h.1]; exact ⟨rfl, h.2⟩
      unfold dispatch at hd
      cases hs : p.state with
      | STATE_COMPLETE => exact absurd hs h1
      | STATE_FAILED => exact absurd hs h2
      | STATE_HEADER =>
        rw [hs] at hd
        simp only [Option.some.injEq] at hd
        subst hd
        exact parse_header_position C p data
      | STATE_TRAILER =>
        rw [hs] at hd
        simp only [Option.some.injEq] at hd
        subst hd
        exact parse_trailer_position C p data
      | STATE_OBJECT_HEADER_START =>
        rw [hs] at hd
        simp only [Option.some.injEq] at hd
        subst hd
        obtain ⟨hf, -, -, hk⟩ := parse_object_header_loop_summary C data p 0 _ rfl
          (Or.inl hs) (fun _ => hne)
        obtain ⟨k, hk1, -, hk2, -⟩ := hk h0
        refine ⟨hf.1, ?_⟩
        show (parse_object_header_loop C p data 0).2.1 ≤ _
        omega
      | STATE_OBJECT_HEADER =>
        rw [hs] at hd
        simp only [Option.some.injEq] at hd
        subst hd
        obtain ⟨hf, -, -, hk⟩ := parse_object_header_loop_summary C data p 0 _ rfl
          (Or.inr hs) (fun h => by rw [hs] at h; cases h)
        obtain ⟨k, hk1, -, hk2, -⟩ := hk h0
        refine ⟨hf.1, ?_⟩
        show (parse_object_header_loop C p data 0).2.1 ≤ _
        omega
      | STATE_DELTA_HEADER =>
        rw [hs] at hd
        simp only [Option.some.injEq] at hd
        subst hd
        obtain ⟨hf, -, -, hk⟩ := parse_delta_header_summary C p data _ rfl
        obtain ⟨k, hk1, hk2, -⟩ := hk h0
        exact ⟨hf.1, by omega⟩
      | STATE_OBJECT_DATA_START =>
        rw [hs] at hd
        dsimp only at hd
        obtain ⟨hf, k, ds, hk1, -, -, -, hk⟩ := parse_object_data_summary C fuel p data r hd
          (Or.inl hs)
        exact ⟨hf.1, by rw [(hk h0).1]; exact hk1⟩
      | STATE_OBJECT_DATA =>
        rw [hs] at hd
        dsimp only at hd
        obtain ⟨hf, k, ds, hk1, -, -, -, hk⟩ := parse_object_data_summary C fuel p data r hd
          (Or.inr hs)
        exact ⟨hf.1, by rw [(hk h0).1]; exact hk1⟩
      | STATE_DELTA_DATA_START =>
        rw [hs] at hd
        simp only [Option.some.injEq] at hd
        subst hd
        obtain ⟨hf, k, ds, hk1, -, -, -, hk⟩ := parse_delta_data_summary C p data _ rfl
          (Or.inl hs)
        exact ⟨hf.1, by rw [(hk h0).1]; exact hk1⟩
      | STATE_DELTA_DATA =>
        rw [hs] at hd
        simp only [Option.some.injEq] at hd
        subst hd
        obtain ⟨hf, k, ds, hk1, -, -, -, hk⟩ := parse_delta_data_summary C p data _ rfl
          (Or.inr hs)
        exact ⟨hf.1, by rw [(hk h0).1]; exact hk1⟩

/-- A feed that returns 0 has advanced the position by the length of the
slice. -/
theorem parse_position {E : Env} (C : Consumer) :
    ∀ (fuel : Nat) (p q : git_packfile_parser_t E) (data : List Byte),
      git_packfile_parser_parse C fuel p data = some (0, q) →
      q.position = p.position + data.length := by
  intro fuel
  induction fuel with
  | zero =>
    intro p q data h
    by_cases hd : data = []
    · subst hd
      simp only [parse_nil, Option.some.injEq, Prod.mk.injEq] at h
      rw [← h.2]; simp
    · rw [parse_zero C p data hd] at h; cases h
  | succ fuel ih =>
    intro p q data h
    by_cases hd : data = []
    · subst hd
      simp only [parse_nil, Option.some.injEq, Prod.mk.injEq] at h
      rw [← h.2]; simp
    · cases hit : parse_iteration C fuel p data with
      | none => rw [parse_succ C fuel p data hd, hit] at h; simp at h
      | some x =>
        by_cases hx : x.1 = 0
        · rw [parse_of_iteration_ok C fuel p data hd x hit hx] at h
          obtain ⟨h1, h2⟩ := parse_iteration_position C fuel p data x hit hd hx
          rw [ih _ _ _ h, h1, List.length_drop]
          omega
        · rw [parse_of_iteration_error C fuel p data hd x hit hx] at h
          simp only [Option.some.injEq, Prod.mk.injEq] at h
          exact absurd h.1 hx

/-- Feeds that all return 0 have advanced the position by the total length of
the slices. -/
theorem feed_all_position {E : Env} (C : Consumer) (fuel : Nat) :
    ∀ (chunks : List (List Byte)) (p q : git_packfile_parser_t E) (rets : List Int),
      feed_all C fuel p chunks = some (rets, q) → (∀ r ∈ rets, r = 0) →
      q.position = p.position + chunks.flatten.length := by
  intro chunks
  induction chunks with
  | nil =>
    intro p q rets h _
    simp only [feed_all, Option.some.injEq, Prod.mk.injEq] at h
    rw [← h.2]; simp
  | cons c cs ih =>
    intro p q rets h hz
    rw [feed_all_cons] at h
    cases hp : git_packfile_parser_parse C fuel p c with
    | none => rw [hp] at h; simp at h
    | some x =>
      obtain ⟨r1, p1⟩ := x
      rw [hp] at h
      dsimp only at h
      cases hf : feed_all C fuel p1 cs with
      | none => rw [hf] at h; simp at h
      | some y =>
        obtain ⟨rs, q1⟩ := y
        rw [hf] at h
        simp only [Option.some.injEq, Prod.mk.injEq] at h
        obtain ⟨rfl, rfl⟩ := h
        have hr1 : r1 = 0 := hz r1 (List.mem_cons_self _ _)
        subst hr1
        rw [ih p1 q1 rs hf (fun r hr => hz r (List.mem_cons_of_mem _ hr)),
          parse_position C fuel p p1 c hp, List.flatten_cons, List.length_append]
        omega

/-- C21. Position accounting: whatever the parser (its state included), the
consumer and the slice, a feed that returns 0 has increased the absolute
position by exactly the length of the slice; hence after feeds that all
returned 0 the position has increased by the total number of bytes fed, and
for a fresh parser it equals that number. -/
theorem position_accounting {E : Env} (C : Consumer) (fuel : Nat) :
    (∀ (p q : git_packfile_parser_t E) (data : List Byte),
      git_packfile_parser_parse C fuel p data = some (0, q) →
      q.position = p.position + data.length) ∧
    (∀ (p q : git_packfile_parser_t E) (chunks : List (List Byte)) (rets : List Int),
      feed_all C fuel p chunks = some (rets, q) → (∀ r ∈ rets, r = 0) →
      q.position = p.position + chunks.flatten.length) ∧
    (∀ (q : git_packfile_parser_t E) (chunks : List (List Byte)) (rets : List Int),
      feed_all C fuel (git_packfile_parser_init E) chunks = some (rets, q) →
      (∀ r ∈ rets, r = 0) → q.position = chunks.flatten.length) := by
  refine ⟨parse_position C fuel, fun p q chunks rets h hz =>
    feed_all_position C fuel chunks p q rets h hz, fun q chunks rets h hz => ?_⟩
  rw [feed_all_position C fuel chunks _ q rets h hz]
  simp [git_packfile_parser_init]

/-- Witness for C21: the one-blob pack fed in one slice. -/
theorem position_accounting_witness :
    feed_all all_callbacks 10 (git_packfile_parser_init stored_env) [blob_pack]
      = some ([0], blob_done) ∧
    (∀ r ∈ ([0] : List Int), r = 0) ∧
    blob_done.position = [blob_pack].flatten.length :=
  ⟨rfl, by decide,
    (position_accounting all_callbacks 10).2.2 blob_done [blob_pack] [0] rfl (by decide)⟩

/-- Feeding slices to a fresh parser leaves a parser the run has reached. -/
theorem feed_all_reached {E : Env} (C : Consumer) (fuel : Nat) (chunks : List (List Byte))
    (rets : List Int) (q : git_packfile_parser_t E)
    (h : feed_all C fuel (git_packfile_parser_init E) chunks = some (rets, q)) :
    ∃ k, reached C (chunks.flatten.take k) q ∧
      ((∀ r ∈ rets, r = 0) → chunks.flatten.take k = chunks.flatten) := by
  have := feed_all_preserves C (fun S p => reached C S p)
    (fun fuel S p data x hI hne hx =>
      ⟨x.2.1, reached.step fuel S p data x hI hne hx, fun _ => rfl⟩)
    fuel chunks [] _ q rets reached.init h
  simpa using this

/-- A parser the run has reached satisfies the invariant of the driver loop
unless it has failed. -/
theorem reached_inv {E : Env} (C : Consumer) (S : List Byte) (p : git_packfile_parser_t E)
    (h : reached C S p) : p.state ≠ STATE_FAILED → Inv C S p := by
  induction h with
  | init => intro _; exact inv_init C
  | step fuel S p data x _ hne hx ih =>
    intro hnf
    by_cases hstuck : p.state = STATE_FAILED ∨ p.state = STATE_COMPLETE
    · rw [parse_iteration_stuck C fuel p data hstuck] at hx
      cases hx
      simpa using ih hnf
    · have hpf : p.state ≠ STATE_FAILED := fun h => hstuck (Or.inl h)
      obtain ⟨k, hk, hk0⟩ := iteration_inv C fuel S p data x (ih hpf) hne hx
      have hx0 : x.1 = 0 := by
        by_contra hx0
        have h1 : p.state ≠ STATE_COMPLETE := fun h => hstuck (Or.inr h)
        rw [parse_iteration_running C fuel p data h1 hpf] at hx
        cases hd : dispatch C fuel p data with
        | none => rw [hd] at hx; cases hx
        | some r =>
          rw [hd] at hx
          simp only [Option.map_some', Option.some.injEq] at hx
          subst hx
          rw [parse_commit_fst] at hx0
          rw [parse_commit_state, if_neg hx0] at hnf
          exact hnf rfl
      rw [← hk0 hx0]
      exact hk

/-- The function `parse_delta_header` leaves the kind of the entry alone. -/
theorem parse_delta_header_current_type {E : Env} (C : Consumer)
    (p : git_packfile_parser_t E) (data : List Byte) :
    (parse_delta_header C p data).2.2.current_type = p.current_type := by
  have hl : ∀ (data : List Byte) (p : git_packfile_parser_t E) (n : Nat),
      (parse_ofs_delta_loop C p data n).2.2.current_type = p.current_type := by
    intro data
    induction data with
    | nil => intro p n; rfl
    | cons c rest ih =>
      intro p n
      unfold parse_ofs_delta_loop
      dsimp only
      split_ifs
      · simp
      · simp
      · rw [ih]; simp
  unfold parse_delta_header
  dsimp only
  split_ifs
  all_goals first
    | exact hl data p 0
    | simp

/-- When the loop of `parse_object_header` ends in `STATE_DELTA_HEADER` the kind
of the entry is one of the two delta kinds, provided this was so before. -/
theorem parse_object_header_loop_delta_kind {E : Env} (C : Consumer) :
    ∀ (data : List Byte) (p : git_packfile_parser_t E) (n : Nat),
      (p.state = STATE_DELTA_HEADER → is_delta p.current_type = true) →
      (parse_object_header_loop C p data n).2.2.state = STATE_DELTA_HEADER →
      is_delta (parse_object_header_loop C p data n).2.2.current_type = true := by
  intro data
  induction data with
  | nil => intro p n hp h; exact hp h
  | cons c rest ih =>
    intro p n hp
    unfold parse_object_header_loop
    by_cases hlt : p.state.toNat < STATE_OBJECT_DATA_START.toNat
    · rw [if_pos hlt]
      dsimp only
      have hs2 : (object_header_byte p c).state ≠ STATE_DELTA_HEADER := by
        unfold object_header_byte
        dsimp only
        split_ifs
        · simp
        · intro h
          simp only at h
          rw [h] at hlt
          simp [parser_state.toNat] at hlt
      split_ifs with h1 h2 h3
      · exact ih _ _ (fun _ => by unfold begin_delta_header; exact h1.2)
      · intro h
        exfalso
        apply hs2
        simpa [seed_object_hash] using h
      · exact ih _ _ (fun h => by cases h)
      · exact ih _ _ (fun h => absurd h hs2)
    · rw [if_neg hlt]
      exact hp

/-- One iteration of the driver loop keeps the kind of the entry a delta kind
in `STATE_DELTA_HEADER`. -/
theorem delta_kind_iteration {E : Env} (C : Consumer) (fuel : Nat)
    (p : git_packfile_parser_t E) (data : List Byte)
    (x : Int × Nat × git_packfile_parser_t E)
    (hp : p.state = STATE_DELTA_HEADER → is_delta p.current_type = true)
    (hx : parse_iteration C fuel p data = some x) :
    x.2.2.state = STATE_DELTA_HEADER → is_delta x.2.2.current_type = true := by
  by_cases hstuck : p.state = STATE_FAILED ∨ p.state = STATE_COMPLETE
  · rw [parse_iteration_stuck C fuel p data hstuck] at hx
    cases hx
    exact hp
  · have h1 : p.state ≠ STATE_COMPLETE := fun h => hstuck (Or.inr h)
    have h2 : p.state ≠ STATE_FAILED := fun h => hstuck (Or.inl h)
    rw [parse_iteration_running C fuel p data h1 h2] at hx
    cases hd : dispatch C fuel p data with
    | none => rw [hd] at hx; cases hx
    | some r =>
      rw [hd] at hx
      simp only [Option.map_some', Option.some.injEq] at hx
      subst hx
      rw [parse_commit_state, parse_commit_current_type]
      by_cases h0 : r.1 = 0
      swap
      · rw [if_neg h0]; intro h; cases h
      rw [if_pos h0]
      unfold dispatch at hd
      cases hs : p.state with
      | STATE_COMPLETE => exact absurd hs h1
      | STATE_FAILED => exact absurd hs h2
      | STATE_HEADER =>
        rw [hs] at hd
        simp only [Option.some.injEq] at hd
        subst hd
        intro h
        rcases (parse_header_neutral C p data).2 with g | g | g <;>
          (rw [h] at g; first | (rw [hs] at g; cases g) | cases g)
      | STATE_TRAILER =>
        rw [hs] at hd
        simp only [Option.some.injEq] at hd
        subst hd
        intro h
        rcases (parse_trailer_neutral C p data).2 with g | g <;>
          (rw [h] at g; first | (rw [hs] at g; cases g) | cases g)
      | STATE_DELTA_DATA_START =>
        rw [hs] at hd
        simp only [Option.some.injEq] at hd
        subst hd
        intro h
        rcases (parse_delta_data_neutral C p data).2 with g | g | g | g <;>
          (rw [h] at g; first | (rw [hs] at g; cases g) | cases g)
      | STATE_DELTA_DATA =>
        rw [hs] at hd
        simp only [Option.some.injEq] at hd
        subst hd
        intro h
        rcases (parse_delta_data_neutral C p data).2 with g | g | g | g <;>
          (rw [h] at g; first | (rw [hs] at g; cases g) | cases g)
      | STATE_DELTA_HEADER =>
        rw [hs] at hd
        simp only [Option.some.injEq] at hd
        subst hd
        intro _
        rw [parse_delta_header_current_type]
        exact hp hs
      | STATE_OBJECT_HEADER_START =>
        rw [hs] at hd
        simp only [Option.some.injEq] at hd
        subst hd
        exact parse_object_header_loop_delta_kind C data p 0 hp
      | STATE_OBJECT_HEADER =>
        rw [hs] at hd
        simp only [Option.some.injEq] at hd
        subst hd
        exact parse_object_header_loop_delta_kind C data p 0 hp
      | STATE_OBJECT_DATA_START =>
        rw [hs] at hd
        dsimp only at hd
        obtain ⟨-, k, ds, -, -, -, -, hk⟩ := parse_object_data_summary C fuel p data r hd
          (Or.inl hs)
        intro h
        rcases (hk h0).2.2.2 with g | g
        · rw [h] at g; cases g.1
        · rw [h] at g
          have := g.2.1
          split_ifs at this
      | STATE_OBJECT_DATA =>
        rw [hs] at hd
        dsimp only at hd
        obtain ⟨-, k, ds, -, -, -, -, hk⟩ := parse_object_data_summary C fuel p data r hd
          (Or.inr hs)
        intro h
        rcases (hk h0).2.2.2 with g | g
        · rw [h] at g; cases g.1
        · rw [h] at g
          have := g.2.1
          split_ifs at this

/-- In a parser the run has reached, `STATE_DELTA_HEADER` goes with a delta
kind. -/
theorem reached_delta_kind {E : Env} (C : Consumer) (S : List Byte)
    (p : git_packfile_parser_t E) (h : reached C S p) :
    p.state = STATE_DELTA_HEADER → is_delta p.current_type = true := by
  induction h with
  | init => intro h; cases h
  | step fuel S p data x _ _ hx ih => exact delta_kind_iteration C fuel p data x ih hx

/-- The two kinds `is_delta` holds of. -/
theorem is_delta_iff (type : Nat) :
    is_delta type = true ↔ type = GIT_OBJECT_OFS_DELTA ∨ type = GIT_OBJECT_REF_DELTA := by
  simp [is_delta]

/-- C28. The invalid-delta-type branch is unreachable: in every parser a run
from a fresh parser passes through (at the top of any iteration of the driver
loop, and after any sequence of feeds), whenever the state is
`STATE_DELTA_HEADER` the current kind is `GIT_OBJECT_OFS_DELTA` or
`GIT_OBJECT_REF_DELTA`, so that `parse_delta_header`, which the driver calls in
that state only, takes one of its first two cases and never the `default`
case. -/
theorem delta_header_kind {E : Env} (C : Consumer) :
    (∀ (S : List Byte) (p : git_packfile_parser_t E), reached C S p →
      p.state = STATE_DELTA_HEADER →
      p.current_type = GIT_OBJECT_OFS_DELTA ∨ p.current_type = GIT_OBJECT_REF_DELTA) ∧
    (∀ (fuel : Nat) (chunks : List (List Byte)) (rets : List Int)
      (q : git_packfile_parser_t E),
      feed_all C fuel (git_packfile_parser_init E) chunks = some (rets, q) →
      q.state = STATE_DELTA_HEADER →
      q.current_type = GIT_OBJECT_OFS_DELTA ∨ q.current_type = GIT_OBJECT_REF_DELTA) := by
  constructor
  · intro S p h hs
    exact (is_delta_iff _).mp (reached_delta_kind C S p h hs)
  · intro fuel chunks rets q h hs
    obtain ⟨k, hk, -⟩ := feed_all_reached C fuel chunks rets q h
    exact (is_delta_iff _).mp (reached_delta_kind C _ q hk hs)

/-- Witness for C28: the one-delta pack fed up to the first byte of the base
name leaves the parser in `STATE_DELTA_HEADER` with kind 7. -/
theorem delta_header_kind_witness :
    feed_all all_callbacks 10 (git_packfile_parser_init stored_env)
      [ref_delta_pack.take 14] = some ([0], ref_delta_staged) ∧
    ref_delta_staged.state = STATE_DELTA_HEADER ∧
    (ref_delta_staged.current_type = GIT_OBJECT_OFS_DELTA ∨
      ref_delta_staged.current_type = GIT_OBJECT_REF_DELTA) :=
  ⟨rfl, by decide,
    (delta_header_kind all_callbacks).2 10 [ref_delta_pack.take 14] [0] ref_delta_staged
      rfl (by decide)⟩

/-- C29. `STATE_FAILED` is terminal: for a parser in `STATE_FAILED`, whatever
the consumer and the slice, a feed returns (0 for the empty slice, -1 otherwise)
and leaves the parser as it was, field for field: the state is still
`STATE_FAILED`, no callback was invoked (the trace is the same), and the
position, the whole-stream hash and every per-object field are unchanged.  The
same holds of any sequence of feeds. -/
theorem failed_is_terminal {E : Env} (C : Consumer) (fuel : Nat)
    (p : git_packfile_parser_t E) (hp : p.state = STATE_FAILED) :
    (∀ data : List Byte, git_packfile_parser_parse C (fuel + 1) p data =
      some (if data = [] then 0 else -1, p)) ∧
    (∀ slices : List (List Byte), feed_all C (fuel + 1) p slices =
      some (slices.map (fun s => if s = [] then 0 else -1), p)) :=
  ⟨fun data => parse_stuck C fuel p data (Or.inl hp),
    fun slices => feed_all_stuck C fuel p (Or.inl hp) slices⟩

/-- Witness for C29: the parser left by a header with a wrong signature. -/
theorem failed_is_terminal_witness :
    rejected_state.state = STATE_FAILED ∧
    git_packfile_parser_parse all_callbacks 1 rejected_state [80, 65] =
      some (-1, rejected_state) :=
  ⟨rfl, (failed_is_terminal all_callbacks 0 rejected_state rfl).1 [80, 65]⟩

/-- A callback of a consumer without callbacks is skipped. -/
theorem invoke_no_callbacks {E : Env} (p : git_packfile_parser_t E) (e : Event) :
    invoke no_callbacks p e = (0, p) := by
  simp [invoke, no_callbacks]

/-- A callback that returns 0 whenever it is invoked only extends the trace. -/
theorem invoke_silent {E : Env} (C : Consumer) (hz : ∀ t e, C.ret t e = 0)
    (p : git_packfile_parser_t E) (e : Event) :
    invoke C p e = (0, { p with trace := emit C p.trace e }) := by
  unfold invoke emit
  by_cases h : C.present e.kind = true
  · simp [h, hz]
  · simp [h]

/-- The function `parse_header` does the same with and without callbacks that
return 0, the trace apart. -/
theorem parse_header_forget {E : Env} (C : Consumer) (hz : ∀ t e, C.ret t e = 0)
    (p : git_packfile_parser_t E) (data : List Byte) :
    forget_result (parse_header C p data) =
      parse_header no_callbacks (forget_trace p) data := by
  unfold parse_header
  simp only [invoke_silent C hz, invoke_no_callbacks, ne_eq, not_true_eq_false, if_false]
  dsimp only [forget_result, forget_trace, stage_header, hdr_signature, hdr_version,
    hdr_entries]
  split_ifs <;> rfl

/-- The function `parse_trailer` does the same with and without callbacks that
return 0, the trace apart. -/
theorem parse_trailer_forget {E : Env} (C : Consumer) (hz : ∀ t e, C.ret t e = 0)
    (p : git_packfile_parser_t E) (data : List Byte) :
    forget_result (parse_trailer C p data) =
      parse_trailer no_callbacks (forget_trace p) data := by
  unfold parse_trailer
  simp only [invoke_silent C hz, invoke_no_callbacks, ne_eq, not_true_eq_false, if_false]
  dsimp only [forget_result, forget_trace, stage_trailer]
  split_ifs <;> rfl

/-- The function `parse_delta_data` does the same with and without callbacks
that return 0, the trace apart. -/
theorem parse_delta_data_forget {E : Env} (C : Consumer) (hz : ∀ t e, C.ret t e = 0)
    (p : git_packfile_parser_t E) (data : List Byte) :
    forget_result (parse_delta_data C p data) =
      parse_delta_data no_callbacks (forget_trace p) data := by
  unfold parse_delta_data
  simp only [invoke_silent C hz, invoke_no_callbacks, ne_eq, not_true_eq_false, if_false]
  have h1 : (offer_input STATE_DELTA_DATA_START STATE_DELTA_DATA (forget_trace p) data)
      = forget_trace (offer_input STATE_DELTA_DATA_START STATE_DELTA_DATA p data) := by
    unfold offer_input forget_trace
    dsimp only
    split_ifs <;> rfl
  rw [h1]
  have h2 : (forget_trace (offer_input STATE_DELTA_DATA_START STATE_DELTA_DATA p data)).zstream
      = (offer_input STATE_DELTA_DATA_START STATE_DELTA_DATA p data).zstream := rfl
  rw [h2]
  cases hz : git_zstream_get_output_chunk
      (offer_input STATE_DELTA_DATA_START STATE_DELTA_DATA p data).zstream READ_CHUNK_SIZE with
  | none => rfl
  | some x =>
    obtain ⟨zs, inflated⟩ := x
    dsimp only [forget_result, forget_trace, account_input, store_zstream, next_entry,
      delta_complete_event, git_zstream_eos, hdr_entries]
    split_ifs <;> rfl

/-- The loop of `parse_object_header` does the same with and without callbacks
that return 0, the trace apart. -/
theorem parse_object_header_loop_forget {E : Env} (C : Consumer)
    (hz : ∀ t e, C.ret t e = 0) :
    ∀ (data : List Byte) (p : git_packfile_parser_t E) (n : Nat),
      forget_result (parse_object_header_loop C p data n) =
        parse_object_header_loop no_callbacks (forget_trace p) data n := by
  intro data
  induction data with
  | nil => intro p n; rfl
  | cons c rest ih =>
    intro p n
    have hb : object_header_byte (forget_trace p) c = forget_trace (object_header_byte p c) := by
      unfold object_header_byte forget_trace
      dsimp only
      split_ifs <;> rfl
    unfold parse_object_header_loop
    simp only [invoke_silent C hz, invoke_no_callbacks, ne_eq, not_true_eq_false, if_false]
    rw [hb]
    have hst : (forget_trace p).state = p.state := rfl
    have hty : (forget_trace (object_header_byte p c)).current_type
        = (object_header_byte p c).current_type := rfl
    rw [hst, hty]
    split_ifs
    all_goals first | rfl | (rw [ih]; done) | (rw [ih]; rfl)

/-- The offset loop of `parse_delta_header` does the same with and without
callbacks that return 0, the trace apart. -/
theorem parse_ofs_delta_loop_forget {E : Env} (C : Consumer)
    (hz : ∀ t e, C.ret t e = 0) :
    ∀ (data : List Byte) (p : git_packfile_parser_t E) (n : Nat),
      forget_result (parse_ofs_delta_loop C p data n) =
        parse_ofs_delta_loop no_callbacks (forget_trace p) data n := by
  intro data
  induction data with
  | nil => intro p n; rfl
  | cons c rest ih =>
    intro p n
    unfold parse_ofs_delta_loop
    simp only [invoke_silent C hz, invoke_no_callbacks, ne_eq, not_true_eq_false, if_false]
    have hb : ofs_delta_byte (forget_trace p) c = forget_trace (ofs_delta_byte p c) := rfl
    rw [hb]
    split_ifs
    all_goals first | rfl | rw [ih]

/-- The function `parse_delta_header` does the same with and without callbacks
that return 0, the trace apart. -/
theorem parse_delta_header_forget {E : Env} (C : Consumer) (hz : ∀ t e, C.ret t e = 0)
    (p : git_packfile_parser_t E) (data : List Byte) :
    forget_result (parse_delta_header C p data) =
      parse_delta_header no_callbacks (forget_trace p) data := by
  unfold parse_delta_header
  simp only [invoke_silent C hz, invoke_no_callbacks, ne_eq, not_true_eq_false, if_false]
  have hty : (forget_trace p).current_type = p.current_type := rfl
  rw [hty]
  by_cases h1 : p.current_type = GIT_OBJECT_OFS_DELTA
  · rw [if_pos h1, if_pos h1]
    exact parse_ofs_delta_loop_forget C hz data p 0
  · rw [if_neg h1, if_neg h1]
    dsimp only [forget_result, forget_trace, stage_base, delta_start_event]
    split_ifs <;> rfl

/-- The draining loop of `parse_object_data` does the same with and without
callbacks that return 0, the trace apart. -/
theorem parse_object_data_loop_forget {E : Env} (C : Consumer)
    (hz : ∀ t e, C.ret t e = 0) :
    ∀ (fuel : Nat) (p : git_packfile_parser_t E),
      (parse_object_data_loop C fuel p).map (fun x => (x.1, forget_trace x.2)) =
        parse_object_data_loop no_callbacks fuel (forget_trace p) := by
  intro fuel
  induction fuel with
  | zero => intro p; rfl
  | succ fuel ih =>
    intro p
    unfold parse_object_data_loop
    simp only [invoke_silent C hz, invoke_no_callbacks, ne_eq, not_true_eq_false, if_false]
    have hzs : (forget_trace p).zstream = p.zstream := rfl
    rw [hzs]
    cases hc : git_zstream_get_output_chunk p.zstream READ_CHUNK_SIZE with
    | none => rfl
    | some x =>
      obtain ⟨zs, inflated⟩ := x
      dsimp only
      split_ifs
      · rw [ih]; rfl
      · rfl

/-- The function `parse_object_data` does the same with and without callbacks
that return 0, the trace apart. -/
theorem parse_object_data_forget {E : Env} (C : Consumer) (hz : ∀ t e, C.ret t e = 0)
    (fuel : Nat) (p : git_packfile_parser_t E) (data : List Byte) :
    (parse_object_data C fuel p data).map forget_result =
      parse_object_data no_callbacks fuel (forget_trace p) data := by
  unfold parse_object_data
  simp only [invoke_silent C hz, invoke_no_callbacks, ne_eq, not_true_eq_false, if_false]
  have h1 : (offer_input STATE_OBJECT_DATA_START STATE_OBJECT_DATA (forget_trace p) data)
      = forget_trace (offer_input STATE_OBJECT_DATA_START STATE_OBJECT_DATA p data) := by
    unfold offer_input forget_trace
    dsimp only
    split_ifs <;> rfl
  rw [h1, ← parse_object_data_loop_forget C hz]
  cases hl : parse_object_data_loop C fuel
      (offer_input STATE_OBJECT_DATA_START STATE_OBJECT_DATA p data) with
  | none => rfl
  | some x =>
    obtain ⟨err, p2⟩ := x
    dsimp only [Option.map_some', forget_result, forget_trace, account_input, next_entry,
      object_complete_event, git_zstream_eos, hdr_entries]
    split_ifs <;> rfl

/-- The tail of the loop body does the same whatever the trace is. -/
theorem parse_commit_forget {E : Env} (s : parser_state) (data : List Byte)
    (r : Int × Nat × git_packfile_parser_t E) :
    forget_result (parse_commit s data r) = parse_commit s data (forget_result r) := by
  unfold parse_commit
  dsimp only [forget_result, forget_trace]
  split_ifs <;> rfl

/-- One iteration of the driver loop does the same with and without callbacks
that return 0, the trace apart. -/
theorem parse_iteration_forget {E : Env} (C : Consumer) (hz : ∀ t e, C.ret t e = 0)
    (fuel : Nat) (p : git_packfile_parser_t E) (data : List Byte) :
    (parse_iteration C fuel p data).map forget_result =
      parse_iteration no_callbacks fuel (forget_trace p) data := by
  have hd : (dispatch C fuel p data).map forget_result =
      dispatch no_callbacks fuel (forget_trace p) data := by
    unfold dispatch
    have hst : (forget_trace p).state = p.state := rfl
    rw [hst]
    cases p.state
    all_goals dsimp only [Option.map_some']
    all_goals first
      | rfl
      | exact congrArg some (parse_header_forget C hz p data)
      | exact congrArg some (parse_object_header_loop_forget C hz data p 0)
      | exact congrArg some (parse_delta_header_forget C hz p data)
      | exact congrArg some (parse_delta_data_forget C hz p data)
      | exact congrArg some (parse_trailer_forget C hz p data)
      | exact parse_object_data_forget C hz fuel p data
  unfold parse_iteration
  have hst : (forget_trace p).state = p.state := rfl
  rw [hst, ← hd]
  split_ifs
  · rfl
  · rfl
  · cases dispatch C fuel p data with
    | none => rfl
    | some r =>
      dsimp only [Option.map_some']
      rw [parse_commit_forget]

/-- A feed does the same with and without callbacks that return 0, the trace
apart. -/
theorem parse_forget {E : Env} (C : Consumer) (hz : ∀ t e, C.ret t e = 0) :
    ∀ (fuel : Nat) (p : git_packfile_parser_t E) (data : List Byte),
      (git_packfile_parser_parse C fuel p data).map (fun x => (x.1, forget_trace x.2)) =
        git_packfile_parser_parse no_callbacks fuel (forget_trace p) data := by
  intro fuel
  induction fuel with
  | zero =>
    intro p data
    cases data <;> rfl
  | succ fuel ih =>
    intro p data
    by_cases hd : data = []
    · subst hd; rfl
    · rw [parse_succ C fuel p data hd, parse_succ no_callbacks fuel _ data hd,
        ← parse_iteration_forget C hz]
      cases parse_iteration C fuel p data with
      | none => rfl
      | some x =>
        obtain ⟨err, consumed, p1⟩ := x
        dsimp only [Option.map_some', forget_result]
        split_ifs
        · rfl
        · exact ih _ _

/-- A sequence of feeds does the same with and without callbacks that return
0, the trace apart. -/
theorem feed_all_forget {E : Env} (C : Consumer) (hz : ∀ t e, C.ret t e = 0)
    (fuel : Nat) :
    ∀ (chunks : List (List Byte)) (p : git_packfile_parser_t E),
      (feed_all C fuel p chunks).map (fun x => (x.1, forget_trace x.2)) =
        feed_all no_callbacks fuel (forget_trace p) chunks := by
  intro chunks
  induction chunks with
  | nil => intro p; rfl
  | cons c cs ih =>
    intro p
    rw [feed_all_cons, feed_all_cons, ← parse_forget C hz]
    cases git_packfile_parser_parse C fuel p c with
    | none => rfl
    | some x =>
      obtain ⟨r, p1⟩ := x
      dsimp only [Option.map_some']
      rw [← ih]
      cases feed_all C fuel p1 cs with
      | none => rfl
      | some y => rfl

/-- C22. Callbacks are optional: let `C` be a consumer whose callbacks always
return zero (in particular one with all eight callbacks present and returning
zero).  Then, for every number of loop iterations allowed, the parser without
callbacks and the parser with `C` go the same way: every iteration of the
driver loop, started from parsers that agree but for the recorded invocations,
returns the same error and the same consumed count and leaves parsers that
agree but for the recorded invocations; and for every sequence of slices fed to
a fresh parser the two runs return the same feed results and end in parsers
with the same state, position, compressed size and CRC (and every other field,
the recorded invocations apart). -/
theorem callbacks_optional {E : Env} (C : Consumer) (hz : ∀ t e, C.ret t e = 0)
    (fuel : Nat) :
    (∀ (p : git_packfile_parser_t E) (data : List Byte),
      parse_iteration no_callbacks fuel (forget_trace p) data =
        (parse_iteration C fuel p data).map forget_result) ∧
    (∀ chunks : List (List Byte),
      feed_all no_callbacks fuel (git_packfile_parser_init E) chunks =
        (feed_all C fuel (git_packfile_parser_init E) chunks).map
          (fun x => (x.1, forget_trace x.2))) ∧
    (∀ (chunks : List (List Byte)) (rets : List Int) (q : git_packfile_parser_t E),
      feed_all C fuel (git_packfile_parser_init E) chunks = some (rets, q) →
      ∃ q0, feed_all no_callbacks fuel (git_packfile_parser_init E) chunks = some (rets, q0) ∧
        q0.state = q.state ∧ q0.position = q.position ∧
        q0.current_compressed_size = q.current_compressed_size ∧
        q0.current_compressed_crc = q.current_compressed_crc) := by
  have hf : ∀ chunks : List (List Byte),
      feed_all no_callbacks fuel (git_packfile_parser_init E) chunks =
        (feed_all C fuel (git_packfile_parser_init E) chunks).map
          (fun x => (x.1, forget_trace x.2)) := fun chunks =>
    (feed_all_forget C hz fuel chunks (git_packfile_parser_init E)).symm
  refine ⟨fun p data => (parse_iteration_forget C hz fuel p data).symm, hf, ?_⟩
  intro chunks rets q h
  refine ⟨forget_trace q, ?_, rfl, rfl, rfl, rfl⟩
  rw [hf, h]
  rfl

/-- Witness for C22: the consumer with all eight callbacks present, each
returning zero, on the one-blob pack. -/
theorem callbacks_optional_witness :
    (∀ (t : List Event) (e : Event), all_callbacks.ret t e = 0) ∧
    feed_all no_callbacks 10 (git_packfile_parser_init stored_env) [blob_pack] =
      (feed_all all_callbacks 10 (git_packfile_parser_init stored_env) [blob_pack]).map
        (fun x => (x.1, forget_trace x.2)) :=
  ⟨fun _ _ => rfl,
    (callbacks_optional all_callbacks (fun _ _ => rfl) 10).2.1 [blob_pack]⟩

/-- C25 fails on the code when the base name of a `GIT_OBJECT_REF_DELTA` entry is
split between two calls.  After the one-delta pack was fed up to the first byte
of the base name, the parser is in `STATE_DELTA_HEADER` with one of the twenty
bytes staged; `parse_delta_header` called on the remaining 53 bytes returns 0
having consumed twenty of them, one more than the nineteen that were missing,
it leaves 21 bytes staged, invokes no `delta_start` and stays in
`STATE_DELTA_HEADER`. -/
theorem ref_delta_base_overrun :
    ref_delta_staged.state = STATE_DELTA_HEADER ∧
    ref_delta_staged.current_type = GIT_OBJECT_REF_DELTA ∧
    ref_delta_staged.current_base_len = 1 ∧
    stored_env.hash_size = 20 ∧
    (parse_delta_header all_callbacks ref_delta_staged (ref_delta_pack.drop 14)).1 = 0 ∧
    (parse_delta_header all_callbacks ref_delta_staged (ref_delta_pack.drop 14)).2.1 = 20 ∧
    (parse_delta_header all_callbacks ref_delta_staged
      (ref_delta_pack.drop 14)).2.2.current_base_len = 21 ∧
    (parse_delta_header all_callbacks ref_delta_staged
      (ref_delta_pack.drop 14)).2.2.current_base.length = 21 ∧
    (parse_delta_header all_callbacks ref_delta_staged
      (ref_delta_pack.drop 14)).2.2.state = STATE_DELTA_HEADER ∧
    (parse_delta_header all_callbacks ref_delta_staged
      (ref_delta_pack.drop 14)).2.2.trace = [Event.packfile_header 2 1] := by
  set_option maxRecDepth 4000 in
  decide

/-- C26 fails on the code when the trailer is split between two calls and a
byte follows it.  The empty pack with one more byte behind it, fed in one slice,
is parsed to `STATE_COMPLETE` with twenty trailer bytes staged and the feed
returns -1 for the extra byte; fed as the header with the first seven trailer
bytes and then the other thirteen trailer bytes with the extra byte, both feeds
return 0, the second one stages all fourteen bytes (21 in total, one more than
the width of the digest), and the parser stays in `STATE_TRAILER` at position
33. -/
theorem trailer_staging_overrun :
    (feed_all all_callbacks 10 (git_packfile_parser_init stored_env)
        [empty_pack_header ++ sum_digest empty_pack_header ++ [0]]).map
      (fun r => (r.1, r.2.state, r.2.trailer_len, r.2.trailer.length, r.2.position)) =
      some ([-1], STATE_COMPLETE, 20, 20, 32) ∧
    (feed_all all_callbacks 10 (git_packfile_parser_init stored_env)
        [empty_pack_header ++ (sum_digest empty_pack_header).take 7,
         (sum_digest empty_pack_header).drop 7 ++ [0]]).map
      (fun r => (r.1, r.2.state, r.2.trailer_len, r.2.trailer.length, r.2.position)) =
      some ([0, 0], STATE_TRAILER, 21, 21, 33) := by
  set_option maxRecDepth 4000 in
  decide

/-- One call of `parse_delta_data` adds at most one `delta_data` invocation to
the trace. -/
theorem parse_delta_data_one_chunk {E : Env} (C : Consumer) (p : git_packfile_parser_t E)
    (data : List Byte) :
    ((parse_delta_data C p data).2.2.trace.filter
        (fun e => e.kind == Callback.delta_data)).length ≤
      (p.trace.filter (fun e => e.kind == Callback.delta_data)).length + 1 := by
  have h0 : (offer_input STATE_DELTA_DATA_START STATE_DELTA_DATA p data).trace = p.trace :=
    offer_input_trace _ _ p data
  unfold parse_delta_data
  dsimp only
  cases hz : git_zstream_get_output_chunk
      (offer_input STATE_DELTA_DATA_START STATE_DELTA_DATA p data).zstream READ_CHUNK_SIZE with
  | none => dsimp only; rw [h0]; omega
  | some x =>
    obtain ⟨zs, inflated⟩ := x
    dsimp only
    have h1 : (invoke C (account_input (store_zstream
        (offer_input STATE_DELTA_DATA_START STATE_DELTA_DATA p data) zs) data)
        (Event.delta_data inflated)).2.trace = emit C p.trace (Event.delta_data inflated) := by
      rw [invoke_trace_emit]
      simp [h0]
    have h2 : ((emit C p.trace (Event.delta_data inflated)).filter
        (fun e => e.kind == Callback.delta_data)).length ≤
        (p.trace.filter (fun e => e.kind == Callback.delta_data)).length + 1 := by
      unfold emit
      split_ifs <;> simp [List.filter_append, Event.kind]
    split_ifs
    · dsimp only; rw [h1]; exact h2
    · dsimp only; rw [invoke_trace_emit, h1]
      unfold emit at h2 ⊢
      split_ifs at h2 ⊢ <;>
        simp [List.filter_append, Event.kind, delta_complete_event] at h2 ⊢
    · rw [next_entry_trace, invoke_trace_emit, h1]
      unfold emit at h2 ⊢
      split_ifs at h2 ⊢ <;>
        simp [List.filter_append, Event.kind, delta_complete_event] at h2 ⊢
    · dsimp only; rw [h1]; exact h2

/-- C30 fails on the code: `parse_delta_data` makes one pass of the decompressor
per call and updates the compressed size and the CRC before it invokes
`delta_data`, whereas `parse_object_data` drains until a pass produces nothing
and invokes `object_data` for every pass before it updates them.  Whatever the
environment, the consumer, the parser and the slice, one call of
`parse_delta_data` invokes `delta_data` at most once.  On the same compressed
payload, in one slice: the delta entry gets one `delta_data` invocation, the
blob entry two `object_data` invocations, the second one with the empty chunk
of the last pass; and when the data callback returns 7 the parser is left with
the payload counted in the compressed size of the delta entry (35 = 21 + 14)
and not counted in the one of the blob entry (1). -/
theorem delta_payload_drained_once :
    (∀ (E : Env) (C : Consumer) (p : git_packfile_parser_t E) (data : List Byte),
      ((parse_delta_data C p data).2.2.trace.filter
          (fun e => e.kind == Callback.delta_data)).length ≤
        (p.trace.filter (fun e => e.kind == Callback.delta_data)).length + 1) ∧
    (feed_all all_callbacks 10 (git_packfile_parser_init stored_env) [ref_delta_pack]).map
      (fun r => r.2.trace) =
      some [Event.packfile_header 2 1,
        Event.delta_start 12 7 21 0 (some (List.replicate 20 7)) 0,
        Event.delta_data [104, 105, 10],
        Event.delta_complete 35 2748163897,
        Event.packfile_complete (List.replicate 20 102) 20] ∧
    (feed_all all_callbacks 10 (git_packfile_parser_init stored_env) [blob_pack]).map
      (fun r => r.2.trace) =
      some [Event.packfile_header 2 1,
        Event.object_start 12 1 3 3,
        Event.object_data [104, 105, 10],
        Event.object_data [],
        Event.object_complete 15 3144681359 (List.replicate 20 205),
        Event.packfile_complete (List.replicate 20 157) 20] ∧
    (feed_all abort_on_data 10 (git_packfile_parser_init stored_env) [ref_delta_pack]).map
      (fun r => (r.1, r.2.current_compressed_size)) = some ([7], 35) ∧
    (feed_all abort_on_data 10 (git_packfile_parser_init stored_env) [blob_pack]).map
      (fun r => (r.1, r.2.current_compressed_size)) = some ([7], 1) := by
  refine ⟨fun E C p data => parse_delta_data_one_chunk C p data, ?_⟩
  set_option maxRecDepth 4000 in
  decide

/-- The per-byte updates of `parse_object_header` leave the position and the
whole-stream hash alone. -/
theorem object_header_bytes_frame {E : Env} :
    ∀ (cs : List Byte) (p : git_packfile_parser_t E),
      (cs.foldl object_header_byte p).position = p.position ∧
      (cs.foldl object_header_byte p).packfile_hash = p.packfile_hash := by
  intro cs
  induction cs with
  | nil => intro p; exact ⟨rfl, rfl⟩
  | cons c cs ih =>
    intro p
    simp only [List.foldl_cons]
    rw [(ih _).1, (ih _).2]
    simp

/-- No byte consumed: the parser is as it was. -/
theorem preamble_advance_nil {E : Env} (p : git_packfile_parser_t E) :
    preamble_advance p [] = p := by
  cases p
  simp [preamble_advance]

/-- In `STATE_OBJECT_HEADER` the per-byte update does not depend on the position
and on the whole-stream hash. -/
theorem object_header_byte_frame {E : Env} (r : git_packfile_parser_t E) (c : Byte)
    (h : List Byte) (x : Nat) (hs : r.state = STATE_OBJECT_HEADER) :
    object_header_byte { r with packfile_hash := h, position := x } c =
      { object_header_byte r c with packfile_hash := h, position := x } := by
  unfold object_header_byte
  simp [hs]

/-- In `STATE_OBJECT_HEADER` the per-byte updates do not depend on the position
and on the whole-stream hash. -/
theorem object_header_fold_frame {E : Env} :
    ∀ (cs : List Byte) (r : git_packfile_parser_t E) (h : List Byte) (x : Nat),
      r.state = STATE_OBJECT_HEADER →
      cs.foldl object_header_byte { r with packfile_hash := h, position := x } =
        { cs.foldl object_header_byte r with packfile_hash := h, position := x } := by
  intro cs
  induction cs with
  | nil => intro r h x _; rfl
  | cons c cs ih =>
    intro r h x hs
    simp only [List.foldl_cons]
    rw [object_header_byte_frame r c h x hs,
      ih _ h x (object_header_byte_state r c (Or.inr hs))]

/-- The state after bytes of a type/size prefix none of which is the
terminator. -/
theorem preamble_advance_state {E : Env} (p : git_packfile_parser_t E) (bs : List Byte)
    (hp : p.state = STATE_OBJECT_HEADER_START ∨ p.state = STATE_OBJECT_HEADER) :
    (preamble_advance p bs).state = (if bs = [] then p.state else STATE_OBJECT_HEADER) := by
  cases bs with
  | nil => rw [preamble_advance_nil]; simp
  | cons c cs =>
    rw [if_neg (by simp)]
    show ((c :: cs).foldl object_header_byte p).state = _
    simp only [List.foldl_cons]
    exact (object_header_bytes_fold cs _ (object_header_byte_state p c hp)).1

/-- Bytes consumed in two runs are bytes consumed in one. -/
theorem preamble_advance_append {E : Env} (p : git_packfile_parser_t E) (a b : List Byte)
    (hp : p.state = STATE_OBJECT_HEADER_START ∨ p.state = STATE_OBJECT_HEADER) :
    preamble_advance (preamble_advance p a) b = preamble_advance p (a ++ b) := by
  cases a with
  | nil => rw [preamble_advance_nil]; rfl
  | cons c cs =>
    have hs : ((c :: cs).foldl object_header_byte p).state = STATE_OBJECT_HEADER := by
      simp only [List.foldl_cons]
      exact (object_header_bytes_fold cs _ (object_header_byte_state p c hp)).1
    unfold preamble_advance
    rw [object_header_fold_frame b _ _ _ hs]
    simp only [List.foldl_append, List.append_assoc, List.length_append, Nat.add_assoc]

/-- The per-byte updates of `parse_object_header` invoke no callback. -/
theorem object_header_bytes_trace {E : Env} :
    ∀ (cs : List Byte) (p : git_packfile_parser_t E),
      (cs.foldl object_header_byte p).trace = p.trace := by
  intro cs
  induction cs with
  | nil => intro p; rfl
  | cons c cs ih =>
    intro p
    simp only [List.foldl_cons]
    rw [ih]
    simp

/-- The tail of the loop body after a sub-parser that returned 0 from a state
before the trailer. -/
theorem parse_commit_ok {E : Env} (s : parser_state) (data : List Byte) (n : Nat)
    (q : git_packfile_parser_t E) (hs : s.toNat < STATE_TRAILER.toNat) :
    parse_commit s data (0, n, q) =
      (0, n, { q with packfile_hash := q.packfile_hash ++ data.take n,
                      position := q.position + n }) := by
  unfold parse_commit
  simp [hs]

/-- An iteration of the driver loop on bytes of a type/size prefix none of which
is the terminator: all of them are consumed. -/
theorem iteration_preamble_staged {E : Env} (C : Consumer) (fuel : Nat)
    (r : git_packfile_parser_t E) (a : List Byte)
    (hr : r.state = STATE_OBJECT_HEADER_START ∨ r.state = STATE_OBJECT_HEADER)
    (ha : ∀ b ∈ a, b.val &&& 0x80 ≠ 0) :
    parse_iteration C fuel r a = some (0, a.length, preamble_advance r a) := by
  have h1 : r.state ≠ STATE_COMPLETE := by rcases hr with h | h <;> rw [h] <;> decide
  have h2 : r.state ≠ STATE_FAILED := by rcases hr with h | h <;> rw [h] <;> decide
  have hlt : r.state.toNat < STATE_TRAILER.toNat := by
    rcases hr with h | h <;> rw [h] <;> decide
  have hd : dispatch C fuel r a = some (parse_object_header C r a) := by
    unfold dispatch
    rcases hr with h | h <;> rw [h]
  have hl : parse_object_header C r a = (0, a.length, a.foldl object_header_byte r) := by
    unfold parse_object_header
    have := parse_object_header_loop_continue C a r [] 0 hr ha
    rw [List.append_nil] at this
    rw [this, Nat.zero_add]
    rfl
  rw [parse_iteration_running C fuel r a h1 h2, hd, hl]
  simp only [Option.map_some']
  rw [parse_commit_ok _ _ _ _ hlt, List.take_length, (object_header_bytes_frame a r).1,
    (object_header_bytes_frame a r).2]
  rfl

/-- A feed of bytes of a type/size prefix none of which is the terminator. -/
theorem parse_preamble_staged {E : Env} (C : Consumer) (fuel : Nat)
    (r : git_packfile_parser_t E) (a : List Byte)
    (hr : r.state = STATE_OBJECT_HEADER_START ∨ r.state = STATE_OBJECT_HEADER)
    (ha : ∀ b ∈ a, b.val &&& 0x80 ≠ 0) :
    git_packfile_parser_parse C (fuel + 1) r a = some (0, preamble_advance r a) := by
  by_cases hne : a = []
  · subst hne
    rw [preamble_advance_nil]
    rfl
  · rw [parse_of_iteration_ok C fuel r a hne _ (iteration_preamble_staged C fuel r a hr ha) rfl]
    simp [parse_nil]

/-- Feeds of bytes of a type/size prefix none of which is the terminator. -/
theorem feed_preamble_staged {E : Env} (C : Consumer) (fuel : Nat) :
    ∀ (chunks : List (List Byte)) (r : git_packfile_parser_t E),
      r.state = STATE_OBJECT_HEADER_START ∨ r.state = STATE_OBJECT_HEADER →
      (∀ b ∈ chunks.flatten, b.val &&& 0x80 ≠ 0) →
      feed_all C (fuel + 1) r chunks =
        some (List.replicate chunks.length 0, preamble_advance r chunks.flatten) := by
  intro chunks
  induction chunks with
  | nil =>
    intro r _ _
    rw [List.flatten_nil, preamble_advance_nil]
    rfl
  | cons c cs ih =>
    intro r hr hb
    have hc : ∀ b ∈ c, b.val &&& 0x80 ≠ 0 := fun b hb1 =>
      hb b (by rw [List.flatten_cons]; exact List.mem_append_left _ hb1)
    have hcs : ∀ b ∈ cs.flatten, b.val &&& 0x80 ≠ 0 := fun b hb1 =>
      hb b (by rw [List.flatten_cons]; exact List.mem_append_right _ hb1)
    have hs : (preamble_advance r c).state = STATE_OBJECT_HEADER_START ∨
        (preamble_advance r c).state = STATE_OBJECT_HEADER := by
      rw [preamble_advance_state r c hr]
      split_ifs
      · exact hr
      · exact Or.inr rfl
    rw [feed_all_cons, parse_preamble_staged C fuel r c hr hc]
    dsimp only
    rw [ih _ hs hcs, preamble_advance_append r c cs.flatten hr]
    rfl

/-- The first `a.length + 1` bytes of `a ++ last :: rest`. -/
theorem take_through_last (a : List Byte) (last : Byte) (rest : List Byte) :
    (a ++ last :: rest).take (a.length + 1) = a ++ [last] := by
  rw [show a ++ last :: rest = (a ++ [last]) ++ rest by simp,
    List.take_left' (by simp)]

/-- An iteration of the driver loop on the last bytes of the type/size prefix of
a delta entry: the prefix is consumed up to its terminator and the parser is in
`STATE_DELTA_HEADER`. -/
theorem iteration_preamble_delta {E : Env} (C : Consumer) (fuel : Nat)
    (r : git_packfile_parser_t E) (a : List Byte) (last : Byte) (rest : List Byte)
    (hr : r.state = STATE_OBJECT_HEADER_START ∨ r.state = STATE_OBJECT_HEADER)
    (ha : ∀ b ∈ a, b.val &&& 0x80 ≠ 0) (hlast : last.val &&& 0x80 = 0)
    (hk : is_delta (preamble_advance r (a ++ [last])).current_type = true) :
    parse_iteration C fuel r (a ++ last :: rest) =
      some (0, a.length + 1, preamble_done C r (a ++ [last])) := by
  have h1 : r.state ≠ STATE_COMPLETE := by rcases hr with h | h <;> rw [h] <;> decide
  have h2 : r.state ≠ STATE_FAILED := by rcases hr with h | h <;> rw [h] <;> decide
  have hlt : r.state.toNat < STATE_TRAILER.toNat := by
    rcases hr with h | h <;> rw [h] <;> decide
  have hd : dispatch C fuel r (a ++ last :: rest) =
      some (parse_object_header C r (a ++ last :: rest)) := by
    unfold dispatch
    rcases hr with h | h <;> rw [h]
  have hk2 : is_delta ((a ++ [last]).foldl object_header_byte r).current_type = true := hk
  rw [parse_iteration_running C fuel r _ h1 h2, hd,
    parse_object_header_preamble C r a last rest hr ha hlast, if_pos hk2]
  simp only [Option.map_some']
  rw [parse_commit_ok _ _ _ _ hlt, take_through_last]
  have e1 : (begin_delta_header ((a ++ [last]).foldl object_header_byte r)).packfile_hash
      = r.packfile_hash := (object_header_bytes_frame (a ++ [last]) r).2
  have e2 : (begin_delta_header ((a ++ [last]).foldl object_header_byte r)).position
      = r.position := (object_header_bytes_frame (a ++ [last]) r).1
  rw [e1, e2]
  unfold preamble_done
  rw [if_pos hk]
  unfold preamble_advance begin_delta_header
  simp

/-- An iteration of the driver loop on the last bytes of the type/size prefix of
an entry that is not a delta: `object_start` is invoked, its return value is
the result, and on 0 the prefix is consumed up to its terminator and the parser
is in `STATE_OBJECT_DATA_START`. -/
theorem iteration_preamble_object {E : Env} (C : Consumer) (fuel : Nat)
    (r : git_packfile_parser_t E) (a : List Byte) (last : Byte) (rest : List Byte)
    (hr : r.state = STATE_OBJECT_HEADER_START ∨ r.state = STATE_OBJECT_HEADER)
    (ha : ∀ b ∈ a, b.val &&& 0x80 ≠ 0) (hlast : last.val &&& 0x80 = 0)
    (hk : is_delta (preamble_advance r (a ++ [last])).current_type = false) :
    ∃ x, parse_iteration C fuel r (a ++ last :: rest) = some x ∧
      x.1 = (invoke C (seed_object_hash (preamble_advance r (a ++ [last])))
        (object_start_event (seed_object_hash (preamble_advance r (a ++ [last]))))).1 ∧
      x.2.2.trace = emit C r.trace
        (object_start_event (seed_object_hash (preamble_advance r (a ++ [last])))) ∧
      (x.1 = 0 → x = (0, a.length + 1, preamble_done C r (a ++ [last]))) := by
  have h1 : r.state ≠ STATE_COMPLETE := by rcases hr with h | h <;> rw [h] <;> decide
  have h2 : r.state ≠ STATE_FAILED := by rcases hr with h | h <;> rw [h] <;> decide
  have hlt : r.state.toNat < STATE_TRAILER.toNat := by
    rcases hr with h | h <;> rw [h] <;> decide
  have hd : dispatch C fuel r (a ++ last :: rest) =
      some (parse_object_header C r (a ++ last :: rest)) := by
    unfold dispatch
    rcases hr with h | h <;> rw [h]
  have hk2 : ¬ is_delta ((a ++ [last]).foldl object_header_byte r).current_type = true := by
    intro h
    have h3 : is_delta (preamble_advance r (a ++ [last])).current_type = true := h
    rw [hk] at h3
    cases h3
  have htr : (seed_object_hash ((a ++ [last]).foldl object_header_byte r)).trace = r.trace :=
    object_header_bytes_trace (a ++ [last]) r
  have hev : object_start_event (seed_object_hash (preamble_advance r (a ++ [last])))
      = object_start_event (seed_object_hash ((a ++ [last]).foldl object_header_byte r)) := rfl
  have hin : (invoke C (seed_object_hash (preamble_advance r (a ++ [last])))
        (object_start_event (seed_object_hash (preamble_advance r (a ++ [last]))))).1
      = (invoke C (seed_object_hash ((a ++ [last]).foldl object_header_byte r))
        (object_start_event
          (seed_object_hash ((a ++ [last]).foldl object_header_byte r)))).1 := by
    rw [invoke_fst, invoke_fst]
    rfl
  rw [parse_iteration_running C fuel r _ h1 h2, hd,
    parse_object_header_preamble C r a last rest hr ha hlast, if_neg hk2, hin, hev]
  simp only [Option.map_some']
  by_cases hi : (invoke C (seed_object_hash ((a ++ [last]).foldl object_header_byte r))
      (object_start_event
        (seed_object_hash ((a ++ [last]).foldl object_header_byte r)))).1 ≠ 0
  · rw [if_pos hi]
    refine ⟨_, rfl, ?_, ?_, ?_⟩
    · rw [parse_commit_fst]
    · rw [parse_commit_trace, invoke_trace_emit, htr]
    · intro h
      rw [parse_commit_fst] at h
      exact absurd h hi
  · rw [if_neg hi]
    refine ⟨_, rfl, ?_, ?_, ?_⟩
    · rw [parse_commit_fst]
      exact (not_not.mp hi).symm
    · rw [parse_commit_trace]
      show (invoke C _ _).2.trace = _
      rw [invoke_trace_emit, htr]
    · intro _
      rw [parse_commit_ok _ _ _ _ hlt, take_through_last]
      unfold preamble_done
      rw [if_neg (by rw [hk]; simp)]
      have e1 : ((a ++ [last]).foldl object_header_byte r).packfile_hash = r.packfile_hash :=
        (object_header_bytes_frame (a ++ [last]) r).2
      have e2 : ((a ++ [last]).foldl object_header_byte r).position = r.position :=
        (object_header_bytes_frame (a ++ [last]) r).1
      simp only [invoke_snd]
      unfold preamble_advance seed_object_hash object_start_event
      simp [e1, e2]
      exact object_header_bytes_frame a r

/-- Continuation bytes whose shifts are all defined add less than 5 * 2^31. -/
theorem preamble_tail_bound :
    ∀ (bs : List Byte) (s : Nat), s ≤ 38 → shifts_defined s bs = true →
      preamble_tail s bs + (s / 7) * 2147483648 ≤ 5 * 2147483648 := by
  intro bs
  induction bs with
  | nil =>
    intro s hs _
    simp only [preamble_tail]
    omega
  | cons b bs ih =>
    intro s hs hd
    simp only [shifts_defined, Bool.and_eq_true, decide_eq_true_eq] at hd
    obtain ⟨⟨h1, h2⟩, h3⟩ := hd
    have hi := ih (s + 7) (by omega) h3
    rw [Nat.shiftLeft_eq] at h2
    simp only [preamble_tail]
    have e : (s + 7) / 7 = s / 7 + 1 := by omega
    rw [e] at hi
    have h4 : (b.val &&& 0x7f) * 2 ^ s < 2147483648 := by
      have : (2 : Nat) ^ 31 = 2147483648 := by norm_num
      omega
    omega

/-- While the shifts are defined and the sum fits, the per-byte updates of
`parse_object_header` accumulate the size the continuation bytes encode. -/
theorem preamble_fold_value (E : Env) :
    ∀ (bs : List Byte) (s acc : Nat), shifts_defined s bs = true →
      acc + preamble_tail s bs < SIZE_MOD →
      (bs.foldl (preamble_step E) (acc, s)).1 = acc + preamble_tail s bs := by
  intro bs
  induction bs with
  | nil => intro s acc _ _; simp [preamble_tail]
  | cons b bs ih =>
    intro s acc hd hlt
    simp only [shifts_defined, Bool.and_eq_true, decide_eq_true_eq] at hd
    obtain ⟨h12, h3⟩ := hd
    simp only [preamble_tail] at hlt ⊢
    have hsh : int_shl E (b.val &&& 0x7f) s = (b.val &&& 0x7f) * 2 ^ s := by
      unfold int_shl
      rw [if_pos h12, Nat.shiftLeft_eq]
    have hstep : preamble_step E (acc, s) b = (acc + (b.val &&& 0x7f) * 2 ^ s, s + 7) := by
      unfold preamble_step
      dsimp only
      rw [hsh, Nat.mod_eq_of_lt (by omega)]
    rw [List.foldl_cons, hstep, ih (s + 7) _ h3 (by omega)]
    omega

/-- While the shifts are defined the size `parse_object_header` accumulates is
the size the prefix encodes. -/
theorem preamble_size_value (E : Env) (W : List Byte)
    (hd : shifts_defined 4 W.tail = true) : preamble_size E W = preamble_value W := by
  cases W with
  | nil => rfl
  | cons c cs =>
    simp only [List.tail_cons] at hd
    have hb := preamble_tail_bound cs 4 (by omega) hd
    have hc : c.val &&& 0x0f ≤ 15 := Nat.and_le_right
    unfold preamble_size preamble_value
    apply preamble_fold_value E cs 4 _ hd
    unfold SIZE_MOD
    have : (2 : Nat) ^ 64 = 18446744073709551616 := by norm_num
    omega

/-- The size `parse_object_header` accumulates is below 2^64 once a
continuation byte was taken. -/
theorem preamble_size_lt (E : Env) (c : Byte) (cs : List Byte) (b : Byte) :
    preamble_size E (c :: (cs ++ [b])) < SIZE_MOD := by
  show ((cs ++ [b]).foldl (preamble_step E) (c.val &&& 0x0f, 4)).1 < SIZE_MOD
  rw [List.foldl_append]
  simp only [List.foldl_cons, List.foldl_nil, preamble_step]
  exact Nat.mod_lt _ (by unfold SIZE_MOD; norm_num)

/-- The end of a prefix reached in two runs is the end reached in one. -/
theorem preamble_done_split {E : Env} (C : Consumer) (p : git_packfile_parser_t E)
    (done a : List Byte)
    (hp : p.state = STATE_OBJECT_HEADER_START ∨ p.state = STATE_OBJECT_HEADER) :
    preamble_done C (preamble_advance p done) a = preamble_done C p (done ++ a) := by
  unfold preamble_done
  rw [preamble_advance_append p done a hp]

/-- The `object_start` invocation at the end of a whole type/size prefix
consumed from `STATE_OBJECT_HEADER_START`, and the trace before it. -/
theorem preamble_advance_event {E : Env} (p : git_packfile_parser_t E) (pre : List Byte)
    (last : Byte) (hp : p.state = STATE_OBJECT_HEADER_START) :
    object_start_event (seed_object_hash (preamble_advance p (pre ++ [last])))
      = Event.object_start p.position (pre.length + 1)
          (preamble_kind ((pre ++ [last]).headD last)) (preamble_size E (pre ++ [last])) ∧
    (seed_object_hash (preamble_advance p (pre ++ [last]))).trace = p.trace ∧
    (preamble_advance p (pre ++ [last])).current_type
      = preamble_kind ((pre ++ [last]).headD last) ∧
    (preamble_advance p (pre ++ [last])).current_size = preamble_size E (pre ++ [last]) ∧
    (preamble_advance p (pre ++ [last])).current_position = p.position ∧
    (preamble_advance p (pre ++ [last])).current_compressed_size = pre.length + 1 :=
  ⟨preamble_start_event p pre last hp, preamble_seed_trace p pre last hp,
    (preamble_fields p pre last hp).1, (preamble_fields p pre last hp).2.2.2.2.1,
    (preamble_fields p pre last hp).2.1, (preamble_fields p pre last hp).2.2.2.1⟩

/-- What a whole type/size prefix consumed from `STATE_OBJECT_HEADER_START`
leaves in the parser when `parse_object_header` returned 0. -/
theorem preamble_done_fields {E : Env} (C : Consumer) (p : git_packfile_parser_t E)
    (pre : List Byte) (last : Byte) (hp : p.state = STATE_OBJECT_HEADER_START) :
    (preamble_done C p (pre ++ [last])).current_type
      = preamble_kind ((pre ++ [last]).headD last) ∧
    (preamble_done C p (pre ++ [last])).current_size = preamble_size E (pre ++ [last]) ∧
    (preamble_done C p (pre ++ [last])).current_position = p.position ∧
    (preamble_done C p (pre ++ [last])).current_compressed_size = pre.length + 1 ∧
    (preamble_done C p (pre ++ [last])).position = p.position + (pre.length + 1) ∧
    (preamble_done C p (pre ++ [last])).state =
      (if is_delta (preamble_kind ((pre ++ [last]).headD last)) = true
       then STATE_DELTA_HEADER else STATE_OBJECT_DATA_START) ∧
    (preamble_done C p (pre ++ [last])).trace =
      (if is_delta (preamble_kind ((pre ++ [last]).headD last)) = true then p.trace
       else emit C p.trace (Event.object_start p.position (pre.length + 1)
        (preamble_kind ((pre ++ [last]).headD last)) (preamble_size E (pre ++ [last])))) ∧
    (is_delta (preamble_kind ((pre ++ [last]).headD last)) = true →
      (preamble_done C p (pre ++ [last])).current_bits = 0 ∧
      (preamble_done C p (pre ++ [last])).current_offset = 0 ∧
      (preamble_done C p (pre ++ [last])).current_base = [] ∧
      (preamble_done C p (pre ++ [last])).current_base_len = 0) := by
  obtain ⟨hev, htr, hty, hsz, hcp, hcs⟩ := preamble_advance_event p pre last hp
  have hpos : (preamble_advance p (pre ++ [last])).position = p.position + (pre.length + 1) := by
    unfold preamble_advance
    simp
  have htr2 : (preamble_advance p (pre ++ [last])).trace = p.trace := htr
  unfold preamble_done
  by_cases hk : is_delta (preamble_kind ((pre ++ [last]).headD last)) = true
  · rw [if_pos (by rw [hty]; exact hk), if_pos hk, if_pos hk]
    refine ⟨hty, hsz, hcp, hcs, hpos, rfl, htr2, fun _ => ⟨rfl, rfl, rfl, rfl⟩⟩
  · rw [if_neg (by rw [hty]; exact hk), if_neg hk, if_neg hk]
    refine ⟨?_, ?_, ?_, ?_, ?_, rfl, ?_, fun h => absurd h hk⟩
    · simpa [seed_object_hash] using hty
    · simpa [seed_object_hash] using hsz
    · simpa [seed_object_hash] using hcp
    · simpa [seed_object_hash] using hcs
    · simpa [seed_object_hash] using hpos
    · show (invoke C _ _).2.trace = _
      rw [invoke_trace_emit, hev, htr]

/-- A type/size prefix split between feeds: the slices before the one that holds
the terminator are consumed whole, and the iteration of the driver loop that
takes the terminator returns what `object_start` returns (0 for a delta entry
and when the callback is absent), with the invocation appended to the trace; on 0
it leaves the parser that the prefix consumed at once leaves. -/
theorem preamble_split {E : Env} (C : Consumer) (fuel : Nat)
    (p : git_packfile_parser_t E) (pre : List Byte) (last : Byte)
    (hp : p.state = STATE_OBJECT_HEADER_START)
    (hpre : ∀ b ∈ pre, b.val &&& 0x80 ≠ 0) (hlast : last.val &&& 0x80 = 0)
    (chunks : List (List Byte)) (a rest : List Byte) (hsplit : chunks.flatten ++ a = pre) :
    feed_all C (fuel + 1) p chunks =
      some (List.replicate chunks.length 0, preamble_advance p chunks.flatten) ∧
    (preamble_advance p chunks.flatten).position = p.position + chunks.flatten.length ∧
    (preamble_advance p chunks.flatten).trace = p.trace ∧
    ∃ x, parse_iteration C fuel (preamble_advance p chunks.flatten) (a ++ last :: rest)
        = some x ∧
      x.1 = (if is_delta (preamble_kind ((pre ++ [last]).headD last)) = true then 0
        else if C.present Callback.object_start = true then
          C.ret p.trace (Event.object_start p.position (pre.length + 1)
            (preamble_kind ((pre ++ [last]).headD last)) (preamble_size E (pre ++ [last])))
        else 0) ∧
      x.2.2.trace =
        (if is_delta (preamble_kind ((pre ++ [last]).headD last)) = true then p.trace
         else emit C p.trace (Event.object_start p.position (pre.length + 1)
          (preamble_kind ((pre ++ [last]).headD last)) (preamble_size E (pre ++ [last])))) ∧
      (x.1 = 0 → x = (0, a.length + 1, preamble_done C p (pre ++ [last]))) := by
  have hc : ∀ b ∈ chunks.flatten, b.val &&& 0x80 ≠ 0 := fun b hb =>
    hpre b (by rw [← hsplit]; exact List.mem_append_left _ hb)
  have ha : ∀ b ∈ a, b.val &&& 0x80 ≠ 0 := fun b hb =>
    hpre b (by rw [← hsplit]; exact List.mem_append_right _ hb)
  have hms : (preamble_advance p chunks.flatten).state = STATE_OBJECT_HEADER_START ∨
      (preamble_advance p chunks.flatten).state = STATE_OBJECT_HEADER := by
    rw [preamble_advance_state p _ (Or.inl hp)]
    split_ifs
    · exact Or.inl hp
    · exact Or.inr rfl
  have hW : chunks.flatten ++ (a ++ [last]) = pre ++ [last] := by
    rw [← List.append_assoc, hsplit]
  have hadv : preamble_advance (preamble_advance p chunks.flatten) (a ++ [last])
      = preamble_advance p (pre ++ [last]) := by
    rw [preamble_advance_append p _ _ (Or.inl hp), hW]
  have hdone : preamble_done C (preamble_advance p chunks.flatten) (a ++ [last])
      = preamble_done C p (pre ++ [last]) := by
    rw [preamble_done_split C p _ _ (Or.inl hp), hW]
  obtain ⟨hev, htr, hty, -, -, -⟩ := preamble_advance_event p pre last hp
  refine ⟨feed_preamble_staged C fuel chunks p (Or.inl hp) hc, ?_, ?_, ?_⟩
  · unfold preamble_advance; rfl
  · exact object_header_bytes_trace _ p
  · by_cases hk : is_delta (preamble_kind ((pre ++ [last]).headD last)) = true
    · rw [if_pos hk, if_pos hk]
      refine ⟨_, iteration_preamble_delta C fuel _ a last rest hms ha hlast
        (by rw [hadv, hty]; exact hk), rfl, ?_, fun _ => by rw [hdone]⟩
      rw [hdone]
      have := (preamble_done_fields C p pre last hp).2.2.2.2.2.2.1
      rw [if_pos hk] at this
      exact this
    · rw [if_neg hk, if_neg hk]
      obtain ⟨x, hx, hx1, hx2, hx3⟩ := iteration_preamble_object C fuel _ a last rest hms ha
        hlast (by rw [hadv, hty]; simpa using hk)
      rw [hadv] at hx1 hx2
      refine ⟨x, hx, ?_, ?_, fun h => by rw [hx3 h, hdone]⟩
      · rw [hx1, invoke_fst, hev, htr]
        rfl
      · rw [hx2, hev]
        exact congrArg (fun t => emit C t _) (object_header_bytes_trace _ p)

/-- At most four continuation bytes that add less than 2^31 are taken by shifts
that C defines in type `int`. -/
theorem shifts_defined_of_small :
    ∀ (bs : List Byte) (s : Nat), s + 7 * bs.length ≤ 38 →
      preamble_tail s bs < 2 ^ 31 → shifts_defined s bs = true := by
  intro bs
  induction bs with
  | nil => intro s _ _; rfl
  | cons b bs ih =>
    intro s hs hlt
    simp only [List.length_cons] at hs
    simp only [preamble_tail] at hlt
    simp only [shifts_defined, Bool.and_eq_true, decide_eq_true_eq]
    refine ⟨⟨by omega, ?_⟩, ih (s + 7) (by omega) (by omega)⟩
    rw [Nat.shiftLeft_eq]
    omega

/-- A size out of the range of `size_t`: the eleven-byte prefix B3 80 80 80 80
80 80 80 80 80 01 encodes the size 3 + 2^67 by the formula of the claim; whatever the
environment, the size `parse_object_header` accumulates for it is below 2^64,
the range of `size_t`; and in the concrete environment `object_start` is invoked
with the size 11. -/
theorem preamble_value_out_of_range :
    preamble_value (long_size_pack.drop 12) = 3 + 2 ^ 67 ∧
    (∀ E : Env, preamble_size E (long_size_pack.drop 12) < 2 ^ 64) ∧
    (feed_all all_callbacks 10 (git_packfile_parser_init stored_env) [long_size_pack]).map
      (fun r => (r.1, r.2.trace)) =
      some ([0], [Event.packfile_header 2 1, Event.object_start 12 11 3 11]) := by
  refine ⟨by decide, fun E => ?_, by set_option maxRecDepth 4000 in decide⟩
  exact preamble_size_lt E 0xB3 (List.replicate 9 0x80) 0x01

/-- Decoding of a type/size prefix whose shifts C defines.  Let `pre ++ [last]`
be a type/size prefix (high bit set on
the bytes of `pre`, clear on `last`) of at most five bytes that encodes a size
below 2^31, so that all the shifts `(c & 0x7f) << current_bits` are defined by C
in type `int`, read from `STATE_OBJECT_HEADER_START`.  Then there is one parser
`q`, with kind
`(b0 >> 4) & 7`, with the size given by the formula of the claim, with the
position advanced by the length of the prefix, in `STATE_DELTA_HEADER` for a
delta kind and in `STATE_OBJECT_DATA_START` otherwise, such that for every way
the prefix is split between feeds (the slices `chunks`, then a slice that starts
with the remaining bytes `a ++ [last]` of the prefix and goes on with any bytes
`rest`): the feeds of `chunks` return 0 and consume them whole; the iteration
of the driver loop that takes the terminator reports that kind and size to
`object_start` (when present, for a kind that is not a delta) and returns what
the callback returns, 0 if none is invoked; and when it returns 0 it reports the
`a.length + 1` bytes up to the terminator as consumed and leaves `q`. -/
theorem preamble_decoding {E : Env} (C : Consumer) (fuel : Nat)
    (p : git_packfile_parser_t E) (pre : List Byte) (last : Byte)
    (hp : p.state = STATE_OBJECT_HEADER_START)
    (hpre : ∀ b ∈ pre, b.val &&& 0x80 ≠ 0) (hlast : last.val &&& 0x80 = 0)
    (hlen : pre.length ≤ 4) (hsmall : preamble_value (pre ++ [last]) < 2 ^ 31) :
    ∃ q : git_packfile_parser_t E,
      q.current_type = (((pre ++ [last]).headD last).val >>> 4) &&& 7 ∧
      q.current_size = preamble_value (pre ++ [last]) ∧
      q.position = p.position + (pre.length + 1) ∧
      q.state = (if is_delta q.current_type = true then STATE_DELTA_HEADER
        else STATE_OBJECT_DATA_START) ∧
      ∀ (chunks : List (List Byte)) (a rest : List Byte), chunks.flatten ++ a = pre →
        ∃ mid, feed_all C (fuel + 1) p chunks =
            some (List.replicate chunks.length 0, mid) ∧
          mid.position = p.position + chunks.flatten.length ∧
          ∃ x, parse_iteration C fuel mid (a ++ last :: rest) = some x ∧
            x.1 = (if is_delta q.current_type = true then 0
              else if C.present Callback.object_start = true then
                C.ret p.trace (Event.object_start p.position (pre.length + 1)
                  q.current_type q.current_size)
              else 0) ∧
            x.2.2.trace = (if is_delta q.current_type = true then p.trace
              else emit C p.trace (Event.object_start p.position (pre.length + 1)
                q.current_type q.current_size)) ∧
            (x.1 = 0 → x = (0, a.length + 1, q)) := by
  have hdef : shifts_defined 4 (pre ++ [last]).tail = true := by
    cases pre with
    | nil => rfl
    | cons c cs =>
      simp only [List.cons_append, List.tail_cons]
      simp only [List.cons_append, preamble_value] at hsmall
      simp only [List.length_cons] at hlen
      exact shifts_defined_of_small _ 4 (by simp; omega) (by omega)
  have hv := preamble_size_value E (pre ++ [last]) hdef
  obtain ⟨h1, h2, -, -, h5, h6, -, -⟩ := preamble_done_fields C p pre last hp
  refine ⟨preamble_done C p (pre ++ [last]), h1, by rw [h2, hv], h5, by rw [h6, h1], ?_⟩
  intro chunks a rest hsplit
  obtain ⟨hf, hpos, -, x, hx, hx1, hx2, hx3⟩ :=
    preamble_split C fuel p pre last hp hpre hlast chunks a rest hsplit
  rw [h1, h2]
  exact ⟨_, hf, hpos, x, hx, hx1, hx2, hx3⟩

/-- Instance of the prefix decoding: the two-byte prefix B5 02 (kind 3, size
5 + 2 * 16 = 37) read at position 12, for any split. -/
theorem preamble_decoding_witness :
    first_entry_state.state = STATE_OBJECT_HEADER_START ∧
    ([0xB5] : List Byte).length ≤ 4 ∧ preamble_value ([0xB5] ++ [0x02]) < 2 ^ 31 ∧
    (([0xB5] ++ [0x02] : List Byte).headD 0x02).val >>> 4 &&& 7 = 3 ∧
    preamble_value ([0xB5] ++ [0x02]) = 37 ∧
    ∃ q : git_packfile_parser_t stored_env,
      q.current_type = (([0xB5] ++ [0x02] : List Byte).headD 0x02).val >>> 4 &&& 7 ∧
      q.current_size = preamble_value ([0xB5] ++ [0x02]) ∧
      q.position = first_entry_state.position + (([0xB5] : List Byte).length + 1) ∧
      q.state = (if is_delta q.current_type = true then STATE_DELTA_HEADER
        else STATE_OBJECT_DATA_START) ∧
      ∀ (chunks : List (List Byte)) (a rest : List Byte), chunks.flatten ++ a = [0xB5] →
        ∃ mid, feed_all all_callbacks (0 + 1) first_entry_state chunks =
            some (List.replicate chunks.length 0, mid) ∧
          mid.position = first_entry_state.position + chunks.flatten.length ∧
          ∃ x, parse_iteration all_callbacks 0 mid (a ++ 0x02 :: rest) = some x ∧
            x.1 = (if is_delta q.current_type = true then 0
              else if all_callbacks.present Callback.object_start = true then
                all_callbacks.ret first_entry_state.trace
                  (Event.object_start first_entry_state.position
                    (([0xB5] : List Byte).length + 1) q.current_type q.current_size)
              else 0) ∧
            x.2.2.trace = (if is_delta q.current_type = true then first_entry_state.trace
              else emit all_callbacks first_entry_state.trace
                (Event.object_start first_entry_state.position
                  (([0xB5] : List Byte).length + 1) q.current_type q.current_size)) ∧
            (x.1 = 0 → x = (0, a.length + 1, q)) :=
  ⟨rfl, (by decide), (by set_option maxRecDepth 4000 in decide),
    (by set_option maxRecDepth 4000 in decide), (by set_option maxRecDepth 4000 in decide),
    preamble_decoding all_callbacks 0 first_entry_state [0xB5] 0x02 rfl
      (by set_option maxRecDepth 4000 in decide) (by set_option maxRecDepth 4000 in decide)
      (by decide) (by set_option maxRecDepth 4000 in decide)⟩

/-- C27. `object_start` arguments.  Let the run of the driver have reached the
parser `p` in `STATE_OBJECT_HEADER_START` after consuming the bytes `S` (of
whatever slices, so that the entry begins anywhere in a slice), and let the
bytes that follow be the type/size prefix `pre ++ [last]` of an entry that is
not a delta, split in any way between feeds: the slices `chunks`, then a slice
that starts with the remaining bytes `a ++ [last]` of the prefix and goes on
with any bytes `rest`.  Then the feeds of `chunks` return 0 and invoke
nothing, and the iteration of the driver loop that takes the terminator
invokes `object_start` (when present) once, with the offset `S.length`, the
number of prefix bytes, the kind `(b0 >> 4) & 7` and the size the decoder has
accumulated, and nothing else; it returns what the callback returns (0 when
absent), and on 0 it has consumed the bytes up to the terminator and the parser
is in `STATE_OBJECT_DATA_START` with that kind and size. -/
theorem object_start_arguments {E : Env} (C : Consumer) (fuel : Nat) (S : List Byte)
    (p : git_packfile_parser_t E) (pre : List Byte) (last : Byte)
    (hreach : reached C S p) (hp : p.state = STATE_OBJECT_HEADER_START)
    (hpre : ∀ b ∈ pre, b.val &&& 0x80 ≠ 0) (hlast : last.val &&& 0x80 = 0)
    (hk : is_delta (preamble_kind ((pre ++ [last]).headD last)) = false)
    (chunks : List (List Byte)) (a rest : List Byte) (hsplit : chunks.flatten ++ a = pre) :
    ∃ mid, feed_all C (fuel + 1) p chunks = some (List.replicate chunks.length 0, mid) ∧
      mid.trace = p.trace ∧
      ∃ x, parse_iteration C fuel mid (a ++ last :: rest) = some x ∧
        x.2.2.trace = emit C p.trace (Event.object_start S.length (pre.length + 1)
          (preamble_kind ((pre ++ [last]).headD last)) (preamble_size E (pre ++ [last]))) ∧
        x.1 = (if C.present Callback.object_start = true then
            C.ret p.trace (Event.object_start S.length (pre.length + 1)
              (preamble_kind ((pre ++ [last]).headD last)) (preamble_size E (pre ++ [last])))
          else 0) ∧
        (x.1 = 0 → x.2.1 = a.length + 1 ∧ x.2.2.state = STATE_OBJECT_DATA_START ∧
          x.2.2.current_type = preamble_kind ((pre ++ [last]).headD last) ∧
          x.2.2.current_size = preamble_size E (pre ++ [last])) := by
  have hpos : p.position = S.length :=
    ((reached_inv C S p hreach (by rw [hp]; decide)).pos (by rw [hp]; decide)).1
  obtain ⟨hf, -, htr, x, hx, hx1, hx2, hx3⟩ :=
    preamble_split C fuel p pre last hp hpre hlast chunks a rest hsplit
  have hk2 : ¬ is_delta (preamble_kind ((pre ++ [last]).headD last)) = true := by
    rw [hk]; simp
  rw [if_neg hk2, hpos] at hx1 hx2
  refine ⟨_, hf, htr, x, hx, hx2, hx1, fun h0 => ?_⟩
  obtain ⟨h1, h2, -, -, -, h6, -, -⟩ := preamble_done_fields C p pre last hp
  rw [if_neg hk2] at h6
  rw [hx3 h0]
  exact ⟨rfl, h6, h1, h2⟩

/-- Witness for C27: after the twelve header bytes of a one-entry pack, the
two-byte prefix B5 02 of a blob split between two slices. -/
theorem object_start_arguments_witness :
    reached all_callbacks
      ([] ++ ([80, 65, 67, 75, 0, 0, 0, 2, 0, 0, 0, 1] : List Byte).take 12)
      first_entry_state ∧
    first_entry_state.state = STATE_OBJECT_HEADER_START ∧
    is_delta (preamble_kind (([0xB5] ++ [0x02] : List Byte).headD 0x02)) = false ∧
    ([[0xB5]] : List (List Byte)).flatten ++ [] = [0xB5] ∧
    ∃ mid, feed_all all_callbacks (0 + 1) first_entry_state [[0xB5]] =
        some (List.replicate 1 0, mid) ∧
      mid.trace = first_entry_state.trace ∧
      ∃ x, parse_iteration all_callbacks 0 mid ([] ++ 0x02 :: [0x78]) = some x ∧
        x.2.2.trace = emit all_callbacks first_entry_state.trace
          (Event.object_start 12 2 3 37) ∧
        x.1 = (if all_callbacks.present Callback.object_start = true then
            all_callbacks.ret first_entry_state.trace (Event.object_start 12 2 3 37)
          else 0) ∧
        (x.1 = 0 → x.2.1 = 1 ∧ x.2.2.state = STATE_OBJECT_DATA_START ∧
          x.2.2.current_type = 3 ∧ x.2.2.current_size = 37) :=
  ⟨reached.step 0 [] (git_packfile_parser_init stored_env)
      [80, 65, 67, 75, 0, 0, 0, 2, 0, 0, 0, 1] (0, 12, first_entry_state) reached.init
      (by decide) rfl,
    rfl, by decide, rfl,
    object_start_arguments all_callbacks 0
      ([] ++ ([80, 65, 67, 75, 0, 0, 0, 2, 0, 0, 0, 1] : List Byte).take 12)
      first_entry_state [0xB5] 0x02
      (reached.step 0 [] (git_packfile_parser_init stored_env)
        [80, 65, 67, 75, 0, 0, 0, 2, 0, 0, 0, 1] (0, 12, first_entry_state) reached.init
        (by decide) rfl)
      rfl (by set_option maxRecDepth 4000 in decide) (by decide) (by decide)
      [[0xB5]] [] [0x78] rfl⟩

/-- What the per-byte updates of the `GIT_OBJECT_OFS_DELTA` loop leave alone,
and what they count. -/
theorem ofs_bytes_fold {E : Env} :
    ∀ (cs : List Byte) (p : git_packfile_parser_t E),
      (cs.foldl ofs_delta_byte p).position = p.position ∧
      (cs.foldl ofs_delta_byte p).packfile_hash = p.packfile_hash ∧
      (cs.foldl ofs_delta_byte p).trace = p.trace ∧
      (cs.foldl ofs_delta_byte p).state = p.state ∧
      (cs.foldl ofs_delta_byte p).current_type = p.current_type ∧
      (cs.foldl ofs_delta_byte p).current_position = p.current_position ∧
      (cs.foldl ofs_delta_byte p).current_size = p.current_size ∧
      (cs.foldl ofs_delta_byte p).current_compressed_size
        = p.current_compressed_size + cs.length := by
  intro cs
  induction cs with
  | nil => intro p; simp
  | cons c cs ih =>
    intro p
    obtain ⟨h1, h2, h3, h4, h5, h6, h7, h8⟩ := ih (ofs_delta_byte p c)
    simp only [List.foldl_cons]
    refine ⟨by rw [h1]; simp, by rw [h2]; simp, by rw [h3]; simp, by rw [h4]; simp,
      by rw [h5]; simp, by rw [h6]; simp, by rw [h7]; simp, ?_⟩
    rw [h8]
    simp
    omega

/-- The per-byte updates of the `GIT_OBJECT_OFS_DELTA` loop do not depend on the
position and on the whole-stream hash. -/
theorem ofs_fold_frame {E : Env} :
    ∀ (cs : List Byte) (r : git_packfile_parser_t E) (h : List Byte) (x : Nat),
      cs.foldl ofs_delta_byte { r with packfile_hash := h, position := x } =
        { cs.foldl ofs_delta_byte r with packfile_hash := h, position := x } := by
  intro cs
  induction cs with
  | nil => intro r h x; rfl
  | cons c cs ih =>
    intro r h x
    simp only [List.foldl_cons]
    rw [← ih]
    rfl

/-- No byte consumed: the parser is as it was. -/
theorem ofs_advance_nil {E : Env} (p : git_packfile_parser_t E) : ofs_advance p [] = p := by
  cases p
  simp [ofs_advance]

/-- Bytes consumed in two runs are bytes consumed in one. -/
theorem ofs_advance_append {E : Env} (p : git_packfile_parser_t E) (a b : List Byte) :
    ofs_advance (ofs_advance p a) b = ofs_advance p (a ++ b) := by
  unfold ofs_advance
  rw [ofs_fold_frame b]
  simp only [List.foldl_append, List.append_assoc, List.length_append, Nat.add_assoc]

/-- Bytes of an OffsetDelta base specifier before its terminator are taken one
by one by the loop. -/
theorem parse_ofs_delta_loop_continue {E : Env} (C : Consumer) :
    ∀ (cs : List Byte) (p : git_packfile_parser_t E) (rest : List Byte) (n : Nat),
      (∀ b ∈ cs, b.val &&& 0x80 ≠ 0) →
      parse_ofs_delta_loop C p (cs ++ rest) n =
        parse_ofs_delta_loop C (cs.foldl ofs_delta_byte p) rest (n + cs.length) := by
  intro cs
  induction cs with
  | nil => intro p rest n _; simp
  | cons c cs ih =>
    intro p rest n hcs
    have hc : c.val &&& 0x80 ≠ 0 := hcs c (List.mem_cons_self _ _)
    rw [List.cons_append, parse_ofs_delta_loop]
    dsimp only
    rw [if_neg hc, ih _ rest (n + 1) (fun b hb => hcs b (List.mem_cons_of_mem _ hb))]
    simp only [List.foldl_cons, List.length_cons]
    congr 1
    omega

/-- An iteration of the driver loop on bytes of an OffsetDelta base specifier
none of which is the terminator: all of them are consumed. -/
theorem iteration_ofs_staged {E : Env} (C : Consumer) (fuel : Nat)
    (r : git_packfile_parser_t E) (a : List Byte)
    (hr : r.state = STATE_DELTA_HEADER) (hty : r.current_type = GIT_OBJECT_OFS_DELTA)
    (ha : ∀ b ∈ a, b.val &&& 0x80 ≠ 0) :
    parse_iteration C fuel r a = some (0, a.length, ofs_advance r a) := by
  have h1 : r.state ≠ STATE_COMPLETE := by rw [hr]; decide
  have h2 : r.state ≠ STATE_FAILED := by rw [hr]; decide
  have hlt : r.state.toNat < STATE_TRAILER.toNat := by rw [hr]; decide
  have hd : dispatch C fuel r a = some (parse_delta_header C r a) := by
    unfold dispatch
    rw [hr]
  have hl : parse_delta_header C r a = (0, a.length, a.foldl ofs_delta_byte r) := by
    unfold parse_delta_header
    dsimp only
    rw [if_pos hty]
    have := parse_ofs_delta_loop_continue C a r [] 0 ha
    rw [List.append_nil] at this
    rw [this, Nat.zero_add]
    rfl
  rw [parse_iteration_running C fuel r a h1 h2, hd, hl]
  simp only [Option.map_some']
  rw [parse_commit_ok _ _ _ _ hlt, List.take_length, (ofs_bytes_fold a r).1,
    (ofs_bytes_fold a r).2.1]
  rfl

/-- A feed of bytes of an OffsetDelta base specifier none of which is the
terminator. -/
theorem parse_ofs_staged {E : Env} (C : Consumer) (fuel : Nat)
    (r : git_packfile_parser_t E) (a : List Byte)
    (hr : r.state = STATE_DELTA_HEADER) (hty : r.current_type = GIT_OBJECT_OFS_DELTA)
    (ha : ∀ b ∈ a, b.val &&& 0x80 ≠ 0) :
    git_packfile_parser_parse C (fuel + 1) r a = some (0, ofs_advance r a) := by
  by_cases hne : a = []
  · subst hne
    rw [ofs_advance_nil]
    rfl
  · rw [parse_of_iteration_ok C fuel r a hne _ (iteration_ofs_staged C fuel r a hr hty ha) rfl]
    simp [parse_nil]

/-- Feeds of bytes of an OffsetDelta base specifier none of which is the
terminator. -/
theorem feed_ofs_staged {E : Env} (C : Consumer) (fuel : Nat) :
    ∀ (chunks : List (List Byte)) (r : git_packfile_parser_t E),
      r.state = STATE_DELTA_HEADER → r.current_type = GIT_OBJECT_OFS_DELTA →
      (∀ b ∈ chunks.flatten, b.val &&& 0x80 ≠ 0) →
      feed_all C (fuel + 1) r chunks =
        some (List.replicate chunks.length 0, ofs_advance r chunks.flatten) := by
  intro chunks
  induction chunks with
  | nil =>
    intro r _ _ _
    rw [List.flatten_nil, ofs_advance_nil]
    rfl
  | cons c cs ih =>
    intro r hr hty hb
    have hc : ∀ b ∈ c, b.val &&& 0x80 ≠ 0 := fun b hb1 =>
      hb b (by rw [List.flatten_cons]; exact List.mem_append_left _ hb1)
    have hcs : ∀ b ∈ cs.flatten, b.val &&& 0x80 ≠ 0 := fun b hb1 =>
      hb b (by rw [List.flatten_cons]; exact List.mem_append_right _ hb1)
    have hs : (ofs_advance r c).state = STATE_DELTA_HEADER :=
      ((ofs_bytes_fold c r).2.2.2.1).trans hr
    have ht : (ofs_advance r c).current_type = GIT_OBJECT_OFS_DELTA :=
      ((ofs_bytes_fold c r).2.2.2.2.1).trans hty
    rw [feed_all_cons, parse_ofs_staged C fuel r c hr hty hc]
    dsimp only
    rw [ih _ hs ht hcs, ofs_advance_append r c cs.flatten]
    rfl

/-- One further byte of an OffsetDelta base specifier, as a sum. -/
theorem ofs_step_eq (v : Nat) (b : Byte) :
    ((v + 1) <<< 7) ||| (b.val &&& 0x7f) = (v + 1) * 128 + (b.val &&& 0x7f) := by
  have hb : b.val &&& 0x7f < 2 ^ 7 :=
    lt_of_le_of_lt Nat.and_le_right (by norm_num)
  rw [Nat.shiftLeft_eq, Nat.mul_comm (v + 1) (2 ^ 7), ← Nat.mul_add_lt_is_or hb (v + 1)]

/-- The value of an OffsetDelta base specifier does not decrease as bytes are
read. -/
theorem ofs_value_mono :
    ∀ (bs : List Byte) (v : Nat),
      v ≤ bs.foldl (fun v b => ((v + 1) <<< 7) ||| (b.val &&& 0x7f)) v := by
  intro bs
  induction bs with
  | nil => intro v; exact le_refl _
  | cons b bs ih =>
    intro v
    simp only [List.foldl_cons]
    refine le_trans ?_ (ih _)
    rw [ofs_step_eq]
    omega

/-- After the first byte, while the value fits in 64 bits, the per-byte updates
of the `GIT_OBJECT_OFS_DELTA` loop compute the value of the specifier. -/
theorem ofs_fold_offset {E : Env} :
    ∀ (bs : List Byte) (r : git_packfile_parser_t E) (v : Nat),
      r.current_bits ≠ 0 → r.current_offset = v →
      bs.foldl (fun v b => ((v + 1) <<< 7) ||| (b.val &&& 0x7f)) v < SIZE_MOD →
      (bs.foldl ofs_delta_byte r).current_offset =
        bs.foldl (fun v b => ((v + 1) <<< 7) ||| (b.val &&& 0x7f)) v := by
  intro bs
  induction bs with
  | nil => intro r v _ hv _; exact hv
  | cons b bs ih =>
    intro r v hb hv hlt
    simp only [List.foldl_cons] at hlt ⊢
    have h1 : ((v + 1) <<< 7) ||| (b.val &&& 0x7f) < SIZE_MOD :=
      lt_of_le_of_lt (ofs_value_mono bs _) hlt
    have h1b := h1
    rw [ofs_step_eq] at h1b
    have h2 : (v + 1) <<< 7 < SIZE_MOD := by
      rw [Nat.shiftLeft_eq]
      norm_num
      omega
    have h3 : v + 1 < SIZE_MOD := by omega
    apply ih
    · unfold ofs_delta_byte; simp
    · unfold ofs_delta_byte
      simp only [hb, if_false, hv]
      rw [Nat.mod_eq_of_lt h3, Nat.mod_eq_of_lt h2]
    · exact hlt

/-- The bytes of a whole OffsetDelta base specifier whose value fits in 64 bits,
read from a parser that has not read any of them yet: the offset is the value of
the specifier. -/
theorem ofs_fold_value {E : Env} (p : git_packfile_parser_t E) (W : List Byte)
    (hW : W ≠ []) (hbits : p.current_bits = 0) (hfit : ofs_delta_value W < 2 ^ 64) :
    (W.foldl ofs_delta_byte p).current_offset = ofs_delta_value W := by
  cases W with
  | nil => exact absurd rfl hW
  | cons c cs =>
    simp only [List.foldl_cons]
    apply ofs_fold_offset cs (ofs_delta_byte p c) (c.val &&& 0x7f)
    · unfold ofs_delta_byte; simp
    · unfold ofs_delta_byte; simp [hbits]
    · exact hfit

/-- An iteration of the driver loop on the last bytes of an OffsetDelta base
specifier: `delta_start` is invoked, its return value is the result, and on 0
the specifier is consumed up to its terminator and the parser is in
`STATE_DELTA_DATA_START`. -/
theorem iteration_ofs_last {E : Env} (C : Consumer) (fuel : Nat)
    (r : git_packfile_parser_t E) (a : List Byte) (ck : Byte) (rest : List Byte)
    (hr : r.state = STATE_DELTA_HEADER) (hty : r.current_type = GIT_OBJECT_OFS_DELTA)
    (ha : ∀ b ∈ a, b.val &&& 0x80 ≠ 0) (hck : ck.val &&& 0x80 = 0) :
    ∃ x, parse_iteration C fuel r (a ++ ck :: rest) = some x ∧
      x.1 = (invoke C ((a ++ [ck]).foldl ofs_delta_byte r)
        (delta_start_event ((a ++ [ck]).foldl ofs_delta_byte r) none
          ((a ++ [ck]).foldl ofs_delta_byte r).current_offset)).1 ∧
      x.2.2.trace = emit C r.trace
        (delta_start_event ((a ++ [ck]).foldl ofs_delta_byte r) none
          ((a ++ [ck]).foldl ofs_delta_byte r).current_offset) ∧
      (x.1 = 0 → x.2.1 = a.length + 1 ∧ x.2.2.state = STATE_DELTA_DATA_START ∧
        x.2.2.position = r.position + (a.length + 1)) := by
  have h1 : r.state ≠ STATE_COMPLETE := by rw [hr]; decide
  have h2 : r.state ≠ STATE_FAILED := by rw [hr]; decide
  have hlt : r.state.toNat < STATE_TRAILER.toNat := by rw [hr]; decide
  have hd : dispatch C fuel r (a ++ ck :: rest) =
      some (parse_delta_header C r (a ++ ck :: rest)) := by
    unfold dispatch
    rw [hr]
  have hf : (a ++ [ck]).foldl ofs_delta_byte r = ofs_delta_byte (a.foldl ofs_delta_byte r) ck := by
    simp
  have hl : parse_delta_header C r (a ++ ck :: rest) =
      if (invoke C ((a ++ [ck]).foldl ofs_delta_byte r)
        (delta_start_event ((a ++ [ck]).foldl ofs_delta_byte r) none
          ((a ++ [ck]).foldl ofs_delta_byte r).current_offset)).1 ≠ 0 then
        ((invoke C ((a ++ [ck]).foldl ofs_delta_byte r)
          (delta_start_event ((a ++ [ck]).foldl ofs_delta_byte r) none
            ((a ++ [ck]).foldl ofs_delta_byte r).current_offset)).1, 0,
         (invoke C ((a ++ [ck]).foldl ofs_delta_byte r)
          (delta_start_event ((a ++ [ck]).foldl ofs_delta_byte r) none
            ((a ++ [ck]).foldl ofs_delta_byte r).current_offset)).2)
      else (0, a.length + 1,
        { (invoke C ((a ++ [ck]).foldl ofs_delta_byte r)
            (delta_start_event ((a ++ [ck]).foldl ofs_delta_byte r) none
              ((a ++ [ck]).foldl ofs_delta_byte r).current_offset)).2 with
          state := STATE_DELTA_DATA_START }) := by
    unfold parse_delta_header
    dsimp only
    rw [if_pos hty, parse_ofs_delta_loop_continue C a r (ck :: rest) 0 ha, parse_ofs_delta_loop]
    dsimp only
    rw [if_pos hck, hf, Nat.zero_add]
  have htr : ((a ++ [ck]).foldl ofs_delta_byte r).trace = r.trace :=
    (ofs_bytes_fold _ r).2.2.1
  rw [parse_iteration_running C fuel r _ h1 h2, hd, hl]
  simp only [Option.map_some']
  by_cases hi : (invoke C ((a ++ [ck]).foldl ofs_delta_byte r)
        (delta_start_event ((a ++ [ck]).foldl ofs_delta_byte r) none
          ((a ++ [ck]).foldl ofs_delta_byte r).current_offset)).1 ≠ 0
  · rw [if_pos hi]
    refine ⟨_, rfl, ?_, ?_, ?_⟩
    · rw [parse_commit_fst]
    · rw [parse_commit_trace, invoke_trace_emit, htr]
    · intro h
      rw [parse_commit_fst] at h
      exact absurd h hi
  · rw [if_neg hi]
    refine ⟨_, rfl, ?_, ?_, ?_⟩
    · rw [parse_commit_fst]
      exact (not_not.mp hi).symm
    · rw [parse_commit_trace]
      show (invoke C _ _).2.trace = _
      rw [invoke_trace_emit, htr]
    · intro _
      rw [parse_commit_ok _ _ _ _ hlt]
      refine ⟨rfl, rfl, ?_⟩
      show (invoke C _ _).2.position + (a.length + 1) = _
      rw [invoke_position, (ofs_bytes_fold _ r).1]

/-- The `delta_start` invocation at the end of an OffsetDelta base specifier
does not depend on how the specifier was split. -/
theorem ofs_last_event {E : Env} (p : git_packfile_parser_t E) (done a : List Byte)
    (ck : Byte) :
    delta_start_event ((a ++ [ck]).foldl ofs_delta_byte (ofs_advance p done)) none
        ((a ++ [ck]).foldl ofs_delta_byte (ofs_advance p done)).current_offset =
      delta_start_event ((done ++ a ++ [ck]).foldl ofs_delta_byte p) none
        ((done ++ a ++ [ck]).foldl ofs_delta_byte p).current_offset := by
  have e : (done ++ a ++ [ck]).foldl ofs_delta_byte p =
      (a ++ [ck]).foldl ofs_delta_byte (done.foldl ofs_delta_byte p) := by
    rw [List.append_assoc, List.foldl_append]
  unfold ofs_advance
  rw [ofs_fold_frame, e]
  rfl

/-- Counterexample to C24: the ten-byte OffsetDelta base specifier 81 80 80 80 80
80 80 80 80 00 has the value 18519369050377699456 by the fold of the claim,
which is beyond the range of an unsigned 64-bit integer; `delta_start` is
invoked with the base offset 72624976668147840. -/
theorem ofs_delta_value_out_of_range :
    ofs_delta_value (ofs_wrap_pack.drop 13) = 18519369050377699456 ∧
    2 ^ 64 ≤ ofs_delta_value (ofs_wrap_pack.drop 13) ∧
    (feed_all all_callbacks 10 (git_packfile_parser_init stored_env) [ofs_wrap_pack]).map
      (fun r => (r.1, r.2.state, r.2.trace)) =
      some ([0], STATE_DELTA_DATA_START,
        [Event.packfile_header 2 1,
         Event.delta_start 12 6 11 0 none 72624976668147840]) := by
  refine ⟨by decide, by decide, ?_⟩
  set_option maxRecDepth 4000 in
  decide

/-- C24, as amended.  Let `pre0 ++ [last0]` be the type/size prefix of an
OffsetDelta entry read from `STATE_OBJECT_HEADER_START`, and `cs ++ [ck]` its
base specifier (high bit set on the bytes of `cs`, clear on `ck`), with a value
that fits in 64 bits.  There is one parser `p`, in `STATE_DELTA_HEADER` and
with nothing invoked, that the prefix leaves however it is split between feeds.
From `p`, however the specifier is split between feeds (the slices `chunks`,
then a slice that starts with the remaining bytes `a ++ [ck]` and goes on with
any bytes `rest`): the feeds of `chunks` return 0 and invoke nothing, and the
iteration of the driver loop that takes `ck` invokes `delta_start` (when
present) once, with the start offset of the entry, the kind
`GIT_OBJECT_OFS_DELTA`, the number of prefix bytes plus the number of specifier
bytes, the size decoded from the prefix, no base name and the value of the fold
of the claim as base offset; it returns what the callback returns (0 when
absent), and on 0 it has consumed the bytes up to `ck` and the parser is in
`STATE_DELTA_DATA_START`. -/
theorem ofs_delta_decoding {E : Env} (C : Consumer) (fuel : Nat)
    (p0 : git_packfile_parser_t E) (pre0 : List Byte) (last0 : Byte)
    (cs : List Byte) (ck : Byte)
    (hp0 : p0.state = STATE_OBJECT_HEADER_START)
    (hpre0 : ∀ b ∈ pre0, b.val &&& 0x80 ≠ 0) (hlast0 : last0.val &&& 0x80 = 0)
    (hkind : preamble_kind ((pre0 ++ [last0]).headD last0) = GIT_OBJECT_OFS_DELTA)
    (hcs : ∀ b ∈ cs, b.val &&& 0x80 ≠ 0) (hck : ck.val &&& 0x80 = 0)
    (hfit : ofs_delta_value (cs ++ [ck]) < 2 ^ 64) :
    ∃ p : git_packfile_parser_t E,
      p.state = STATE_DELTA_HEADER ∧ p.trace = p0.trace ∧
      (∀ (chunks0 : List (List Byte)) (a0 rest0 : List Byte), chunks0.flatten ++ a0 = pre0 →
        ∃ mid0, feed_all C (fuel + 1) p0 chunks0 =
            some (List.replicate chunks0.length 0, mid0) ∧
          parse_iteration C fuel mid0 (a0 ++ last0 :: rest0) = some (0, a0.length + 1, p)) ∧
      (∀ (chunks : List (List Byte)) (a rest : List Byte), chunks.flatten ++ a = cs →
        ∃ mid, feed_all C (fuel + 1) p chunks = some (List.replicate chunks.length 0, mid) ∧
          mid.trace = p0.trace ∧
          ∃ x, parse_iteration C fuel mid (a ++ ck :: rest) = some x ∧
            x.2.2.trace = emit C p0.trace (Event.delta_start p0.position GIT_OBJECT_OFS_DELTA
              (pre0.length + 1 + (cs.length + 1)) (preamble_size E (pre0 ++ [last0])) none
              (ofs_delta_value (cs ++ [ck]))) ∧
            x.1 = (if C.present Callback.delta_start = true then
                C.ret p0.trace (Event.delta_start p0.position GIT_OBJECT_OFS_DELTA
                  (pre0.length + 1 + (cs.length + 1)) (preamble_size E (pre0 ++ [last0])) none
                  (ofs_delta_value (cs ++ [ck])))
              else 0) ∧
            (x.1 = 0 → x.2.1 = a.length + 1 ∧ x.2.2.state = STATE_DELTA_DATA_START)) := by
  have hk : is_delta (preamble_kind ((pre0 ++ [last0]).headD last0)) = true := by
    rw [hkind]; decide
  obtain ⟨h1, h2, h3, h4, -, h6, h7, h8⟩ := preamble_done_fields C p0 pre0 last0 hp0
  rw [if_pos hk] at h6 h7
  rw [hkind] at h1
  obtain ⟨hbits, -, -, -⟩ := h8 hk
  refine ⟨preamble_done C p0 (pre0 ++ [last0]), h6, h7, ?_, ?_⟩
  · intro chunks0 a0 rest0 hsplit
    obtain ⟨hf, -, -, x, hx, hx1, -, hx3⟩ :=
      preamble_split C fuel p0 pre0 last0 hp0 hpre0 hlast0 chunks0 a0 rest0 hsplit
    rw [if_pos hk] at hx1
    exact ⟨_, hf, by rw [hx, hx3 hx1]⟩
  · intro chunks a rest hsplit
    have hc : ∀ b ∈ chunks.flatten, b.val &&& 0x80 ≠ 0 := fun b hb =>
      hcs b (by rw [← hsplit]; exact List.mem_append_left _ hb)
    have ha : ∀ b ∈ a, b.val &&& 0x80 ≠ 0 := fun b hb =>
      hcs b (by rw [← hsplit]; exact List.mem_append_right _ hb)
    have hms : (ofs_advance (preamble_done C p0 (pre0 ++ [last0])) chunks.flatten).state
        = STATE_DELTA_HEADER := ((ofs_bytes_fold _ _).2.2.2.1).trans h6
    have hmt : (ofs_advance (preamble_done C p0 (pre0 ++ [last0])) chunks.flatten).current_type
        = GIT_OBJECT_OFS_DELTA := ((ofs_bytes_fold _ _).2.2.2.2.1).trans h1
    have hmtr : (ofs_advance (preamble_done C p0 (pre0 ++ [last0])) chunks.flatten).trace
        = p0.trace := ((ofs_bytes_fold _ _).2.2.1).trans h7
    obtain ⟨x, hx, hx1, hx2, hx3⟩ := iteration_ofs_last C fuel _ a ck rest hms hmt ha hck
    have hev : delta_start_event
        ((a ++ [ck]).foldl ofs_delta_byte
          (ofs_advance (preamble_done C p0 (pre0 ++ [last0])) chunks.flatten)) none
        ((a ++ [ck]).foldl ofs_delta_byte
          (ofs_advance (preamble_done C p0 (pre0 ++ [last0])) chunks.flatten)).current_offset
        = Event.delta_start p0.position GIT_OBJECT_OFS_DELTA
          (pre0.length + 1 + (cs.length + 1)) (preamble_size E (pre0 ++ [last0])) none
          (ofs_delta_value (cs ++ [ck])) := by
      rw [ofs_last_event, hsplit]
      obtain ⟨-, -, -, -, g5, g6, g7, g8⟩ :=
        ofs_bytes_fold (cs ++ [ck]) (preamble_done C p0 (pre0 ++ [last0]))
      unfold delta_start_event
      rw [g5, g6, g7, g8, ofs_fold_value _ _ (by simp) hbits hfit, h1, h2, h3, h4]
      simp
    rw [hev] at hx2
    rw [invoke_fst, hev] at hx1
    rw [hmtr] at hx2
    have htr2 : ((a ++ [ck]).foldl ofs_delta_byte
        (ofs_advance (preamble_done C p0 (pre0 ++ [last0])) chunks.flatten)).trace
        = p0.trace := ((ofs_bytes_fold _ _).2.2.1).trans hmtr
    rw [htr2] at hx1
    refine ⟨_, feed_ofs_staged C fuel chunks _ h6 h1 hc, hmtr, x, hx, hx2, hx1, fun h0 => ?_⟩
    exact ⟨(hx3 h0).1, (hx3 h0).2.1⟩

/-- Witness for C24, as amended: after the twelve header bytes of a one-entry
pack, the one-byte prefix 60 of an OffsetDelta entry and the base specifier
81 05, whose value is 261. -/
theorem ofs_delta_decoding_witness :
    first_entry_state.state = STATE_OBJECT_HEADER_START ∧
    preamble_kind (([] ++ [0x60] : List Byte).headD 0x60) = GIT_OBJECT_OFS_DELTA ∧
    ofs_delta_value ([0x81] ++ [0x05]) = 261 ∧
    first_entry_state.position = 12 ∧ preamble_size stored_env ([] ++ [0x60]) = 0 ∧
    ∃ p : git_packfile_parser_t stored_env,
      p.state = STATE_DELTA_HEADER ∧ p.trace = first_entry_state.trace ∧
      (∀ (chunks0 : List (List Byte)) (a0 rest0 : List Byte), chunks0.flatten ++ a0 = [] →
        ∃ mid0, feed_all all_callbacks (0 + 1) first_entry_state chunks0 =
            some (List.replicate chunks0.length 0, mid0) ∧
          parse_iteration all_callbacks 0 mid0 (a0 ++ 0x60 :: rest0)
            = some (0, a0.length + 1, p)) ∧
      (∀ (chunks : List (List Byte)) (a rest : List Byte), chunks.flatten ++ a = [0x81] →
        ∃ mid, feed_all all_callbacks (0 + 1) p chunks =
            some (List.replicate chunks.length 0, mid) ∧
          mid.trace = first_entry_state.trace ∧
          ∃ x, parse_iteration all_callbacks 0 mid (a ++ 0x05 :: rest) = some x ∧
            x.2.2.trace = emit all_callbacks first_entry_state.trace
              (Event.delta_start first_entry_state.position GIT_OBJECT_OFS_DELTA
                (([] : List Byte).length + 1 + (([0x81] : List Byte).length + 1))
                (preamble_size stored_env ([] ++ [0x60])) none
                (ofs_delta_value ([0x81] ++ [0x05]))) ∧
            x.1 = (if all_callbacks.present Callback.delta_start = true then
                all_callbacks.ret first_entry_state.trace
                  (Event.delta_start first_entry_state.position GIT_OBJECT_OFS_DELTA
                    (([] : List Byte).length + 1 + (([0x81] : List Byte).length + 1))
                    (preamble_size stored_env ([] ++ [0x60])) none
                    (ofs_delta_value ([0x81] ++ [0x05])))
              else 0) ∧
            (x.1 = 0 → x.2.1 = a.length + 1 ∧ x.2.2.state = STATE_DELTA_DATA_START)) :=
  ⟨rfl, (by set_option maxRecDepth 4000 in decide), (by set_option maxRecDepth 4000 in decide),
    rfl, (by set_option maxRecDepth 4000 in decide),
    ofs_delta_decoding all_callbacks 0 first_entry_state [] 0x60 [0x81] 0x05 rfl
      (by set_option maxRecDepth 4000 in decide) (by set_option maxRecDepth 4000 in decide)
      (by set_option maxRecDepth 4000 in decide) (by set_option maxRecDepth 4000 in decide)
      (by set_option maxRecDepth 4000 in decide) (by set_option maxRecDepth 4000 in decide)⟩

/-- C32. Feeding the empty slice is a no-op: whatever the parser (its state
included, `STATE_COMPLETE` and `STATE_FAILED` too), the consumer and the bound
on the loop, `git_packfile_parser_parse` on the empty slice returns 0 and
leaves the parser as it was, field for field, so that no callback is invoked;
and an empty slice put in front of a sequence of feeds adds a result 0 and
changes nothing else. -/
theorem empty_slice_is_noop {E : Env} (C : Consumer) (fuel : Nat)
    (p : git_packfile_parser_t E) :
    git_packfile_parser_parse C fuel p [] = some (0, p) ∧
    ∀ slices : List (List Byte),
      feed_all C fuel p ([] :: slices) =
        (feed_all C fuel p slices).map (fun x => (0 :: x.1, x.2)) := by
  refine ⟨parse_nil C fuel p, fun slices => ?_⟩
  rw [feed_all_cons, parse_nil]
  dsimp only
  cases feed_all C fuel p slices <;> rfl

/-- C34. `git_error__check_version` returns 0 exactly when the structure is
null or its version `v` satisfies `1 <= v <= expected_max`, and -1 in every
other case, that is for a version 0 and for a version above `expected_max`;
`git_error_set` is called exactly when -1 is returned. -/
theorem check_version_spec (version : Option Nat) (expected_max : Nat) :
    ((git_error__check_version version expected_max).1 = 0 ↔
      version = none ∨ ∃ v, version = some v ∧ 1 ≤ v ∧ v ≤ expected_max) ∧
    ((git_error__check_version version expected_max).1 ≠ 0 →
      (git_error__check_version version expected_max).1 = -1) ∧
    (∀ v, version = some v → v = 0 ∨ expected_max < v →
      (git_error__check_version version expected_max).1 = -1) ∧
    ((git_error__check_version version expected_max).2.isSome = true ↔
      (git_error__check_version version expected_max).1 = -1) := by
  cases version with
  | none => simp [git_error__check_version]
  | some v =>
    unfold git_error__check_version
    by_cases h : v > 0 ∧ v ≤ expected_max
    · simp only [if_pos h]
      refine ⟨?_, ?_, ?_, ?_⟩
      · simp only [true_iff]
        exact Or.inr ⟨v, rfl, h.1, h.2⟩
      · intro h0; exact absurd rfl h0
      · intro w hw hc
        cases hw
        omega
      · simp
    · simp only [if_neg h]
      refine ⟨?_, ?_, ?_, ?_⟩
      · constructor
        · intro h0; simp at h0
        · rintro (h0 | ⟨w, hw, h1, h2⟩)
          · cases h0
          · cases hw
            exact absurd ⟨h1, h2⟩ h
      · intro _; trivial
      · intro _ _ _; trivial
      · simp

/-- The characters of a string whose first byte is not the terminator. -/
theorem c_string_cons_ne (c : Byte) (rest : List Byte) (h : c ≠ 0) :
    c_string (c :: rest) = c :: c_string rest := by
  simp [c_string, List.takeWhile_cons, h]

/-- A string whose first byte is the terminator is empty. -/
theorem c_string_cons_zero (rest : List Byte) : c_string ((0 : Byte) :: rest) = [] := by
  simp [c_string, List.takeWhile_cons]

/-- No character of a string is the terminator. -/
theorem c_string_ne_zero (s : List Byte) : (0 : Byte) ∉ c_string s := by
  intro h
  have := List.mem_takeWhile_imp h
  simp at this

/-- The scan of `git_strvec_contains_key` stops at the first occurrence of the
delimiter when the key has one. -/
theorem key_scan_found (delimiter : Byte) (key : List Byte)
    (h : delimiter ∈ c_string key) :
    key_scan delimiter key = (c_string key).indexOf delimiter ∧
    char_at key (key_scan delimiter key) = delimiter := by
  induction key with
  | nil => simp [c_string] at h
  | cons c rest ih =>
    by_cases hc : c = 0
    · subst hc
      rw [c_string_cons_zero] at h
      simp at h
    · rw [c_string_cons_ne c rest hc] at h ⊢
      by_cases hd : c = delimiter
      · subst hd
        simp [key_scan, hc, char_at]
      · have hm : delimiter ∈ c_string rest := by
          rcases List.mem_cons.1 h with h1 | h1
          · exact absurd h1.symm hd
          · exact h1
        have := ih hm
        simp only [key_scan, if_neg hc, if_neg hd]
        rw [List.indexOf_cons_ne _ hd]
        refine ⟨by rw [this.1], ?_⟩
        have e : char_at (c :: rest) (key_scan delimiter rest + 1) =
            char_at rest (key_scan delimiter rest) := by
          simp [char_at]
        rw [e]; exact this.2

/-- The scan of `git_strvec_contains_key` stops at the terminator when the key
has no occurrence of the delimiter. -/
theorem key_scan_absent (delimiter : Byte) (key : List Byte)
    (h : delimiter ∉ c_string key) :
    char_at key (key_scan delimiter key) = 0 := by
  induction key with
  | nil => rfl
  | cons c rest ih =>
    by_cases hc : c = 0
    · subst hc
      simp [key_scan, char_at]
    · rw [c_string_cons_ne c rest hc] at h
      have hd : c ≠ delimiter := fun e => h (by rw [e]; exact List.mem_cons_self _ _)
      have hm : delimiter ∉ c_string rest := fun e => h (List.mem_cons_of_mem _ e)
      simp only [key_scan, if_neg hc, if_neg hd]
      have e : char_at (c :: rest) (key_scan delimiter rest + 1) =
          char_at rest (key_scan delimiter rest) := by
        simp [char_at]
      rw [e]; exact ih hm

/-- The loop of `git_strvec_contains_prefix` finds a string exactly when the
vector has one that `strncmp` accepts. -/
theorem contains_prefix_iff (strings : List (List Byte)) (str : List Byte) (n : Nat) :
    git_strvec_contains_prefix strings str n = true ↔
      ∃ s ∈ strings, strncmp_eq s str n = true := by
  induction strings with
  | nil => simp [ git_strvec_contains_prefix]
  | cons s rest ih =>
    unfold git_strvec_contains_prefix
    by_cases h : strncmp_eq s str n = true
    · simp [h]
    · simp [h, ih]

/-- On `n` characters that the second string has, `strncmp` accepts exactly the
strings that start with these characters. -/
theorem strncmp_eq_iff_starts (n : Nat) : ∀ (s key : List Byte),
    n ≤ (c_string key).length →
    (strncmp_eq s key n = true ↔ (c_string key).take n <+: c_string s) := by
  induction n with
  | zero => intro s key _; simp [strncmp_eq]
  | succ n ih =>
    intro s key hn
    cases key with
    | nil => simp [c_string] at hn
    | cons c rest =>
      by_cases hc : c = 0
      · subst hc
        rw [c_string_cons_zero] at hn
        simp at hn
      · rw [c_string_cons_ne c rest hc] at hn ⊢
        have hn1 : n ≤ (c_string rest).length := by
          simp only [List.length_cons] at hn; omega
        rw [List.take_succ_cons]
        cases s with
        | nil =>
          have : (0 : Byte) ≠ c := fun e => hc e.symm
          simp [strncmp_eq, char_at, c_string, this]
        | cons a s1 =>
          by_cases ha : a = c
          · subst ha
            rw [c_string_cons_ne a s1 hc]
            simp only [strncmp_eq, char_at, List.getD_cons_zero, ne_eq, not_true_eq_false,
              if_false, if_neg hc, List.tail_cons]
            rw [ih s1 rest hn1]
            simp [List.cons_prefix_cons]
          · have h1 : ¬ (c :: List.take n (c_string rest) <+: c_string (a :: s1)) := by
              intro hp
              by_cases ha0 : a = 0
              · subst ha0
                rw [c_string_cons_zero] at hp
                simp at hp
              · rw [c_string_cons_ne a s1 ha0, List.cons_prefix_cons] at hp
                exact ha hp.1.symm
            simp [strncmp_eq, char_at, ha, h1]

/-- C33. `git_strvec_contains_key` returns false when the key has no
occurrence of the delimiter.  Otherwise, with `k` the index of the first
occurrence of the delimiter in the key, it returns true exactly when some
string of the vector agrees with the key on its first `k` characters in the
sense of `strncmp`, which is to say that the string starts with the `k`
characters of the key before the delimiter; when `k = 0` it returns true exactly
when the vector is not empty. -/
theorem contains_key_spec (strings : List (List Byte)) (key : List Byte)
    (delimiter : Byte) :
    (delimiter ∉ c_string key →
      git_strvec_contains_key strings key delimiter = false) ∧
    (delimiter ∈ c_string key →
      (git_strvec_contains_key strings key delimiter = true ↔
        ∃ s ∈ strings,
          strncmp_eq s key ((c_string key).indexOf delimiter) = true) ∧
      (∀ s, strncmp_eq s key ((c_string key).indexOf delimiter) = true ↔
        (c_string key).take ((c_string key).indexOf delimiter) <+: c_string s) ∧
      ((c_string key).indexOf delimiter = 0 →
        (git_strvec_contains_key strings key delimiter = true ↔ strings ≠ []))) := by
  constructor
  · intro h
    unfold git_strvec_contains_key
    simp [key_scan_absent delimiter key h]
  · intro h
    have hk := key_scan_found delimiter key h
    have hd : delimiter ≠ 0 := fun e => c_string_ne_zero key (e ▸ h)
    have hr : git_strvec_contains_key strings key delimiter =
        git_strvec_contains_prefix strings key ((c_string key).indexOf delimiter) := by
      unfold git_strvec_contains_key
      simp only [hk.2, ne_eq, hd, not_false_eq_true, if_true]
      rw [hk.1]
    refine ⟨?_, ?_, ?_⟩
    · rw [hr]; exact contains_prefix_iff _ _ _
    · intro s
      exact strncmp_eq_iff_starts _ s key (List.indexOf_le_length)
    · intro h0
      rw [hr, h0, contains_prefix_iff]
      cases strings with
      | nil => simp
      | cons s rest => simp [strncmp_eq]

/-- C33, at an instance: with the key "ab=c" and the delimiter '=' the vector
of "abx" and "q" has the key, the vector of "a" and "q" has not, and with the
key "abc" nothing has. -/
theorem contains_key_spec_witness :
    (61 : Byte) ∈ c_string [97, 98, 61, 99] ∧
    (c_string [97, 98, 61, 99]).indexOf (61 : Byte) = 2 ∧
    git_strvec_contains_key [[97, 98, 120], [113]] [97, 98, 61, 99] 61 = true ∧
    git_strvec_contains_key [[97], [113]] [97, 98, 61, 99] 61 = false ∧
    (61 : Byte) ∉ c_string [97, 98, 99] ∧
    git_strvec_contains_key [[97, 98, 99]] [97, 98, 99] 61 = false :=
  ⟨by set_option maxRecDepth 4000 in decide, by set_option maxRecDepth 4000 in decide,
   by set_option maxRecDepth 4000 in decide, by set_option maxRecDepth 4000 in decide,
   by set_option maxRecDepth 4000 in decide,
   (contains_key_spec [[97, 98, 99]] [97, 98, 99] 61).1
     (by set_option maxRecDepth 4000 in decide)⟩

/-- The offset `last_offset` finds is that of an occurrence with no later one. -/
theorem last_offset_some (ch : Byte) : ∀ (t : List Byte) (i : Nat),
    last_offset ch t = some i →
    ∃ pre post, t = pre ++ ch :: post ∧ pre.length = i ∧ ch ∉ post := by
  intro t
  induction t with
  | nil => intro i h; simp [last_offset] at h
  | cons c rest ih =>
    intro i h
    unfold last_offset at h
    cases hl : last_offset ch rest with
    | some j =>
      rw [hl] at h
      simp only [Option.some.injEq] at h
      obtain ⟨pre, post, e, hlen, hn⟩ := ih j hl
      exact ⟨c :: pre, post, by rw [e]; rfl, by simp [hlen, h], hn⟩
    | none =>
      rw [hl] at h
      by_cases hc : c = ch
      · simp only [if_pos hc, Option.some.injEq] at h
        subst hc
        refine ⟨[], rest, rfl, by simp [h], ?_⟩
        intro hm
        obtain ⟨k, hk⟩ : ∃ k, last_offset c rest = some k := by
          clear ih h hl
          induction rest with
          | nil => simp at hm
          | cons d r ihr =>
            unfold last_offset
            cases hr : last_offset c r with
            | some j => exact ⟨j + 1, rfl⟩
            | none =>
              rcases List.mem_cons.1 hm with h1 | h1
              · exact ⟨0, by simp [h1]⟩
              · obtain ⟨k, hk⟩ := ihr h1
                rw [hr] at hk; cases hk
        rw [hl] at hk; cases hk
      · simp [if_neg hc] at h

/-- The search `last_offset` fails only on a string without the character. -/
theorem last_offset_none (ch : Byte) : ∀ (t : List Byte),
    last_offset ch t = none → ch ∉ t := by
  intro t
  induction t with
  | nil => intro _; simp
  | cons c rest ih =>
    intro h
    unfold last_offset at h
    cases hl : last_offset ch rest with
    | some j => rw [hl] at h; cases h
    | none =>
      rw [hl] at h
      by_cases hc : c = ch
      · simp [if_pos hc] at h
      · intro hm
        rcases List.mem_cons.1 hm with h1 | h1
        · exact hc h1.symm
        · exact ih hl h1

/-- The string found at an offset inside a string is the rest of its characters. -/
theorem c_string_drop : ∀ (s : List Byte) (i : Nat), i ≤ (c_string s).length →
    c_string (s.drop i) = (c_string s).drop i := by
  intro s
  induction s with
  | nil => intro i _; simp [c_string]
  | cons c rest ih =>
    intro i hi
    cases i with
    | zero => rfl
    | succ i =>
      by_cases hc : c = 0
      · subst hc
        rw [c_string_cons_zero] at hi
        simp at hi
      · rw [c_string_cons_ne c rest hc] at hi ⊢
        simp only [List.length_cons] at hi
        simp only [List.drop_succ_cons]
        exact ih i (by omega)

/-- The buffer of `compute_local_path` before the adjustment for ".git". -/
theorem local_path_base (orig_path : List Byte) :
    ∃ base,
      ((∃ pre, c_string orig_path = pre ++ 47 :: base ∧ (47 : Byte) ∉ base) ∨
       ((47 : Byte) ∉ c_string orig_path ∧
         ∃ pre, c_string orig_path = pre ++ 92 :: base ∧ (92 : Byte) ∉ base) ∨
       ((47 : Byte) ∉ c_string orig_path ∧ (92 : Byte) ∉ c_string orig_path ∧
         base = c_string orig_path)) ∧
      ∀ bare, compute_local_path bare orig_path =
        if bare = true then
          if ¬ git_str_endswith base dot_git = true then git_str_puts base dot_git else base
        else
          if git_str_endswith base dot_git = true then git_str_shorten base 4 else base := by
  have key : ∀ (ch : Byte) (i : Nat), strrchr orig_path ch = some i →
      ∃ pre, c_string orig_path = pre ++ ch :: git_str_puts [] (orig_path.drop (i + 1)) ∧
        ch ∉ git_str_puts [] (orig_path.drop (i + 1)) := by
    intro ch i h
    obtain ⟨pre, post, e, hlen, hn⟩ := last_offset_some ch _ i h
    have hi : i + 1 ≤ (c_string orig_path).length := by
      rw [e]; simp; omega
    have hd : git_str_puts [] (orig_path.drop (i + 1)) = post := by
      unfold git_str_puts
      rw [List.nil_append, c_string_drop _ _ hi, e]
      rw [show i + 1 = (pre ++ [ch]).length by simp [hlen]]
      rw [show pre ++ ch :: post = (pre ++ [ch]) ++ post by simp]
      exact List.drop_left _ _
    rw [hd]
    exact ⟨pre, e, hn⟩
  cases h1 : strrchr orig_path 47 with
  | some i =>
    refine ⟨git_str_puts [] (orig_path.drop (i + 1)), Or.inl (key 47 i h1), ?_⟩
    intro bare
    unfold compute_local_path
    rw [h1]
  | none =>
    have n1 : (47 : Byte) ∉ c_string orig_path := last_offset_none 47 _ h1
    cases h2 : strrchr orig_path 92 with
    | some i =>
      refine ⟨git_str_puts [] (orig_path.drop (i + 1)), Or.inr (Or.inl ⟨n1, key 92 i h2⟩), ?_⟩
      intro bare
      unfold compute_local_path
      rw [h1]
      dsimp only
      rw [h2]
    | none =>
      have n2 : (92 : Byte) ∉ c_string orig_path := last_offset_none 92 _ h2
      refine ⟨c_string orig_path, Or.inr (Or.inr ⟨n1, n2, rfl⟩), ?_⟩
      intro bare
      unfold compute_local_path
      rw [h1]
      dsimp only
      rw [h2]
      rfl

/-- The test `git_str_endswith` for ".git". -/
theorem endswith_dot_git (buf : List Byte) :
    git_str_endswith buf dot_git = true ↔ dot_git <:+ buf := by
  unfold git_str_endswith
  rw [show c_string dot_git = dot_git by set_option maxRecDepth 4000 in decide]
  exact List.isSuffixOf_iff_suffix

/-- C35. `compute_local_path` works on `base`, the characters of `orig_path`
after its last '/', or, when it has no '/', after its last '\\', or all of
them when it has neither.  Cloning bare it returns `base` when that ends with
".git" and `base` followed by ".git" when not; not cloning bare it returns
`base` without its last ".git" when `base` ends with ".git", and `base` when
not. -/
theorem local_path_spec (orig_path : List Byte) :
    ∃ base,
      ((∃ pre, c_string orig_path = pre ++ 47 :: base ∧ (47 : Byte) ∉ base) ∨
       ((47 : Byte) ∉ c_string orig_path ∧
         ∃ pre, c_string orig_path = pre ++ 92 :: base ∧ (92 : Byte) ∉ base) ∨
       ((47 : Byte) ∉ c_string orig_path ∧ (92 : Byte) ∉ c_string orig_path ∧
         base = c_string orig_path)) ∧
      (dot_git <:+ base → compute_local_path true orig_path = base) ∧
      (¬ dot_git <:+ base → compute_local_path true orig_path = base ++ dot_git) ∧
      (∀ stem, base = stem ++ dot_git → compute_local_path false orig_path = stem) ∧
      (¬ dot_git <:+ base → compute_local_path false orig_path = base) := by
  obtain ⟨base, hb, hc⟩ := local_path_base orig_path
  refine ⟨base, hb, ?_, ?_, ?_, ?_⟩
  · intro h
    rw [hc true]
    simp [(endswith_dot_git base).2 h]
  · intro h
    have h1 : ¬ git_str_endswith base dot_git = true := fun e => h ((endswith_dot_git base).1 e)
    have e : c_string dot_git = dot_git := by set_option maxRecDepth 4000 in decide
    rw [hc true]
    simp [h1, git_str_puts, e]
  · intro stem h
    have h1 : git_str_endswith base dot_git = true :=
      (endswith_dot_git base).2 ⟨stem, h.symm⟩
    rw [hc false]
    simp only [Bool.false_eq_true, if_false, h1, if_true]
    unfold git_str_shorten
    rw [h]
    have hl : (stem ++ dot_git).length = stem.length + 4 := by simp [dot_git]
    rw [hl]
    by_cases hs : stem.length + 4 > 4
    · rw [if_pos hs, show stem.length + 4 - 4 = stem.length by omega]
      exact List.take_left _ _
    · rw [if_neg hs]
      have : stem.length = 0 := by omega
      exact (List.length_eq_zero.1 this).symm
  · intro h
    have h1 : ¬ git_str_endswith base dot_git = true := fun e => h ((endswith_dot_git base).1 e)
    rw [hc false]
    simp only [Bool.false_eq_true, if_false, h1]

/-- C35, at instances: from "a/b\\c.git" the result is "b\\c" and cloning
bare "b\\c.git"; from "a\\r" it is "r" and cloning bare "r.git"; from ".git" it
is the empty string. -/
theorem local_path_spec_witness :
    compute_local_path false [97, 47, 98, 92, 99, 46, 103, 105, 116] = [98, 92, 99] ∧
    compute_local_path true [97, 47, 98, 92, 99, 46, 103, 105, 116] =
      [98, 92, 99, 46, 103, 105, 116] ∧
    compute_local_path false [97, 92, 114] = [114] ∧
    compute_local_path true [97, 92, 114] = [114, 46, 103, 105, 116] ∧
    compute_local_path false [46, 103, 105, 116] = [] ∧
    (∃ base,
      ((∃ pre, c_string [97, 92, 114] = pre ++ 47 :: base ∧ (47 : Byte) ∉ base) ∨
       ((47 : Byte) ∉ c_string [97, 92, 114] ∧
         ∃ pre, c_string [97, 92, 114] = pre ++ 92 :: base ∧ (92 : Byte) ∉ base) ∨
       ((47 : Byte) ∉ c_string [97, 92, 114] ∧ (92 : Byte) ∉ c_string [97, 92, 114] ∧
         base = c_string [97, 92, 114])) ∧
      (dot_git <:+ base → compute_local_path true [97, 92, 114] = base) ∧
      (¬ dot_git <:+ base → compute_local_path true [97, 92, 114] = base ++ dot_git) ∧
      (∀ stem, base = stem ++ dot_git → compute_local_path false [97, 92, 114] = stem) ∧
      (¬ dot_git <:+ base → compute_local_path false [97, 92, 114] = base)) :=
  ⟨by set_option maxRecDepth 4000 in decide, by set_option maxRecDepth 4000 in decide,
   by set_option maxRecDepth 4000 in decide, by set_option maxRecDepth 4000 in decide,
   by set_option maxRecDepth 4000 in decide, local_path_spec [97, 92, 114]⟩

/-- A successful `parse_header` on a non-empty slice, with fewer than twelve
header bytes staged, consumes at least one byte. -/
theorem parse_header_progress {E : Env} (C : Consumer) (p : git_packfile_parser_t E)
    (data : List Byte) (hne : data ≠ []) (hl : p.header_len < PACK_HEADER_SIZE)
    (h0 : (parse_header C p data).1 = 0) :
    1 ≤ (parse_header C p data).2.1 ∧ (parse_header C p data).2.1 ≤ data.length := by
  have hlen : 0 < data.length := List.length_pos.2 hne
  unfold PACK_HEADER_SIZE at hl
  revert h0
  unfold parse_header
  dsimp only
  split_ifs with a b c d <;> intro h0
  all_goals first
    | (exfalso; simp at h0; done)
    | exact absurd h0 ‹_›
    | (simp only [PACK_HEADER_SIZE]; omega)

/-- A successful `parse_trailer` on a non-empty slice consumes at least one
byte when the hash has at least one. -/
theorem parse_trailer_progress {E : Env} (C : Consumer) (p : git_packfile_parser_t E)
    (data : List Byte) (hne : data ≠ []) (hpos : 0 < E.hash_size)
    (h0 : (parse_trailer C p data).1 = 0) :
    1 ≤ (parse_trailer C p data).2.1 ∧ (parse_trailer C p data).2.1 ≤ data.length := by
  have hlen : 0 < data.length := List.length_pos.2 hne
  revert h0
  unfold parse_trailer
  dsimp only
  split_ifs with a b c <;> intro h0
  all_goals first
    | (exfalso; simp at h0; done)
    | exact absurd h0 ‹_›
    | (dsimp only; omega)

/-- A successful `parse_object_header` on a non-empty slice consumes at least
one byte. -/
theorem parse_object_header_progress {E : Env} (C : Consumer)
    (p : git_packfile_parser_t E) (data : List Byte) (hne : data ≠ [])
    (hs : p.state = STATE_OBJECT_HEADER_START ∨ p.state = STATE_OBJECT_HEADER)
    (h0 : (parse_object_header C p data).1 = 0) :
    1 ≤ (parse_object_header C p data).2.1 ∧
    (parse_object_header C p data).2.1 ≤ data.length := by
  obtain ⟨k, hk, hk0, hc, _⟩ :=
    (parse_object_header_loop_summary C data p 0 _ rfl hs (fun _ => hne)).2.2.2 h0
  have := hk0 hne
  unfold parse_object_header
  omega

/-- A successful `parse_delta_header` on a non-empty slice consumes at least
one byte when the hash has at least one. -/
theorem parse_delta_header_progress {E : Env} (C : Consumer)
    (p : git_packfile_parser_t E) (data : List Byte) (hne : data ≠ [])
    (hpos : 0 < E.hash_size) (h0 : (parse_delta_header C p data).1 = 0) :
    1 ≤ (parse_delta_header C p data).2.1 ∧
    (parse_delta_header C p data).2.1 ≤ data.length := by
  have hlen : 0 < data.length := List.length_pos.2 hne
  by_cases ho : p.current_type = GIT_OBJECT_OFS_DELTA
  · have e : parse_delta_header C p data = parse_ofs_delta_loop C p data 0 := by
      unfold parse_delta_header
      simp only [if_pos ho]
    rw [e] at h0 ⊢
    obtain ⟨k, hk, hk0, hc, _⟩ :=
      (parse_ofs_delta_loop_summary C data p 0 _ rfl).2.2.2 h0
    have := hk0 hne
    omega
  · revert h0
    unfold parse_delta_header
    simp only [if_neg ho]
    split_ifs with a b c <;> intro h0
    all_goals first
      | (exfalso; simp at h0; done)
      | exact absurd h0 ‹_›
      | (dsimp only; omega)

/-- In a state that is neither a payload state nor terminal, the sub-parser the
driver chooses for a non-empty slice returns, and when it returns 0 it has
consumed at least one byte and at most the slice. -/
theorem dispatch_progress {E : Env} (C : Consumer) (fuel : Nat)
    (p : git_packfile_parser_t E) (data : List Byte) (hne : data ≠ [])
    (hpos : 0 < E.hash_size)
    (hh : p.state = STATE_HEADER → p.header_len < PACK_HEADER_SIZE)
    (hs : p.state = STATE_HEADER ∨ p.state = STATE_OBJECT_HEADER_START ∨
      p.state = STATE_OBJECT_HEADER ∨ p.state = STATE_DELTA_HEADER ∨
      p.state = STATE_TRAILER) :
    ∃ r, dispatch C fuel p data = some r ∧
      (r.1 = 0 → 1 ≤ r.2.1 ∧ r.2.1 ≤ data.length) := by
  rcases hs with h | h | h | h | h
  · exact ⟨_, by unfold dispatch; rw [h],
      parse_header_progress C p data hne (hh h)⟩
  · exact ⟨_, by unfold dispatch; rw [h],
      parse_object_header_progress C p data hne (Or.inl h)⟩
  · exact ⟨_, by unfold dispatch; rw [h],
      parse_object_header_progress C p data hne (Or.inr h)⟩
  · exact ⟨_, by unfold dispatch; rw [h],
      parse_delta_header_progress C p data hne hpos⟩
  · exact ⟨_, by unfold dispatch; rw [h],
      parse_trailer_progress C p data hne hpos⟩

/-- A parser the run has reached in `STATE_HEADER` has fewer than twelve header
bytes staged. -/
theorem reached_header_len {E : Env} (C : Consumer) (S : List Byte)
    (p : git_packfile_parser_t E) (hr : reached C S p) (h : p.state = STATE_HEADER) :
    p.header_len < PACK_HEADER_SIZE := by
  have hI := reached_inv C S p hr (by rw [h]; decide)
  have h1 := hI.pos (by rw [h]; decide)
  have h2 := hI.hdr0 h
  rw [h1.2, h2.1]
  exact h2.2.1

/-- From a parser the run has reached, outside the payload states, the loop body
of the driver returns on a non-empty slice, and when it returns 0 it has
consumed at least one byte and at most the slice. -/
theorem iteration_progress {E : Env} (C : Consumer) (fuel : Nat) (S : List Byte)
    (p : git_packfile_parser_t E) (data : List Byte) (hr : reached C S p)
    (hne : data ≠ []) (hpos : 0 < E.hash_size) (hp : payload_state p.state = false) :
    ∃ x, parse_iteration C fuel p data = some x ∧
      (x.1 = 0 → 1 ≤ x.2.1 ∧ x.2.1 ≤ data.length) := by
  by_cases hstuck : p.state = STATE_FAILED ∨ p.state = STATE_COMPLETE
  · rw [parse_iteration_stuck C fuel p data hstuck]
    exact ⟨_, rfl, fun h => by simp at h⟩
  · have h1 : p.state ≠ STATE_COMPLETE := fun h => hstuck (Or.inr h)
    have h2 : p.state ≠ STATE_FAILED := fun h => hstuck (Or.inl h)
    have hs : p.state = STATE_HEADER ∨ p.state = STATE_OBJECT_HEADER_START ∨
        p.state = STATE_OBJECT_HEADER ∨ p.state = STATE_DELTA_HEADER ∨
        p.state = STATE_TRAILER := by
      cases hst : p.state <;> rw [hst] at hp h1 h2 <;>
        first | (simp [payload_state] at hp; done) | exact absurd rfl h1
              | exact absurd rfl h2 | simp
    obtain ⟨r, hd, hc⟩ := dispatch_progress C fuel p data hne hpos
      (reached_header_len C S p hr) hs
    rw [parse_iteration_running C fuel p data h1 h2, hd]
    refine ⟨_, rfl, fun h => ?_⟩
    rw [parse_commit_fst] at h
    rw [parse_commit_consumed _ _ _ h]
    exact hc h

/-- With a bound on the loop of at least the length of the slice, the driver
returns from a reached parser unless an iteration starts in a payload state. -/
theorem parse_terminates {E : Env} (C : Consumer) (hpos : 0 < E.hash_size) :
    ∀ (fuel : Nat) (S : List Byte) (p : git_packfile_parser_t E) (data : List Byte),
      reached C S p → data.length ≤ fuel → enters_payload C fuel p data = false →
      ∃ x, git_packfile_parser_parse C fuel p data = some x := by
  intro fuel
  induction fuel with
  | zero =>
    intro S p data _ hl _
    have : data = [] := List.length_eq_zero.1 (by omega)
    subst this
    exact ⟨_, parse_nil C 0 p⟩
  | succ fuel ih =>
    intro S p data hr hl he
    cases data with
    | nil => exact ⟨_, parse_nil C _ p⟩
    | cons c rest =>
      have hne : c :: rest ≠ [] := by simp
      unfold enters_payload at he
      rw [Bool.or_eq_false_iff] at he
      obtain ⟨x, hx, hc⟩ := iteration_progress C fuel S p (c :: rest) hr hne hpos he.1
      by_cases h0 : x.1 = 0
      · rw [parse_of_iteration_ok C fuel p _ hne x hx h0]
        have he2 := he.2
        rw [hx] at he2
        simp only [h0, ne_eq, not_true_eq_false, if_false] at he2
        have hb := hc h0
        refine ih _ x.2.2 _ (reached.step fuel S p _ x hr hne hx) ?_ he2
        rw [List.length_drop]
        simp only [List.length_cons] at hl hb ⊢
        omega
      · exact ⟨_, parse_of_iteration_error C fuel p _ hne x hx h0⟩

/-- C8 fails on the code when the trailer is split between two calls and the
second slice is longer than the trailer bytes still missing.  The empty pack
with a trailer whose last byte is wrong, followed by one more byte: fed in one
slice the feed returns -1 and the state is `STATE_FAILED`; fed as the header
with the first seven trailer bytes and then the other thirteen trailer bytes
with the extra byte, both feeds return 0, the last trailer byte has been
consumed, no mismatch is reported and the parser stays in `STATE_TRAILER`.
With the right trailer and the same split both feeds return 0 as well, and
`packfile_complete` is not invoked. -/
theorem split_trailer_not_verified :
    corrupt_trailer.length = stored_env.hash_size ∧
    corrupt_trailer ≠ stored_env.hash_final empty_pack_header ∧
    (feed_all all_callbacks 10 (git_packfile_parser_init stored_env)
        [empty_pack_header ++ corrupt_trailer ++ [0]]).map
      (fun r => (r.1, r.2.state, r.2.trace)) =
      some ([-1], STATE_FAILED, [Event.packfile_header 2 0]) ∧
    (feed_all all_callbacks 10 (git_packfile_parser_init stored_env)
        [empty_pack_header ++ corrupt_trailer.take 7, corrupt_trailer.drop 7 ++ [0]]).map
      (fun r => (r.1, r.2.state, r.2.position, r.2.trace)) =
      some ([0, 0], STATE_TRAILER, 33, [Event.packfile_header 2 0]) ∧
    (feed_all all_callbacks 10 (git_packfile_parser_init stored_env)
        [empty_pack_header ++ (sum_digest empty_pack_header).take 7,
         (sum_digest empty_pack_header).drop 7 ++ [0]]).map
      (fun r => (r.1, r.2.state, r.2.position, r.2.trace)) =
      some ([0, 0], STATE_TRAILER, 33, [Event.packfile_header 2 0]) := by
  set_option maxRecDepth 8000 in
  decide

/-- C23 fails on the code for the five-byte prefix 95 FF FF FF 7F.  By the
formula of the claim it encodes the size 4294967285, which fits in `size_t`.
The decoder adds `(c & 0x7f) << current_bits` for its last byte as the `int`
shift `0x7f << 25`, which C does not define (the result is not below 2^31), so
that in every environment the size it accumulates is 0x1FFFFF5 plus what the
platform yields for that shift; where the shift wraps to a negative `int` that
is sign-extended, `object_start` is invoked with the size
18446744073709551605. -/
theorem preamble_int_shift_misdecodes :
    preamble_value (shifted_size_pack.drop 12) = 4294967285 ∧
    preamble_value (shifted_size_pack.drop 12) < 2 ^ 64 ∧
    shifts_defined 4 (shifted_size_pack.drop 13) = false ∧
    (∀ E : Env, preamble_size E (shifted_size_pack.drop 12) =
      (0x1FFFFF5 + E.int_shl_ub 0x7f 25 % SIZE_MOD) % SIZE_MOD) ∧
    (feed_all all_callbacks 10 (git_packfile_parser_init stored_env)
        [shifted_size_pack]).map (fun r => (r.1, r.2.trace)) =
      some ([0], [Event.packfile_header 2 1,
        Event.object_start 12 5 1 18446744073709551605]) := by
  refine ⟨by set_option maxRecDepth 4000 in decide, by set_option maxRecDepth 4000 in decide,
    by set_option maxRecDepth 4000 in decide, fun E => ?_,
    by set_option maxRecDepth 8000 in decide⟩
  have e : shifted_size_pack.drop 12 = [0x95, 0xFF, 0xFF, 0xFF, 0x7F] := by
    set_option maxRecDepth 4000 in decide
  rw [e]
  have a1 : ((0x95 : Byte).val &&& 0x0f) = 5 := by decide
  have a2 : ((0xFF : Byte).val &&& 0x7f) = 127 := by decide
  have a3 : ((0x7F : Byte).val &&& 0x7f) = 127 := by decide
  simp only [preamble_size, List.foldl, preamble_step, int_shl, a1, a2, a3]
  norm_num [Nat.shiftLeft_eq, SIZE_MOD]

/-- Bounded progress where the staging copies stay within bounds, for a hash of
at least one byte.  From a parser the run has reached in `STATE_HEADER`,
`STATE_OBJECT_HEADER_START`, `STATE_OBJECT_HEADER`, `STATE_DELTA_HEADER` or
`STATE_TRAILER`, the sub-parser the driver chooses for a non-empty slice of
length `n` whose staging copy is within bounds returns, and when it returns 0
its consumed count `c` satisfies `1 <= c <= n`.  And the loop of the driver,
bounded by no less than the length of the slice, returns unless one of its
iterations starts in a payload state or makes a staging copy out of bounds. -/
theorem progress_within_buffers {E : Env} (C : Consumer) (S : List Byte)
    (p : git_packfile_parser_t E) (hr : reached C S p) (hpos : 0 < E.hash_size)
    (fuel : Nat) (data : List Byte) :
    (data ≠ [] →
      p.state = STATE_HEADER ∨ p.state = STATE_OBJECT_HEADER_START ∨
        p.state = STATE_OBJECT_HEADER ∨ p.state = STATE_DELTA_HEADER ∨
        p.state = STATE_TRAILER →
      staging_in_bounds p data = true →
      ∃ r, dispatch C fuel p data = some r ∧
        (r.1 = 0 → 1 ≤ r.2.1 ∧ r.2.1 ≤ data.length)) ∧
    (data.length ≤ fuel → enters_payload C fuel p data = false →
      overruns C fuel p data = false →
      ∃ x, git_packfile_parser_parse C fuel p data = some x) :=
  ⟨fun hne hs _ => dispatch_progress C fuel p data hne hpos
      (reached_header_len C S p hr) hs,
    fun hl he _ => parse_terminates C hpos fuel S p data hr hl he⟩

/-- C31 fails on the code when the base name of a `GIT_OBJECT_REF_DELTA` entry
is split between two calls.  The run reaches, after the first fourteen bytes of
the one-delta pack, a parser in `STATE_DELTA_HEADER` with one byte of the
twenty-byte name staged.  On the remaining 53 bytes no iteration of the driver
loop starts in a payload state, and the first of them copies
`min(hash_len, len)`, twenty bytes, behind the staged one: the copy is not
within the bounds of the name, and as the embedding follows the loop from there
every later byte is copied further behind it, 54 bytes in all, the parser
staying in `STATE_DELTA_HEADER`. -/
theorem progress_lost_on_base_overrun :
    reached all_callbacks (ref_delta_pack.take 14) ref_delta_staged ∧
    ref_delta_staged.state = STATE_DELTA_HEADER ∧
    ref_delta_pack.drop 14 ≠ [] ∧
    enters_payload all_callbacks 53 ref_delta_staged (ref_delta_pack.drop 14) = false ∧
    staging_in_bounds ref_delta_staged (ref_delta_pack.drop 14) = false ∧
    overruns all_callbacks 53 ref_delta_staged (ref_delta_pack.drop 14) = true ∧
    ref_delta_staged.current_base_len +
      min stored_env.hash_size (ref_delta_pack.drop 14).length = 21 ∧
    stored_env.hash_size = 20 ∧
    (git_packfile_parser_parse all_callbacks 53 ref_delta_staged
        (ref_delta_pack.drop 14)).map
      (fun r => (r.1, r.2.state, r.2.current_base_len)) =
      some (0, STATE_DELTA_HEADER, 54) := by
  refine ⟨?_, by set_option maxRecDepth 8000 in decide,
    by set_option maxRecDepth 8000 in decide, by set_option maxRecDepth 8000 in decide,
    by set_option maxRecDepth 8000 in decide, by set_option maxRecDepth 8000 in decide,
    by set_option maxRecDepth 8000 in decide, by decide,
    by set_option maxRecDepth 8000 in decide⟩
  have hm : (feed_all all_callbacks 10 (git_packfile_parser_init stored_env)
      [ref_delta_pack.take 14]).map (fun r => r.1) = some [0] := by
    set_option maxRecDepth 8000 in decide
  cases hf : feed_all all_callbacks 10 (git_packfile_parser_init stored_env)
      [ref_delta_pack.take 14] with
  | none => rw [hf] at hm; cases hm
  | some x =>
    have hs : ref_delta_staged = x.2 := by
      unfold ref_delta_staged
      rw [hf]
    have h1 : x.1 = [0] := by
      rw [hf] at hm
      simpa using hm
    obtain ⟨k, hk, he⟩ := feed_all_reached all_callbacks 10 [ref_delta_pack.take 14]
      x.1 x.2 hf
    rw [he (by rw [h1]; simp)] at hk
    rw [hs]
    simpa using hk

end Packfile
